import Mathlib

/-!
# Task clustering for batch simulation: makespan estimator and grouping heuristics

A shallow embedding of `WorkflowUtil::estimateMakespan`, `ClusteredJob::estimateMakespan`
and the grouping heuristics of `TestClusteringWMS` and `ZhangFixedWMS`, with the
properties proved about them, followed by the event handlers and the loop of `main` of
both controllers and by
`ClusteredJob::computeBestNumNodesBasedOnQueueWaitTimePredictions`.

Modelling conventions.
* The value of a `double` is a rational number (`ℚ`); `DBL_MAX` is the largest finite
  double.  The definitions come in two layers.  In the namespaces `WorkflowUtil`,
  `TestClusteringWMS`, `ZhangFixedWMS`, `ClusteredJob` and `Controllers` the operations on
  doubles are the exact operations on `ℚ`: this layer carries the properties that do not
  depend on the value of a sum, a product or a quotient (control flow, order of the
  submissions, counters, termination, comparisons of given numbers).  In the namespace
  `Rounded` the same functions are translated with every operation on doubles followed
  by `roundDouble`, the rounding to the nearest double with ties to even: this layer
  carries the properties about computed times.  Definitions without arithmetic are shared
  by both layers.  `ExactSums` says that the run times lie on a grid on which the sums
  are not rounded; under it the estimate in doubles is the exact one
  (`estimateMakespan_exact`).  Overflow to infinity is not modelled: statements whose
  values must stay inside the finite range say so in a hypothesis.  A quotient of doubles
  whose divisor can be zero is compared through `quotientGt`, which follows the IEEE
  result of a division by zero (`divideDouble` gives the quotient itself).  The cast
  `(unsigned long) x` of a double is `⌊x⌋₊`, its value for `0 <= x < 2^64`.
* A `WorkflowTask *` is a natural number (the task's identity).  The workflow object of
  the simulation library is a record of the queries the code makes on it: flops, parents,
  task state, number of levels and the tasks of a range of top levels.
* A `while` loop whose termination is not structural takes a fuel argument; running
  out of fuel is the outcome `Run.spin`, distinct from a thrown `std::runtime_error`
  (`Run.throw`) and from a returned value (`Run.ret`).
* Level numbers and counters are natural numbers; the `int` loop variable of the split
  loop and the `int` sequence counter are taken inside the range of `int`, where the
  casts of the code are the identity.  Where the code subtracts from or adds to an
  `unsigned long` that can be 0 or `ULONG_MAX`, the wrap-around is explicit
  (`ulongPred`, `ulongSucc`).
* Classes declared in headers that are not among the sources (`ProxyWMS`, the placeholder
  jobs) are records: of the member functions called, taken as parameters, or of the
  fields read.
* An event handler takes the controller state and the counters of the `Simulator` and
  returns both.  What it asks of the simulation library and of the job manager (dates,
  the numbers read from `-N` and `-t`, the children of a task, whether `terminateJob`
  throws) is a `Simulation` record of parameters.  A `std::set` of placeholder jobs is
  the list of its members in iteration order, the position of an insertion being a
  parameter; a pilot job is a natural number.  Task states are read from the workflow as
  it stands when the handler runs.  The loop of `main` runs against the list of
  iterations that the environment presents (`Iteration`).
* The states of the scheduling loop of `estimateMakespan` at each evaluation of its
  condition are listed by `schedTrace`; `LoopInv` is the invariant they satisfy.
* The `std::set` of job configurations of a clustered job is the list of its members in
  the order of `std::tuple`; the answer of `getStartTimeEstimates` is the list of the
  entries of the `std::map`.  `EXECUTION_TIME_FUDGE_FACTOR` is not defined in
  `ClusteredJob.cpp` and is a parameter there.
-/

set_option autoImplicit false

namespace Wrench

/-- Largest finite `double` (`DBL_MAX` of `<cfloat>`). -/
def DBL_MAX : ℚ := 2 ^ 1024 - 2 ^ 971

/-- States of a `WorkflowTask`. -/
inductive TaskState where
  | NOT_READY
  | READY
  | PENDING
  | RUNNING
  | COMPLETED
  | FAILED
  deriving DecidableEq, Repr

/-- The queries the code makes on the workflow object of the simulation library:
`getFlops`, `getTaskParents`, `getState` of a task, `getNumLevels`,
`getTasksInTopLevelRange(lo, hi)` and `getTasks`.  The library is not part of the
repository, so each query is a field and no relation between them is assumed. -/
structure Workflow where
  flops : Nat → ℚ
  parents : Nat → List Nat
  state : Nat → TaskState
  getNumLevels : Nat
  getTasksInTopLevelRange : Nat → Nat → List Nat
  getTasks : List Nat

/-- The tasks of the top levels `lo..hi` of a workflow given level by level; used to
build example workflows. -/
def rangeOfLevels (levels : List (List Nat)) (lo hi : Nat) : List Nat :=
  ((levels.drop lo).take (hi + 1 - lo)).flatten

/-- The `std::runtime_error`s thrown by the code, a failed `assert`, and the
`WorkflowExecutionException` of the library that a call outside a `try` lets through. -/
inductive Failure where
  | zeroHosts
  | zeroNodes
  | noStartEstimate
  | assertionFailed
  | noPendingPlaceholder
  | noMatchingPlaceholder
  | noPlaceholderForTask
  | workflowExecutionException
  | noQueueWaitPredictions
  | wrongNumberOfEstimates
  | noMatchingConfiguration
  deriving DecidableEq, Repr

/-- Outcome of a call: a returned value, a thrown exception, or a loop still running
when the fuel ran out. -/
inductive Run (α : Type) where
  | ret (a : α)
  | throw (e : Failure)
  | spin
  deriving DecidableEq, Repr

namespace WorkflowUtil

/-- Lines 87-103: a task is schedulable when every parent that occurs in `fake_tasks`
has, at each of its occurrences, a completion date that is neither after
`current_time` nor negative. -/
def schedulable (w : Workflow) (fake_tasks : List (Nat × ℚ)) (current_time : ℚ)
    (real_task : Nat) : Bool :=
  (w.parents real_task).all fun parent =>
    fake_tasks.all fun ft => !(ft.1 == parent) || !(decide (ft.2 > current_time) || decide (ft.2 < 0))

/-- Lines 110-131: the host loop.  The first host with `idle_date[j] <= current_time`
receives the new idle date; `none` when no host is idle. -/
def placeOnHost : List ℚ → ℚ → ℚ → Option (List ℚ)
  | [], _, _ => none
  | d :: ds, current_time, new_time =>
    if d ≤ current_time then some (new_time :: ds)
    else (placeOnHost ds current_time new_time).map (fun r => d :: r)

/-- Mutable variables of one pass of the scheduling loop. -/
structure Sim where
  fake_tasks : List (Nat × ℚ)
  idle_date : List ℚ
  num_scheduled_tasks : Nat
  scheduled_something : Bool
  deriving DecidableEq, Repr

/-- Lines 74-132: the scan `for (i = 0; i < num_tasks; i++)`.  `done` holds the entries
`fake_tasks[0..i)` as they stand now, the third argument the entries `fake_tasks[i..)`;
the schedulability test reads the whole array. -/
def scan (w : Workflow) (core_speed current_time : ℚ) :
    List (Nat × ℚ) → List (Nat × ℚ) → List ℚ → Nat → Bool → Sim
  | done, [], idle, num, some_ => ⟨done, idle, num, some_⟩
  | done, ft :: rest, idle, num, some_ =>
    if ft.2 ≥ 0 then scan w core_speed current_time (done ++ [ft]) rest idle num some_
    else if schedulable w (done ++ ft :: rest) current_time ft.1 then
      match placeOnHost idle current_time (current_time + w.flops ft.1 / core_speed) with
      | some idle' =>
        scan w core_speed current_time
          (done ++ [(ft.1, current_time + w.flops ft.1 / core_speed)]) rest idle'
          (num + 1) true
      | none => scan w core_speed current_time (done ++ [ft]) rest idle num some_
    else scan w core_speed current_time (done ++ [ft]) rest idle num some_

/-- Lines 137-143: smallest idle date, starting from `DBL_MAX`. -/
def minIdle (idle : List ℚ) : ℚ :=
  idle.foldl (fun m d => if d < m then d else m) DBL_MAX

/-- Lines 145-151: smallest idle date strictly after `current_time`, starting from
`DBL_MAX`. -/
def secondMinIdle (idle : List ℚ) (current_time : ℚ) : ℚ :=
  idle.foldl (fun m d => if d > current_time ∧ d < m then d else m) DBL_MAX

/-- Lines 156-159: `MAX` over the idle dates, starting from `0`. -/
def maxIdle (idle : List ℚ) : ℚ :=
  idle.foldl (fun m d => if m > d then m else d) 0

/-- Lines 68-154: the loop `while (num_scheduled_tasks < num_tasks)`; returns the idle
dates at exit, `none` when the fuel runs out first. -/
def schedLoop (w : Workflow) (core_speed : ℚ) (num_tasks : Nat) :
    Nat → List (Nat × ℚ) → List ℚ → Nat → ℚ → Option (List ℚ)
  | fuel, fake, idle, num, current_time =>
    if num < num_tasks then
      match fuel with
      | 0 => none
      | fuel' + 1 =>
        let st := scan w core_speed current_time [] fake idle num false
        let next := if st.scheduled_something then minIdle st.idle_date
                    else secondMinIdle st.idle_date current_time
        schedLoop w core_speed num_tasks fuel' st.fake_tasks st.idle_date
          st.num_scheduled_tasks next
    else some idle

/-- `WorkflowUtil::estimateMakespan(tasks, num_hosts, core_speed)`. -/
def estimateMakespan (fuel : Nat) (w : Workflow) (tasks : List Nat) (num_hosts : Nat)
    (core_speed : ℚ) : Run ℚ :=
  if num_hosts = 0 then Run.throw Failure.zeroHosts
  else if tasks.length = 0 then Run.ret 0
  else
    match schedLoop w core_speed tasks.length fuel (tasks.map fun t => (t, (-1 : ℚ)))
        (List.replicate num_hosts 0) 0 0 with
    | some idle => Run.ret (maxIdle idle)
    | none => Run.spin


/-! ### Auxiliary definitions used in the proofs -/

/-- Two workflows agree on a task list: same flops on the listed tasks and the same
parent edges between listed tasks. -/
def AgreeOn (w1 w2 : Workflow) (tasks : List Nat) : Prop :=
  (∀ t ∈ tasks, w1.flops t = w2.flops t) ∧
  (∀ t ∈ tasks, ∀ p ∈ tasks, p ∈ w1.parents t ↔ p ∈ w2.parents t)

/-- Smallest element of a list of dates (`0` for the empty list). -/
def least : List ℚ → ℚ
  | [] => 0
  | [a] => a
  | a :: b :: l => min a (least (b :: l))

/-- Greedy list scheduling of one duration: the first host with the least idle date
takes it. -/
def assign (idle : List ℚ) (d : ℚ) : List ℚ :=
  (placeOnHost idle (least idle) (least idle + d)).getD idle

/-- Greedy list scheduling of a list of durations. -/
def greedy : List ℚ → List ℚ → List ℚ
  | idle, [] => idle
  | idle, d :: ds => greedy (assign idle d) ds

/-- No task of the list has a parent inside the list. -/
def Indep (w : Workflow) (tasks : List Nat) : Prop :=
  ∀ t ∈ tasks, ∀ p ∈ w.parents t, p ∉ tasks

/-- Run time of a task at a core speed. -/
def dur (w : Workflow) (s : ℚ) (t : Nat) : ℚ := w.flops t / s

/-- The initial entries of `fake_tasks`: completion date `-1`. -/
def fresh (ts : List Nat) : List (Nat × ℚ) := ts.map fun t => (t, (-1 : ℚ))

/-- Number of idle dates not after `x`. -/
def countLE (l : List ℚ) (x : ℚ) : Nat := l.countP fun d => decide (d ≤ x)

/-- Idle dates `B` (one more host) are ahead of idle dates `A`: from the least date of
`A` on, `B` always has at least one more host that is already idle. -/
def Ahead (A B : List ℚ) : Prop := ∀ x, least A ≤ x → countLE A x + 1 ≤ countLE B x

/-- Idle dates of `n` hosts after `q` full rounds and `r` more tasks of duration `d`. -/
def rounds (n : Nat) (d : ℚ) (q r : Nat) : List ℚ :=
  List.replicate r (((q + 1 : Nat) : ℚ) * d) ++ List.replicate (n - r) ((q : ℚ) * d)

/-- Total run time of the entries of `fake_tasks` that have been scheduled. -/
def work (w : Workflow) (s : ℚ) (fake : List (Nat × ℚ)) : ℚ :=
  (fake.map fun e => if 0 ≤ e.2 then dur w s e.1 else 0).sum

/-- Number of entries of `fake_tasks` that have been scheduled. -/
def placed (fake : List (Nat × ℚ)) : Nat := fake.countP fun e => decide (0 ≤ e.2)

/-- The parent edges between tasks of the list have no cycle: some rank strictly
increases along each of them. -/
def Acyclic (w : Workflow) (tasks : List Nat) : Prop :=
  ∃ rank : Nat → Nat, ∀ t ∈ tasks, ∀ p ∈ w.parents t, p ∈ tasks → rank p < rank t

/-- The workflow with every flop count multiplied by `k`. -/
def scaleFlops (k : ℚ) (w : Workflow) : Workflow :=
  { w with flops := fun t => k * w.flops t }

/-- A completion date multiplied by `k`; the negative dates of unscheduled tasks stay. -/
def scaleDate (k d : ℚ) : ℚ := if d < 0 then d else k * d

/-- The array `fake_tasks` with every completion date multiplied by `k`. -/
def scaleFake (k : ℚ) (fake : List (Nat × ℚ)) : List (Nat × ℚ) :=
  fake.map fun e => (e.1, scaleDate k e.2)

/-- The variables of a pass with every date multiplied by `k`. -/
def scaleSim (k : ℚ) (st : Sim) : Sim :=
  ⟨scaleFake k st.fake_tasks, st.idle_date.map (k * ·), st.num_scheduled_tasks,
    st.scheduled_something⟩

/-- `Run.ret` of the value multiplied by `k`; other outcomes unchanged. -/
def scaleRun (k : ℚ) : Run ℚ → Run ℚ
  | Run.ret a => Run.ret (k * a)
  | Run.throw e => Run.throw e
  | Run.spin => Run.spin

/-- The variables `fake_tasks`, `idle_date`, `num_scheduled_tasks` and `current_time` of
the scheduling loop. -/
structure LoopState where
  fake_tasks : List (Nat × ℚ)
  idle_date : List ℚ
  num_scheduled_tasks : Nat
  current_time : ℚ
  deriving DecidableEq, Repr

/-- Lines 68-154: the values of the variables each time the condition of the `while` loop
is evaluated, in order; at most `fuel` iterations are run. -/
def schedTrace (w : Workflow) (core_speed : ℚ) (num_tasks : Nat) :
    Nat → List (Nat × ℚ) → List ℚ → Nat → ℚ → List LoopState
  | fuel, fake, idle, num, current_time =>
    ⟨fake, idle, num, current_time⟩ ::
      if num < num_tasks then
        match fuel with
        | 0 => []
        | fuel' + 1 =>
          let st := scan w core_speed current_time [] fake idle num false
          let next := if st.scheduled_something then minIdle st.idle_date
                      else secondMinIdle st.idle_date current_time
          schedTrace w core_speed num_tasks fuel' st.fake_tasks st.idle_date
            st.num_scheduled_tasks next
      else []

/-- What holds of the variables of the scheduling loop each time its condition is
evaluated, for a task list on `n` hosts at core speed `s`: the entries of `fake_tasks`
are the listed tasks in order; `num_scheduled_tasks` counts the entries that have a
completion date; there are `n` idle dates; `current_time` and the idle dates lie between
0 and the work scheduled so far; every completion date is at most some idle date and at
least the run time of its task; the work scheduled is at most the sum of the idle dates;
and every idle date is 0 or the completion date of a scheduled task. -/
def LoopInv (w : Workflow) (s : ℚ) (tasks : List Nat) (n : Nat) (X : LoopState) : Prop :=
  X.fake_tasks.map Prod.fst = tasks ∧ X.num_scheduled_tasks = placed X.fake_tasks ∧
  X.idle_date.length = n ∧ 0 ≤ X.current_time ∧ X.current_time ≤ work w s X.fake_tasks ∧
  (∀ d ∈ X.idle_date, 0 ≤ d ∧ d ≤ work w s X.fake_tasks) ∧
  (∀ e ∈ X.fake_tasks, 0 ≤ e.2 → ∃ d ∈ X.idle_date, e.2 ≤ d) ∧
  (∀ e ∈ X.fake_tasks, 0 ≤ e.2 → dur w s e.1 ≤ e.2) ∧
  work w s X.fake_tasks ≤ X.idle_date.sum ∧
  (∀ d ∈ X.idle_date, d = 0 ∨ ∃ e ∈ X.fake_tasks, 0 ≤ e.2 ∧ e.2 = d)

/-- The variables of the loop with every date multiplied by `k`. -/
def scaleState (k : ℚ) (X : LoopState) : LoopState :=
  ⟨scaleFake k X.fake_tasks, X.idle_date.map (k * ·), X.num_scheduled_tasks,
    k * X.current_time⟩

/-! ### Example workflows -/

/-- Workflow of six tasks: task 3 waits for task 2, task 5 for tasks 2 and 4. -/
def anomalyWorkflow : Workflow where
  flops := fun t => [3, 4, 3, 6, 1, 1].getD t 0
  parents := fun t => [[], [], [], [2], [], [2, 4]].getD t []
  state := fun _ => TaskState.NOT_READY
  getNumLevels := 2
  getTasksInTopLevelRange := rangeOfLevels [[0, 1, 2, 4], [3, 5]]
  getTasks := [0, 1, 2, 3, 4, 5]

/-- Workflow of three tasks in a chain `0 -> 1 -> 2`; task 0 also has a parent `7`. -/
def chainWorkflow : Workflow where
  flops := fun t => [3, 4, 5].getD t 1
  parents := fun t => [[7], [0], [1]].getD t []
  state := fun _ => TaskState.NOT_READY
  getNumLevels := 3
  getTasksInTopLevelRange := rangeOfLevels [[0], [1], [2]]
  getTasks := [0, 1, 2]

/-- The chain of `chainWorkflow` with a different outside parent and other task states. -/
def chainWorkflowOther : Workflow where
  flops := fun t => [3, 4, 5].getD t 9
  parents := fun t => [[8, 9], [0, 6], [1]].getD t [2]
  state := fun _ => TaskState.COMPLETED
  getNumLevels := 0
  getTasksInTopLevelRange := fun _ _ => []
  getTasks := []

/-- Workflow of eight independent tasks of 100 flops in one level. -/
def fanWorkflow : Workflow where
  flops := fun _ => 100
  parents := fun _ => []
  state := fun _ => TaskState.READY
  getNumLevels := 1
  getTasksInTopLevelRange := rangeOfLevels [[0, 1, 2, 3, 4, 5, 6, 7]]
  getTasks := [0, 1, 2, 3, 4, 5, 6, 7]

end WorkflowUtil

/-- The fields of a `ClusteredJob`. -/
structure ClusteredJob where
  tasks : List Nat
  num_nodes : Nat
  num_nodes_based_on_queue_wait_time_predictions : Bool

namespace ClusteredJob

/-- `ClusteredJob::estimateMakespan(core_speed)`. -/
def estimateMakespan (fuel : Nat) (w : Workflow) (job : ClusteredJob) (core_speed : ℚ) :
    Run ℚ :=
  if job.num_nodes = 0 then Run.throw Failure.zeroNodes
  else WorkflowUtil.estimateMakespan fuel w job.tasks job.num_nodes core_speed

/-- `ClusteredJob::estimateMakespan(core_speed, n)`, the overload with a node count. -/
def estimateMakespanOn (fuel : Nat) (w : Workflow) (job : ClusteredJob) (core_speed : ℚ)
    (n : Nat) : Run ℚ :=
  if n = 0 then Run.throw Failure.zeroNodes
  else WorkflowUtil.estimateMakespan fuel w job.tasks n core_speed

end ClusteredJob

/-! ### The Test grouping heuristic -/

/-- The query made on the batch service: `getStartTimeEstimates` for one job
configuration `(key, nodes, cores per node, walltime)`, giving the predicted start
date. -/
structure BatchService where
  getStartTimeEstimate : String → Nat → Nat → ℚ → ℚ

/-- The batch arguments `-N`, `-c` and `-t` of a submitted job. -/
structure ServiceArgs where
  N : String
  c : String
  t : String
  deriving DecidableEq, Repr

/-- A job handed to the job manager: a pilot job, a one-task standard job for the batch
service, or a one-task standard job for the compute service of a pilot job. -/
inductive Submitted where
  | pilotJob (pilot_job : Nat) (args : ServiceArgs)
  | standardJob (task : Nat) (args : ServiceArgs)
  | standardJobOn (task : Nat) (pilot_job : Nat)
  deriving DecidableEq, Repr

/-- Modelled from the spec: the class `TestPlaceHolderJob` is declared in a header that is
not among the sources.  Its fields are the ones the controller reads and the constructor
arguments `(pilot_job, num_nodes, tasks, start_level, end_level)`; the counter of running
tasks starts at 0. -/
structure TestPlaceHolderJob where
  pilot_job : Nat
  num_nodes : Nat
  tasks : List Nat
  start_level : Nat
  end_level : Nat
  num_currently_running_tasks : Nat
  deriving DecidableEq, Repr

/-- A `std::tuple<double, double, unsigned long>` of (wait time, run time, hosts). -/
structure Estimate where
  wait_time : ℚ
  makespan : ℚ
  num_hosts : Nat
  deriving DecidableEq, Repr

/-- The members of `TestClusteringWMS`, the file-static `parent_runtime`, the
function-static `sequence` of `estimateTotalTime`, and the job manager seen from the
controller: the next pilot-job handle and the jobs submitted so far (latest last).
`running_placeholder_jobs` lists the `std::set` in its iteration order. -/
structure TestClusteringWMS where
  overlap : Bool
  plimit : Bool
  waste_bound : ℚ
  beat_bound : ℚ
  core_speed : ℚ
  number_of_hosts : Nat
  pending_placeholder_job : Option TestPlaceHolderJob
  running_placeholder_jobs : List TestPlaceHolderJob
  individual_mode : Bool
  number_of_splits : Nat
  parent_runtime : ℚ
  sequence : Nat
  next_pilot_job : Nat
  submitted : List Submitted
  deriving DecidableEq

namespace TestClusteringWMS

/-- `EXECUTION_TIME_FUDGE_FACTOR`. -/
def EXECUTION_TIME_FUDGE_FACTOR : ℚ := 11 / 10

/-- `TestClusteringWMS::estimateWaitTime`: returns the wait time and the incremented
sequence number.  The probe carries `(unsigned int) parallelism`. -/
def estimateWaitTime (bs : BatchService) (now : ℚ) (parallelism : Nat) (makespan : ℚ)
    (sequence : Nat) : Run (ℚ × Nat) :=
  let config_key := "config_XXXX_" ++ toString sequence
  let estimate := bs.getStartTimeEstimate config_key (parallelism % 4294967296) 1 makespan
  if estimate < 0 then Run.throw Failure.noStartEstimate
  else Run.ret (max 0 (estimate - now), sequence + 1)

/-- `TestClusteringWMS::estimateTotalTime`: (makespan, wait time) and the new sequence
number. -/
def estimateTotalTime (fuel : Nat) (w : Workflow) (bs : BatchService) (now core_speed : ℚ)
    (start_level end_level num_hosts sequence : Nat) : Run ((ℚ × ℚ) × Nat) :=
  match WorkflowUtil.estimateMakespan fuel w (w.getTasksInTopLevelRange start_level end_level)
      num_hosts core_speed with
  | Run.ret makespan =>
    match estimateWaitTime bs now num_hosts makespan sequence with
    | Run.ret (wait_time, sequence') => Run.ret ((makespan, wait_time), sequence')
    | Run.throw e => Run.throw e
    | Run.spin => Run.spin
  | Run.throw e => Run.throw e
  | Run.spin => Run.spin

/-- `TestClusteringWMS::findMaxTasks`. -/
def findMaxTasks (w : Workflow) (start_level end_level : Nat) : Nat :=
  (List.range' start_level (end_level + 1 - start_level)).foldl
    (fun max_tasks i => max max_tasks (w.getTasksInTopLevelRange i i).length) 0

/-- Lines 601-606: the one-host run times of the levels, added to `all_tasks_time`. -/
def allTasksTime (fuel : Nat) (w : Workflow) (core_speed : ℚ) : List Nat → ℚ → Run ℚ
  | [], all_tasks_time => Run.ret all_tasks_time
  | j :: js, all_tasks_time =>
    match WorkflowUtil.estimateMakespan fuel w (w.getTasksInTopLevelRange j j) 1 core_speed with
    | Run.ret m => allTasksTime fuel w core_speed js (all_tasks_time + m)
    | Run.throw e => Run.throw e
    | Run.spin => Run.spin

/-- The comparison `a / b > c` of doubles.  For `b = 0` the quotient of doubles is
`+inf` when `a > 0`, `-inf` when `a < 0` and NaN when `a = 0`, and of these only `+inf`
is greater than `c`. -/
def quotientGt (a b c : ℚ) : Bool :=
  if b = 0 then decide (0 < a) else decide (a / b > c)

/-- Line 607: the waste ratio `(i * curr_makespan - all_tasks_time) / (i * curr_makespan)`
of the candidate `i`. -/
def wasteRatio (i : Nat) (curr_makespan all_tasks_time : ℚ) : ℚ :=
  ((i : ℚ) * curr_makespan - all_tasks_time) / ((i : ℚ) * curr_makespan)

/-- Lines 607-608: the test `curr_waste > this->waste_bound` that rejects the
candidate `i`. -/
def wasteExceeds (i : Nat) (curr_makespan all_tasks_time waste_bound : ℚ) : Bool :=
  quotientGt ((i : ℚ) * curr_makespan - all_tasks_time) ((i : ℚ) * curr_makespan) waste_bound

/-- Lines 595-617: the loop of `computeBestNumHosts` over the candidate host counts. -/
def bestLoop (fuel : Nat) (w : Workflow) (bs : BatchService) (now core_speed waste_bound : ℚ)
    (start_level end_level : Nat) : List Nat → Estimate → Nat → Run (Estimate × Nat)
  | [], best, sequence => Run.ret (best, sequence)
  | i :: is, best, sequence =>
    match estimateTotalTime fuel w bs now core_speed start_level end_level i sequence with
    | Run.ret ((curr_makespan, curr_wait), sequence') =>
      match allTasksTime fuel w core_speed
          (List.range' start_level (end_level + 1 - start_level)) 0 with
      | Run.ret all_tasks_time =>
        if wasteExceeds i curr_makespan all_tasks_time waste_bound then
          bestLoop fuel w bs now core_speed waste_bound start_level end_level is best sequence'
        else if best.makespan + best.wait_time > curr_makespan + curr_wait then
          bestLoop fuel w bs now core_speed waste_bound start_level end_level is
            ⟨curr_wait, curr_makespan, i⟩ sequence'
        else
          bestLoop fuel w bs now core_speed waste_bound start_level end_level is best sequence'
      | Run.throw e => Run.throw e
      | Run.spin => Run.spin
    | Run.throw e => Run.throw e
    | Run.spin => Run.spin

/-- `TestClusteringWMS::computeBestNumHosts`: (wait time, makespan, hosts) and the new
sequence number. -/
def computeBestNumHosts (fuel : Nat) (w : Workflow) (bs : BatchService)
    (now core_speed waste_bound : ℚ) (start_level end_level sequence : Nat) :
    Run (Estimate × Nat) :=
  bestLoop fuel w bs now core_speed waste_bound start_level end_level
    (List.range' 1 (findMaxTasks w start_level end_level)) ⟨DBL_MAX, DBL_MAX, 1⟩ sequence

/-- Lines 95-114: the start level, first from the completed levels, then from the
running placeholder jobs. -/
def startLevel (w : Workflow) (running : List TestPlaceHolderJob) : Nat :=
  running.foldl (fun start_level ph => 1 + max start_level ph.end_level)
    ((List.range w.getNumLevels).foldl
      (fun start_level i =>
        if (w.getTasksInTopLevelRange i i).all (fun task => w.state task == TaskState.COMPLETED)
        then i + 1 else start_level) 0)

/-- Lines 126-134: one column of `time_estimates`, filled for the levels of the list in
order; `call i sequence` is the `computeBestNumHosts` call of level `i`. -/
def fillColumn (call : Nat → Nat → Run (Estimate × Nat)) : List Nat → Nat →
    Run (List Estimate × Nat)
  | [], sequence => Run.ret ([], sequence)
  | i :: is, sequence =>
    match call i sequence with
    | Run.ret (e, sequence') =>
      match fillColumn call is sequence' with
      | Run.ret (es, sequence'') => Run.ret (e :: es, sequence'')
      | Run.throw x => Run.throw x
      | Run.spin => Run.spin
    | Run.throw x => Run.throw x
    | Run.spin => Run.spin

/-- The local variables the split loop updates. -/
structure Choice where
  partial_dag_end_level : Nat
  best_total_time : ℚ
  requested_execution_time : ℚ
  requested_parallelism : Nat
  estimated_wait_time : ℚ
  deriving DecidableEq, Repr

/-- Lines 162-170: the leeway of the split after level `i` (`run_one - wait_two`, or 0
when that is not positive). -/
def splitLeeway (time_estimates : Nat → Estimate × Estimate) (i : Nat) : ℚ :=
  if (time_estimates i).1.makespan - (time_estimates (i + 1)).2.wait_time > 0 then
    (time_estimates i).1.makespan - (time_estimates (i + 1)).2.wait_time
  else 0

/-- Lines 163-167: the split after level `i` is skipped (`continue`) when its leeway is
positive and above a tenth of `run_two`. -/
def splitRejected (time_estimates : Nat → Estimate × Estimate) (i : Nat) : Bool :=
  decide ((time_estimates i).1.makespan - (time_estimates (i + 1)).2.wait_time > 0) &&
  decide ((time_estimates i).1.makespan - (time_estimates (i + 1)).2.wait_time
    > (time_estimates (i + 1)).2.makespan * (1 / 10))

/-- Line 172: `total_time` of the split after level `i`. -/
def splitTotal (time_estimates : Nat → Estimate × Estimate) (i : Nat) : ℚ :=
  (time_estimates i).1.wait_time
    + max (time_estimates i).1.makespan (time_estimates (i + 1)).2.wait_time
    + (time_estimates (i + 1)).2.makespan + splitLeeway time_estimates i

/-- Lines 149-192: the body of the split loop for level `i`. -/
def splitStep (beat_bound : ℚ) (end_level : Nat) (time_estimates : Nat → Estimate × Estimate)
    (c : Choice) (i : Nat) : Choice :=
  if splitRejected time_estimates i then c
  else
    let total_time := splitTotal time_estimates i
    let adjusted_time :=
      if c.partial_dag_end_level = end_level then total_time + total_time * beat_bound
      else total_time
    if adjusted_time < c.best_total_time then
      ⟨i, total_time, (time_estimates i).1.makespan, (time_estimates i).1.num_hosts,
        (time_estimates i).1.wait_time⟩
    else c

/-- Lines 136-192: the choice after the split loop
`for (int i = (int) start_level; i < (int) num_levels - 1; i++)`, that is over the levels
`start_level .. num_levels - 2`, starting from the whole remaining workflow. -/
def splitLoop (beat_bound : ℚ) (start_level num_levels : Nat)
    (time_estimates : Nat → Estimate × Estimate) : Choice :=
  (List.range' start_level (num_levels - 1 - start_level)).foldl
    (splitStep beat_bound (num_levels - 1) time_estimates)
    ⟨num_levels - 1,
      (time_estimates start_level).2.wait_time + (time_estimates start_level).2.makespan,
      (time_estimates start_level).2.makespan, (time_estimates start_level).2.num_hosts,
      (time_estimates start_level).2.wait_time⟩

/-- `TestClusteringWMS::createAndSubmitPlaceholderJob`. -/
def createAndSubmitPlaceholderJob (w : Workflow) (st : TestClusteringWMS)
    (requested_execution_time : ℚ) (requested_parallelism start_level end_level : Nat) :
    TestClusteringWMS :=
  let requested_execution_time := requested_execution_time * EXECUTION_TIME_FUDGE_FACTOR
  let tasks := (List.range' start_level (end_level + 1 - start_level)).flatMap fun l =>
    (w.getTasksInTopLevelRange l l).filter fun t => w.state t != TaskState.COMPLETED
  let args : ServiceArgs :=
    ⟨toString requested_parallelism, "1", toString (1 + ⌊requested_execution_time⌋₊ / 60)⟩
  { st with
    parent_runtime := requested_execution_time
    pending_placeholder_job :=
      some ⟨st.next_pilot_job, requested_parallelism, tasks, start_level, end_level, 0⟩
    next_pilot_job := st.next_pilot_job + 1
    submitted := st.submitted ++ [Submitted.pilotJob st.next_pilot_job args] }

/-- Lines 230-242: every READY task of the workflow is submitted as a job of its own. -/
def submitReadyTasks (w : Workflow) (st : TestClusteringWMS) : TestClusteringWMS :=
  { st with
    submitted := st.submitted ++
      (w.getTasks.filter fun task => w.state task == TaskState.READY).map fun task =>
        Submitted.standardJob task
          ⟨"1", "1",
            toString (1 + ⌊w.flops task / st.core_speed * EXECUTION_TIME_FUDGE_FACTOR⌋₊ / 60)⟩ }

/-- Lines 125-134: the two columns of `time_estimates`, each filled for the levels
`start_level .. num_levels - 1` in order: first the estimates of the levels
`start_level..i`, then the estimates of the levels `i..end_level`. -/
def timeEstimates (fuel : Nat) (w : Workflow) (bs : BatchService) (now : ℚ)
    (st : TestClusteringWMS) (start_level : Nat) :
    Run ((List Estimate × List Estimate) × Nat) :=
  match fillColumn
      (fun i sequence =>
        computeBestNumHosts fuel w bs now st.core_speed st.waste_bound start_level i sequence)
      (List.range' start_level (w.getNumLevels - start_level)) st.sequence with
  | Run.ret (column0, sequence') =>
    match fillColumn
        (fun i sequence =>
          computeBestNumHosts fuel w bs now st.core_speed st.waste_bound i
            (w.getNumLevels - 1) sequence)
        (List.range' start_level (w.getNumLevels - start_level)) sequence' with
    | Run.ret (column1, sequence'') => Run.ret ((column0, column1), sequence'')
    | Run.throw x => Run.throw x
    | Run.spin => Run.spin
  | Run.throw x => Run.throw x
  | Run.spin => Run.spin

/-- The array `time_estimates[i][0]`, `time_estimates[i][1]` read at level `i`; the
columns hold the entries of the levels from `start_level` on (entries outside are never
read by the code). -/
def tableOf (start_level : Nat) (columns : List Estimate × List Estimate) (i : Nat) :
    Estimate × Estimate :=
  (columns.1.getD (i - start_level) ⟨0, 0, 0⟩, columns.2.getD (i - start_level) ⟨0, 0, 0⟩)

/-- Lines 194-243: what `applyGroupingHeuristic` does with the choice of the split loop.
The test `estimated_wait_time > requested_execution_time * 2.0` of lines 196-199 guards an
empty block (its two statements are commented out), so it changes nothing. -/
def submitChoice (w : Workflow) (st : TestClusteringWMS) (start_level : Nat) (c : Choice) :
    TestClusteringWMS :=
  let st1 : TestClusteringWMS :=
    if c.partial_dag_end_level = w.getNumLevels - 1 then st
    else { st with number_of_splits := st.number_of_splits + 1 }
  if !st1.individual_mode then
    createAndSubmitPlaceholderJob w st1
      (if st1.parent_runtime > c.estimated_wait_time then
        c.requested_execution_time + (st1.parent_runtime - c.estimated_wait_time)
      else c.requested_execution_time)
      c.requested_parallelism start_level c.partial_dag_end_level
  else submitReadyTasks w st1

/-- `TestClusteringWMS::applyGroupingHeuristic`. -/
def applyGroupingHeuristic (fuel : Nat) (w : Workflow) (bs : BatchService) (now : ℚ)
    (st : TestClusteringWMS) : Run TestClusteringWMS :=
  if st.pending_placeholder_job.isSome then Run.ret st
  else if st.individual_mode then Run.ret st
  else if !st.overlap && !st.running_placeholder_jobs.isEmpty then Run.ret st
  else if startLevel w st.running_placeholder_jobs ≥ w.getNumLevels then Run.ret st
  else
    match timeEstimates fuel w bs now st (startLevel w st.running_placeholder_jobs) with
    | Run.ret (columns, sequence') =>
      Run.ret (submitChoice w { st with sequence := sequence' }
        (startLevel w st.running_placeholder_jobs)
        (splitLoop st.beat_bound (startLevel w st.running_placeholder_jobs) w.getNumLevels
          (tableOf (startLevel w st.running_placeholder_jobs) columns)))
    | Run.throw x => Run.throw x
    | Run.spin => Run.spin

/-- A batch service whose predicted start date is always 0. -/
def idleService : BatchService := ⟨fun _ _ _ _ => 0⟩

/-- A batch service whose predicted start date is always 10000. -/
def busyService : BatchService := ⟨fun _ _ _ _ => 10000⟩

/-- A controller before its first decision: nothing pending or running, overlap on. -/
def initial (waste_bound beat_bound : ℚ) (hosts : Nat) : TestClusteringWMS :=
  { overlap := true, plimit := false, waste_bound := waste_bound, beat_bound := beat_bound,
    core_speed := 1, number_of_hosts := hosts, pending_placeholder_job := none,
    running_placeholder_jobs := [], individual_mode := false, number_of_splits := 0,
    parent_runtime := 0, sequence := 0, next_pilot_job := 0, submitted := [] }

/-- What an observer sees of a controller after a decision: individual mode, pending
placeholder job, number of splits and submitted jobs. -/
def observe (r : Run TestClusteringWMS) :
    Option (Bool × Option TestPlaceHolderJob × Nat × List Submitted) :=
  match r with
  | Run.ret st =>
    some (st.individual_mode, st.pending_placeholder_job, st.number_of_splits, st.submitted)
  | _ => none

/-- Lines 541-556 of `TestClusteringWMS::processEventStandardJobCompletion`: in individual
mode every READY task of the workflow is submitted as a job of its own. -/
def submitReadyTasksIfIndividual (w : Workflow) (st : TestClusteringWMS) : TestClusteringWMS :=
  if st.individual_mode then
    { st with
      submitted := st.submitted ++
        (w.getTasks.filter fun task => w.state task == TaskState.READY).map fun task =>
          Submitted.standardJob task
            ⟨"1", "1",
              toString (1 + ⌊w.flops task / st.core_speed * EXECUTION_TIME_FUDGE_FACTOR⌋₊ / 60)⟩ }
  else st

/-- A batch service that predicts the start date 100 for a job of 12 seconds, 7 for a job
of 5 seconds and 0 for every other job. -/
def stepService : BatchService :=
  ⟨fun _ _ _ t => if t = 12 then 100 else if t = 5 then 7 else 0⟩

end TestClusteringWMS

/-! ### The Zhang grouping heuristic -/

/-- `ULONG_MAX` of the 64-bit `unsigned long`. -/
def ULONG_MAX : Nat := 2 ^ 64 - 1

/-- The `unsigned long` value of `n - 1`. -/
def ulongPred (n : Nat) : Nat := (n + ULONG_MAX) % 2 ^ 64

/-- The `unsigned long` value of `n + 1`. -/
def ulongSucc (n : Nat) : Nat := (n + 1) % 2 ^ 64

/-- The value of a quotient of two doubles: a number, an infinity, or NaN. -/
inductive DoubleQuotient where
  | nan
  | negInf
  | finite (q : ℚ)
  | posInf
  deriving DecidableEq, Repr

/-- The quotient `a / b` of doubles: for `b = 0` it is `+inf`, `-inf` or NaN as `a` is
positive, negative or zero. -/
def divideDouble (a b : ℚ) : DoubleQuotient :=
  if b = 0 then
    if 0 < a then DoubleQuotient.posInf
    else if a < 0 then DoubleQuotient.negInf
    else DoubleQuotient.nan
  else DoubleQuotient.finite (a / b)

/-- The comparison `x > y` of two quotients of doubles; it is false when one is NaN. -/
def DoubleQuotient.gt : DoubleQuotient → DoubleQuotient → Bool
  | DoubleQuotient.nan, _ => false
  | _, DoubleQuotient.nan => false
  | DoubleQuotient.negInf, _ => false
  | DoubleQuotient.finite _, DoubleQuotient.negInf => true
  | DoubleQuotient.finite a, DoubleQuotient.finite b => decide (a > b)
  | DoubleQuotient.finite _, DoubleQuotient.posInf => false
  | DoubleQuotient.posInf, DoubleQuotient.posInf => false
  | DoubleQuotient.posInf, _ => true

/-- Modelled from the spec: the class `PlaceHolderJob` is declared in a header that is not
among the sources.  Its fields are the ones `ZhangFixedWMS` reads: the pilot job, the
tasks and the level range. -/
structure PlaceHolderJob where
  pilot_job : Nat
  tasks : List Nat
  start_level : Nat
  end_level : Nat
  deriving DecidableEq, Repr

/-- The member functions of `ProxyWMS` called by `ZhangFixedWMS`.  The class is not among
the sources, so each function is a field and the statements below hold for every
implementation: `estimateWaitTime(parallelism, makespan, now, &sequence)` gives the wait
time and the new sequence number (or fails), `findMaxDuration` the run time of the running
placeholder jobs, `createAndSubmitPlaceholderJob` the placeholder job it created. -/
structure ProxyWMS where
  estimateWaitTime : Nat → ℚ → ℚ → Nat → Run (ℚ × Nat)
  findMaxDuration : List PlaceHolderJob → ℚ
  createAndSubmitPlaceholderJob : ℚ → Nat → Nat → Nat → PlaceHolderJob

/-- A call made on `proxyWMS` that submits jobs, with its arguments. -/
inductive ProxyCall where
  | createAndSubmitPlaceholderJob (requested_execution_time : ℚ)
      (requested_parallelism start_level end_level : Nat)
  | submitAllOneJobPerTask (core_speed : ℚ)
  deriving DecidableEq, Repr

/-- The members of `ZhangFixedWMS`, the file-static `sequence`, the submitting calls made
on `proxyWMS` so far and the jobs submitted through the job manager so far (latest last).
`running_placeholder_jobs` lists the `std::set` in its iteration order. -/
structure ZhangFixedWMS where
  overlap : Bool
  plimit : Bool
  core_speed : ℚ
  number_of_hosts : Nat
  pending_placeholder_job : Option PlaceHolderJob
  running_placeholder_jobs : List PlaceHolderJob
  individual_mode : Bool
  number_of_splits : Nat
  sequence : Nat
  calls : List ProxyCall
  submitted : List Submitted
  deriving DecidableEq

namespace ZhangFixedWMS

/-- `EXECUTION_TIME_FUDGE_FACTOR`. -/
def EXECUTION_TIME_FUDGE_FACTOR : ℚ := 11 / 10

/-- `ZhangFixedWMS::getStartLevel`. -/
def getStartLevel (w : Workflow) (running : List PlaceHolderJob) : Nat :=
  running.foldl (fun start_level ph => 1 + max start_level ph.end_level)
    ((List.range w.getNumLevels).foldl
      (fun start_level i =>
        if (w.getTasksInTopLevelRange i i).all (fun task => w.state task == TaskState.COMPLETED)
        then i + 1 else start_level) 0)

/-- `ZhangFixedWMS::maxParallelism`; the `plimit` branch is empty. -/
def maxParallelism (w : Workflow) (number_of_hosts start_level end_level : Nat) : Nat :=
  min ((List.range' start_level (end_level + 1 - start_level)).foldl
    (fun parallelism i => max parallelism (w.getTasksInTopLevelRange i i).length) 0)
    number_of_hosts

/-- Lines 470-475: the loop that halves `leeway`; it returns `leeway`, the last
`wait_time` assigned in its condition, and the sequence number. -/
def leewayLoop (proxy : ProxyWMS) (now parent_runtime : ℚ) (num_nodes : Nat) (run_time : ℚ) :
    Nat → ℚ → ℚ → Nat → Run (ℚ × ℚ × Nat)
  | fuel, leeway, wait_time, sequence =>
    if leeway > 1 then
      match fuel with
      | 0 => Run.spin
      | fuel' + 1 =>
        match proxy.estimateWaitTime num_nodes (run_time + leeway / 2) now sequence with
        | Run.ret (wait_time', sequence') =>
          if wait_time' > parent_runtime then
            leewayLoop proxy now parent_runtime num_nodes run_time fuel' (leeway / 2) wait_time'
              sequence'
          else Run.ret (leeway, wait_time', sequence')
        | Run.throw e => Run.throw e
        | Run.spin => Run.spin
    else Run.ret (leeway, wait_time, sequence)

/-- The values of one candidate end level at line 482: `run_time`, `wait_time` and
`leeway`. -/
structure Candidate where
  run_time : ℚ
  wait_time : ℚ
  leeway : ℚ
  deriving DecidableEq, Repr

/-- Lines 458-476: the run time, wait time and leeway of the levels
`start_level..candidate_end_level`. -/
def evalCandidate (fuel : Nat) (w : Workflow) (proxy : ProxyWMS) (now core_speed : ℚ)
    (number_of_hosts : Nat) (parent_runtime : ℚ) (start_level candidate_end_level : Nat)
    (sequence : Nat) : Run (Candidate × Nat) :=
  match WorkflowUtil.estimateMakespan fuel w
      (w.getTasksInTopLevelRange start_level candidate_end_level)
      (maxParallelism w number_of_hosts start_level candidate_end_level) core_speed with
  | Run.ret run_time =>
    match proxy.estimateWaitTime
        (maxParallelism w number_of_hosts start_level candidate_end_level) run_time now
        sequence with
    | Run.ret (wait_time, sequence') =>
      if wait_time < parent_runtime then
        match leewayLoop proxy now parent_runtime
            (maxParallelism w number_of_hosts start_level candidate_end_level) run_time fuel
            (parent_runtime - wait_time) wait_time sequence' with
        | Run.ret (leeway, wait_time', sequence'') =>
          Run.ret (⟨run_time, wait_time', leeway⟩, sequence'')
        | Run.throw e => Run.throw e
        | Run.spin => Run.spin
      else Run.ret (⟨run_time, wait_time, 0⟩, sequence')
    | Run.throw e => Run.throw e
    | Run.spin => Run.spin
  | Run.throw e => Run.throw e
  | Run.spin => Run.spin

/-- The variables `best_so_far_wait_time`, `best_so_far_run_time` and
`best_so_far_leeway`. -/
structure Best where
  wait_time : ℚ
  run_time : ℚ
  leeway : ℚ
  deriving DecidableEq, Repr

/-- The variables of the loop over the candidate end levels when it is left. -/
structure Grouping where
  candidate_end_level : Nat
  giant : Bool
  best : Best
  sequence : Nat
  deriving DecidableEq, Repr

/-- Lines 454-503: the loop `while (candidate_end_level < end_level)`.  The first argument
bounds the number of iterations; `end_level - candidate_end_level` suffices, as each
iteration that does not leave the loop increments the candidate. -/
def candidateLoop (fuel : Nat) (w : Workflow) (proxy : ProxyWMS) (now core_speed : ℚ)
    (number_of_hosts : Nat) (parent_runtime : ℚ) (start_level end_level : Nat) :
    Nat → Nat → Bool → Best → Nat → Run Grouping
  | steps, candidate_end_level, giant, best, sequence =>
    if candidate_end_level < end_level then
      match steps with
      | 0 => Run.spin
      | steps' + 1 =>
        match evalCandidate fuel w proxy now core_speed number_of_hosts parent_runtime
            start_level candidate_end_level sequence with
        | Run.ret (c, sequence') =>
          if giant && decide (c.wait_time > c.run_time) then
            candidateLoop fuel w proxy now core_speed number_of_hosts parent_runtime
              start_level end_level steps' (candidate_end_level + 1) giant best sequence'
          else if (divideDouble c.wait_time c.run_time).gt
              (divideDouble best.wait_time best.run_time) then
            Run.ret ⟨candidate_end_level, false, best, sequence'⟩
          else
            candidateLoop fuel w proxy now core_speed number_of_hosts parent_runtime
              start_level end_level steps' (candidate_end_level + 1) false
              ⟨c.wait_time, c.run_time, c.leeway⟩ sequence'
        | Run.throw e => Run.throw e
        | Run.spin => Run.spin
    else Run.ret ⟨candidate_end_level, giant, best, sequence⟩

/-- Lines 505-521 and the values at the `return` of `ZhangFixedWMS::groupLevels`:
`best_so_far_wait_time`, `best_so_far_run_time + best_so_far_leeway` and
`candidate_end_level` (before the subtraction), with the new sequence number. -/
def groupLevelsRaw (fuel : Nat) (w : Workflow) (proxy : ProxyWMS) (now : ℚ)
    (st : ZhangFixedWMS) (start_level end_level : Nat) : Run ((ℚ × ℚ × Nat) × Nat) :=
  match candidateLoop fuel w proxy now st.core_speed st.number_of_hosts
      (proxy.findMaxDuration st.running_placeholder_jobs) start_level end_level
      (end_level - start_level) start_level true ⟨DBL_MAX, 0, 0⟩ st.sequence with
  | Run.ret g =>
    if g.giant || g.candidate_end_level == start_level then
      match WorkflowUtil.estimateMakespan fuel w
          (w.getTasksInTopLevelRange start_level end_level)
          (maxParallelism w st.number_of_hosts start_level end_level) st.core_speed with
      | Run.ret runtime_all =>
        match proxy.estimateWaitTime (maxParallelism w st.number_of_hosts start_level end_level)
            runtime_all now g.sequence with
        | Run.ret (wait_time_all, sequence') =>
          Run.ret ((wait_time_all,
            runtime_all
              + max 0 (proxy.findMaxDuration st.running_placeholder_jobs - wait_time_all),
            ulongSucc end_level), sequence')
        | Run.throw e => Run.throw e
        | Run.spin => Run.spin
      | Run.throw e => Run.throw e
      | Run.spin => Run.spin
    else
      Run.ret ((g.best.wait_time, g.best.run_time + g.best.leeway, g.candidate_end_level),
        g.sequence)
  | Run.throw e => Run.throw e
  | Run.spin => Run.spin

/-- `ZhangFixedWMS::groupLevels`: wait time, run time and end level
(`candidate_end_level - 1` in `unsigned long`), with the new sequence number. -/
def groupLevels (fuel : Nat) (w : Workflow) (proxy : ProxyWMS) (now : ℚ)
    (st : ZhangFixedWMS) (start_level end_level : Nat) : Run ((ℚ × ℚ × Nat) × Nat) :=
  match groupLevelsRaw fuel w proxy now st start_level end_level with
  | Run.ret ((wait_time, run_time, candidate_end_level), sequence) =>
    Run.ret ((wait_time, run_time, ulongPred candidate_end_level), sequence)
  | Run.throw e => Run.throw e
  | Run.spin => Run.spin

/-- Lines 117-148 of `ZhangFixedWMS::applyGroupingHeuristic`: the decision taken from
the result of `groupLevels` and from the estimates of the whole remaining workflow. -/
def submitGrouping (w : Workflow) (proxy : ProxyWMS) (st : ZhangFixedWMS)
    (start_level end_level : Nat) (partial_dag_makespan : ℚ) (partial_dag_end_level : Nat)
    (runtime_all wait_time_all : ℚ) : ZhangFixedWMS :=
  let st1 : ZhangFixedWMS :=
    if partial_dag_end_level = end_level then
      if wait_time_all > runtime_all * 2 then { st with individual_mode := true } else st
    else { st with number_of_splits := st.number_of_splits + 1 }
  if !st1.individual_mode then
    { st1 with
      pending_placeholder_job := some (proxy.createAndSubmitPlaceholderJob partial_dag_makespan
        (maxParallelism w st.number_of_hosts start_level partial_dag_end_level) start_level
        partial_dag_end_level)
      calls := st1.calls ++ [ProxyCall.createAndSubmitPlaceholderJob partial_dag_makespan
        (maxParallelism w st.number_of_hosts start_level partial_dag_end_level) start_level
        partial_dag_end_level] }
  else { st1 with calls := st1.calls ++ [ProxyCall.submitAllOneJobPerTask st.core_speed] }

/-- `ZhangFixedWMS::applyGroupingHeuristic`; `end_level` is `getNumLevels() - 1` in
`unsigned long`. -/
def applyGroupingHeuristic (fuel : Nat) (w : Workflow) (proxy : ProxyWMS) (now : ℚ)
    (st : ZhangFixedWMS) : Run ZhangFixedWMS :=
  if st.pending_placeholder_job.isSome then Run.ret st
  else if st.individual_mode then Run.ret st
  else if !st.overlap && !st.running_placeholder_jobs.isEmpty then Run.ret st
  else if getStartLevel w st.running_placeholder_jobs > ulongPred w.getNumLevels then Run.ret st
  else
    match groupLevels fuel w proxy now st (getStartLevel w st.running_placeholder_jobs)
        (ulongPred w.getNumLevels) with
    | Run.ret ((_, partial_dag_makespan, partial_dag_end_level), sequence') =>
      match WorkflowUtil.estimateMakespan fuel w
          (w.getTasksInTopLevelRange (getStartLevel w st.running_placeholder_jobs)
            (ulongPred w.getNumLevels))
          (maxParallelism w st.number_of_hosts (getStartLevel w st.running_placeholder_jobs)
            (ulongPred w.getNumLevels)) st.core_speed with
      | Run.ret runtime_all =>
        match proxy.estimateWaitTime
            (maxParallelism w st.number_of_hosts (getStartLevel w st.running_placeholder_jobs)
              (ulongPred w.getNumLevels)) runtime_all now sequence' with
        | Run.ret (wait_time_all, sequence'') =>
          if partial_dag_end_level ≤ ulongPred w.getNumLevels then
            Run.ret (submitGrouping w proxy { st with sequence := sequence'' }
              (getStartLevel w st.running_placeholder_jobs) (ulongPred w.getNumLevels)
              partial_dag_makespan partial_dag_end_level runtime_all wait_time_all)
          else Run.throw Failure.assertionFailed
        | Run.throw e => Run.throw e
        | Run.spin => Run.spin
      | Run.throw e => Run.throw e
      | Run.spin => Run.spin
    | Run.throw e => Run.throw e
    | Run.spin => Run.spin

/-- Lines 371-386 of `ZhangFixedWMS::processEventStandardJobCompletion`: in individual
mode every READY task of the workflow is submitted as a job of its own. -/
def submitReadyTasks (w : Workflow) (st : ZhangFixedWMS) : ZhangFixedWMS :=
  if st.individual_mode then
    { st with
      submitted := st.submitted ++
        (w.getTasks.filter fun task => w.state task == TaskState.READY).map fun task =>
          Submitted.standardJob task
            ⟨"1", "1",
              toString (1 + ⌊w.flops task / st.core_speed * EXECUTION_TIME_FUDGE_FACTOR⌋₊ / 60)⟩ }
  else st

/-- Every candidate end level from `c` up to `end_level - 1` is evaluated with
`wait_time > run_time` (the giant guard never clears); the evaluations start with the
sequence number `seq` and end with `seq'`. -/
inductive AllGiant (fuel : Nat) (w : Workflow) (proxy : ProxyWMS) (now core_speed : ℚ)
    (number_of_hosts : Nat) (parent_runtime : ℚ) (start_level end_level : Nat) :
    Nat → Nat → Nat → Prop where
  | done (c seq : Nat) (h : end_level ≤ c) :
      AllGiant fuel w proxy now core_speed number_of_hosts parent_runtime start_level
        end_level c seq seq
  | step (c seq seq1 seq' : Nat) (cand : Candidate) (h : c < end_level)
      (hev : evalCandidate fuel w proxy now core_speed number_of_hosts parent_runtime
        start_level c seq = Run.ret (cand, seq1))
      (hgiant : cand.wait_time > cand.run_time)
      (hrest : AllGiant fuel w proxy now core_speed number_of_hosts parent_runtime start_level
        end_level (c + 1) seq1 seq') :
      AllGiant fuel w proxy now core_speed number_of_hosts parent_runtime start_level
        end_level c seq seq'

/-- Workflow of two tasks of 100 flops in a chain: level 0 holds task 0, level 1 task 1. -/
def pairWorkflow : Workflow where
  flops := fun _ => 100
  parents := fun t => [[], [0]].getD t []
  state := fun t => [TaskState.READY, TaskState.NOT_READY].getD t TaskState.NOT_READY
  getNumLevels := 2
  getTasksInTopLevelRange := rangeOfLevels [[0], [1]]
  getTasks := [0, 1]

/-- A proxy whose wait-time estimate is always 0 (predicted start = now). -/
def idleProxy : ProxyWMS where
  estimateWaitTime := fun _ _ _ sequence => Run.ret (0, sequence + 1)
  findMaxDuration := fun _ => 0
  createAndSubmitPlaceholderJob := fun _ _ s e => ⟨0, [], s, e⟩

/-- A proxy whose wait-time estimate is always 10000. -/
def busyProxy : ProxyWMS where
  estimateWaitTime := fun _ _ _ sequence => Run.ret (10000, sequence + 1)
  findMaxDuration := fun _ => 0
  createAndSubmitPlaceholderJob := fun _ _ s e => ⟨0, [], s, e⟩

/-- A controller before its first decision: nothing pending or running, overlap on, core
speed 1. -/
def initial (hosts : Nat) : ZhangFixedWMS :=
  { overlap := true, plimit := false, core_speed := 1, number_of_hosts := hosts,
    pending_placeholder_job := none, running_placeholder_jobs := [], individual_mode := false,
    number_of_splits := 0, sequence := 0, calls := [], submitted := [] }

/-- The start level as the specification states it (not taken from the code): the larger
of `1 +` the highest level whose tasks are all COMPLETED (0 if there is none) and `1 +`
the largest end level among the running placeholder jobs, the second term dropped when
nothing is running.  `ends` lists the end levels of the running placeholder jobs. -/
def statedStartLevel (w : Workflow) (ends : List Nat) : Nat :=
  let completed :=
    ((List.range w.getNumLevels).filter fun i =>
      (w.getTasksInTopLevelRange i i).all fun task => w.state task == TaskState.COMPLETED)
  let first := match completed.max? with
    | some i => 1 + i
    | none => 0
  match ends.max? with
  | some e => max first (1 + e)
  | none => first

/-- A proxy with a running placeholder job of 50 seconds whose wait-time estimate is 10 for
a run time of exactly 100 and 200 for every other run time. -/
def paddedProxy : ProxyWMS where
  estimateWaitTime := fun _ makespan _ sequence =>
    Run.ret (if makespan = 100 then 10 else 200, sequence + 1)
  findMaxDuration := fun _ => 50
  createAndSubmitPlaceholderJob := fun _ _ s e => ⟨0, [], s, e⟩

end ZhangFixedWMS

/-! ### Event handlers and main loop -/

/-- The counters of the `Simulator` object that the controllers update. -/
structure Simulator where
  total_queue_wait_time : ℚ
  wasted_node_seconds : ℚ
  used_node_seconds : ℚ
  num_pilot_job_expirations_with_remaining_tasks_to_do : Nat
  deriving DecidableEq, Repr

/-- What a handler asks of the simulation library and of the job manager when an event is
processed; none of it is among the sources, so every answer is a parameter:
the current date, the submit date of a pilot job, the start date and the children of a
task, the numbers read from the arguments `-N` and `-t` of a pilot job (by `sscanf` or
`stoi`), and whether `terminateJob` of a pilot job throws a
`WorkflowExecutionException`. -/
structure Simulation where
  getCurrentSimulatedDate : ℚ
  getSubmitDate : Nat → ℚ
  getStartDate : Nat → ℚ
  getTaskChildren : Nat → List Nat
  argN : Nat → Nat
  argT : Nat → Nat
  terminateJobThrows : Nat → Bool

/-- The events that `waitForAndProcessNextEvent` hands to the controller, with the pilot
job or the single task of the standard job. -/
inductive Event where
  | pilotJobStarted (pilot_job : Nat)
  | pilotJobExpired (pilot_job : Nat)
  | standardJobCompleted (task : Nat)
  | standardJobFailed (task : Nat)
  deriving DecidableEq, Repr

/-- Lines 385-401 (Test) and 232-238 (Zhang) of `processEventPilotJobExpiration`:
`60.0 * minutes * hosts`, from which the run time of every COMPLETED task of the
placeholder job is subtracted in turn. -/
def expirationWaste (w : Workflow) (sim : Simulation) (core_speed : ℚ) (pilot_job : Nat)
    (tasks : List Nat) : ℚ :=
  tasks.foldl
    (fun wasted_node_seconds t =>
      if w.state t == TaskState.COMPLETED then wasted_node_seconds - w.flops t / core_speed
      else wasted_node_seconds)
    (60 * (sim.argT pilot_job : ℚ) * (sim.argN pilot_job : ℚ))

/-- Lines 490-504 (Test) and 325-339 (Zhang) of `processEventStandardJobCompletion`:
the earliest start date of the tasks (starting from `DBL_MAX`), the duration since then
times the requested nodes, from which the run time of every task is subtracted in turn. -/
def completionWaste (w : Workflow) (sim : Simulation) (core_speed : ℚ) (pilot_job : Nat)
    (tasks : List Nat) : ℚ :=
  let first_task_start_time :=
    (tasks.map sim.getStartDate).foldl (fun m d => if d < m then d else m) DBL_MAX
  let job_duration := sim.getCurrentSimulatedDate - first_task_start_time
  tasks.foldl (fun wasted_node_seconds t => wasted_node_seconds - w.flops t / core_speed)
    ((sim.argN pilot_job : ℚ) * job_duration)

/-- What the environment presents during one iteration of the `while` loop of `main`: the
answer of `isDone()`, the workflow and the date when the grouping heuristic runs, then
the next event with the workflow and the simulation as they stand when it arrives. -/
structure Iteration where
  isDone : Bool
  workflow : Workflow
  now : ℚ
  event : Event
  atEvent : Workflow
  sim : Simulation
  slot : Nat

namespace TestClusteringWMS

/-- The body of the loops of lines 339-353 and 524-537: a READY task is submitted to the
pilot job of the placeholder job while `num_currently_running_tasks < num_nodes`, and the
counter is incremented.  The state of a task is read from the workflow as it stands when
the event arrives. -/
def dispatchStep (w : Workflow) (acc : TestPlaceHolderJob × List Submitted) (task : Nat) :
    TestPlaceHolderJob × List Submitted :=
  if w.state task == TaskState.READY
      && decide (acc.1.num_currently_running_tasks < acc.1.num_nodes) then
    ({ acc.1 with num_currently_running_tasks := acc.1.num_currently_running_tasks + 1 },
      acc.2 ++ [Submitted.standardJobOn task acc.1.pilot_job])
  else acc

/-- Lines 331-334 of `processEventPilotJobStart`: the pending placeholder job is inserted
into the running set and the pending slot is cleared.  `slot` is the place where the
new element lands in the iteration order of the `std::set` of pointers. -/
def promote (slot : Nat) (st : TestClusteringWMS) (ph : TestPlaceHolderJob) :
    TestClusteringWMS :=
  { st with
    running_placeholder_jobs :=
      st.running_placeholder_jobs.take slot ++ ph :: st.running_placeholder_jobs.drop slot
    pending_placeholder_job := none }

/-- Lines 336-353 of `processEventPilotJobStart`: the loop over the tasks of the started
placeholder job, which is the element `ph` of the running set. -/
def dispatchStarted (w : Workflow) (st : TestClusteringWMS) (ph : TestPlaceHolderJob) :
    TestClusteringWMS :=
  { st with
    running_placeholder_jobs := st.running_placeholder_jobs.map fun x =>
      if x = ph then (ph.tasks.foldl (dispatchStep w) (ph, st.submitted)).1 else x
    submitted := (ph.tasks.foldl (dispatchStep w) (ph, st.submitted)).2 }

/-- `TestClusteringWMS::processEventPilotJobStart`. -/
def processEventPilotJobStart (fuel : Nat) (w : Workflow) (bs : BatchService)
    (sim : Simulation) (slot pilot_job : Nat) (st : TestClusteringWMS) (simulator : Simulator) :
    Run (TestClusteringWMS × Simulator) :=
  let simulator' : Simulator :=
    { simulator with
      total_queue_wait_time := simulator.total_queue_wait_time
        + (sim.getCurrentSimulatedDate - sim.getSubmitDate pilot_job) }
  match st.pending_placeholder_job with
  | none => Run.throw Failure.noPendingPlaceholder
  | some ph =>
    if pilot_job ≠ ph.pilot_job then Run.ret (st, simulator')
    else
      match applyGroupingHeuristic fuel w bs sim.getCurrentSimulatedDate
          (dispatchStarted w (promote slot st ph) ph) with
      | Run.ret st' => Run.ret (st', simulator')
      | Run.throw x => Run.throw x
      | Run.spin => Run.spin

/-- Lines 360-447 of `processEventPilotJobExpiration`, up to the call of the grouping
heuristic: `false` stands for the `return` of line 404, after which the heuristic is not
called.  The pilot job of the pending placeholder job is terminated outside a `try`; the
termination of a running one is inside a `try` whose `catch` is empty.  The placeholder
jobs collected in `to_remove` are those with no task in a state other than NOT_READY. -/
def expirationCleanup (w : Workflow) (sim : Simulation) (pilot_job : Nat)
    (st : TestClusteringWMS) (simulator : Simulator) :
    Run (TestClusteringWMS × Simulator × Bool) :=
  match st.running_placeholder_jobs.find? (fun ph => ph.pilot_job == pilot_job) with
  | none => Run.throw Failure.noMatchingPlaceholder
  | some placeholder_job =>
    let st1 : TestClusteringWMS :=
      { st with running_placeholder_jobs := st.running_placeholder_jobs.erase placeholder_job }
    let unprocessed := placeholder_job.tasks.any fun t => w.state t != TaskState.COMPLETED
    let simulator1 : Simulator :=
      { simulator with
        wasted_node_seconds := simulator.wasted_node_seconds
          + expirationWaste w sim st.core_speed pilot_job placeholder_job.tasks }
    if !unprocessed then Run.ret (st1, simulator1, false)
    else
      let simulator2 : Simulator :=
        { simulator1 with
          num_pilot_job_expirations_with_remaining_tasks_to_do :=
            simulator1.num_pilot_job_expirations_with_remaining_tasks_to_do + 1 }
      if (st1.pending_placeholder_job.any fun ph => sim.terminateJobThrows ph.pilot_job) then
        Run.throw Failure.workflowExecutionException
      else
        Run.ret
          ({ st1 with
              pending_placeholder_job := none
              running_placeholder_jobs := st1.running_placeholder_jobs.filter fun ph =>
                ph.tasks.any fun task => w.state task != TaskState.NOT_READY },
            simulator2, true)

/-- `TestClusteringWMS::processEventPilotJobExpiration`. -/
def processEventPilotJobExpiration (fuel : Nat) (w : Workflow) (bs : BatchService)
    (sim : Simulation) (pilot_job : Nat) (st : TestClusteringWMS) (simulator : Simulator) :
    Run (TestClusteringWMS × Simulator) :=
  match expirationCleanup w sim pilot_job st simulator with
  | Run.ret (st', simulator', again) =>
    if again then
      match applyGroupingHeuristic fuel w bs sim.getCurrentSimulatedDate st' with
      | Run.ret st'' => Run.ret (st'', simulator')
      | Run.throw x => Run.throw x
      | Run.spin => Run.spin
    else Run.ret (st', simulator')
  | Run.throw x => Run.throw x
  | Run.spin => Run.spin

/-- Lines 462-471 of `processEventStandardJobCompletion`: the placeholder job found for
the completed task.  The `break` leaves the inner loop only, so the last running
placeholder job that holds the task is kept. -/
def findPlaceholder (running : List TestPlaceHolderJob) (completed_task : Nat) :
    Option TestPlaceHolderJob :=
  (running.filter fun ph => ph.tasks.contains completed_task).getLast?

/-- Lines 478-516 of `processEventStandardJobCompletion`: the counter of the placeholder
job is decremented (in `unsigned long`); when all its tasks are COMPLETED the waste is
added to the metric, the pilot job is terminated inside a `try` whose `catch` is empty,
and the placeholder job is erased from the running set. -/
def completePlaceholder (w : Workflow) (sim : Simulation) (st : TestClusteringWMS)
    (simulator : Simulator) (placeholder_job : TestPlaceHolderJob) :
    TestClusteringWMS × Simulator :=
  if placeholder_job.tasks.all fun t => w.state t == TaskState.COMPLETED then
    ({ st with running_placeholder_jobs := st.running_placeholder_jobs.erase placeholder_job },
      { simulator with
        wasted_node_seconds := simulator.wasted_node_seconds
          + completionWaste w sim st.core_speed placeholder_job.pilot_job
              placeholder_job.tasks })
  else
    ({ st with
        running_placeholder_jobs := st.running_placeholder_jobs.map fun x =>
          if x = placeholder_job then
            { placeholder_job with
              num_currently_running_tasks :=
                ulongPred placeholder_job.num_currently_running_tasks }
          else x },
      simulator)

/-- Lines 521-539 of `processEventStandardJobCompletion`: the loop over the running
placeholder jobs and their tasks. -/
def dispatchAll (w : Workflow) :
    List TestPlaceHolderJob → List Submitted → List TestPlaceHolderJob × List Submitted
  | [], submitted => ([], submitted)
  | ph :: phs, submitted =>
    ((ph.tasks.foldl (dispatchStep w) (ph, submitted)).1
        :: (dispatchAll w phs (ph.tasks.foldl (dispatchStep w) (ph, submitted)).2).1,
      (dispatchAll w phs (ph.tasks.foldl (dispatchStep w) (ph, submitted)).2).2)

/-- Lines 521-539 of `processEventStandardJobCompletion` on the controller state. -/
def dispatchRunning (w : Workflow) (st : TestClusteringWMS) : TestClusteringWMS :=
  { st with
    running_placeholder_jobs := (dispatchAll w st.running_placeholder_jobs st.submitted).1
    submitted := (dispatchAll w st.running_placeholder_jobs st.submitted).2 }

/-- `TestClusteringWMS::processEventStandardJobCompletion`. -/
def processEventStandardJobCompletion (w : Workflow) (sim : Simulation)
    (completed_task : Nat) (st : TestClusteringWMS) (simulator : Simulator) :
    Run (TestClusteringWMS × Simulator) :=
  let simulator1 : Simulator :=
    { simulator with
      used_node_seconds := simulator.used_node_seconds + w.flops completed_task / st.core_speed }
  match findPlaceholder st.running_placeholder_jobs completed_task with
  | none =>
    if !st.individual_mode then Run.throw Failure.noPlaceholderForTask
    else Run.ret (submitReadyTasksIfIndividual w (dispatchRunning w st), simulator1)
  | some placeholder_job =>
    Run.ret
      (submitReadyTasksIfIndividual w
        (dispatchRunning w (completePlaceholder w sim st simulator1 placeholder_job).1),
        (completePlaceholder w sim st simulator1 placeholder_job).2)

/-- `TestClusteringWMS::processEventStandardJobFailure`: the event is logged and
ignored. -/
def processEventStandardJobFailure (st : TestClusteringWMS) (simulator : Simulator) :
    Run (TestClusteringWMS × Simulator) :=
  Run.ret (st, simulator)

/-- Modelled from the spec: `WMS::waitForAndProcessNextEvent` belongs to the library; it
calls the handler of the event. -/
def processNextEvent (fuel : Nat) (w : Workflow) (bs : BatchService) (sim : Simulation)
    (slot : Nat) (e : Event) (st : TestClusteringWMS) (simulator : Simulator) :
    Run (TestClusteringWMS × Simulator) :=
  match e with
  | Event.pilotJobStarted pilot_job =>
    processEventPilotJobStart fuel w bs sim slot pilot_job st simulator
  | Event.pilotJobExpired pilot_job =>
    processEventPilotJobExpiration fuel w bs sim pilot_job st simulator
  | Event.standardJobCompleted task => processEventStandardJobCompletion w sim task st simulator
  | Event.standardJobFailed _ => processEventStandardJobFailure st simulator

/-- The loop `while (not this->getWorkflow()->isDone())` of `main`, run against the
iterations that the environment presents; it stops when the workflow is done or when no
further event is presented. -/
def mainLoop (fuel : Nat) (bs : BatchService) :
    List Iteration → TestClusteringWMS → Simulator → Run (TestClusteringWMS × Simulator)
  | [], st, simulator => Run.ret (st, simulator)
  | it :: rest, st, simulator =>
    if it.isDone then Run.ret (st, simulator)
    else
      match applyGroupingHeuristic fuel it.workflow bs it.now st with
      | Run.ret st1 =>
        match processNextEvent fuel it.atEvent bs it.sim it.slot it.event st1 simulator with
        | Run.ret (st2, simulator2) => mainLoop fuel bs rest st2 simulator2
        | Run.throw x => Run.throw x
        | Run.spin => Run.spin
      | Run.throw x => Run.throw x
      | Run.spin => Run.spin

/-- `TestClusteringWMS::main`: the core speed and the number of hosts are read from the
batch service, then the loop runs. -/
def main (fuel : Nat) (bs : BatchService) (core_flop_rate : ℚ) (num_hosts : Nat)
    (iterations : List Iteration) (st : TestClusteringWMS) (simulator : Simulator) :
    Run (TestClusteringWMS × Simulator) :=
  mainLoop fuel bs iterations
    { st with core_speed := core_flop_rate, number_of_hosts := num_hosts } simulator

end TestClusteringWMS

namespace ZhangFixedWMS

/-- Lines 177-180 of `processEventPilotJobStart`: the pending placeholder job is inserted
into the running set and the pending slot is cleared.  `slot` is the place where the new
element lands in the iteration order of the `std::set` of pointers. -/
def promote (slot : Nat) (st : ZhangFixedWMS) (ph : PlaceHolderJob) : ZhangFixedWMS :=
  { st with
    running_placeholder_jobs :=
      st.running_placeholder_jobs.take slot ++ ph :: st.running_placeholder_jobs.drop slot
    pending_placeholder_job := none }

/-- Lines 182-193 of `processEventPilotJobStart`: every READY task of the placeholder job
is submitted to its pilot job.  The state of a task is read from the workflow as it
stands when the event arrives. -/
def dispatchStarted (w : Workflow) (st : ZhangFixedWMS) (ph : PlaceHolderJob) :
    ZhangFixedWMS :=
  { st with
    submitted := st.submitted ++
      (ph.tasks.filter fun task => w.state task == TaskState.READY).map fun task =>
        Submitted.standardJobOn task ph.pilot_job }

/-- `ZhangFixedWMS::processEventPilotJobStart`. -/
def processEventPilotJobStart (fuel : Nat) (w : Workflow) (proxy : ProxyWMS)
    (sim : Simulation) (slot pilot_job : Nat) (st : ZhangFixedWMS) (simulator : Simulator) :
    Run (ZhangFixedWMS × Simulator) :=
  let simulator' : Simulator :=
    { simulator with
      total_queue_wait_time := simulator.total_queue_wait_time
        + (sim.getCurrentSimulatedDate - sim.getSubmitDate pilot_job) }
  match st.pending_placeholder_job with
  | none => Run.throw Failure.noPendingPlaceholder
  | some ph =>
    if pilot_job ≠ ph.pilot_job then Run.ret (st, simulator')
    else
      match applyGroupingHeuristic fuel w proxy sim.getCurrentSimulatedDate
          (dispatchStarted w (promote slot st ph) ph) with
      | Run.ret st' => Run.ret (st', simulator')
      | Run.throw x => Run.throw x
      | Run.spin => Run.spin

/-- Lines 198-284 of `processEventPilotJobExpiration`, up to the call of the grouping
heuristic: `false` stands for the `return` of line 241, after which the heuristic is not
called.  The pilot job of the pending placeholder job is terminated outside a `try`; the
termination of a running one is inside a `try` whose `catch` is empty.  The placeholder
jobs collected in `to_remove` are those with no task in a state other than NOT_READY. -/
def expirationCleanup (w : Workflow) (sim : Simulation) (pilot_job : Nat)
    (st : ZhangFixedWMS) (simulator : Simulator) : Run (ZhangFixedWMS × Simulator × Bool) :=
  match st.running_placeholder_jobs.find? (fun ph => ph.pilot_job == pilot_job) with
  | none => Run.throw Failure.noMatchingPlaceholder
  | some placeholder_job =>
    let st1 : ZhangFixedWMS :=
      { st with running_placeholder_jobs := st.running_placeholder_jobs.erase placeholder_job }
    let unprocessed := placeholder_job.tasks.any fun t => w.state t != TaskState.COMPLETED
    let simulator1 : Simulator :=
      { simulator with
        wasted_node_seconds := simulator.wasted_node_seconds
          + expirationWaste w sim st.core_speed pilot_job placeholder_job.tasks }
    if !unprocessed then Run.ret (st1, simulator1, false)
    else
      let simulator2 : Simulator :=
        { simulator1 with
          num_pilot_job_expirations_with_remaining_tasks_to_do :=
            simulator1.num_pilot_job_expirations_with_remaining_tasks_to_do + 1 }
      if (st1.pending_placeholder_job.any fun ph => sim.terminateJobThrows ph.pilot_job) then
        Run.throw Failure.workflowExecutionException
      else
        Run.ret
          ({ st1 with
              pending_placeholder_job := none
              running_placeholder_jobs := st1.running_placeholder_jobs.filter fun ph =>
                ph.tasks.any fun task => w.state task != TaskState.NOT_READY },
            simulator2, true)

/-- `ZhangFixedWMS::processEventPilotJobExpiration`. -/
def processEventPilotJobExpiration (fuel : Nat) (w : Workflow) (proxy : ProxyWMS)
    (sim : Simulation) (pilot_job : Nat) (st : ZhangFixedWMS) (simulator : Simulator) :
    Run (ZhangFixedWMS × Simulator) :=
  match expirationCleanup w sim pilot_job st simulator with
  | Run.ret (st', simulator', again) =>
    if again then
      match applyGroupingHeuristic fuel w proxy sim.getCurrentSimulatedDate st' with
      | Run.ret st'' => Run.ret (st'', simulator')
      | Run.throw x => Run.throw x
      | Run.spin => Run.spin
    else Run.ret (st', simulator')
  | Run.throw x => Run.throw x
  | Run.spin => Run.spin

/-- Lines 299-308 of `processEventStandardJobCompletion`: the placeholder job found for
the completed task.  The `break` leaves the inner loop only, so the last running
placeholder job that holds the task is kept. -/
def findPlaceholder (running : List PlaceHolderJob) (completed_task : Nat) :
    Option PlaceHolderJob :=
  (running.filter fun ph => ph.tasks.contains completed_task).getLast?

/-- Lines 315-352 of `processEventStandardJobCompletion`: when all the tasks of the
placeholder job are COMPLETED the waste is added to the metric, the pilot job is
terminated inside a `try` whose `catch` is empty, and the placeholder job is erased from
the running set. -/
def completePlaceholder (w : Workflow) (sim : Simulation) (st : ZhangFixedWMS)
    (simulator : Simulator) (placeholder_job : PlaceHolderJob) : ZhangFixedWMS × Simulator :=
  if placeholder_job.tasks.all fun t => w.state t == TaskState.COMPLETED then
    ({ st with running_placeholder_jobs := st.running_placeholder_jobs.erase placeholder_job },
      { simulator with
        wasted_node_seconds := simulator.wasted_node_seconds
          + completionWaste w sim st.core_speed placeholder_job.pilot_job
              placeholder_job.tasks })
  else (st, simulator)

/-- Lines 356-369 of `processEventStandardJobCompletion`: every READY child of the
completed task found among the tasks of a running placeholder job is submitted to the
pilot job of that placeholder job. -/
def dispatchChildren (w : Workflow) (sim : Simulation) (completed_task : Nat)
    (st : ZhangFixedWMS) : ZhangFixedWMS :=
  { st with
    submitted := st.submitted ++
      st.running_placeholder_jobs.flatMap fun ph =>
        (ph.tasks.filter fun task =>
          (sim.getTaskChildren completed_task).contains task
            && w.state task == TaskState.READY).map fun task =>
              Submitted.standardJobOn task ph.pilot_job }

/-- `ZhangFixedWMS::processEventStandardJobCompletion`. -/
def processEventStandardJobCompletion (w : Workflow) (sim : Simulation)
    (completed_task : Nat) (st : ZhangFixedWMS) (simulator : Simulator) :
    Run (ZhangFixedWMS × Simulator) :=
  let simulator1 : Simulator :=
    { simulator with
      used_node_seconds := simulator.used_node_seconds + w.flops completed_task / st.core_speed }
  match findPlaceholder st.running_placeholder_jobs completed_task with
  | none =>
    if !st.individual_mode then Run.throw Failure.noPlaceholderForTask
    else Run.ret (submitReadyTasks w (dispatchChildren w sim completed_task st), simulator1)
  | some placeholder_job =>
    Run.ret
      (submitReadyTasks w
        (dispatchChildren w sim completed_task
          (completePlaceholder w sim st simulator1 placeholder_job).1),
        (completePlaceholder w sim st simulator1 placeholder_job).2)

/-- `ZhangFixedWMS::processEventStandardJobFailure`: the event is logged and ignored. -/
def processEventStandardJobFailure (st : ZhangFixedWMS) (simulator : Simulator) :
    Run (ZhangFixedWMS × Simulator) :=
  Run.ret (st, simulator)

/-- Modelled from the spec: `WMS::waitForAndProcessNextEvent` belongs to the library; it
calls the handler of the event. -/
def processNextEvent (fuel : Nat) (w : Workflow) (proxy : ProxyWMS) (sim : Simulation)
    (slot : Nat) (e : Event) (st : ZhangFixedWMS) (simulator : Simulator) :
    Run (ZhangFixedWMS × Simulator) :=
  match e with
  | Event.pilotJobStarted pilot_job =>
    processEventPilotJobStart fuel w proxy sim slot pilot_job st simulator
  | Event.pilotJobExpired pilot_job =>
    processEventPilotJobExpiration fuel w proxy sim pilot_job st simulator
  | Event.standardJobCompleted task => processEventStandardJobCompletion w sim task st simulator
  | Event.standardJobFailed _ => processEventStandardJobFailure st simulator

/-- The loop `while (not this->getWorkflow()->isDone())` of `main`, run against the
iterations that the environment presents; it stops when the workflow is done or when no
further event is presented. -/
def mainLoop (fuel : Nat) (proxy : ProxyWMS) :
    List Iteration → ZhangFixedWMS → Simulator → Run (ZhangFixedWMS × Simulator)
  | [], st, simulator => Run.ret (st, simulator)
  | it :: rest, st, simulator =>
    if it.isDone then Run.ret (st, simulator)
    else
      match applyGroupingHeuristic fuel it.workflow proxy it.now st with
      | Run.ret st1 =>
        match processNextEvent fuel it.atEvent proxy it.sim it.slot it.event st1 simulator with
        | Run.ret (st2, simulator2) => mainLoop fuel proxy rest st2 simulator2
        | Run.throw x => Run.throw x
        | Run.spin => Run.spin
      | Run.throw x => Run.throw x
      | Run.spin => Run.spin

/-- `ZhangFixedWMS::main`: the core speed and the number of hosts are read from the
batch service, then the loop runs. -/
def main (fuel : Nat) (proxy : ProxyWMS) (core_flop_rate : ℚ) (num_hosts : Nat)
    (iterations : List Iteration) (st : ZhangFixedWMS) (simulator : Simulator) :
    Run (ZhangFixedWMS × Simulator) :=
  mainLoop fuel proxy iterations
    { st with core_speed := core_flop_rate, number_of_hosts := num_hosts } simulator

end ZhangFixedWMS

/-! ### The number of nodes of a clustered job -/

/-- An element of `set_of_job_configurations`: the tuple of job id, number of nodes, cores
per node and walltime in seconds. -/
structure JobConfiguration where
  id : String
  num_nodes : Nat
  num_cores : Nat
  walltime : ℚ
  deriving DecidableEq, Repr

/-- `BatchService::getStartTimeEstimates` on a set of job configurations, given in the
iteration order of the `std::set`: the map from job id to start date, listed in the
iteration order of the `std::map`, or `none` for a `WorkflowExecutionException`.  The
class is not among the sources, so the answer is a parameter. -/
structure BatchEstimates where
  getStartTimeEstimates : List JobConfiguration → Option (List (String × ℚ))

namespace ClusteredJob

/-- A batch service that predicts the start date 0 for every job configuration. -/
def promptEstimates : BatchEstimates :=
  ⟨fun set_of_job_configurations => some (set_of_job_configurations.map fun jc => (jc.id, 0))⟩

end ClusteredJob

namespace Controllers

open WorkflowUtil

/-- A simulation at date 0 in which every date is 0, no task has children, every pilot
job was requested with `-N 1 -t 1`, and `terminateJob` never throws. -/
def quietSimulation : Simulation :=
  { getCurrentSimulatedDate := 0, getSubmitDate := fun _ => 0, getStartDate := fun _ => 0,
    getTaskChildren := fun _ => [], argN := fun _ => 1, argT := fun _ => 1,
    terminateJobThrows := fun _ => false }

/-- The counters of the `Simulator` before the first event. -/
def noMetrics : Simulator := ⟨0, 0, 0, 0⟩

/-- A placeholder job of 2 nodes for the 8 tasks of `fanWorkflow`, none running. -/
def narrowPlaceholder : TestPlaceHolderJob := ⟨0, 2, [0, 1, 2, 3, 4, 5, 6, 7], 0, 0, 0⟩

/-- A Zhang placeholder job with pilot job 0 for the 8 tasks of `fanWorkflow`. -/
def fanPlaceholder : PlaceHolderJob := ⟨0, [0, 1, 2, 3, 4, 5, 6, 7], 0, 0⟩

/-- A Zhang controller on one host with `fanPlaceholder` pending. -/
def zhangFanPending : ZhangFixedWMS :=
  { ZhangFixedWMS.initial 1 with pending_placeholder_job := some fanPlaceholder }

/-- A chain of four tasks of 100 flops: task 0 is COMPLETED, task 1 is READY and the
others are NOT_READY. -/
def stalledWorkflow : Workflow where
  flops := fun _ => 100
  parents := fun t => [[], [0], [1], [2]].getD t []
  state := fun t => [TaskState.COMPLETED, TaskState.READY].getD t TaskState.NOT_READY
  getNumLevels := 4
  getTasksInTopLevelRange := rangeOfLevels [[0], [1], [2], [3]]
  getTasks := [0, 1, 2, 3]

/-- A Test controller on `stalledWorkflow`: pilot job 1 runs tasks 0 and 1, pilot job 2
runs and holds task 2, pilot job 3 is pending for task 3. -/
def stalledTest : TestClusteringWMS :=
  { TestClusteringWMS.initial (1 / 5) 0 1 with
    running_placeholder_jobs := [⟨1, 1, [0, 1], 0, 1, 0⟩, ⟨2, 1, [2], 2, 2, 0⟩]
    pending_placeholder_job := some ⟨3, 1, [3], 3, 3, 0⟩
    next_pilot_job := 4 }

/-- A Zhang controller in the situation of `stalledTest`. -/
def stalledZhang : ZhangFixedWMS :=
  { ZhangFixedWMS.initial 1 with
    running_placeholder_jobs := [⟨1, [0, 1], 0, 1⟩, ⟨2, [2], 2, 2⟩]
    pending_placeholder_job := some ⟨3, [3], 3, 3⟩ }

/-- A simulation at date 0 where every pilot job was requested with `-N 1 -t 2` and
`terminateJob` throws for the pilot jobs listed in `gone`. -/
def lateSimulation (gone : List Nat) : Simulation :=
  { quietSimulation with argT := fun _ => 2, terminateJobThrows := fun p => gone.contains p }

/-- The workflow `pairWorkflow` while its first task runs. -/
def pairRunning : Workflow :=
  { ZhangFixedWMS.pairWorkflow with
    state := fun t => [TaskState.RUNNING].getD t TaskState.NOT_READY }

/-- The workflow `pairWorkflow` once its first task is COMPLETED: the second is READY. -/
def pairHalfDone : Workflow :=
  { ZhangFixedWMS.pairWorkflow with
    state := fun t => [TaskState.COMPLETED, TaskState.READY].getD t TaskState.NOT_READY }

/-- A simulation at date 100 where every task started at date 0 and every pilot job was
requested with `-N 1 -t 1`. -/
def pairSimulation : Simulation := { quietSimulation with getCurrentSimulatedDate := 100 }

/-- A Test controller without overlap on one host: pilot job 0 runs task 0 of
`pairWorkflow`. -/
def pairTest : TestClusteringWMS :=
  { TestClusteringWMS.initial (1 / 5) 0 1 with
    overlap := false
    running_placeholder_jobs := [⟨0, 1, [0], 0, 0, 1⟩]
    parent_runtime := 110
    next_pilot_job := 1
    submitted := [Submitted.pilotJob 0 ⟨"1", "1", "2"⟩, Submitted.standardJobOn 0 0] }

/-- A Zhang controller without overlap on one host: pilot job 0 runs task 0 of
`pairWorkflow`. -/
def pairZhang : ZhangFixedWMS :=
  { ZhangFixedWMS.initial 1 with
    overlap := false
    running_placeholder_jobs := [⟨0, [0], 0, 0⟩]
    submitted := [Submitted.standardJobOn 0 0] }

/-- An iteration of the main loop in which task 0 of `pairWorkflow` completes at date
100. -/
def completionIteration : Iteration :=
  ⟨false, pairRunning, 50, Event.standardJobCompleted 0, pairHalfDone, pairSimulation, 0⟩

/-- The iteration after `completionIteration`: the next event is the start of pilot
job 1. -/
def nextIteration : Iteration :=
  ⟨false, pairHalfDone, 100, Event.pilotJobStarted 1, pairHalfDone, pairSimulation, 0⟩

/-- One operation on a controller: an invocation of the grouping heuristic on the workflow
at a date, or an event handed to its handler, with the workflow and the simulation as they
stand then. -/
inductive Operation where
  | heuristic (w : Workflow) (now : ℚ)
  | event (w : Workflow) (sim : Simulation) (slot : Nat) (e : Event)

/-- A sequence of operations applied in order to a Test controller. -/
def testOperations (fuel : Nat) (bs : BatchService) :
    List Operation → TestClusteringWMS → Simulator → Run (TestClusteringWMS × Simulator)
  | [], st, simulator => Run.ret (st, simulator)
  | Operation.heuristic w now :: rest, st, simulator =>
    match TestClusteringWMS.applyGroupingHeuristic fuel w bs now st with
    | Run.ret st1 => testOperations fuel bs rest st1 simulator
    | Run.throw x => Run.throw x
    | Run.spin => Run.spin
  | Operation.event w sim slot e :: rest, st, simulator =>
    match TestClusteringWMS.processNextEvent fuel w bs sim slot e st simulator with
    | Run.ret (st1, simulator1) => testOperations fuel bs rest st1 simulator1
    | Run.throw x => Run.throw x
    | Run.spin => Run.spin

/-- A sequence of operations applied in order to a Zhang controller. -/
def zhangOperations (fuel : Nat) (proxy : ProxyWMS) :
    List Operation → ZhangFixedWMS → Simulator → Run (ZhangFixedWMS × Simulator)
  | [], st, simulator => Run.ret (st, simulator)
  | Operation.heuristic w now :: rest, st, simulator =>
    match ZhangFixedWMS.applyGroupingHeuristic fuel w proxy now st with
    | Run.ret st1 => zhangOperations fuel proxy rest st1 simulator
    | Run.throw x => Run.throw x
    | Run.spin => Run.spin
  | Operation.event w sim slot e :: rest, st, simulator =>
    match ZhangFixedWMS.processNextEvent fuel w proxy sim slot e st simulator with
    | Run.ret (st1, simulator1) => zhangOperations fuel proxy rest st1 simulator1
    | Run.throw x => Run.throw x
    | Run.spin => Run.spin

/-- The number of pending plus running placeholder jobs of a Test controller. -/
def testSlots (st : TestClusteringWMS) : Nat :=
  st.pending_placeholder_job.toList.length + st.running_placeholder_jobs.length

/-- The number of pending plus running placeholder jobs of a Zhang controller. -/
def zhangSlots (st : ZhangFixedWMS) : Nat :=
  st.pending_placeholder_job.toList.length + st.running_placeholder_jobs.length

/-- A Test controller before its first decision with overlap off, on 8 hosts. -/
def testNoOverlap : TestClusteringWMS :=
  { TestClusteringWMS.initial (1 / 5) 0 8 with overlap := false }

/-- A Zhang controller before its first decision with overlap off, on 4 hosts. -/
def zhangNoOverlap : ZhangFixedWMS :=
  { ZhangFixedWMS.initial 4 with overlap := false }

/-- A Test controller on 8 hosts with `narrowPlaceholder` pending. -/
def testNarrowPending : TestClusteringWMS :=
  { TestClusteringWMS.initial (1 / 5) 0 8 with
    pending_placeholder_job := some narrowPlaceholder, next_pilot_job := 1 }

end Controllers

/-! ### Double-precision arithmetic -/

/-- The position of the leading binary digit of `n`, found by halving at most `fuel`
times. -/
def log2Fuel : Nat → Nat → Nat
  | 0, _ => 0
  | fuel + 1, n => if 2 ≤ n then log2Fuel fuel (n / 2) + 1 else 0

/-- The integer `k` with `2^k <= n < 2^(k + 1)`, for positive `n`. -/
def ilog2 (n : Nat) : Nat := log2Fuel n n

/-- The integer `e` with `2^e <= a / b < 2^(e + 1)`, for positive `a` and `b`. -/
def floorLog2 (a b : Nat) : Int :=
  if (ilog2 b ≤ ilog2 a ∧ a < b * 2 ^ (ilog2 a - ilog2 b)) ∨
      (ilog2 a < ilog2 b ∧ a * 2 ^ (ilog2 b - ilog2 a) < b) then
    (ilog2 a : Int) - (ilog2 b : Int) - 1
  else (ilog2 a : Int) - (ilog2 b : Int)

/-- The integer nearest to `n / d`, the even one when two are equally near. -/
def roundHalfEven (n d : Nat) : Nat :=
  if 2 * (n % d) > d ∨ (2 * (n % d) = d ∧ (n / d) % 2 = 1) then n / d + 1 else n / d

/-- The `double` nearest to a rational number, ties going to the even significand: the
rounding of every IEEE 754 binary64 operation (53 significant bits, gradual underflow with
the least positive value `2^-1074`).  The value is a multiple of `2^u`, where `u` is the
exponent of the unit in the last place.  Overflow to infinity is not modelled: above
`DBL_MAX` the value is still rounded to 53 significant bits. -/
def roundDouble (q : ℚ) : ℚ :=
  if q = 0 then 0
  else
    let u : Int := max (floorLog2 q.num.natAbs q.den - 52) (-1074)
    let v : ℚ :=
      if 0 ≤ u then ((roundHalfEven q.num.natAbs (q.den * 2 ^ u.toNat) * 2 ^ u.toNat : Nat) : ℚ)
      else ((roundHalfEven (q.num.natAbs * 2 ^ (-u).toNat) q.den : Nat) : ℚ)
        / ((2 ^ (-u).toNat : Nat) : ℚ)
    if q < 0 then -v else v

namespace Rounded

namespace WorkflowUtil

open Wrench.WorkflowUtil

/-- Lines 74-132 with the arithmetic of doubles: the scan
`for (i = 0; i < num_tasks; i++)`, in which the completion date
`current_time + real_task->getFlops() / core_speed` is a quotient of doubles followed by a
sum of doubles. -/
def scan (w : Workflow) (core_speed current_time : ℚ) :
    List (Nat × ℚ) → List (Nat × ℚ) → List ℚ → Nat → Bool → Sim
  | done, [], idle, num, some_ => ⟨done, idle, num, some_⟩
  | done, ft :: rest, idle, num, some_ =>
    if ft.2 ≥ 0 then scan w core_speed current_time (done ++ [ft]) rest idle num some_
    else if schedulable w (done ++ ft :: rest) current_time ft.1 then
      match placeOnHost idle current_time
          (roundDouble (current_time + roundDouble (w.flops ft.1 / core_speed))) with
      | some idle' =>
        scan w core_speed current_time
          (done ++ [(ft.1, roundDouble (current_time + roundDouble (w.flops ft.1 / core_speed)))])
          rest idle' (num + 1) true
      | none => scan w core_speed current_time (done ++ [ft]) rest idle num some_
    else scan w core_speed current_time (done ++ [ft]) rest idle num some_

/-- Lines 68-154: the loop `while (num_scheduled_tasks < num_tasks)`; returns the idle
dates at exit, `none` when the fuel runs out first. -/
def schedLoop (w : Workflow) (core_speed : ℚ) (num_tasks : Nat) :
    Nat → List (Nat × ℚ) → List ℚ → Nat → ℚ → Option (List ℚ)
  | fuel, fake, idle, num, current_time =>
    if num < num_tasks then
      match fuel with
      | 0 => none
      | fuel' + 1 =>
        let st := scan w core_speed current_time [] fake idle num false
        let next := if st.scheduled_something then minIdle st.idle_date
                    else secondMinIdle st.idle_date current_time
        schedLoop w core_speed num_tasks fuel' st.fake_tasks st.idle_date
          st.num_scheduled_tasks next
    else some idle

/-- `WorkflowUtil::estimateMakespan(tasks, num_hosts, core_speed)` with the arithmetic of
doubles. -/
def estimateMakespan (fuel : Nat) (w : Workflow) (tasks : List Nat) (num_hosts : Nat)
    (core_speed : ℚ) : Run ℚ :=
  if num_hosts = 0 then Run.throw Failure.zeroHosts
  else if tasks.length = 0 then Run.ret 0
  else
    match schedLoop w core_speed tasks.length fuel (tasks.map fun t => (t, (-1 : ℚ)))
        (List.replicate num_hosts 0) 0 0 with
    | some idle => Run.ret (maxIdle idle)
    | none => Run.spin

/-- Lines 68-154 with the arithmetic of doubles: the values of the variables each time
the condition of the `while` loop is evaluated, in order; at most `fuel` iterations are
run. -/
def schedTrace (w : Workflow) (core_speed : ℚ) (num_tasks : Nat) :
    Nat → List (Nat × ℚ) → List ℚ → Nat → ℚ → List LoopState
  | fuel, fake, idle, num, current_time =>
    ⟨fake, idle, num, current_time⟩ ::
      if num < num_tasks then
        match fuel with
        | 0 => []
        | fuel' + 1 =>
          let st := scan w core_speed current_time [] fake idle num false
          let next := if st.scheduled_something then minIdle st.idle_date
                      else secondMinIdle st.idle_date current_time
          schedTrace w core_speed num_tasks fuel' st.fake_tasks st.idle_date
            st.num_scheduled_tasks next
      else []

end WorkflowUtil

namespace TestClusteringWMS

/-- `EXECUTION_TIME_FUDGE_FACTOR`: the double written `1.1`. -/
def EXECUTION_TIME_FUDGE_FACTOR : ℚ := roundDouble (11 / 10)

/-- `estimates[config_key]` on the `std::map<std::string, double>` that the batch service
answers: the entry of the key, or the `0.0` that `operator[]` inserts when the map has no
entry for it. -/
def mapLookup (estimates : List (String × ℚ)) (config_key : String) : ℚ :=
  ((estimates.find? fun e => e.1 == config_key).map Prod.snd).getD 0

/-- `TestClusteringWMS::estimateWaitTime`: returns the wait time and the incremented
sequence number.  The set handed to `getStartTimeEstimates` holds the one configuration
`(config_key, (unsigned int) parallelism, 1, makespan)`; the call is outside any `try`, so
a `WorkflowExecutionException` of the service leaves the function. -/
def estimateWaitTime (batch_service : BatchEstimates) (now : ℚ) (parallelism : Nat)
    (makespan : ℚ) (sequence : Nat) : Run (ℚ × Nat) :=
  let config_key := "config_XXXX_" ++ toString sequence
  match batch_service.getStartTimeEstimates
      [⟨config_key, parallelism % 4294967296, 1, makespan⟩] with
  | none => Run.throw Failure.workflowExecutionException
  | some estimates =>
    if mapLookup estimates config_key < 0 then Run.throw Failure.noStartEstimate
    else Run.ret (max 0 (roundDouble (mapLookup estimates config_key - now)), sequence + 1)

/-- `TestClusteringWMS::estimateTotalTime`: (makespan, wait time) and the new sequence
number. -/
def estimateTotalTime (fuel : Nat) (w : Workflow) (batch_service : BatchEstimates)
    (now core_speed : ℚ) (start_level end_level num_hosts sequence : Nat) :
    Run ((ℚ × ℚ) × Nat) :=
  match WorkflowUtil.estimateMakespan fuel w (w.getTasksInTopLevelRange start_level end_level)
      num_hosts core_speed with
  | Run.ret makespan =>
    match estimateWaitTime batch_service now num_hosts makespan sequence with
    | Run.ret (wait_time, sequence') => Run.ret ((makespan, wait_time), sequence')
    | Run.throw e => Run.throw e
    | Run.spin => Run.spin
  | Run.throw e => Run.throw e
  | Run.spin => Run.spin

/-- Lines 601-606: the one-host run times of the levels, added to `all_tasks_time`. -/
def allTasksTime (fuel : Nat) (w : Workflow) (core_speed : ℚ) : List Nat → ℚ → Run ℚ
  | [], all_tasks_time => Run.ret all_tasks_time
  | j :: js, all_tasks_time =>
    match WorkflowUtil.estimateMakespan fuel w (w.getTasksInTopLevelRange j j) 1 core_speed with
    | Run.ret m => allTasksTime fuel w core_speed js (roundDouble (all_tasks_time + m))
    | Run.throw e => Run.throw e
    | Run.spin => Run.spin

/-- Line 607: the numerator `i * curr_makespan - all_tasks_time` of the waste ratio of the
candidate `i`, the `unsigned long` being converted to a double. -/
def wasteNumerator (i : Nat) (curr_makespan all_tasks_time : ℚ) : ℚ :=
  roundDouble (roundDouble (roundDouble (i : ℚ) * curr_makespan) - all_tasks_time)

/-- Line 607: the denominator `i * curr_makespan` of the waste ratio of the candidate
`i`. -/
def wasteDenominator (i : Nat) (curr_makespan : ℚ) : ℚ :=
  roundDouble (roundDouble (i : ℚ) * curr_makespan)

/-- Line 607: the waste ratio `curr_waste` of the candidate `i` when the denominator is
not zero. -/
def wasteRatio (i : Nat) (curr_makespan all_tasks_time : ℚ) : ℚ :=
  roundDouble (wasteNumerator i curr_makespan all_tasks_time / wasteDenominator i curr_makespan)

/-- Lines 607-608: the test `curr_waste > this->waste_bound` that rejects the candidate
`i`.  For a zero denominator the quotient of doubles is `+inf` when the numerator is
positive, `-inf` when it is negative and NaN when it is zero, and of these only `+inf` is
greater than the bound. -/
def wasteExceeds (i : Nat) (curr_makespan all_tasks_time waste_bound : ℚ) : Bool :=
  if wasteDenominator i curr_makespan = 0 then
    decide (0 < wasteNumerator i curr_makespan all_tasks_time)
  else decide (wasteRatio i curr_makespan all_tasks_time > waste_bound)

/-- Lines 595-617: the loop of `computeBestNumHosts` over the candidate host counts. -/
def bestLoop (fuel : Nat) (w : Workflow) (batch_service : BatchEstimates)
    (now core_speed waste_bound : ℚ) (start_level end_level : Nat) :
    List Nat → Estimate → Nat → Run (Estimate × Nat)
  | [], best, sequence => Run.ret (best, sequence)
  | i :: is, best, sequence =>
    match estimateTotalTime fuel w batch_service now core_speed start_level end_level i
        sequence with
    | Run.ret ((curr_makespan, curr_wait), sequence') =>
      match allTasksTime fuel w core_speed
          (List.range' start_level (end_level + 1 - start_level)) 0 with
      | Run.ret all_tasks_time =>
        if wasteExceeds i curr_makespan all_tasks_time waste_bound then
          bestLoop fuel w batch_service now core_speed waste_bound start_level end_level is best
            sequence'
        else if roundDouble (best.makespan + best.wait_time)
            > roundDouble (curr_makespan + curr_wait) then
          bestLoop fuel w batch_service now core_speed waste_bound start_level end_level is
            ⟨curr_wait, curr_makespan, i⟩ sequence'
        else
          bestLoop fuel w batch_service now core_speed waste_bound start_level end_level is best
            sequence'
      | Run.throw e => Run.throw e
      | Run.spin => Run.spin
    | Run.throw e => Run.throw e
    | Run.spin => Run.spin

/-- `TestClusteringWMS::computeBestNumHosts`: (wait time, makespan, hosts) and the new
sequence number. -/
def computeBestNumHosts (fuel : Nat) (w : Workflow) (batch_service : BatchEstimates)
    (now core_speed waste_bound : ℚ) (start_level end_level sequence : Nat) :
    Run (Estimate × Nat) :=
  bestLoop fuel w batch_service now core_speed waste_bound start_level end_level
    (List.range' 1 (Wrench.TestClusteringWMS.findMaxTasks w start_level end_level))
    ⟨DBL_MAX, DBL_MAX, 1⟩ sequence

/-- Line 162: `leeway = run_one - wait_two` of the split after level `i`. -/
def splitDifference (time_estimates : Nat → Estimate × Estimate) (i : Nat) : ℚ :=
  roundDouble ((time_estimates i).1.makespan - (time_estimates (i + 1)).2.wait_time)

/-- Lines 162-170: the leeway of the split after level `i` (`run_one - wait_two`, or 0
when that is not positive). -/
def splitLeeway (time_estimates : Nat → Estimate × Estimate) (i : Nat) : ℚ :=
  if splitDifference time_estimates i > 0 then splitDifference time_estimates i else 0

/-- Lines 163-167: the split after level `i` is skipped (`continue`) when its leeway is
positive and above `run_two * 0.10`, a product of doubles. -/
def splitRejected (time_estimates : Nat → Estimate × Estimate) (i : Nat) : Bool :=
  decide (splitDifference time_estimates i > 0) &&
  decide (splitDifference time_estimates i
    > roundDouble ((time_estimates (i + 1)).2.makespan * roundDouble (1 / 10)))

/-- Line 172: `total_time` of the split after level `i`, the sum being taken from left to
right. -/
def splitTotal (time_estimates : Nat → Estimate × Estimate) (i : Nat) : ℚ :=
  roundDouble
    (roundDouble
      (roundDouble ((time_estimates i).1.wait_time
        + max (time_estimates i).1.makespan (time_estimates (i + 1)).2.wait_time)
      + (time_estimates (i + 1)).2.makespan)
    + splitLeeway time_estimates i)

/-- Lines 149-192: the body of the split loop for level `i`. -/
def splitStep (beat_bound : ℚ) (end_level : Nat) (time_estimates : Nat → Estimate × Estimate)
    (c : Wrench.TestClusteringWMS.Choice) (i : Nat) : Wrench.TestClusteringWMS.Choice :=
  if splitRejected time_estimates i then c
  else
    let total_time := splitTotal time_estimates i
    let adjusted_time :=
      if c.partial_dag_end_level = end_level then
        roundDouble (total_time + roundDouble (total_time * beat_bound))
      else total_time
    if adjusted_time < c.best_total_time then
      ⟨i, total_time, (time_estimates i).1.makespan, (time_estimates i).1.num_hosts,
        (time_estimates i).1.wait_time⟩
    else c

/-- Lines 136-192: the choice after the split loop
`for (int i = (int) start_level; i < (int) num_levels - 1; i++)`, that is over the levels
`start_level .. num_levels - 2`, starting from the whole remaining workflow. -/
def splitLoop (beat_bound : ℚ) (start_level num_levels : Nat)
    (time_estimates : Nat → Estimate × Estimate) : Wrench.TestClusteringWMS.Choice :=
  (List.range' start_level (num_levels - 1 - start_level)).foldl
    (splitStep beat_bound (num_levels - 1) time_estimates)
    ⟨num_levels - 1,
      roundDouble
        ((time_estimates start_level).2.wait_time + (time_estimates start_level).2.makespan),
      (time_estimates start_level).2.makespan, (time_estimates start_level).2.num_hosts,
      (time_estimates start_level).2.wait_time⟩

/-- `TestClusteringWMS::createAndSubmitPlaceholderJob`: the requested time is multiplied by
the double `1.1`, and `(unsigned long) x` is `⌊x⌋₊`, its value for `0 <= x < 2^64`. -/
def createAndSubmitPlaceholderJob (w : Workflow) (st : TestClusteringWMS)
    (requested_execution_time : ℚ) (requested_parallelism start_level end_level : Nat) :
    TestClusteringWMS :=
  let requested_execution_time :=
    roundDouble (requested_execution_time * EXECUTION_TIME_FUDGE_FACTOR)
  let tasks := (List.range' start_level (end_level + 1 - start_level)).flatMap fun l =>
    (w.getTasksInTopLevelRange l l).filter fun t => w.state t != TaskState.COMPLETED
  let args : ServiceArgs :=
    ⟨toString requested_parallelism, "1", toString (1 + ⌊requested_execution_time⌋₊ / 60)⟩
  { st with
    parent_runtime := requested_execution_time
    pending_placeholder_job :=
      some ⟨st.next_pilot_job, requested_parallelism, tasks, start_level, end_level, 0⟩
    next_pilot_job := st.next_pilot_job + 1
    submitted := st.submitted ++ [Submitted.pilotJob st.next_pilot_job args] }

/-- Lines 230-242 and 546-554: the walltime in seconds requested for a task submitted on
its own, `(task->getFlops() / this->core_speed) * EXECUTION_TIME_FUDGE_FACTOR`. -/
def individualWalltime (w : Workflow) (core_speed : ℚ) (task : Nat) : ℚ :=
  roundDouble (roundDouble (w.flops task / core_speed) * EXECUTION_TIME_FUDGE_FACTOR)

/-- Lines 230-242: every READY task of the workflow is submitted as a job of its own. -/
def submitReadyTasks (w : Workflow) (st : TestClusteringWMS) : TestClusteringWMS :=
  { st with
    submitted := st.submitted ++
      (w.getTasks.filter fun task => w.state task == TaskState.READY).map fun task =>
        Submitted.standardJob task
          ⟨"1", "1", toString (1 + ⌊individualWalltime w st.core_speed task⌋₊ / 60)⟩ }

/-- Lines 125-134: the two columns of `time_estimates`, each filled for the levels
`start_level .. num_levels - 1` in order: first the estimates of the levels
`start_level..i`, then the estimates of the levels `i..end_level`. -/
def timeEstimates (fuel : Nat) (w : Workflow) (batch_service : BatchEstimates) (now : ℚ)
    (st : TestClusteringWMS) (start_level : Nat) :
    Run ((List Estimate × List Estimate) × Nat) :=
  match Wrench.TestClusteringWMS.fillColumn
      (fun i sequence =>
        computeBestNumHosts fuel w batch_service now st.core_speed st.waste_bound start_level i
          sequence)
      (List.range' start_level (w.getNumLevels - start_level)) st.sequence with
  | Run.ret (column0, sequence') =>
    match Wrench.TestClusteringWMS.fillColumn
        (fun i sequence =>
          computeBestNumHosts fuel w batch_service now st.core_speed st.waste_bound i
            (w.getNumLevels - 1) sequence)
        (List.range' start_level (w.getNumLevels - start_level)) sequence' with
    | Run.ret (column1, sequence'') => Run.ret ((column0, column1), sequence'')
    | Run.throw x => Run.throw x
    | Run.spin => Run.spin
  | Run.throw x => Run.throw x
  | Run.spin => Run.spin

/-- Lines 194-243: what `applyGroupingHeuristic` does with the choice of the split loop.
The test `estimated_wait_time > requested_execution_time * 2.0` of lines 196-199 guards an
empty block (its two statements are commented out), so it changes nothing. -/
def submitChoice (w : Workflow) (st : TestClusteringWMS) (start_level : Nat)
    (c : Wrench.TestClusteringWMS.Choice) : TestClusteringWMS :=
  let st1 : TestClusteringWMS :=
    if c.partial_dag_end_level = w.getNumLevels - 1 then st
    else { st with number_of_splits := st.number_of_splits + 1 }
  if !st1.individual_mode then
    createAndSubmitPlaceholderJob w st1
      (if st1.parent_runtime > c.estimated_wait_time then
        roundDouble (c.requested_execution_time
          + roundDouble (st1.parent_runtime - c.estimated_wait_time))
      else c.requested_execution_time)
      c.requested_parallelism start_level c.partial_dag_end_level
  else submitReadyTasks w st1

/-- `TestClusteringWMS::applyGroupingHeuristic`. -/
def applyGroupingHeuristic (fuel : Nat) (w : Workflow) (batch_service : BatchEstimates)
    (now : ℚ) (st : TestClusteringWMS) : Run TestClusteringWMS :=
  if st.pending_placeholder_job.isSome then Run.ret st
  else if st.individual_mode then Run.ret st
  else if !st.overlap && !st.running_placeholder_jobs.isEmpty then Run.ret st
  else if Wrench.TestClusteringWMS.startLevel w st.running_placeholder_jobs
      ≥ w.getNumLevels then Run.ret st
  else
    match timeEstimates fuel w batch_service now st
        (Wrench.TestClusteringWMS.startLevel w st.running_placeholder_jobs) with
    | Run.ret (columns, sequence') =>
      Run.ret (submitChoice w { st with sequence := sequence' }
        (Wrench.TestClusteringWMS.startLevel w st.running_placeholder_jobs)
        (splitLoop st.beat_bound
          (Wrench.TestClusteringWMS.startLevel w st.running_placeholder_jobs) w.getNumLevels
          (Wrench.TestClusteringWMS.tableOf
            (Wrench.TestClusteringWMS.startLevel w st.running_placeholder_jobs) columns)))
    | Run.throw x => Run.throw x
    | Run.spin => Run.spin

/-- Lines 541-556 of `TestClusteringWMS::processEventStandardJobCompletion`: in individual
mode every READY task of the workflow is submitted as a job of its own. -/
def submitReadyTasksIfIndividual (w : Workflow) (st : TestClusteringWMS) : TestClusteringWMS :=
  if st.individual_mode then submitReadyTasks w st else st

end TestClusteringWMS

namespace ZhangFixedWMS

/-- `EXECUTION_TIME_FUDGE_FACTOR`: the double written `1.1`. -/
def EXECUTION_TIME_FUDGE_FACTOR : ℚ := roundDouble (11 / 10)

/-- Line 378: the walltime in seconds requested for a task submitted on its own,
`(task->getFlops() / this->core_speed) * EXECUTION_TIME_FUDGE_FACTOR`. -/
def individualWalltime (w : Workflow) (core_speed : ℚ) (task : Nat) : ℚ :=
  roundDouble (roundDouble (w.flops task / core_speed) * EXECUTION_TIME_FUDGE_FACTOR)

/-- Lines 371-386 of `ZhangFixedWMS::processEventStandardJobCompletion`: in individual
mode every READY task of the workflow is submitted as a job of its own. -/
def submitReadyTasks (w : Workflow) (st : ZhangFixedWMS) : ZhangFixedWMS :=
  if st.individual_mode then
    { st with
      submitted := st.submitted ++
        (w.getTasks.filter fun task => w.state task == TaskState.READY).map fun task =>
          Submitted.standardJob task
            ⟨"1", "1", toString (1 + ⌊individualWalltime w st.core_speed task⌋₊ / 60)⟩ }
  else st

end ZhangFixedWMS

/-- The run times `flops / core_speed` of the listed tasks are whole multiples `k t * u`
of a unit `u > 0`, and every whole multiple of `u` up to `c` times their sum is a double:
no sum of run times of these tasks is rounded. -/
def ExactSums (w : Workflow) (core_speed : ℚ) (tasks : List Nat) (c : Nat) : Prop :=
  ∃ (u : ℚ) (k : Nat → Nat), 0 < u ∧
    (∀ t ∈ tasks, w.flops t / core_speed = (k t : ℚ) * u) ∧
    ∀ n : Nat, n ≤ c * (tasks.map k).sum → roundDouble ((n : ℚ) * u) = (n : ℚ) * u

/-! ### Example inputs of the double-precision definitions -/

/-- A batch service that predicts, for every job configuration, the start date `start`. -/
def fixedEstimates (start : ℚ) : BatchEstimates :=
  ⟨fun set_of_job_configurations =>
    some (set_of_job_configurations.map fun jc => (jc.id, start))⟩

/-- A batch service that predicts the start date `t * t`, a product of doubles, for a job
of `t` seconds. -/
def squareEstimates : BatchEstimates :=
  ⟨fun set_of_job_configurations =>
    some (set_of_job_configurations.map fun jc =>
      (jc.id, roundDouble (jc.walltime * jc.walltime)))⟩

/-- A batch service whose `getStartTimeEstimates` raises a `WorkflowExecutionException`. -/
def raisingEstimates : BatchEstimates := ⟨fun _ => none⟩

/-- A table of estimates for two levels: the first part runs `run_one` seconds, the rest
waits `wait_two` and runs `run_two` seconds, and nothing else waits. -/
def splitTable (run_one wait_two run_two : ℚ) (i : Nat) : Estimate × Estimate :=
  if i = 0 then (⟨0, run_one, 1⟩, ⟨0, 0, 1⟩)
  else (⟨0, 0, 1⟩, ⟨wait_two, run_two, 1⟩)

/-- A batch service whose answer has no entry for the job configuration it was asked
about. -/
def emptyEstimates : BatchEstimates := ⟨fun _ => some []⟩

/-- Ten tasks of 1 flop in a chain `0 -> 1 -> ... -> 9`, one task per level. -/
def unitChain : Workflow where
  flops := fun _ => 1
  parents := fun t => if t = 0 ∨ 10 ≤ t then [] else [t - 1]
  state := fun _ => TaskState.NOT_READY
  getNumLevels := 10
  getTasksInTopLevelRange := fun lo hi => (List.range' lo (hi + 1 - lo)).filter (· < 10)
  getTasks := List.range 10

/-- Ten tasks of 1 flop without dependencies, in one level. -/
def unitFan : Workflow where
  flops := fun _ => 1
  parents := fun _ => []
  state := fun _ => TaskState.NOT_READY
  getNumLevels := 1
  getTasksInTopLevelRange := rangeOfLevels [List.range 10]
  getTasks := List.range 10

/-- Three tasks in two levels, `{0}` and `{1, 2}`, task 0 being the parent of the two
others; the flop counts are the doubles written `a`, `b` and `c`. -/
def twoLevels (a b c : ℚ) : Workflow where
  flops := fun t => [roundDouble a, roundDouble b, roundDouble c].getD t 0
  parents := fun t => if t = 1 ∨ t = 2 then [0] else []
  state := fun _ => TaskState.NOT_READY
  getNumLevels := 2
  getTasksInTopLevelRange := rangeOfLevels [[0], [1, 2]]
  getTasks := [0, 1, 2]

end Rounded

/-! ## Theorems -/

namespace WorkflowUtil

theorem schedulable_iff (w : Workflow) (fake : List (Nat × ℚ)) (cur : ℚ) (t : Nat) :
    schedulable w fake cur t = true ↔
      ∀ p ∈ w.parents t, ∀ ft ∈ fake, ft.1 = p → 0 ≤ ft.2 ∧ ft.2 ≤ cur := by
  unfold schedulable
  simp only [List.all_eq_true, Bool.or_eq_true, Bool.not_eq_true', beq_eq_false_iff_ne, ne_eq,
    Bool.or_eq_false_iff, decide_eq_false_iff_not, not_lt]
  constructor
  · intro h p hp ft hft e
    rcases h p hp ft hft with h1 | h1
    · exact absurd e h1
    · exact ⟨h1.2, h1.1⟩
  · intro h p hp ft hft
    by_cases e : ft.1 = p
    · right; exact ⟨(h p hp ft hft e).2, (h p hp ft hft e).1⟩
    · left; exact e

theorem scan_fake_fst (w : Workflow) (s cur : ℚ) (todo : List (Nat × ℚ)) :
    ∀ (done : List (Nat × ℚ)) (idle : List ℚ) (num : Nat) (b : Bool),
      (scan w s cur done todo idle num b).fake_tasks.map Prod.fst
        = (done ++ todo).map Prod.fst := by
  induction todo with
  | nil => intro done idle num b; simp [scan]
  | cons ft rest ih =>
    intro done idle num b
    unfold scan
    split
    · rw [ih]; simp
    · split
      · split
        · rw [ih]; simp
        · rw [ih]; simp
      · rw [ih]; simp

theorem schedulable_agree {w1 w2 : Workflow} {tasks : List Nat} (h : AgreeOn w1 w2 tasks)
    (fake : List (Nat × ℚ)) (cur : ℚ) (t : Nat) (ht : t ∈ tasks)
    (hf : ∀ ft ∈ fake, ft.1 ∈ tasks) :
    schedulable w1 fake cur t = schedulable w2 fake cur t := by
  rw [Bool.eq_iff_iff, schedulable_iff, schedulable_iff]
  constructor
  · intro h1 p hp ft hft e
    have hp' : p ∈ tasks := e ▸ hf ft hft
    exact h1 p ((h.2 t ht p hp').2 hp) ft hft e
  · intro h1 p hp ft hft e
    have hp' : p ∈ tasks := e ▸ hf ft hft
    exact h1 p ((h.2 t ht p hp').1 hp) ft hft e

theorem scan_agree {w1 w2 : Workflow} {tasks : List Nat} (h : AgreeOn w1 w2 tasks)
    (s cur : ℚ) (todo : List (Nat × ℚ)) :
    ∀ (done : List (Nat × ℚ)) (idle : List ℚ) (num : Nat) (b : Bool),
      (∀ ft ∈ done ++ todo, ft.1 ∈ tasks) →
      scan w1 s cur done todo idle num b = scan w2 s cur done todo idle num b := by
  induction todo with
  | nil => intro done idle num b _; simp [scan]
  | cons ft rest ih =>
    intro done idle num b hmem
    have hft : ft.1 ∈ tasks := hmem ft (by simp)
    have hsame : ∀ x : Nat × ℚ, x.1 = ft.1 → ∀ y ∈ done ++ [x] ++ rest, y.1 ∈ tasks := by
      intro x hx y hy
      simp only [List.append_assoc, List.singleton_append, List.mem_append, List.mem_cons] at hy
      rcases hy with hy | hy | hy
      · exact hmem y (by simp [hy])
      · rw [hy, hx]; exact hft
      · exact hmem y (by simp [hy])
    have e1 := ih (done ++ [ft]) idle num b (by simpa using hsame ft rfl)
    unfold scan
    rw [schedulable_agree h _ cur ft.1 hft hmem, ← h.1 ft.1 hft]
    split
    · exact e1
    · split
      · split
        · exact ih _ _ _ _ (by simpa using hsame (ft.1, cur + w1.flops ft.1 / s) rfl)
        · exact e1
      · exact e1

theorem schedLoop_agree {w1 w2 : Workflow} {tasks : List Nat} (h : AgreeOn w1 w2 tasks)
    (s : ℚ) (n : Nat) (fuel : Nat) :
    ∀ (fake : List (Nat × ℚ)) (idle : List ℚ) (num : Nat) (cur : ℚ),
      (∀ ft ∈ fake, ft.1 ∈ tasks) →
      schedLoop w1 s n fuel fake idle num cur = schedLoop w2 s n fuel fake idle num cur := by
  induction fuel with
  | zero => intro fake idle num cur _; simp [schedLoop]
  | succ k ih =>
    intro fake idle num cur hmem
    unfold schedLoop
    split
    · simp only
      rw [scan_agree h s cur fake [] idle num false (by simpa using hmem)]
      apply ih
      intro ft hft
      have := scan_fake_fst w2 s cur fake [] idle num false
      have h2 : ft.1 ∈ (scan w2 s cur [] fake idle num false).fake_tasks.map Prod.fst :=
        List.mem_map_of_mem _ hft
      rw [this] at h2
      simp only [List.nil_append, List.mem_map] at h2
      obtain ⟨y, hy, e⟩ := h2
      rw [← e]; exact hmem y hy
    · rfl

theorem estimateMakespan_agree {w1 w2 : Workflow} {tasks : List Nat}
    (h : AgreeOn w1 w2 tasks) (fuel n : Nat) (s : ℚ) :
    estimateMakespan fuel w1 tasks n s = estimateMakespan fuel w2 tasks n s := by
  unfold estimateMakespan
  rw [schedLoop_agree h s tasks.length fuel _ _ _ _ (by
    intro ft hft
    simp only [List.mem_map] at hft
    obtain ⟨t, ht, e⟩ := hft
    rw [← e]; exact ht)]

theorem least_le : ∀ (l : List ℚ) (d : ℚ), d ∈ l → least l ≤ d
  | [a], d, h => by simp at h; simp [least, h]
  | a :: b :: l, d, h => by
    simp only [least]
    rcases List.mem_cons.1 h with h | h
    · rw [h]; exact min_le_left _ _
    · exact le_trans (min_le_right _ _) (least_le (b :: l) d h)

theorem least_mem : ∀ (l : List ℚ), l ≠ [] → least l ∈ l
  | [a], _ => by simp [least]
  | a :: b :: l, _ => by
    simp only [least]
    rcases min_choice a (least (b :: l)) with h | h
    · rw [h]; simp
    · rw [h]; exact List.mem_cons_of_mem _ (least_mem (b :: l) (by simp))

theorem placeOnHost_none (l : List ℚ) (c v : ℚ) :
    placeOnHost l c v = none ↔ ∀ d ∈ l, c < d := by
  induction l with
  | nil => simp [placeOnHost]
  | cons a l ih =>
    unfold placeOnHost
    by_cases h : a ≤ c
    · simp [h]
    · simp [h, ih, not_le.1 h]

theorem placeOnHost_some (l : List ℚ) (c v : ℚ) :
    ∀ r, placeOnHost l c v = some r →
      r.length = l.length ∧ v ∈ r ∧ (∀ x ∈ r, x = v ∨ x ∈ l) ∧
      ∃ e ∈ l, e ≤ c ∧ (∀ x ∈ l, x = e ∨ x ∈ r) ∧
        ∀ p : ℚ → Bool, r.countP p + (if p e then 1 else 0)
          = l.countP p + (if p v then 1 else 0) := by
  induction l with
  | nil => intro r h; simp [placeOnHost] at h
  | cons a l ih =>
    intro r h
    unfold placeOnHost at h
    by_cases hc : a ≤ c
    · simp only [hc, if_true, Option.some.injEq] at h
      subst h
      refine ⟨by simp, by simp, ?_, a, by simp, hc, ?_, ?_⟩
      · intro x hx; rcases List.mem_cons.1 hx with hx | hx
        · left; exact hx
        · right; exact List.mem_cons_of_mem _ hx
      · intro x hx; rcases List.mem_cons.1 hx with hx | hx
        · left; exact hx
        · right; exact List.mem_cons_of_mem _ hx
      · intro p
        simp only [List.countP_cons]
        by_cases h1 : p a <;> by_cases h2 : p v <;> simp [h1, h2]
    · simp only [hc, if_false, Option.map_eq_some'] at h
      obtain ⟨r', hr', e⟩ := h
      subst e
      obtain ⟨h1, h2, h3, e, he, hec, h4, h5⟩ := ih r' hr'
      refine ⟨by simp [h1], List.mem_cons_of_mem _ h2, ?_, e, List.mem_cons_of_mem _ he, hec, ?_, ?_⟩
      · intro x hx; rcases List.mem_cons.1 hx with hx | hx
        · right; rw [hx]; simp
        · rcases h3 x hx with h | h
          · left; exact h
          · right; exact List.mem_cons_of_mem _ h
      · intro x hx; rcases List.mem_cons.1 hx with hx | hx
        · right; rw [hx]; simp
        · rcases h4 x hx with h | h
          · left; exact h
          · right; exact List.mem_cons_of_mem _ h
      · intro p
        have := h5 p
        simp only [List.countP_cons]
        omega

theorem minIdle_aux_le (l : List ℚ) : ∀ (m : ℚ),
    l.foldl (fun m d => if d < m then d else m) m ≤ m ∧
    (∀ d ∈ l, l.foldl (fun m d => if d < m then d else m) m ≤ d) ∧
    (l.foldl (fun m d => if d < m then d else m) m = m ∨
      l.foldl (fun m d => if d < m then d else m) m ∈ l) := by
  induction l with
  | nil => intro m; simp
  | cons a l ih =>
    intro m
    simp only [List.foldl_cons]
    obtain ⟨h1, h2, h3⟩ := ih (if a < m then a else m)
    refine ⟨?_, ?_, ?_⟩
    · refine le_trans h1 ?_
      split
      · exact le_of_lt ‹_›
      · exact le_refl _
    · intro d hd
      rcases List.mem_cons.1 hd with hd | hd
      · refine le_trans h1 ?_
        rw [hd]
        split
        · exact le_refl _
        · exact not_lt.1 ‹_›
      · exact h2 d hd
    · rcases h3 with h | h
      · rw [h]
        split
        · right; simp
        · left; rfl
      · right; exact List.mem_cons_of_mem _ h

theorem minIdle_le (l : List ℚ) (d : ℚ) (h : d ∈ l) : minIdle l ≤ d :=
  (minIdle_aux_le l DBL_MAX).2.1 d h

theorem minIdle_le_max (l : List ℚ) : minIdle l ≤ DBL_MAX :=
  (minIdle_aux_le l DBL_MAX).1

theorem minIdle_mem (l : List ℚ) (h : ∃ d ∈ l, d ≤ DBL_MAX) : ∃ d ∈ l, d ≤ minIdle l := by
  rcases (minIdle_aux_le l DBL_MAX).2.2 with e | e
  · obtain ⟨d, hd, hle⟩ := h
    exact ⟨d, hd, by unfold minIdle; rw [e]; exact hle⟩
  · exact ⟨_, e, le_refl _⟩

theorem maxIdle_aux (l : List ℚ) : ∀ (m : ℚ),
    m ≤ l.foldl (fun m d => if m > d then m else d) m ∧
    (∀ d ∈ l, d ≤ l.foldl (fun m d => if m > d then m else d) m) ∧
    (l.foldl (fun m d => if m > d then m else d) m = m ∨
      l.foldl (fun m d => if m > d then m else d) m ∈ l) := by
  induction l with
  | nil => intro m; simp
  | cons a l ih =>
    intro m
    simp only [List.foldl_cons]
    obtain ⟨h1, h2, h3⟩ := ih (if m > a then m else a)
    refine ⟨?_, ?_, ?_⟩
    · refine le_trans ?_ h1
      split
      · exact le_refl _
      · exact not_lt.1 ‹_›
    · intro d hd
      rcases List.mem_cons.1 hd with hd | hd
      · refine le_trans ?_ h1
        rw [hd]
        split
        · exact le_of_lt ‹_›
        · exact le_refl _
      · exact h2 d hd
    · rcases h3 with h | h
      · rw [h]
        split
        · left; rfl
        · right; simp
      · right; exact List.mem_cons_of_mem _ h

theorem maxIdle_nonneg (l : List ℚ) : 0 ≤ maxIdle l := (maxIdle_aux l 0).1

theorem le_maxIdle (l : List ℚ) (d : ℚ) (h : d ∈ l) : d ≤ maxIdle l :=
  (maxIdle_aux l 0).2.1 d h

theorem maxIdle_le (l : List ℚ) (b : ℚ) (hb : 0 ≤ b) (h : ∀ d ∈ l, d ≤ b) : maxIdle l ≤ b := by
  rcases (maxIdle_aux l 0).2.2 with e | e
  · unfold maxIdle; rw [e]; exact hb
  · exact h _ e

theorem scan_skip (w : Workflow) (s cur : ℚ) (pre : List (Nat × ℚ)) :
    ∀ (done rest : List (Nat × ℚ)) (idle : List ℚ) (num : Nat) (b : Bool),
      (∀ e ∈ pre, 0 ≤ e.2) →
      scan w s cur done (pre ++ rest) idle num b = scan w s cur (done ++ pre) rest idle num b := by
  induction pre with
  | nil => intro done rest idle num b _; simp
  | cons e pre ih =>
    intro done rest idle num b h
    have he : e.2 ≥ 0 := h e (by simp)
    rw [List.cons_append, scan, if_pos he, ih _ _ _ _ _ (fun x hx => h x (List.mem_cons_of_mem _ hx))]
    simp

theorem scan_blocked (w : Workflow) (s cur : ℚ) (todo : List (Nat × ℚ)) :
    ∀ (done : List (Nat × ℚ)) (idle : List ℚ) (num : Nat) (b : Bool),
      (∀ d ∈ idle, cur < d) →
      scan w s cur done todo idle num b = ⟨done ++ todo, idle, num, b⟩ := by
  induction todo with
  | nil => intro done idle num b _; simp [scan]
  | cons e todo ih =>
    intro done idle num b h
    have hn : ∀ v, placeOnHost idle cur v = none := fun v => (placeOnHost_none idle cur v).2 h
    unfold scan
    rw [hn]
    simp only [ih _ _ _ _ h, List.append_assoc, List.singleton_append, ite_self]

theorem schedulable_indep {w : Workflow} {tasks : List Nat} (hI : Indep w tasks)
    (fake : List (Nat × ℚ)) (cur : ℚ) (t : Nat) (ht : t ∈ tasks)
    (hf : ∀ ft ∈ fake, ft.1 ∈ tasks) : schedulable w fake cur t = true := by
  rw [schedulable_iff]
  intro p hp ft hft e
  exact absurd (e ▸ hf ft hft) (hI t ht p hp)

theorem least_eq_of_bounds (idle : List ℚ) (cur : ℚ) (h1 : ∀ d ∈ idle, cur ≤ d)
    (h2 : ∃ d ∈ idle, d ≤ cur) : least idle = cur := by
  obtain ⟨d, hd, hle⟩ := h2
  have hne : idle ≠ [] := List.ne_nil_of_mem hd
  exact le_antisymm (le_trans (least_le idle d hd) hle) (h1 _ (least_mem idle hne))

theorem scan_indep {w : Workflow} {tasks : List Nat} (hI : Indep w tasks) (s cur : ℚ)
    (hs : 0 < s) (hf : ∀ t ∈ tasks, 0 ≤ w.flops t) (hcur : 0 ≤ cur) (ts : List Nat) :
    ∀ (done : List (Nat × ℚ)) (idle : List ℚ) (num : Nat) (b : Bool),
      (∀ t ∈ ts, t ∈ tasks) → (∀ ft ∈ done, ft.1 ∈ tasks) → (∀ d ∈ idle, cur ≤ d) →
      ∃ (j : Nat) (pre : List (Nat × ℚ)), j ≤ ts.length ∧ pre.length = j ∧
        (∀ e ∈ pre, 0 ≤ e.2) ∧ pre.map Prod.fst = ts.take j ∧
        scan w s cur done (fresh ts) idle num b =
          ⟨done ++ pre ++ fresh (ts.drop j), greedy idle ((ts.take j).map (dur w s)),
            num + j, b || decide (0 < j)⟩ ∧
        (∀ d ∈ greedy idle ((ts.take j).map (dur w s)), cur ≤ d) ∧
        ((∃ d ∈ idle, d ≤ cur) → ts ≠ [] → 0 < j) := by
  induction ts with
  | nil =>
    intro done idle num b _ _ hidle
    exact ⟨0, [], by simp, rfl, by simp, by simp, by simp [fresh, scan, greedy],
      by simpa [greedy] using hidle, by simp⟩
  | cons t ts ih =>
    intro done idle num b hts hdone hidle
    have ht : t ∈ tasks := hts t (by simp)
    have hd0 : 0 ≤ dur w s t := div_nonneg (hf t ht) (le_of_lt hs)
    have hsch : schedulable w (done ++ (t, (-1 : ℚ)) :: fresh ts) cur t = true := by
      apply schedulable_indep hI _ _ _ ht
      intro ft hft
      simp only [List.mem_append, List.mem_cons, fresh, List.mem_map] at hft
      rcases hft with h | h | ⟨x, hx, e⟩
      · exact hdone ft h
      · rw [h]; exact ht
      · rw [← e]; exact hts x (List.mem_cons_of_mem _ hx)
    have hneg : ¬ ((t, (-1 : ℚ)).2 ≥ 0) := by norm_num
    cases hp : placeOnHost idle cur (cur + w.flops t / s) with
    | none =>
      have hb := (placeOnHost_none idle cur _).1 hp
      refine ⟨0, [], by simp, rfl, by simp, by simp, ?_, by simpa [greedy] using hidle, ?_⟩
      · show scan w s cur done ((t, (-1 : ℚ)) :: fresh ts) idle num b = _
        rw [scan, if_neg hneg, if_pos hsch]
        simp only [hp]
        rw [scan_blocked _ _ _ _ _ _ _ _ hb]
        simp [greedy, fresh]
      · rintro ⟨d, hd, hle⟩ _
        exact absurd hle (not_le.2 (hb d hd))
    | some idle' =>
      obtain ⟨_, hv, hsub, e, he, hec, _, _⟩ := placeOnHost_some idle cur _ idle' hp
      have hl : least idle = cur := least_eq_of_bounds idle cur hidle ⟨e, he, hec⟩
      have hasg : assign idle (dur w s t) = idle' := by
        unfold assign dur
        rw [hl, hp]; rfl
      have hidle' : ∀ d ∈ idle', cur ≤ d := by
        intro d hd
        rcases hsub d hd with h | h
        · rw [h]; have : 0 ≤ w.flops t / s := hd0; linarith
        · exact hidle d h
      obtain ⟨j, pre, hj, hlen, hpre, hfst, hscan, hge, _⟩ :=
        ih (done ++ [(t, cur + w.flops t / s)]) idle' (num + 1) true
          (fun x hx => hts x (List.mem_cons_of_mem _ hx))
          (by
            intro ft hft
            simp only [List.mem_append, List.mem_singleton] at hft
            rcases hft with h | h
            · exact hdone ft h
            · rw [h]; exact ht)
          hidle'
      refine ⟨j + 1, (t, cur + w.flops t / s) :: pre, by simp [hj], by simp [hlen], ?_,
        by simp [hfst], ?_, ?_, by intros; omega⟩
      · intro x hx
        rcases List.mem_cons.1 hx with h | h
        · rw [h]; have : 0 ≤ w.flops t / s := hd0; show 0 ≤ cur + w.flops t / s; linarith
        · exact hpre x h
      · show scan w s cur done ((t, (-1 : ℚ)) :: fresh ts) idle num b = _
        rw [scan, if_neg hneg, if_pos hsch]
        simp only [hp]
        rw [hscan]
        simp [greedy, hasg, Nat.add_assoc, Nat.add_comm 1 j]
      · simpa [greedy, hasg] using hge

theorem greedy_append (ds : List ℚ) : ∀ (idle : List ℚ) (es : List ℚ),
    greedy idle (ds ++ es) = greedy (greedy idle ds) es := by
  induction ds with
  | nil => intro idle es; simp [greedy]
  | cons d ds ih => intro idle es; simp [greedy, ih]

theorem assign_mem (idle : List ℚ) (d x : ℚ) (hx : x ∈ assign idle d) :
    x = least idle + d ∨ x ∈ idle := by
  unfold assign at hx
  cases hp : placeOnHost idle (least idle) (least idle + d) with
  | none => rw [hp] at hx; right; simpa using hx
  | some r =>
    rw [hp] at hx
    exact (placeOnHost_some idle _ _ r hp).2.2.1 x (by simpa using hx)

theorem assign_length (idle : List ℚ) (d : ℚ) : (assign idle d).length = idle.length := by
  unfold assign
  cases hp : placeOnHost idle (least idle) (least idle + d) with
  | none => simp
  | some r => simpa using (placeOnHost_some idle _ _ r hp).1

theorem greedy_length (ds : List ℚ) : ∀ idle : List ℚ, (greedy idle ds).length = idle.length := by
  induction ds with
  | nil => intro idle; simp [greedy]
  | cons d ds ih => intro idle; simp [greedy, ih, assign_length]

theorem greedy_le (ds : List ℚ) : ∀ (idle : List ℚ) (B : ℚ),
    (∀ d ∈ idle, d ≤ B) → (∀ x ∈ ds, 0 ≤ x) → ∀ d ∈ greedy idle ds, d ≤ B + ds.sum := by
  induction ds with
  | nil => intro idle B h _ d hd; simpa [greedy] using h d hd
  | cons a ds ih =>
    intro idle B h hds d hd
    have ha : 0 ≤ a := hds a (by simp)
    simp only [greedy] at hd
    have := ih (assign idle a) (B + a) (by
      intro x hx
      rcases assign_mem idle a x hx with e | e
      · rw [e]
        by_cases hne : idle = []
        · subst hne; simp [assign, placeOnHost] at hx
        · have := h _ (least_mem idle hne); linarith
      · have := h x e; linarith) (fun x hx => hds x (List.mem_cons_of_mem _ hx)) d hd
    simp only [List.sum_cons]; linarith

theorem sum_take_le (ds : List ℚ) (h : ∀ x ∈ ds, 0 ≤ x) (i : Nat) : (ds.take i).sum ≤ ds.sum := by
  have e : ds.sum = (ds.take i).sum + (ds.drop i).sum := by
    rw [← List.sum_append, List.take_append_drop]
  have : 0 ≤ (ds.drop i).sum :=
    List.sum_nonneg (fun x hx => h x (List.mem_of_mem_drop hx))
  linarith

theorem schedLoop_indep {w : Workflow} {tasks : List Nat} (hI : Indep w tasks) (s : ℚ)
    (hs : 0 < s) (hf : ∀ t ∈ tasks, 0 ≤ w.flops t) (n : Nat) (hn : 0 < n)
    (hB : (tasks.map (dur w s)).sum ≤ DBL_MAX) (fuel : Nat) :
    ∀ (k : Nat) (pre : List (Nat × ℚ)) (cur : ℚ),
      pre.length = k → (∀ e ∈ pre, 0 ≤ e.2) → pre.map Prod.fst = tasks.take k →
      (∀ d ∈ greedy (List.replicate n 0) ((tasks.take k).map (dur w s)), cur ≤ d) →
      (∃ d ∈ greedy (List.replicate n 0) ((tasks.take k).map (dur w s)), d ≤ cur) →
      0 ≤ cur → k ≤ tasks.length → tasks.length - k ≤ fuel →
      schedLoop w s tasks.length fuel (pre ++ fresh (tasks.drop k))
        (greedy (List.replicate n 0) ((tasks.take k).map (dur w s))) k cur
        = some (greedy (List.replicate n 0) (tasks.map (dur w s))) := by
  induction fuel with
  | zero =>
    intro k pre cur _ _ _ _ _ _ hk hfuel
    have : k = tasks.length := by omega
    subst this
    simp [schedLoop]
  | succ fuel ih =>
    intro k pre cur hlen hpre hfst hge hex hcur hk hfuel
    by_cases hlt : k < tasks.length
    · rw [schedLoop, if_pos hlt]
      simp only
      have hpm : ∀ ft ∈ pre, ft.1 ∈ tasks := by
        intro ft hft
        have : ft.1 ∈ pre.map Prod.fst := List.mem_map_of_mem _ hft
        rw [hfst] at this
        exact List.mem_of_mem_take this
      obtain ⟨j, pre', hj, hlen', hpre', hfst', hscan, hge', hpos⟩ :=
        scan_indep hI s cur hs hf hcur (tasks.drop k) pre
          (greedy (List.replicate n 0) ((tasks.take k).map (dur w s))) k false
          (fun t ht => List.mem_of_mem_drop ht) hpm hge
      have hj0 : 0 < j := hpos hex (by
        intro e
        have := congrArg List.length e
        simp at this; omega)
      have htake : tasks.take (k + j) = tasks.take k ++ (tasks.drop k).take j := List.take_add _ _ _
      have hgr : greedy (greedy (List.replicate n 0) ((tasks.take k).map (dur w s)))
          (((tasks.drop k).take j).map (dur w s))
          = greedy (List.replicate n 0) ((tasks.take (k + j)).map (dur w s)) := by
        rw [htake, List.map_append, greedy_append]
      rw [scan_skip _ _ _ _ _ _ _ _ _ hpre, List.nil_append, hscan]
      simp only [hj0, decide_True, Bool.or_true, if_true, List.drop_drop]
      rw [hgr] at hge' ⊢
      have hjk : k + j ≤ tasks.length := by simp at hj; omega
      have hnn : ∀ x ∈ tasks.map (dur w s), 0 ≤ x := by
        intro x hx
        obtain ⟨t, ht, e⟩ := List.mem_map.1 hx
        rw [← e]; exact div_nonneg (hf t ht) (le_of_lt hs)
      have hbound : ∀ d ∈ greedy (List.replicate n 0) ((tasks.take (k + j)).map (dur w s)),
          d ≤ DBL_MAX := by
        intro d hd
        have h1 := greedy_le ((tasks.take (k + j)).map (dur w s)) (List.replicate n 0) 0
          (by intro x hx; rw [List.eq_of_mem_replicate hx])
          (by intro x hx; rw [List.map_take] at hx; exact hnn x (List.mem_of_mem_take hx)) d hd
        have h2 := sum_take_le (tasks.map (dur w s)) hnn (k + j)
        rw [← List.map_take] at h2
        linarith
      have hne : greedy (List.replicate n 0) ((tasks.take (k + j)).map (dur w s)) ≠ [] := by
        intro e
        have := congrArg List.length e
        rw [greedy_length] at this
        simp at this; omega
      obtain ⟨d0, hd0⟩ := List.exists_mem_of_ne_nil _ hne
      have hmin0 : 0 ≤ minIdle (greedy (List.replicate n 0) ((tasks.take (k + j)).map (dur w s))) := by
        obtain ⟨d, hd, hle⟩ := minIdle_mem _ ⟨d0, hd0, hbound d0 hd0⟩
        have := hge' d hd
        linarith
      have := ih (k + j) (pre ++ pre') (minIdle _) (by simp [hlen, hlen'])
        (by
          intro e he
          rcases List.mem_append.1 he with h | h
          · exact hpre e h
          · exact hpre' e h)
        (by rw [List.map_append, hfst, hfst', htake])
        (fun d hd => minIdle_le _ d hd)
        (minIdle_mem _ ⟨d0, hd0, hbound d0 hd0⟩) hmin0 hjk (by omega)
      exact this
    · have : k = tasks.length := by omega
      subst this
      rw [schedLoop, if_neg hlt]
      simp

theorem estimateMakespan_indep {w : Workflow} {tasks : List Nat} (hI : Indep w tasks) (s : ℚ)
    (hs : 0 < s) (hf : ∀ t ∈ tasks, 0 ≤ w.flops t) (n : Nat) (hn : 0 < n)
    (hB : (tasks.map (dur w s)).sum ≤ DBL_MAX) (fuel : Nat) (hfuel : tasks.length ≤ fuel) :
    estimateMakespan fuel w tasks n s
      = Run.ret (maxIdle (greedy (List.replicate n 0) (tasks.map (dur w s)))) := by
  unfold estimateMakespan
  rw [if_neg (by omega)]
  by_cases h0 : tasks.length = 0
  · rw [if_pos h0]
    have : tasks = [] := List.length_eq_zero.1 h0
    subst this
    simp only [List.map_nil, greedy]
    congr 1
    refine le_antisymm (maxIdle_nonneg _) (maxIdle_le _ 0 (le_refl _) ?_) |>.symm |>.symm
    intro d hd; rw [List.eq_of_mem_replicate hd]
  · rw [if_neg h0]
    have hne : List.replicate n (0 : ℚ) ≠ [] := by
      intro e; have := congrArg List.length e; simp at this; omega
    have := schedLoop_indep hI s hs hf n hn hB fuel 0 [] 0 rfl (by simp) (by simp)
      (by simp only [List.take_zero, List.map_nil, greedy]
          intro d hd; rw [List.eq_of_mem_replicate hd])
      (by simp only [List.take_zero, List.map_nil, greedy]
          obtain ⟨d, hd⟩ := List.exists_mem_of_ne_nil _ hne
          exact ⟨d, hd, by rw [List.eq_of_mem_replicate hd]⟩)
      (le_refl _) (Nat.zero_le _) (by simpa using hfuel)
    simp only [List.take_zero, List.map_nil, greedy, List.drop_zero, List.nil_append, fresh] at this
    rw [this]

theorem assign_count (idle : List ℚ) (d x : ℚ) (hne : idle ≠ []) (hd : 0 ≤ d) :
    countLE (assign idle d) x + (if least idle ≤ x ∧ x < least idle + d then 1 else 0)
      = countLE idle x := by
  unfold assign
  cases hp : placeOnHost idle (least idle) (least idle + d) with
  | none =>
    have := (placeOnHost_none idle _ _).1 hp _ (least_mem idle hne)
    exact absurd this (lt_irrefl _)
  | some r =>
    obtain ⟨_, _, _, e, he, hec, _, hcount⟩ := placeOnHost_some idle _ _ r hp
    have hel : e = least idle := le_antisymm hec (least_le idle e he)
    have := hcount (fun y => decide (y ≤ x))
    rw [hel] at this
    simp only [Option.getD_some, countLE]
    simp only [decide_eq_true_eq] at this
    by_cases h1 : least idle ≤ x
    · by_cases h2 : least idle + d ≤ x
      · have h3 : ¬ (x < least idle + d) := not_lt.2 h2
        simp only [h1, h2, h3, if_true, and_false, if_false] at this ⊢
        omega
      · have h3 : x < least idle + d := not_le.1 h2
        simp only [h1, h2, h3, if_true, and_self, if_false] at this ⊢
        omega
    · have h2 : ¬ (least idle + d ≤ x) := by
        intro h; apply h1; linarith
      simp only [h1, h2, false_and, if_false] at this ⊢
      omega

theorem assign_ne_nil (idle : List ℚ) (d : ℚ) (hne : idle ≠ []) : assign idle d ≠ [] := by
  intro e
  have := congrArg List.length e
  rw [assign_length] at this
  exact hne (List.length_eq_zero.1 this)

theorem least_assign_ge (idle : List ℚ) (d : ℚ) (hne : idle ≠ []) (hd : 0 ≤ d) :
    least idle ≤ least (assign idle d) := by
  rcases assign_mem idle d _ (least_mem _ (assign_ne_nil idle d hne)) with h | h
  · rw [h]; linarith
  · exact least_le idle _ h

theorem ahead_least (A B : List ℚ) (h : Ahead A B) : least B ≤ least A := by
  have h1 := h (least A) (le_refl _)
  have h2 : 0 < countLE B (least A) := by omega
  unfold countLE at h2
  rw [List.countP_pos_iff] at h2
  obtain ⟨b, hb, hle⟩ := h2
  exact le_trans (least_le B b hb) (by simpa using hle)

theorem ahead_assign (A B : List ℚ) (d : ℚ) (hA : A ≠ []) (hB : B ≠ []) (hd : 0 ≤ d)
    (h : Ahead A B) : Ahead (assign A d) (assign B d) := by
  intro x hx
  have hx' : least A ≤ x := le_trans (least_assign_ge A d hA hd) hx
  have h0 := h x hx'
  have hA' := assign_count A d x hA hd
  have hB' := assign_count B d x hB hd
  have hm := ahead_least A B h
  by_cases hb : least B ≤ x ∧ x < least B + d
  · have ha : least A ≤ x ∧ x < least A + d := ⟨hx', by linarith [hb.2]⟩
    rw [if_pos hb] at hB'
    rw [if_pos ha] at hA'
    omega
  · rw [if_neg hb] at hB'
    split at hA' <;> omega

theorem ahead_greedy (ds : List ℚ) : ∀ (A B : List ℚ), A ≠ [] → B ≠ [] →
    (∀ d ∈ ds, 0 ≤ d) → Ahead A B → Ahead (greedy A ds) (greedy B ds) := by
  induction ds with
  | nil => intro A B _ _ _ h; simpa [greedy] using h
  | cons d ds ih =>
    intro A B hA hB hds h
    simp only [greedy]
    exact ih _ _ (assign_ne_nil A d hA) (assign_ne_nil B d hB)
      (fun x hx => hds x (List.mem_cons_of_mem _ hx))
      (ahead_assign A B d hA hB (hds d (by simp)) h)

theorem least_replicate (n : Nat) (hn : 0 < n) (a : ℚ) : least (List.replicate n a) = a := by
  have hne : List.replicate n a ≠ [] := by
    intro e; have := congrArg List.length e; simp at this; omega
  exact List.eq_of_mem_replicate (least_mem _ hne)

theorem ahead_replicate (n : Nat) (hn : 0 < n) :
    Ahead (List.replicate n 0) (List.replicate (n + 1) 0) := by
  intro x hx
  rw [least_replicate n hn] at hx
  unfold countLE
  simp [List.countP_replicate, hx]

theorem maxIdle_of_ahead (A B : List ℚ) (hA : A ≠ []) (h : Ahead A B)
    (hlen : B.length = A.length + 1) : maxIdle B ≤ maxIdle A := by
  have h1 := h (maxIdle A) (le_maxIdle A _ (least_mem A hA))
  have h2 : countLE A (maxIdle A) = A.length := by
    unfold countLE
    rw [List.countP_eq_length]
    intro a ha
    simpa using le_maxIdle A a ha
  have h3 : countLE B (maxIdle A) = B.length := by
    have := List.countP_le_length (fun d => decide (d ≤ maxIdle A)) (l := B)
    unfold countLE at h1 h2 ⊢
    omega
  unfold countLE at h3
  rw [List.countP_eq_length] at h3
  exact maxIdle_le B _ (maxIdle_nonneg A) (fun d hd => by simpa using h3 d hd)

theorem greedy_mono_hosts (ds : List ℚ) (hds : ∀ d ∈ ds, 0 ≤ d) (n : Nat) (hn : 0 < n) :
    maxIdle (greedy (List.replicate (n + 1) 0) ds) ≤ maxIdle (greedy (List.replicate n 0) ds) := by
  have hA : List.replicate n (0 : ℚ) ≠ [] := by
    intro e; have := congrArg List.length e; simp at this; omega
  have hB : List.replicate (n + 1) (0 : ℚ) ≠ [] := by simp
  apply maxIdle_of_ahead _ _ _ (ahead_greedy ds _ _ hA hB hds (ahead_replicate n hn))
  · simp [greedy_length]
  · intro e
    have := congrArg List.length e
    rw [greedy_length] at this
    simp at this; omega

theorem placeOnHost_append_busy (l1 : List ℚ) (c v : ℚ) (h : ∀ x ∈ l1, c < x) (l2 : List ℚ) :
    placeOnHost (l1 ++ l2) c v = (placeOnHost l2 c v).map (fun r => l1 ++ r) := by
  induction l1 with
  | nil => simp
  | cons a l1 ih =>
    have ha : ¬ (a ≤ c) := not_le.2 (h a (by simp))
    rw [List.cons_append, placeOnHost, if_neg ha, ih (fun x hx => h x (List.mem_cons_of_mem _ hx))]
    cases placeOnHost l2 c v <;> simp

theorem rounds_full (n : Nat) (d : ℚ) (q : Nat) : rounds n d q n = rounds n d (q + 1) 0 := by
  simp [rounds]

theorem assign_rounds (n : Nat) (d : ℚ) (hd : 0 < d) (q r : Nat) (hr : r < n) :
    assign (rounds n d q r) d = rounds n d q (r + 1) := by
  obtain ⟨k, hk⟩ : ∃ k, n - r = k + 1 := ⟨n - r - 1, by omega⟩
  have hk' : n - (r + 1) = k := by omega
  have hq : ((q + 1 : Nat) : ℚ) * d = (q : ℚ) * d + d := by push_cast; ring
  have hl : least (rounds n d q r) = (q : ℚ) * d := by
    apply least_eq_of_bounds
    · intro x hx
      simp only [rounds, List.mem_append] at hx
      rcases hx with h | h
      · rw [List.eq_of_mem_replicate h, hq]; linarith
      · rw [List.eq_of_mem_replicate h]
    · refine ⟨(q : ℚ) * d, ?_, le_refl _⟩
      simp only [rounds, List.mem_append, hk]
      right; simp [List.replicate_succ]
  unfold assign
  rw [hl]
  unfold rounds
  rw [placeOnHost_append_busy _ _ _ (by
    intro x hx
    rw [List.eq_of_mem_replicate hx, hq]; linarith), hk, hk', List.replicate_succ, placeOnHost,
    if_pos (le_refl _)]
  simp only [Option.map_some', Option.getD_some]
  rw [List.replicate_succ' r, List.append_assoc, hq]
  rfl

theorem assign_zero (n : Nat) (hn : 0 < n) : assign (List.replicate n 0) 0 = List.replicate n 0 := by
  obtain ⟨k, hk⟩ : ∃ k, n = k + 1 := ⟨n - 1, by omega⟩
  unfold assign
  rw [least_replicate n hn, hk, List.replicate_succ, placeOnHost, if_pos (le_refl _)]
  simp

theorem greedy_zero (n : Nat) (hn : 0 < n) (m : Nat) :
    greedy (List.replicate n 0) (List.replicate m 0) = List.replicate n 0 := by
  induction m with
  | zero => simp [greedy]
  | succ m ih => rw [List.replicate_succ, greedy, assign_zero n hn, ih]

theorem greedy_rounds (n : Nat) (d : ℚ) (hd : 0 < d) (k : Nat) :
    ∀ (q r : Nat), r < n →
      greedy (rounds n d q r) (List.replicate k d)
        = rounds n d ((q * n + r + k) / n) ((q * n + r + k) % n) := by
  induction k with
  | zero =>
    intro q r hr
    have h1 : (q * n + r) / n = q := by
      rw [Nat.add_comm, Nat.add_mul_div_right _ _ (by omega), Nat.div_eq_of_lt hr]; simp
    have h2 : (q * n + r) % n = r := by
      rw [Nat.add_comm, Nat.add_mul_mod_self_right, Nat.mod_eq_of_lt hr]
    simp [greedy, h1, h2]
  | succ k ih =>
    intro q r hr
    rw [List.replicate_succ, greedy, assign_rounds n d hd q r hr]
    by_cases h : r + 1 < n
    · rw [ih q (r + 1) h]
      have : q * n + (r + 1) + k = q * n + r + (k + 1) := by omega
      rw [this]
    · have hrn : r + 1 = n := by omega
      rw [hrn, rounds_full, ih (q + 1) 0 (by omega)]
      have : (q + 1) * n + 0 + k = q * n + r + (k + 1) := by
        rw [Nat.add_mul]; omega
      rw [this]

theorem maxIdle_rounds (n : Nat) (d : ℚ) (hd : 0 ≤ d) (q r : Nat) (hr : r < n) :
    maxIdle (rounds n d q r) = ((if r = 0 then q else q + 1 : Nat) : ℚ) * d := by
  have hq : ((q + 1 : Nat) : ℚ) * d = (q : ℚ) * d + d := by push_cast; ring
  have hq0 : 0 ≤ (q : ℚ) * d := mul_nonneg (Nat.cast_nonneg _) hd
  by_cases h0 : r = 0
  · subst h0
    simp only [if_true]
    apply le_antisymm
    · apply maxIdle_le _ _ hq0
      intro x hx
      simp only [rounds, List.replicate_zero, List.nil_append] at hx
      rw [List.eq_of_mem_replicate hx]
    · apply le_maxIdle
      obtain ⟨k, hk⟩ : ∃ k, n = k + 1 := ⟨n - 1, by omega⟩
      simp [rounds, hk, List.replicate_succ]
  · simp only [h0, if_false]
    apply le_antisymm
    · apply maxIdle_le _ _ (by rw [hq]; linarith)
      intro x hx
      simp only [rounds, List.mem_append] at hx
      rcases hx with h | h
      · rw [List.eq_of_mem_replicate h]
      · rw [List.eq_of_mem_replicate h, hq]; linarith
    · apply le_maxIdle
      obtain ⟨k, hk⟩ : ∃ k, r = k + 1 := ⟨r - 1, by omega⟩
      simp [rounds, hk, List.replicate_succ]

theorem ceil_div_eq (m n : Nat) (hn : 0 < n) :
    ⌈(m : ℚ) / n⌉₊ = if m % n = 0 then m / n else m / n + 1 := by
  have hnq : (0 : ℚ) < n := by exact_mod_cast hn
  have hm : (m : ℚ) = ((m / n : Nat) : ℚ) * n + ((m % n : Nat) : ℚ) := by
    have := Nat.div_add_mod m n
    have h2 : ((n * (m / n) + m % n : Nat) : ℚ) = m := by rw [this]
    push_cast at h2
    linarith
  have hr : ((m % n : Nat) : ℚ) < n := by exact_mod_cast Nat.mod_lt m hn
  by_cases h0 : m % n = 0
  · rw [if_pos h0]
    rw [h0] at hm
    have : (m : ℚ) / n = ((m / n : Nat) : ℚ) := by
      rw [hm]; field_simp
    rw [this, Nat.ceil_natCast]
  · rw [if_neg h0, Nat.ceil_eq_iff (Nat.succ_ne_zero _)]
    have hpos : (0 : ℚ) < ((m % n : Nat) : ℚ) := by
      exact_mod_cast Nat.pos_of_ne_zero h0
    constructor
    · rw [lt_div_iff₀ hnq]
      have : m / n + 1 - 1 = m / n := Nat.add_sub_cancel _ _
      rw [this]
      linarith
    · rw [div_le_iff₀ hnq]
      push_cast
      nlinarith

theorem greedy_uniform (n : Nat) (hn : 0 < n) (d : ℚ) (hd : 0 ≤ d) (m : Nat) :
    maxIdle (greedy (List.replicate n 0) (List.replicate m d)) = (⌈(m : ℚ) / n⌉₊ : ℚ) * d := by
  rcases eq_or_lt_of_le hd with h | h
  · subst h
    rw [greedy_zero n hn]
    simp only [mul_zero]
    apply le_antisymm
    · exact maxIdle_le _ _ (le_refl _) (fun x hx => by rw [List.eq_of_mem_replicate hx])
    · exact maxIdle_nonneg _
  · have h0 : List.replicate n (0 : ℚ) = rounds n d 0 0 := by simp [rounds]
    rw [h0, greedy_rounds n d h m 0 0 hn,
      maxIdle_rounds n d hd _ _ (Nat.mod_lt _ hn), ceil_div_eq m n hn]
    simp

theorem scan_flag_mono (w : Workflow) (s cur : ℚ) (todo : List (Nat × ℚ)) :
    ∀ (done : List (Nat × ℚ)) (idle : List ℚ) (num : Nat),
      (scan w s cur done todo idle num true).scheduled_something = true := by
  induction todo with
  | nil => intro done idle num; simp [scan]
  | cons ft rest ih =>
    intro done idle num
    unfold scan
    split
    · exact ih _ _ _
    · split
      · split
        · exact ih _ _ _
        · exact ih _ _ _
      · exact ih _ _ _

theorem scan_progress (w : Workflow) (s cur : ℚ) (todo : List (Nat × ℚ)) :
    ∀ (done : List (Nat × ℚ)) (idle : List ℚ) (num : Nat) (b : Bool),
      (∃ d ∈ idle, d ≤ cur) →
      (∃ e ∈ todo, e.2 < 0 ∧ schedulable w (done ++ todo) cur e.1 = true) →
      (scan w s cur done todo idle num b).scheduled_something = true := by
  induction todo with
  | nil => intro done idle num b _ h; simp at h
  | cons ft rest ih =>
    intro done idle num b hidle hex
    obtain ⟨e, he, hneg, hsch⟩ := hex
    have hsame : done ++ [ft] ++ rest = done ++ ft :: rest := by simp
    unfold scan
    by_cases h0 : ft.2 ≥ 0
    · rw [if_pos h0]
      have hne : e ≠ ft := by
        intro h; rw [h] at hneg; exact absurd h0 (not_le.2 hneg)
      have her : e ∈ rest := by
        rcases List.mem_cons.1 he with h | h
        · exact absurd h hne
        · exact h
      exact ih _ _ _ _ hidle ⟨e, her, hneg, by rw [hsame]; exact hsch⟩
    · rw [if_neg h0]
      by_cases h1 : schedulable w (done ++ ft :: rest) cur ft.1 = true
      · rw [if_pos h1]
        cases hp : placeOnHost idle cur (cur + w.flops ft.1 / s) with
        | none =>
          obtain ⟨d, hd, hle⟩ := hidle
          exact absurd hle (not_le.2 ((placeOnHost_none _ _ _).1 hp d hd))
        | some idle' => exact scan_flag_mono _ _ _ _ _ _ _
      · rw [if_neg h1]
        have hne : e ≠ ft := by
          intro h; rw [h] at hsch; exact h1 hsch
        have her : e ∈ rest := by
          rcases List.mem_cons.1 he with h | h
          · exact absurd h hne
          · exact h
        exact ih _ _ _ _ hidle ⟨e, her, hneg, by rw [hsame]; exact hsch⟩

theorem placed_append (l1 l2 : List (Nat × ℚ)) : placed (l1 ++ l2) = placed l1 + placed l2 := by
  simp [placed, List.countP_append]

theorem work_append (w : Workflow) (s : ℚ) (l1 l2 : List (Nat × ℚ)) :
    work w s (l1 ++ l2) = work w s l1 + work w s l2 := by
  simp [work, List.map_append, List.sum_append]

theorem placed_cons (e : Nat × ℚ) (l : List (Nat × ℚ)) :
    placed (e :: l) = placed l + (if 0 ≤ e.2 then 1 else 0) := by
  by_cases h : 0 ≤ e.2 <;> simp [placed, List.countP_cons, h]

theorem work_cons (w : Workflow) (s : ℚ) (e : Nat × ℚ) (l : List (Nat × ℚ)) :
    work w s (e :: l) = (if 0 ≤ e.2 then dur w s e.1 else 0) + work w s l := by
  simp [work]

theorem scan_placed (w : Workflow) (s cur : ℚ) (hcur : 0 ≤ cur) (todo : List (Nat × ℚ)) :
    ∀ (done : List (Nat × ℚ)) (idle : List ℚ) (num : Nat) (b : Bool),
      (∀ e ∈ todo, 0 ≤ w.flops e.1 / s) →
      (scan w s cur done todo idle num b).num_scheduled_tasks + placed (done ++ todo)
        = num + placed (scan w s cur done todo idle num b).fake_tasks ∧
      (b = false → (scan w s cur done todo idle num b).scheduled_something = true →
        num < (scan w s cur done todo idle num b).num_scheduled_tasks) ∧
      num ≤ (scan w s cur done todo idle num b).num_scheduled_tasks := by
  induction todo with
  | nil => intro done idle num b _; simp [scan]
  | cons ft rest ih =>
    intro done idle num b hfl
    have hfl' : ∀ e ∈ rest, 0 ≤ w.flops e.1 / s := fun e he => hfl e (List.mem_cons_of_mem _ he)
    have hsame : done ++ [ft] ++ rest = done ++ ft :: rest := by simp
    have keep := ih (done ++ [ft]) idle num b hfl'
    rw [hsame] at keep
    unfold scan
    split
    · exact keep
    · rename_i h0
      split
      · split
        · rename_i idle' hp
          obtain ⟨h1, _, h3⟩ := ih (done ++ [(ft.1, cur + w.flops ft.1 / s)]) idle' (num + 1) true hfl'
          have hd := hfl ft (by simp)
          have e1 : placed (done ++ [(ft.1, cur + w.flops ft.1 / s)] ++ rest)
              = placed (done ++ ft :: rest) + 1 := by
            have : (0 : ℚ) ≤ cur + w.flops ft.1 / s := by linarith
            have h0' : ¬ (0 ≤ ft.2) := h0
            have hL : placed (done ++ [(ft.1, cur + w.flops ft.1 / s)] ++ rest)
                = placed done + (placed rest + 1) := by
              rw [List.append_assoc, placed_append, List.singleton_append, placed_cons, if_pos this]
            have hR : placed (done ++ ft :: rest) = placed done + (placed rest + 0) := by
              rw [placed_append, placed_cons, if_neg h0']
            omega
          rw [e1] at h1
          refine ⟨by omega, fun _ _ => by omega, by omega⟩
        · exact keep
      · exact keep

theorem scan_one (w : Workflow) (s cur : ℚ) (hcur : 0 ≤ cur) (todo : List (Nat × ℚ)) :
    ∀ (done : List (Nat × ℚ)) (I : ℚ) (num : Nat) (b : Bool),
      cur ≤ I → (∀ e ∈ todo, 0 ≤ w.flops e.1 / s) →
      (∀ e ∈ done ++ todo, 0 ≤ e.2 → e.2 ≤ I) →
      ∃ I', (scan w s cur done todo [I] num b).idle_date = [I'] ∧ cur ≤ I' ∧
        I' + work w s (done ++ todo) = I + work w s (scan w s cur done todo [I] num b).fake_tasks ∧
        ∀ e ∈ (scan w s cur done todo [I] num b).fake_tasks, 0 ≤ e.2 → e.2 ≤ I' := by
  induction todo with
  | nil => intro done I num b hI _ hc; exact ⟨I, by simp [scan], hI, by simp [scan], by simpa [scan] using hc⟩
  | cons ft rest ih =>
    intro done I num b hI hfl hc
    have hfl' : ∀ e ∈ rest, 0 ≤ w.flops e.1 / s := fun e he => hfl e (List.mem_cons_of_mem _ he)
    have hsame : done ++ [ft] ++ rest = done ++ ft :: rest := by simp
    have keep := ih (done ++ [ft]) I num b hI hfl' (by rw [hsame]; exact hc)
    rw [hsame] at keep
    unfold scan
    split
    · exact keep
    · rename_i h0
      split
      · split
        · rename_i idle' hp
          have hd := hfl ft (by simp)
          have hIc : I ≤ cur := by
            by_contra hcon
            simp [placeOnHost, hcon] at hp
          have hidle' : idle' = [cur + w.flops ft.1 / s] := by
            simp [placeOnHost, hIc] at hp
            exact hp.symm
          have hIeq : I = cur := le_antisymm hIc hI
          subst hidle'
          obtain ⟨I', h1, h2, h3, h4⟩ := ih (done ++ [(ft.1, cur + w.flops ft.1 / s)])
            (cur + w.flops ft.1 / s) (num + 1) true (by linarith) hfl' (by
              intro e he hnn
              simp only [List.append_assoc, List.singleton_append, List.mem_append,
                List.mem_cons] at he
              rcases he with h | h | h
              · have := hc e (by simp [h]) hnn; linarith
              · rw [h]
              · have := hc e (by simp [h]) hnn; linarith)
          refine ⟨I', h1, h2, ?_, h4⟩
          have e1 : work w s (done ++ [(ft.1, cur + w.flops ft.1 / s)] ++ rest)
              = work w s (done ++ ft :: rest) + w.flops ft.1 / s := by
            have : (0 : ℚ) ≤ cur + w.flops ft.1 / s := by linarith
            have h0' : ¬ (0 ≤ ft.2) := h0
            have hL : work w s (done ++ [(ft.1, cur + w.flops ft.1 / s)] ++ rest)
                = work w s done + (dur w s ft.1 + work w s rest) := by
              rw [List.append_assoc, work_append, List.singleton_append, work_cons, if_pos this]
            have hR : work w s (done ++ ft :: rest) = work w s done + (0 + work w s rest) := by
              rw [work_append, work_cons, if_neg h0']
            rw [hL, hR]
            simp only [dur]
            ring
          rw [e1] at h3
          linarith
        · exact keep
      · exact keep

theorem exists_schedulable {w : Workflow} {tasks : List Nat} (hA : Acyclic w tasks)
    (fake : List (Nat × ℚ)) (cur : ℚ) (hmem : ∀ e ∈ fake, e.1 ∈ tasks)
    (hun : ∃ e ∈ fake, e.2 < 0) (hc : ∀ e ∈ fake, 0 ≤ e.2 → e.2 ≤ cur) :
    ∃ e ∈ fake, e.2 < 0 ∧ schedulable w fake cur e.1 = true := by
  classical
  obtain ⟨rank, hrank⟩ := hA
  have hex : ∃ r, ∃ e ∈ fake, e.2 < 0 ∧ rank e.1 = r := by
    obtain ⟨e, he, hneg⟩ := hun
    exact ⟨rank e.1, e, he, hneg, rfl⟩
  obtain ⟨e, he, hneg, hr⟩ := Nat.find_spec hex
  refine ⟨e, he, hneg, ?_⟩
  rw [schedulable_iff]
  intro p hp ft hft hfp
  have hpt : p ∈ tasks := hfp ▸ hmem ft hft
  have hlt : rank p < rank e.1 := hrank e.1 (hmem e he) p hp hpt
  have h0 : 0 ≤ ft.2 := by
    by_contra hcon
    have : Nat.find hex ≤ rank ft.1 := Nat.find_min' hex ⟨ft, hft, not_le.1 hcon, rfl⟩
    rw [hfp] at this
    omega
  exact ⟨h0, hc ft hft h0⟩

theorem work_le (w : Workflow) (s : ℚ) (fake : List (Nat × ℚ))
    (h : ∀ e ∈ fake, 0 ≤ dur w s e.1) :
    work w s fake ≤ ((fake.map Prod.fst).map (dur w s)).sum := by
  induction fake with
  | nil => simp [work]
  | cons e l ih =>
    rw [work_cons]
    simp only [List.map_cons, List.sum_cons]
    have := ih (fun x hx => h x (List.mem_cons_of_mem _ hx))
    have := h e (by simp)
    split <;> linarith

theorem work_all (w : Workflow) (s : ℚ) (fake : List (Nat × ℚ))
    (h : placed fake = fake.length) :
    work w s fake = ((fake.map Prod.fst).map (dur w s)).sum := by
  unfold placed at h
  rw [List.countP_eq_length] at h
  induction fake with
  | nil => simp [work]
  | cons e l ih =>
    rw [work_cons]
    simp only [List.map_cons, List.sum_cons]
    have he : 0 ≤ e.2 := by simpa using h e (by simp)
    rw [if_pos he, ih (fun x hx => h x (List.mem_cons_of_mem _ hx))]

theorem placed_le (fake : List (Nat × ℚ)) : placed fake ≤ fake.length :=
  List.countP_le_length _

theorem exists_unplaced (fake : List (Nat × ℚ)) (h : placed fake < fake.length) :
    ∃ e ∈ fake, e.2 < 0 := by
  by_contra hcon
  have : placed fake = fake.length := by
    unfold placed
    rw [List.countP_eq_length]
    intro e he
    have : ¬ e.2 < 0 := fun hlt => hcon ⟨e, he, hlt⟩
    simpa using not_lt.1 this
  omega

theorem minIdle_single (I : ℚ) (h : I ≤ DBL_MAX) : minIdle [I] = I := by
  simp only [minIdle, List.foldl_cons, List.foldl_nil]
  split
  · rfl
  · exact le_antisymm (not_lt.1 ‹_›) h

theorem schedLoop_one {w : Workflow} {tasks : List Nat} (hA : Acyclic w tasks) (s : ℚ)
    (hs : 0 < s) (hf : ∀ t ∈ tasks, 0 ≤ w.flops t)
    (hB : (tasks.map (dur w s)).sum ≤ DBL_MAX) (fuel : Nat) :
    ∀ (fake : List (Nat × ℚ)) (num : Nat),
      fake.map Prod.fst = tasks → num = placed fake →
      (∀ e ∈ fake, 0 ≤ e.2 → e.2 ≤ work w s fake) → 0 ≤ work w s fake →
      tasks.length - num ≤ fuel →
      schedLoop w s tasks.length fuel fake [work w s fake] num (work w s fake)
        = some [(tasks.map (dur w s)).sum] := by
  induction fuel with
  | zero =>
    intro fake num hfst hnum _ _ hfuel
    have hlen : fake.length = tasks.length := by rw [← hfst]; simp
    have hp := placed_le fake
    have hall : placed fake = fake.length := by omega
    rw [schedLoop, if_neg (by omega), work_all w s fake hall, hfst]
  | succ fuel ih =>
    intro fake num hfst hnum hc h0 hfuel
    have hlen : fake.length = tasks.length := by rw [← hfst]; simp
    have hmem : ∀ e ∈ fake, e.1 ∈ tasks := by
      intro e he; rw [← hfst]; exact List.mem_map_of_mem _ he
    have hdur : ∀ e ∈ fake, 0 ≤ w.flops e.1 / s :=
      fun e he => div_nonneg (hf _ (hmem e he)) (le_of_lt hs)
    by_cases hlt : num < tasks.length
    · rw [schedLoop, if_pos hlt]
      simp only
      obtain ⟨I', h1, h2, h3, h4⟩ := scan_one w s (work w s fake) h0 fake [] (work w s fake) num
        false (le_refl _) hdur (by simpa using hc)
      obtain ⟨p1, p2, _⟩ := scan_placed w s (work w s fake) h0 fake [] [work w s fake] num
        false hdur
      have hflag := scan_progress w s (work w s fake) fake [] [work w s fake] num false
        ⟨_, by simp, le_refl _⟩ (by
          simpa using exists_schedulable hA fake (work w s fake) hmem
            (exists_unplaced fake (by omega)) hc)
      have hfst' := scan_fake_fst w s (work w s fake) fake [] [work w s fake] num false
      simp only [List.nil_append] at h3 p1 hfst'
      rw [hfst] at hfst'
      have hI' : I' = work w s (scan w s (work w s fake) [] fake [work w s fake] num
          false).fake_tasks := by linarith
      have hle : I' ≤ DBL_MAX := by
        rw [hI']
        refine le_trans (work_le w s _ ?_) (by rw [hfst']; exact hB)
        intro e he
        have : e.1 ∈ tasks := by rw [← hfst']; exact List.mem_map_of_mem _ he
        exact div_nonneg (hf _ this) (le_of_lt hs)
      rw [hflag, h1, if_pos rfl, minIdle_single I' hle, hI']
      rw [hI'] at h4
      apply ih _ _ hfst' (by omega) h4 (by rw [← hI']; linarith)
      have := p2 rfl hflag
      omega
    · have hp := placed_le fake
      have hall : placed fake = fake.length := by omega
      rw [schedLoop, if_neg hlt, work_all w s fake hall, hfst]

theorem estimateMakespan_one_host {w : Workflow} {tasks : List Nat} (hA : Acyclic w tasks)
    (s : ℚ) (hs : 0 < s) (hf : ∀ t ∈ tasks, 0 ≤ w.flops t)
    (hB : (tasks.map (dur w s)).sum ≤ DBL_MAX) (fuel : Nat) (hfuel : tasks.length ≤ fuel) :
    estimateMakespan fuel w tasks 1 s = Run.ret (tasks.map (dur w s)).sum := by
  unfold estimateMakespan
  rw [if_neg (by omega)]
  by_cases h0 : tasks.length = 0
  · rw [if_pos h0]
    have : tasks = [] := List.length_eq_zero.1 h0
    subst this
    simp
  · rw [if_neg h0]
    have hw : work w s (tasks.map fun t => (t, (-1 : ℚ))) = 0 := by
      clear hA hf hB hfuel h0
      induction tasks with
      | nil => simp [work]
      | cons t l ih => rw [List.map_cons, work_cons, ih]; norm_num
    have hpl : placed (tasks.map fun t => (t, (-1 : ℚ))) = 0 := by
      clear hA hf hB hfuel h0 hw
      induction tasks with
      | nil => simp [placed]
      | cons t l ih => rw [List.map_cons, placed_cons, ih]; norm_num
    have := schedLoop_one hA s hs hf hB fuel (tasks.map fun t => (t, (-1 : ℚ))) 0
      (by simp [Function.comp_def]) hpl.symm
      (by
        intro e he h
        obtain ⟨t, _, rfl⟩ := List.mem_map.1 he
        norm_num at h)
      (by rw [hw]) (by omega)
    rw [hw] at this
    simp only [List.replicate_one]
    rw [this]
    have hnn : 0 ≤ (tasks.map (dur w s)).sum :=
      List.sum_nonneg (fun x hx => by
        obtain ⟨t, ht, e⟩ := List.mem_map.1 hx
        rw [← e]; exact div_nonneg (hf t ht) (le_of_lt hs))
    have hmax : maxIdle [(tasks.map (dur w s)).sum] = (tasks.map (dur w s)).sum :=
      le_antisymm (maxIdle_le _ _ hnn (by simp)) (le_maxIdle _ _ (by simp))
    simp only [hmax]

theorem sum_map_dur (w : Workflow) (s : ℚ) (tasks : List Nat) :
    (tasks.map (dur w s)).sum = (tasks.map w.flops).sum / s := by
  induction tasks with
  | nil => simp
  | cons t l ih => simp only [List.map_cons, List.sum_cons, ih, dur]; ring

theorem acyclic_of_chain (w : Workflow) (chain tasks : List Nat) (hperm : tasks.Perm chain)
    (hchain : ∀ (i : Nat) (hi : i < chain.length) (j : Nat) (hj : j < chain.length),
      chain[j] ∈ w.parents chain[i] ↔ j + 1 = i) : Acyclic w tasks := by
  refine ⟨fun t => chain.indexOf t, ?_⟩
  intro t ht p hp hpt
  have ht' : t ∈ chain := hperm.mem_iff.1 ht
  have hp' : p ∈ chain := hperm.mem_iff.1 hpt
  have hi := List.indexOf_lt_length.2 ht'
  have hj := List.indexOf_lt_length.2 hp'
  have := (hchain _ hi _ hj).1 (by
    rw [List.getElem_indexOf hi, List.getElem_indexOf hj]; exact hp)
  show chain.indexOf p < chain.indexOf t
  omega

/-- C1 (counterexample): with the six tasks of `anomalyWorkflow` listed as
`[2, 5, 1, 3, 4, 0]` at core speed 1, two hosts give the makespan 9 and three hosts the
makespan 10: adding a host increased the estimate. -/
theorem estimateMakespan_third_host_slower :
    estimateMakespan 10 anomalyWorkflow [2, 5, 1, 3, 4, 0] 2 1 = Run.ret 9 ∧
    estimateMakespan 10 anomalyWorkflow [2, 5, 1, 3, 4, 0] (2 + 1) 1 = Run.ret 10 ∧
    ¬ ((10 : ℚ) ≤ 9) := by
  refine ⟨by decide!, by decide!, by norm_num⟩

/-- C1 (amended): for a task list in which no task has a parent inside the list, with
non-negative flops, `n >= 1` hosts, core speed `s > 0` and a total run time inside the
finite double range, `estimateMakespan` returns on `n` and on `n + 1` hosts (fuel of the
list length suffices) and the estimate on `n + 1` hosts is not larger. -/
theorem estimateMakespan_mono_hosts_indep (w : Workflow) (tasks : List Nat) (n : Nat) (s : ℚ)
    (fuel : Nat) (hn : 1 ≤ n) (hs : 0 < s)
    (hI : ∀ t ∈ tasks, ∀ p ∈ w.parents t, p ∉ tasks)
    (hf : ∀ t ∈ tasks, 0 ≤ w.flops t)
    (hB : (tasks.map w.flops).sum / s ≤ DBL_MAX) (hfuel : tasks.length ≤ fuel) :
    ∃ a b, estimateMakespan fuel w tasks n s = Run.ret a ∧
      estimateMakespan fuel w tasks (n + 1) s = Run.ret b ∧ b ≤ a := by
  have hB' : (tasks.map (dur w s)).sum ≤ DBL_MAX := by rw [sum_map_dur]; exact hB
  refine ⟨_, _, estimateMakespan_indep hI s hs hf n hn hB' fuel hfuel,
    estimateMakespan_indep hI s hs hf (n + 1) (Nat.succ_pos n) hB' fuel hfuel, ?_⟩
  apply greedy_mono_hosts _ _ n hn
  intro d hd
  obtain ⟨t, ht, e⟩ := List.mem_map.1 hd
  rw [← e]; exact div_nonneg (hf t ht) (le_of_lt hs)

/-- C1 (amended), instance: three independent tasks of `anomalyWorkflow` on 2 and 3
hosts. -/
theorem estimateMakespan_mono_hosts_indep_witness :
    ∃ a b, estimateMakespan 3 anomalyWorkflow [0, 1, 2] 2 1 = Run.ret a ∧
      estimateMakespan 3 anomalyWorkflow [0, 1, 2] (2 + 1) 1 = Run.ret b ∧ b ≤ a :=
  estimateMakespan_mono_hosts_indep anomalyWorkflow [0, 1, 2] 2 1 3 (by decide) (by decide)
    (by decide) (by decide!) (by decide!) (by decide)

/-- C4: `WorkflowUtil::estimateMakespan` and both overloads of
`ClusteredJob::estimateMakespan` throw exactly when the host count is 0, whatever the
task list, fuel and core speed; with a host count `n + 1` and an empty task list they
return 0. -/
theorem estimateMakespan_throws_iff_zero_hosts (fuel : Nat) (w : Workflow) (tasks : List Nat)
    (n : Nat) (s : ℚ) (flag : Bool) :
    ((∃ e, estimateMakespan fuel w tasks n s = Run.throw e) ↔ n = 0) ∧
    ((∃ e, ClusteredJob.estimateMakespan fuel w ⟨tasks, n, flag⟩ s = Run.throw e) ↔ n = 0) ∧
    ((∃ e, ClusteredJob.estimateMakespanOn fuel w ⟨tasks, 0, flag⟩ s n = Run.throw e) ↔ n = 0) ∧
    estimateMakespan fuel w [] (n + 1) s = Run.ret 0 ∧
    ClusteredJob.estimateMakespan fuel w ⟨[], n + 1, flag⟩ s = Run.ret 0 ∧
    ClusteredJob.estimateMakespanOn fuel w ⟨[], 0, flag⟩ s (n + 1) = Run.ret 0 := by
  have key : (∃ e, estimateMakespan fuel w tasks n s = Run.throw e) ↔ n = 0 := by
    unfold estimateMakespan
    constructor
    · rintro ⟨e, he⟩
      by_contra hn
      rw [if_neg hn] at he
      split at he
      · cases he
      · split at he <;> cases he
    · intro hn
      exact ⟨Failure.zeroHosts, by rw [if_pos hn]⟩
  refine ⟨key, ?_, ?_, by simp [estimateMakespan], by simp [ClusteredJob.estimateMakespan, estimateMakespan],
    by simp [ClusteredJob.estimateMakespanOn, estimateMakespan]⟩
  · unfold ClusteredJob.estimateMakespan
    constructor
    · rintro ⟨e, he⟩
      by_contra hn
      simp only [if_neg hn] at he
      exact hn (key.1 ⟨e, he⟩)
    · intro hn
      exact ⟨Failure.zeroNodes, by simp [hn]⟩
  · unfold ClusteredJob.estimateMakespanOn
    constructor
    · rintro ⟨e, he⟩
      by_contra hn
      simp only [if_neg hn] at he
      exact hn (key.1 ⟨e, he⟩)
    · intro hn
      exact ⟨Failure.zeroNodes, by simp [hn]⟩

/-- C5: two workflows that give the listed tasks the same flops and the same parent
edges between listed tasks (they may differ in parent edges from outside tasks, in task
states and in levels) give the same outcome of `estimateMakespan` for the same list, host
count, core speed and fuel. -/
theorem estimateMakespan_depends_on_list_only (fuel : Nat) (w1 w2 : Workflow)
    (tasks : List Nat) (n : Nat) (s : ℚ)
    (hflops : ∀ t ∈ tasks, w1.flops t = w2.flops t)
    (hparents : ∀ t ∈ tasks, ∀ p ∈ tasks, p ∈ w1.parents t ↔ p ∈ w2.parents t) :
    estimateMakespan fuel w1 tasks n s = estimateMakespan fuel w2 tasks n s :=
  estimateMakespan_agree ⟨hflops, hparents⟩ fuel n s

/-- C5, instance: `chainWorkflow` and `chainWorkflowOther` differ in outside parents, in
the task states and in the levels, and agree on the list `[2, 0, 1]`. -/
theorem estimateMakespan_depends_on_list_only_witness :
    estimateMakespan 5 chainWorkflow [2, 0, 1] 2 1
      = estimateMakespan 5 chainWorkflowOther [2, 0, 1] 2 1 :=
  estimateMakespan_depends_on_list_only 5 chainWorkflow chainWorkflowOther [2, 0, 1] 2 1
    (by decide!) (by decide)

theorem scaleDate_nonneg_iff (k d : ℚ) (hk : 0 < k) : 0 ≤ scaleDate k d ↔ 0 ≤ d := by
  unfold scaleDate
  by_cases h : d < 0
  · rw [if_pos h]
  · rw [if_neg h]
    constructor
    · intro _; exact not_lt.1 h
    · intro h'; exact mul_nonneg (le_of_lt hk) h'

theorem scaleFake_append (k : ℚ) (l1 l2 : List (Nat × ℚ)) :
    scaleFake k (l1 ++ l2) = scaleFake k l1 ++ scaleFake k l2 := by
  simp [scaleFake]

theorem schedulable_scale (w : Workflow) (k : ℚ) (hk : 0 < k) (fake : List (Nat × ℚ))
    (cur : ℚ) (t : Nat) :
    schedulable (scaleFlops k w) (scaleFake k fake) (k * cur) t = schedulable w fake cur t := by
  unfold schedulable scaleFake
  have hp : (scaleFlops k w).parents t = w.parents t := rfl
  rw [hp]
  congr 1
  funext parent
  rw [List.all_map]
  congr 1
  funext e
  simp only [Function.comp]
  congr 2
  unfold scaleDate
  by_cases h : e.2 < 0
  · simp only [if_pos h]; simp [h]
  · simp only [if_neg h]
    have h1 : ¬ (k * e.2 < 0) := not_lt.2 (mul_nonneg (le_of_lt hk) (not_lt.1 h))
    have h2 : k * e.2 > k * cur ↔ e.2 > cur := by
      constructor
      · intro h'; exact lt_of_mul_lt_mul_left h' (le_of_lt hk)
      · intro h'; exact mul_lt_mul_of_pos_left h' hk
    simp only [h, h1, h2]

theorem placeOnHost_scale (k : ℚ) (hk : 0 < k) (cur v : ℚ) (idle : List ℚ) :
    placeOnHost (idle.map (k * ·)) (k * cur) (k * v)
      = (placeOnHost idle cur v).map (List.map (k * ·)) := by
  induction idle with
  | nil => rfl
  | cons d ds ih =>
    simp only [List.map_cons, placeOnHost]
    have h2 : k * d ≤ k * cur ↔ d ≤ cur := by
      constructor
      · intro h'; exact le_of_mul_le_mul_left h' hk
      · intro h'; exact mul_le_mul_of_nonneg_left h' (le_of_lt hk)
    by_cases h : d ≤ cur
    · rw [if_pos h, if_pos (h2.2 h)]; rfl
    · rw [if_neg h, if_neg (fun h' => h (h2.1 h')), ih]
      cases placeOnHost ds cur v <;> rfl

theorem scan_scale (w : Workflow) (k : ℚ) (hk : 0 < k) (s cur : ℚ) (hcur : 0 ≤ cur)
    (todo : List (Nat × ℚ)) :
    ∀ (done : List (Nat × ℚ)) (idle : List ℚ) (num : Nat) (b : Bool),
      (∀ e ∈ todo, 0 ≤ w.flops e.1 / s) →
      scan (scaleFlops k w) s (k * cur) (scaleFake k done) (scaleFake k todo)
          (idle.map (k * ·)) num b
        = scaleSim k (scan w s cur done todo idle num b) := by
  induction todo with
  | nil => intro done idle num b _; rfl
  | cons ft rest ih =>
    intro done idle num b hf
    have hf' : ∀ e ∈ rest, 0 ≤ w.flops e.1 / s := fun e he => hf e (List.mem_cons_of_mem _ he)
    have hcons : scaleFake k (ft :: rest) = (ft.1, scaleDate k ft.2) :: scaleFake k rest := rfl
    have hone : ∀ e : Nat × ℚ, scaleFake k done ++ [(e.1, scaleDate k e.2)]
        = scaleFake k (done ++ [e]) := by
      intro e; rw [scaleFake_append]; rfl
    have hall : scaleFake k done ++ (ft.1, scaleDate k ft.2) :: scaleFake k rest
        = scaleFake k (done ++ ft :: rest) := by
      rw [scaleFake_append]; rfl
    rw [hcons]
    unfold scan
    simp only
    by_cases h0 : ft.2 ≥ 0
    · rw [if_pos h0, if_pos ((scaleDate_nonneg_iff k ft.2 hk).2 h0), hone ft]
      exact ih _ _ _ _ hf'
    · rw [if_neg h0, if_neg (fun h => h0 ((scaleDate_nonneg_iff k ft.2 hk).1 h)), hall,
        schedulable_scale w k hk]
      by_cases h1 : schedulable w (done ++ ft :: rest) cur ft.1 = true
      · rw [if_pos h1, if_pos h1]
        have hflops : (scaleFlops k w).flops ft.1 = k * w.flops ft.1 := rfl
        have hv : k * cur + (scaleFlops k w).flops ft.1 / s = k * (cur + w.flops ft.1 / s) := by
          rw [hflops]; ring
        rw [hv, placeOnHost_scale k hk]
        cases hp : placeOnHost idle cur (cur + w.flops ft.1 / s) with
        | none =>
          simp only [Option.map_none']
          rw [hone ft]
          exact ih _ _ _ _ hf'
        | some idle' =>
          simp only [Option.map_some']
          have hnn : 0 ≤ cur + w.flops ft.1 / s := add_nonneg hcur (hf ft (by simp))
          have hd : k * (cur + w.flops ft.1 / s) = scaleDate k (cur + w.flops ft.1 / s) := by
            unfold scaleDate; rw [if_neg (not_lt.2 hnn)]
          rw [hd]
          have := hone (ft.1, cur + w.flops ft.1 / s)
          simp only at this
          rw [this]
          exact ih _ _ _ _ hf'
      · rw [if_neg h1, if_neg h1, hone ft]
        exact ih _ _ _ _ hf'

theorem minIdle_eq (l : List ℚ) (hne : l ≠ []) (hB : ∀ d ∈ l, d ≤ DBL_MAX) :
    minIdle l ∈ l ∧ ∀ d ∈ l, minIdle l ≤ d := by
  obtain ⟨a, ha⟩ := List.exists_mem_of_ne_nil l hne
  obtain ⟨d0, hd0, hle⟩ := minIdle_mem l ⟨a, ha, hB a ha⟩
  have : minIdle l = d0 := le_antisymm (minIdle_le l d0 hd0) hle
  exact ⟨this ▸ hd0, fun d hd => minIdle_le l d hd⟩

theorem minIdle_scale (k : ℚ) (hk : 0 < k) (l : List ℚ) (hne : l ≠ [])
    (hB : ∀ d ∈ l, d ≤ DBL_MAX) (hB' : ∀ d ∈ l, k * d ≤ DBL_MAX) :
    minIdle (l.map (k * ·)) = k * minIdle l := by
  obtain ⟨hm, hmin⟩ := minIdle_eq l hne hB
  obtain ⟨hm', hmin'⟩ := minIdle_eq (l.map (k * ·)) (by simpa using hne) (by
    intro d hd
    obtain ⟨x, hx, rfl⟩ := List.mem_map.1 hd
    exact hB' x hx)
  obtain ⟨d1, hd1, he⟩ := List.mem_map.1 hm'
  apply le_antisymm
  · exact hmin' _ (List.mem_map.2 ⟨_, hm, rfl⟩)
  · rw [← he]
    exact mul_le_mul_of_nonneg_left (hmin d1 hd1) (le_of_lt hk)

theorem secondMinIdle_aux (cur : ℚ) (l : List ℚ) : ∀ (m : ℚ),
    l.foldl (fun m d => if d > cur ∧ d < m then d else m) m ≤ m ∧
    (∀ d ∈ l, d > cur → l.foldl (fun m d => if d > cur ∧ d < m then d else m) m ≤ d) ∧
    (l.foldl (fun m d => if d > cur ∧ d < m then d else m) m = m ∨
      (l.foldl (fun m d => if d > cur ∧ d < m then d else m) m ∈ l ∧
        l.foldl (fun m d => if d > cur ∧ d < m then d else m) m > cur)) := by
  induction l with
  | nil => intro m; simp
  | cons a l ih =>
    intro m
    simp only [List.foldl_cons]
    obtain ⟨h1, h2, h3⟩ := ih (if a > cur ∧ a < m then a else m)
    have hle : (if a > cur ∧ a < m then a else m) ≤ m := by
      split
      · rename_i h; exact le_of_lt h.2
      · exact le_refl _
    refine ⟨le_trans h1 hle, ?_, ?_⟩
    · intro d hd hgt
      rcases List.mem_cons.1 hd with h | h
      · refine le_trans h1 ?_
        rw [h]
        by_cases hc : a > cur ∧ a < m
        · rw [if_pos hc]
        · rw [if_neg hc]
          rw [h] at hgt
          exact not_lt.1 (fun hlt => hc ⟨hgt, hlt⟩)
      · exact h2 d h hgt
    · rcases h3 with h | ⟨h, hgt⟩
      · by_cases hc : a > cur ∧ a < m
        · rw [if_pos hc] at h ⊢
          right
          rw [h]
          exact ⟨by simp, hc.1⟩
        · rw [if_neg hc] at h ⊢
          left; exact h
      · right
        exact ⟨List.mem_cons_of_mem _ h, hgt⟩

theorem secondMinIdle_eq (l : List ℚ) (cur : ℚ) (hex : ∃ d ∈ l, d > cur)
    (hB : ∀ d ∈ l, d ≤ DBL_MAX) :
    secondMinIdle l cur ∈ l ∧ secondMinIdle l cur > cur ∧
      ∀ d ∈ l, d > cur → secondMinIdle l cur ≤ d := by
  obtain ⟨h1, h2, h3⟩ := secondMinIdle_aux cur l DBL_MAX
  obtain ⟨d, hd, hgt⟩ := hex
  have key : secondMinIdle l cur ∈ l ∧ secondMinIdle l cur > cur := by
    rcases h3 with h | h
    · have hle := h2 d hd hgt
      have : d = secondMinIdle l cur := by
        apply le_antisymm
        · unfold secondMinIdle; rw [h]; exact hB d hd
        · exact hle
      rw [← this]
      exact ⟨hd, hgt⟩
    · exact h
  exact ⟨key.1, key.2, h2⟩

theorem secondMinIdle_scale (k : ℚ) (hk : 0 < k) (l : List ℚ) (cur : ℚ)
    (hex : ∃ d ∈ l, d > cur) (hB : ∀ d ∈ l, d ≤ DBL_MAX) (hB' : ∀ d ∈ l, k * d ≤ DBL_MAX) :
    secondMinIdle (l.map (k * ·)) (k * cur) = k * secondMinIdle l cur := by
  obtain ⟨hm, hgt, hmin⟩ := secondMinIdle_eq l cur hex hB
  obtain ⟨d0, hd0, hd0gt⟩ := hex
  obtain ⟨hm', hgt', hmin'⟩ := secondMinIdle_eq (l.map (k * ·)) (k * cur)
    ⟨k * d0, List.mem_map.2 ⟨d0, hd0, rfl⟩, mul_lt_mul_of_pos_left hd0gt hk⟩ (by
    intro d hd
    obtain ⟨x, hx, rfl⟩ := List.mem_map.1 hd
    exact hB' x hx)
  obtain ⟨d1, hd1, he⟩ := List.mem_map.1 hm'
  apply le_antisymm
  · exact hmin' _ (List.mem_map.2 ⟨_, hm, rfl⟩) (mul_lt_mul_of_pos_left hgt hk)
  · rw [← he]
    have : d1 > cur := by
      rw [← he] at hgt'
      exact lt_of_mul_lt_mul_left hgt' (le_of_lt hk)
    exact mul_le_mul_of_nonneg_left (hmin d1 hd1 this) (le_of_lt hk)

theorem scan_unchanged (w : Workflow) (s cur : ℚ) (todo : List (Nat × ℚ)) :
    ∀ (done : List (Nat × ℚ)) (idle : List ℚ) (num : Nat) (b : Bool),
      (scan w s cur done todo idle num b).scheduled_something = false →
      scan w s cur done todo idle num b = ⟨done ++ todo, idle, num, b⟩ := by
  induction todo with
  | nil => intro done idle num b _; simp [scan]
  | cons ft rest ih =>
    intro done idle num b h
    have hsame : done ++ [ft] ++ rest = done ++ ft :: rest := by simp
    unfold scan at h ⊢
    by_cases h0 : ft.2 ≥ 0
    · rw [if_pos h0] at h ⊢
      rw [ih _ _ _ _ h, hsame]
    · rw [if_neg h0] at h ⊢
      by_cases h1 : schedulable w (done ++ ft :: rest) cur ft.1 = true
      · rw [if_pos h1] at h ⊢
        cases hp : placeOnHost idle cur (cur + w.flops ft.1 / s) with
        | none =>
          rw [hp] at h
          simp only at h ⊢
          rw [ih _ _ _ _ h, hsame]
        | some idle' =>
          rw [hp] at h
          simp only at h
          rw [scan_flag_mono] at h
          cases h
      · rw [if_neg h1] at h ⊢
        rw [ih _ _ _ _ h, hsame]

theorem scan_sound (w : Workflow) (s cur : ℚ) (hcur : 0 ≤ cur) (todo : List (Nat × ℚ)) :
    ∀ (done : List (Nat × ℚ)) (idle : List ℚ) (num : Nat) (b : Bool),
      (∀ e ∈ todo, 0 ≤ w.flops e.1 / s) →
      cur ≤ work w s (done ++ todo) →
      (∀ d ∈ idle, 0 ≤ d ∧ d ≤ work w s (done ++ todo)) →
      (∀ e ∈ done ++ todo, 0 ≤ e.2 → ∃ d ∈ idle, e.2 ≤ d) →
      work w s (done ++ todo) ≤ work w s (scan w s cur done todo idle num b).fake_tasks ∧
      (∀ d ∈ (scan w s cur done todo idle num b).idle_date,
        0 ≤ d ∧ d ≤ work w s (scan w s cur done todo idle num b).fake_tasks) ∧
      (∀ e ∈ (scan w s cur done todo idle num b).fake_tasks, 0 ≤ e.2 →
        ∃ d ∈ (scan w s cur done todo idle num b).idle_date, e.2 ≤ d) ∧
      (scan w s cur done todo idle num b).idle_date.length = idle.length := by
  induction todo with
  | nil =>
    intro done idle num b _ _ hA hK
    simp only [scan]
    rw [List.append_nil] at hA hK ⊢
    exact ⟨le_refl _, hA, hK, trivial⟩
  | cons ft rest ih =>
    intro done idle num b hf hc hA hK
    have hf' : ∀ e ∈ rest, 0 ≤ w.flops e.1 / s := fun e he => hf e (List.mem_cons_of_mem _ he)
    have hsame : done ++ [ft] ++ rest = done ++ ft :: rest := by simp
    have hskip := ih (done ++ [ft]) idle num b hf' (by rw [hsame]; exact hc)
      (by rw [hsame]; exact hA) (by rw [hsame]; exact hK)
    rw [hsame] at hskip
    unfold scan
    by_cases h0 : ft.2 ≥ 0
    · rw [if_pos h0]; exact hskip
    · rw [if_neg h0]
      by_cases h1 : schedulable w (done ++ ft :: rest) cur ft.1 = true
      · rw [if_pos h1]
        cases hp : placeOnHost idle cur (cur + w.flops ft.1 / s) with
        | none => exact hskip
        | some idle' =>
          simp only
          have hd : 0 ≤ w.flops ft.1 / s := hf ft (by simp)
          have hv : 0 ≤ cur + w.flops ft.1 / s := add_nonneg hcur hd
          obtain ⟨hlen, hvin, hsub, e0, he0, he0c, hrep, _⟩ := placeOnHost_some _ _ _ _ hp
          have hwork : work w s (done ++ [(ft.1, cur + w.flops ft.1 / s)] ++ rest)
              = work w s (done ++ ft :: rest) + w.flops ft.1 / s := by
            simp only [work_append, work_cons, if_pos hv, if_neg h0, dur]
            simp only [work, List.map_nil, List.sum_nil]
            ring
          have hstep := ih (done ++ [(ft.1, cur + w.flops ft.1 / s)]) idle' (num + 1) true hf'
            (by rw [hwork]; linarith)
            (by
              intro d hdm
              rw [hwork]
              rcases hsub d hdm with h | h
              · rw [h]; exact ⟨hv, by linarith⟩
              · exact ⟨(hA d h).1, by linarith [(hA d h).2]⟩)
            (by
              intro e hem hnn
              have hcase : e = (ft.1, cur + w.flops ft.1 / s) ∨ e ∈ done ++ ft :: rest := by
                simp only [List.mem_append, List.mem_cons, List.mem_singleton,
                  List.not_mem_nil, or_false] at hem ⊢
                rcases hem with (h | h) | h
                · exact Or.inr (Or.inl h)
                · exact Or.inl h
                · exact Or.inr (Or.inr (Or.inr h))
              rcases hcase with h | h
              · rw [h]; exact ⟨_, hvin, le_refl _⟩
              · obtain ⟨d, hdm, hle⟩ := hK e h hnn
                rcases hrep d hdm with h' | h'
                · refine ⟨_, hvin, ?_⟩
                  rw [h'] at hle
                  linarith
                · exact ⟨d, h', hle⟩)
          refine ⟨?_, hstep.2.1, hstep.2.2.1, by rw [hstep.2.2.2, hlen]⟩
          have := hstep.1
          rw [hwork] at this
          linarith
      · rw [if_neg h1]; exact hskip

theorem maxIdle_scale (k : ℚ) (hk : 0 < k) (l : List ℚ) :
    maxIdle (l.map (k * ·)) = k * maxIdle l := by
  have key : ∀ (l : List ℚ) (m : ℚ),
      (l.map (k * ·)).foldl (fun m d => if m > d then m else d) (k * m)
        = k * l.foldl (fun m d => if m > d then m else d) m := by
    intro l
    induction l with
    | nil => intro m; rfl
    | cons a l ih =>
      intro m
      simp only [List.map_cons, List.foldl_cons]
      have h2 : k * m > k * a ↔ m > a := by
        constructor
        · intro h'; exact lt_of_mul_lt_mul_left h' (le_of_lt hk)
        · intro h'; exact mul_lt_mul_of_pos_left h' hk
      by_cases h : m > a
      · rw [if_pos h, if_pos (h2.2 h)]; exact ih m
      · rw [if_neg h, if_neg (fun h' => h (h2.1 h'))]; exact ih a
  have := key l 0
  rw [mul_zero] at this
  exact this

theorem foldl_max_spec (f : Nat → Nat) (l : List Nat) :
    ∀ a : Nat, a ≤ l.foldl (fun m i => max m (f i)) a ∧
      (∀ i ∈ l, f i ≤ l.foldl (fun m i => max m (f i)) a) ∧
      (l.foldl (fun m i => max m (f i)) a = a ∨
        ∃ i ∈ l, f i = l.foldl (fun m i => max m (f i)) a) := by
  induction l with
  | nil => intro a; simp
  | cons x l ih =>
    intro a
    simp only [List.foldl_cons]
    obtain ⟨h1, h2, h3⟩ := ih (max a (f x))
    refine ⟨le_trans (le_max_left _ _) h1, ?_, ?_⟩
    · intro i hi
      rcases List.mem_cons.1 hi with h | h
      · rw [h]; exact le_trans (le_max_right _ _) h1
      · exact h2 i h
    · rcases h3 with h | ⟨i, hi, h⟩
      · rcases le_total a (f x) with hle | hle
        · right; exact ⟨x, by simp, by rw [h, max_eq_right hle]⟩
        · left; rw [h, max_eq_left hle]
      · right; exact ⟨i, List.mem_cons_of_mem _ hi, h⟩

theorem placeOnHost_sum (l : List ℚ) (c v : ℚ) :
    ∀ r, placeOnHost l c v = some r → ∃ e ∈ l, e ≤ c ∧ r.sum + e = l.sum + v := by
  induction l with
  | nil => intro r h; simp [placeOnHost] at h
  | cons d ds ih =>
    intro r h
    unfold placeOnHost at h
    by_cases hd : d ≤ c
    · rw [if_pos hd] at h
      injection h with h
      refine ⟨d, by simp, hd, ?_⟩
      rw [← h]
      simp only [List.sum_cons]
      ring
    · rw [if_neg hd] at h
      cases hp : placeOnHost ds c v with
      | none => rw [hp] at h; simp at h
      | some r' =>
        rw [hp] at h
        simp only [Option.map_some'] at h
        injection h with h
        obtain ⟨e, he, hec, hsum⟩ := ih r' hp
        refine ⟨e, List.mem_cons_of_mem _ he, hec, ?_⟩
        rw [← h]
        simp only [List.sum_cons]
        linarith

theorem scan_inv (w : Workflow) (s cur : ℚ) (hcur : 0 ≤ cur) (todo : List (Nat × ℚ)) :
    ∀ (done : List (Nat × ℚ)) (idle : List ℚ) (num : Nat) (b : Bool),
      (∀ e ∈ todo, 0 ≤ w.flops e.1 / s) →
      (∀ e ∈ done ++ todo, 0 ≤ e.2 → dur w s e.1 ≤ e.2) →
      work w s (done ++ todo) ≤ idle.sum →
      (∀ d ∈ idle, d = 0 ∨ ∃ e ∈ done ++ todo, 0 ≤ e.2 ∧ e.2 = d) →
      (∀ e ∈ (scan w s cur done todo idle num b).fake_tasks, 0 ≤ e.2 → dur w s e.1 ≤ e.2) ∧
      work w s (scan w s cur done todo idle num b).fake_tasks
        ≤ (scan w s cur done todo idle num b).idle_date.sum ∧
      (∀ d ∈ (scan w s cur done todo idle num b).idle_date,
        d = 0 ∨ ∃ e ∈ (scan w s cur done todo idle num b).fake_tasks, 0 ≤ e.2 ∧ e.2 = d) := by
  induction todo with
  | nil =>
    intro done idle num b _ h1 h2 h3
    simp only [scan]
    rw [List.append_nil] at h1 h2 h3
    exact ⟨h1, h2, h3⟩
  | cons ft rest ih =>
    intro done idle num b hf h1 h2 h3
    have hf' : ∀ e ∈ rest, 0 ≤ w.flops e.1 / s := fun e he => hf e (List.mem_cons_of_mem _ he)
    have hsame : done ++ [ft] ++ rest = done ++ ft :: rest := by simp
    have hskip := ih (done ++ [ft]) idle num b hf' (by rw [hsame]; exact h1)
      (by rw [hsame]; exact h2) (by rw [hsame]; exact h3)
    unfold scan
    by_cases h0 : ft.2 ≥ 0
    · rw [if_pos h0]; exact hskip
    · rw [if_neg h0]
      by_cases hsch : schedulable w (done ++ ft :: rest) cur ft.1 = true
      · rw [if_pos hsch]
        cases hp : placeOnHost idle cur (cur + w.flops ft.1 / s) with
        | none => exact hskip
        | some idle' =>
          simp only
          have hd : 0 ≤ w.flops ft.1 / s := hf ft (by simp)
          have hv : 0 ≤ cur + w.flops ft.1 / s := add_nonneg hcur hd
          obtain ⟨_, hvin, hsub, _⟩ := placeOnHost_some _ _ _ _ hp
          obtain ⟨e0, _, he0c, hsum⟩ := placeOnHost_sum _ _ _ _ hp
          have hwork : work w s (done ++ [(ft.1, cur + w.flops ft.1 / s)] ++ rest)
              = work w s (done ++ ft :: rest) + w.flops ft.1 / s := by
            simp only [work_append, work_cons, if_pos hv, if_neg h0, dur]
            simp only [work, List.map_nil, List.sum_nil]
            ring
          have hcase : ∀ e, e ∈ done ++ [(ft.1, cur + w.flops ft.1 / s)] ++ rest →
              e = (ft.1, cur + w.flops ft.1 / s) ∨ e ∈ done ++ ft :: rest := by
            intro e hem
            simp only [List.mem_append, List.mem_cons, List.mem_singleton,
              List.not_mem_nil, or_false] at hem ⊢
            rcases hem with (h | h) | h
            · exact Or.inr (Or.inl h)
            · exact Or.inl h
            · exact Or.inr (Or.inr (Or.inr h))
          have hback : ∀ e, e ∈ done ++ ft :: rest → 0 ≤ e.2 →
              e ∈ done ++ [(ft.1, cur + w.flops ft.1 / s)] ++ rest := by
            intro e hem hnn
            simp only [List.mem_append, List.mem_cons, List.mem_singleton,
              List.not_mem_nil, or_false] at hem ⊢
            rcases hem with h | h | h
            · exact Or.inl (Or.inl h)
            · rw [h] at hnn; exact absurd hnn h0
            · exact Or.inr h
          refine ih (done ++ [(ft.1, cur + w.flops ft.1 / s)]) idle' (num + 1) true hf' ?_ ?_ ?_
          · intro e hem hnn
            rcases hcase e hem with h | h
            · rw [h]
              simp only [dur]
              linarith
            · exact h1 e h hnn
          · rw [hwork]
            linarith
          · intro d hdm
            rcases hsub d hdm with h | h
            · right
              exact ⟨(ft.1, cur + w.flops ft.1 / s), by simp, hv, h.symm⟩
            · rcases h3 d h with h' | ⟨e, hem, hnn, he⟩
              · exact Or.inl h'
              · exact Or.inr ⟨e, hback e hem hnn, hnn, he⟩
      · rw [if_neg hsch]; exact hskip

theorem countP_lt_of_witness {α : Type} (p q : α → Bool) (l : List α)
    (hpq : ∀ x ∈ l, p x = true → q x = true) (hw : ∃ x ∈ l, q x = true ∧ p x = false) :
    l.countP p < l.countP q := by
  induction l with
  | nil => obtain ⟨x, hx, _⟩ := hw; simp at hx
  | cons a l ih =>
    have hmono : l.countP p ≤ l.countP q := by
      apply List.countP_mono_left
      intro x hx hp
      exact hpq x (List.mem_cons_of_mem _ hx) hp
    rw [List.countP_cons, List.countP_cons]
    obtain ⟨x, hx, hq, hp⟩ := hw
    rcases List.mem_cons.1 hx with h | h
    · rw [← h, hq, hp]
      simp only [if_true, Bool.false_eq_true, if_false]
      omega
    · have := ih (fun y hy => hpq y (List.mem_cons_of_mem _ hy)) ⟨x, h, hq, hp⟩
      by_cases hpa : p a = true
      · rw [hpa, hpq a (by simp) hpa]
        simp only [if_true]
        omega
      · have hpa' : p a = false := by simpa using hpa
        rw [hpa']
        simp only [Bool.false_eq_true, if_false]
        split <;> omega

theorem secondMinIdle_none (l : List ℚ) (cur : ℚ) (h : ∀ d ∈ l, d ≤ cur) :
    secondMinIdle l cur = DBL_MAX := by
  unfold secondMinIdle
  have key : ∀ (l : List ℚ) (m : ℚ), (∀ d ∈ l, d ≤ cur) →
      l.foldl (fun m d => if d > cur ∧ d < m then d else m) m = m := by
    intro l
    induction l with
    | nil => intro m _; rfl
    | cons a l ih =>
      intro m hl
      rw [List.foldl_cons, if_neg (fun hc => absurd hc.1 (not_lt.2 (hl a (by simp))))]
      exact ih m (fun d hd => hl d (List.mem_cons_of_mem _ hd))
  exact key l _ h

theorem work_fresh (w : Workflow) (s : ℚ) (tasks : List Nat) :
    work w s (tasks.map fun t => (t, (-1 : ℚ))) = 0 := by
  induction tasks with
  | nil => rfl
  | cons a l ih =>
    rw [List.map_cons, work_cons, ih]
    simp

theorem loopInv_initial (w : Workflow) (s : ℚ) (tasks : List Nat) (n : Nat) :
    LoopInv w s tasks n ⟨tasks.map fun t => (t, (-1 : ℚ)), List.replicate n 0, 0, 0⟩ := by
  have hpl : placed (tasks.map fun t => (t, (-1 : ℚ))) = 0 := by simp [placed]
  refine ⟨by simp [List.map_map, Function.comp_def], hpl.symm, by simp, le_refl _,
    by rw [work_fresh], ?_, ?_, ?_, ?_, ?_⟩
  · intro d hd
    rw [List.eq_of_mem_replicate hd, work_fresh]
    exact ⟨le_refl _, le_refl _⟩
  · intro e he hnn
    obtain ⟨t, _, rfl⟩ := List.mem_map.1 he
    norm_num at hnn
  · intro e he hnn
    obtain ⟨t, _, rfl⟩ := List.mem_map.1 he
    norm_num at hnn
  · rw [work_fresh]
    simp
  · intro d hd
    exact Or.inl (List.eq_of_mem_replicate hd)

theorem loopInv_step {w : Workflow} {tasks : List Nat} (hA : Acyclic w tasks) (s : ℚ)
    (hs : 0 < s) (hf : ∀ t ∈ tasks, 0 ≤ w.flops t)
    (hB : (tasks.map (dur w s)).sum ≤ DBL_MAX) (n : Nat) (hn : 0 < n) (X : LoopState)
    (hX : LoopInv w s tasks n X) (hlt : X.num_scheduled_tasks < tasks.length) :
    LoopInv w s tasks n
        ⟨(scan w s X.current_time [] X.fake_tasks X.idle_date X.num_scheduled_tasks
            false).fake_tasks,
          (scan w s X.current_time [] X.fake_tasks X.idle_date X.num_scheduled_tasks
            false).idle_date,
          (scan w s X.current_time [] X.fake_tasks X.idle_date X.num_scheduled_tasks
            false).num_scheduled_tasks,
          if (scan w s X.current_time [] X.fake_tasks X.idle_date X.num_scheduled_tasks
              false).scheduled_something then
            minIdle (scan w s X.current_time [] X.fake_tasks X.idle_date
              X.num_scheduled_tasks false).idle_date
          else
            secondMinIdle (scan w s X.current_time [] X.fake_tasks X.idle_date
              X.num_scheduled_tasks false).idle_date X.current_time⟩ ∧
      ((scan w s X.current_time [] X.fake_tasks X.idle_date X.num_scheduled_tasks
          false).scheduled_something = false →
        (∃ d ∈ X.idle_date, X.current_time < d) ∧
        secondMinIdle X.idle_date X.current_time ∈ X.idle_date ∧
        X.current_time < secondMinIdle X.idle_date X.current_time) ∧
      (tasks.length - (scan w s X.current_time [] X.fake_tasks X.idle_date
            X.num_scheduled_tasks false).num_scheduled_tasks) * (n + 1)
          + (scan w s X.current_time [] X.fake_tasks X.idle_date X.num_scheduled_tasks
              false).idle_date.countP
              (fun d => decide
                ((if (scan w s X.current_time [] X.fake_tasks X.idle_date
                      X.num_scheduled_tasks false).scheduled_something then
                    minIdle (scan w s X.current_time [] X.fake_tasks X.idle_date
                      X.num_scheduled_tasks false).idle_date
                  else
                    secondMinIdle (scan w s X.current_time [] X.fake_tasks X.idle_date
                      X.num_scheduled_tasks false).idle_date X.current_time) < d))
          + 1
        ≤ (tasks.length - X.num_scheduled_tasks) * (n + 1)
          + X.idle_date.countP (fun d => decide (X.current_time < d)) := by
  obtain ⟨hfst, hnum, hlenI, hcur, hc, hI, hK, hD, hS, hZ⟩ := hX
  have hlen : X.fake_tasks.length = tasks.length := by rw [← hfst]; simp
  have hmem : ∀ e ∈ X.fake_tasks, e.1 ∈ tasks := by
    intro e he; rw [← hfst]; exact List.mem_map_of_mem _ he
  have hdur : ∀ e ∈ X.fake_tasks, 0 ≤ w.flops e.1 / s :=
    fun e he => div_nonneg (hf _ (hmem e he)) (le_of_lt hs)
  obtain ⟨hw, hI', hK', hlen'⟩ := scan_sound w s X.current_time hcur X.fake_tasks []
    X.idle_date X.num_scheduled_tasks false hdur (by simpa using hc) (by simpa using hI)
    (by simpa using hK)
  obtain ⟨p1, p2, _⟩ := scan_placed w s X.current_time hcur X.fake_tasks [] X.idle_date
    X.num_scheduled_tasks false hdur
  obtain ⟨hD', hS', hZ'⟩ := scan_inv w s X.current_time hcur X.fake_tasks [] X.idle_date
    X.num_scheduled_tasks false hdur (by simpa using hD) (by simpa using hS)
    (by simpa using hZ)
  have hfst' := scan_fake_fst w s X.current_time X.fake_tasks [] X.idle_date
    X.num_scheduled_tasks false
  simp only [List.nil_append] at hw p1 hfst'
  rw [hfst] at hfst'
  have hne : X.idle_date ≠ [] := by
    intro h'
    rw [h'] at hlenI
    simp at hlenI
    omega
  have htot : work w s (scan w s X.current_time [] X.fake_tasks X.idle_date
      X.num_scheduled_tasks false).fake_tasks ≤ (tasks.map (dur w s)).sum := by
    refine le_trans (work_le w s _ ?_) (by rw [hfst'])
    intro e he
    have : e.1 ∈ tasks := by rw [← hfst']; exact List.mem_map_of_mem _ he
    exact div_nonneg (hf _ this) (le_of_lt hs)
  have hbd : ∀ d ∈ (scan w s X.current_time [] X.fake_tasks X.idle_date
      X.num_scheduled_tasks false).idle_date, d ≤ DBL_MAX :=
    fun d hd => le_trans (le_trans (hI' d hd).2 htot) hB
  have hnum' : (scan w s X.current_time [] X.fake_tasks X.idle_date
      X.num_scheduled_tasks false).num_scheduled_tasks
      = placed (scan w s X.current_time [] X.fake_tasks X.idle_date
        X.num_scheduled_tasks false).fake_tasks := by omega
  by_cases hflag : (scan w s X.current_time [] X.fake_tasks X.idle_date
      X.num_scheduled_tasks false).scheduled_something = true
  · have hgrow := p2 rfl hflag
    have hne' : (scan w s X.current_time [] X.fake_tasks X.idle_date
        X.num_scheduled_tasks false).idle_date ≠ [] := by
      intro h
      rw [h] at hlen'
      simp at hlen'
      omega
    obtain ⟨hm, hmin⟩ := minIdle_eq _ hne' hbd
    simp only [if_pos hflag]
    refine ⟨⟨hfst', hnum', by rw [hlen', hlenI], (hI' _ hm).1, (hI' _ hm).2, hI', hK', hD',
      hS', hZ'⟩, fun h => absurd hflag (by rw [h]; simp), ?_⟩
    have hcnt : (scan w s X.current_time [] X.fake_tasks X.idle_date
        X.num_scheduled_tasks false).idle_date.countP
          (fun d => decide (minIdle (scan w s X.current_time [] X.fake_tasks X.idle_date
            X.num_scheduled_tasks false).idle_date < d)) ≤ n := by
      refine le_trans (List.countP_le_length _) ?_
      rw [hlen', hlenI]
    have hmul := Nat.mul_le_mul_right (n + 1)
      (show (tasks.length - (scan w s X.current_time [] X.fake_tasks X.idle_date
        X.num_scheduled_tasks false).num_scheduled_tasks) + 1
          ≤ tasks.length - X.num_scheduled_tasks by omega)
    rw [Nat.add_mul] at hmul
    omega
  · have hflag' : (scan w s X.current_time [] X.fake_tasks X.idle_date
        X.num_scheduled_tasks false).scheduled_something = false := by simpa using hflag
    have hun := scan_unchanged w s X.current_time X.fake_tasks [] X.idle_date
      X.num_scheduled_tasks false hflag'
    simp only [List.nil_append] at hun
    have hex : ∃ d ∈ X.idle_date, d > X.current_time := by
      by_contra hno
      have hall : ∀ d ∈ X.idle_date, d ≤ X.current_time :=
        fun d hd => not_lt.1 (fun h => hno ⟨d, hd, h⟩)
      have hunpl := exists_unplaced X.fake_tasks (by omega)
      have hplaced : ∀ e ∈ X.fake_tasks, 0 ≤ e.2 → e.2 ≤ X.current_time := by
        intro e he hnn
        obtain ⟨d, hd, hle⟩ := hK e he hnn
        exact le_trans hle (hall d hd)
      obtain ⟨e, he, hneg, hsch⟩ := exists_schedulable hA X.fake_tasks X.current_time hmem
        hunpl hplaced
      obtain ⟨a, ha⟩ := List.exists_mem_of_ne_nil X.idle_date hne
      have := scan_progress w s X.current_time X.fake_tasks [] X.idle_date
        X.num_scheduled_tasks false ⟨a, ha, hall a ha⟩ ⟨e, he, hneg, hsch⟩
      exact hflag this
    rw [hun] at hbd
    simp only at hbd
    obtain ⟨hm, hgt, hmin⟩ := secondMinIdle_eq X.idle_date X.current_time hex hbd
    rw [hun]
    simp only [Bool.false_eq_true, if_false]
    rw [hun] at hI' hK' hD' hS' hZ' hnum' hfst'
    simp only at hI' hK' hD' hS' hZ' hnum' hfst'
    refine ⟨⟨hfst', hnum', hlenI, le_of_lt (lt_of_le_of_lt hcur hgt), (hI' _ hm).2, hI', hK',
      hD', hS', hZ'⟩, fun _ => ⟨hex, hm, hgt⟩, ?_⟩
    have := countP_lt_of_witness
      (fun d => decide (secondMinIdle X.idle_date X.current_time < d))
      (fun d => decide (X.current_time < d)) X.idle_date
      (by
        intro d _ hd
        simp only [decide_eq_true_eq] at hd ⊢
        exact lt_trans hgt hd)
      ⟨_, hm, by simpa using hgt, by simp⟩
    omega

theorem schedTrace_inv {w : Workflow} {tasks : List Nat} (hA : Acyclic w tasks) (s : ℚ)
    (hs : 0 < s) (hf : ∀ t ∈ tasks, 0 ≤ w.flops t)
    (hB : (tasks.map (dur w s)).sum ≤ DBL_MAX) (n : Nat) (hn : 0 < n) (fuel : Nat) :
    ∀ X : LoopState, LoopInv w s tasks n X →
      ∀ Y ∈ schedTrace w s tasks.length fuel X.fake_tasks X.idle_date X.num_scheduled_tasks
          X.current_time, LoopInv w s tasks n Y := by
  induction fuel with
  | zero =>
    intro X hX Y hY
    rw [schedTrace] at hY
    by_cases hlt : X.num_scheduled_tasks < tasks.length
    · rw [if_pos hlt] at hY
      simp only [List.mem_singleton] at hY
      rw [hY]; exact hX
    · rw [if_neg hlt] at hY
      simp only [List.mem_singleton] at hY
      rw [hY]; exact hX
  | succ fuel ih =>
    intro X hX Y hY
    rw [schedTrace] at hY
    by_cases hlt : X.num_scheduled_tasks < tasks.length
    · rw [if_pos hlt] at hY
      rcases List.mem_cons.1 hY with h | h
      · rw [h]; exact hX
      · exact ih _ (loopInv_step hA s hs hf hB n hn X hX hlt).1 Y h
    · rw [if_neg hlt] at hY
      simp only [List.mem_singleton] at hY
      rw [hY]; exact hX

theorem schedLoop_exit {w : Workflow} {tasks : List Nat} (hA : Acyclic w tasks) (s : ℚ)
    (hs : 0 < s) (hf : ∀ t ∈ tasks, 0 ≤ w.flops t)
    (hB : (tasks.map (dur w s)).sum ≤ DBL_MAX) (n : Nat) (hn : 0 < n) (fuel : Nat) :
    ∀ X : LoopState, LoopInv w s tasks n X →
      (tasks.length - X.num_scheduled_tasks) * (n + 1)
          + X.idle_date.countP (fun d => decide (X.current_time < d)) ≤ fuel + n →
      ∃ Y, (schedTrace w s tasks.length fuel X.fake_tasks X.idle_date X.num_scheduled_tasks
          X.current_time).getLast? = some Y ∧
        ¬ Y.num_scheduled_tasks < tasks.length ∧
        schedLoop w s tasks.length fuel X.fake_tasks X.idle_date X.num_scheduled_tasks
          X.current_time = some Y.idle_date := by
  induction fuel with
  | zero =>
    intro X hX hM
    rw [schedTrace, schedLoop]
    by_cases hlt : X.num_scheduled_tasks < tasks.length
    · exfalso
      have hcnt : X.idle_date.countP (fun d => decide (X.current_time < d)) ≤ n := by
        refine le_trans (List.countP_le_length _) ?_
        rw [hX.2.2.1]
      have hmul := Nat.mul_le_mul_right (n + 1)
        (show 1 ≤ tasks.length - X.num_scheduled_tasks by omega)
      omega
    · rw [if_neg hlt, if_neg hlt]
      exact ⟨X, rfl, hlt, rfl⟩
  | succ fuel ih =>
    intro X hX hM
    rw [schedTrace, schedLoop]
    by_cases hlt : X.num_scheduled_tasks < tasks.length
    · rw [if_pos hlt, if_pos hlt]
      obtain ⟨hinv, _, hdec⟩ := loopInv_step hA s hs hf hB n hn X hX hlt
      obtain ⟨Y, hlast, hex, hret⟩ := ih _ hinv (by simp only; omega)
      refine ⟨Y, ?_, hex, hret⟩
      simp only at hlast ⊢
      cases htr : schedTrace w s tasks.length fuel
          (scan w s X.current_time [] X.fake_tasks X.idle_date X.num_scheduled_tasks
            false).fake_tasks
          (scan w s X.current_time [] X.fake_tasks X.idle_date X.num_scheduled_tasks
            false).idle_date
          (scan w s X.current_time [] X.fake_tasks X.idle_date X.num_scheduled_tasks
            false).num_scheduled_tasks
          (if (scan w s X.current_time [] X.fake_tasks X.idle_date X.num_scheduled_tasks
              false).scheduled_something = true then
            minIdle (scan w s X.current_time [] X.fake_tasks X.idle_date
              X.num_scheduled_tasks false).idle_date
          else
            secondMinIdle (scan w s X.current_time [] X.fake_tasks X.idle_date
              X.num_scheduled_tasks false).idle_date X.current_time) with
      | nil => rw [htr] at hlast; simp at hlast
      | cons a l =>
        rw [htr] at hlast
        rw [List.getLast?_cons_cons]
        exact hlast
    · rw [if_neg hlt, if_neg hlt]
      exact ⟨X, rfl, hlt, rfl⟩

theorem maxIdle_replicate_zero (n : Nat) : maxIdle (List.replicate n 0) = 0 := by
  apply le_antisymm
  · exact maxIdle_le _ 0 (le_refl _) (fun d hd => by rw [List.eq_of_mem_replicate hd])
  · exact maxIdle_nonneg _

theorem estimateMakespan_exit {w : Workflow} {tasks : List Nat} (hA : Acyclic w tasks)
    (s : ℚ) (hs : 0 < s) (hf : ∀ t ∈ tasks, 0 ≤ w.flops t)
    (hB : (tasks.map (dur w s)).sum ≤ DBL_MAX) (n : Nat) (hn : 0 < n) (fuel : Nat)
    (hfuel : tasks.length * (n + 1) ≤ fuel + n) :
    ∃ Y, (schedTrace w s tasks.length fuel (tasks.map fun t => (t, (-1 : ℚ)))
          (List.replicate n 0) 0 0).getLast? = some Y ∧
      LoopInv w s tasks n Y ∧ Y.num_scheduled_tasks = tasks.length ∧
      (∀ e ∈ Y.fake_tasks, 0 ≤ e.2) ∧
      estimateMakespan fuel w tasks n s = Run.ret (maxIdle Y.idle_date) := by
  have hinit := loopInv_initial w s tasks n
  obtain ⟨Y, hlast, hex, hret⟩ := schedLoop_exit hA s hs hf hB n hn fuel _ hinit (by
    simp only [Nat.sub_zero]
    have : (List.replicate n (0 : ℚ)).countP (fun d => decide ((0 : ℚ) < d)) = 0 := by
      rw [List.countP_eq_zero]
      intro d hd
      rw [List.eq_of_mem_replicate hd]
      simp
    omega)
  have hY := schedTrace_inv hA s hs hf hB n hn fuel _ hinit Y
    (List.mem_of_getLast?_eq_some hlast)
  have hlenY : Y.fake_tasks.length = tasks.length := by rw [← hY.1]; simp
  have hple := placed_le Y.fake_tasks
  have hnumY : Y.num_scheduled_tasks = tasks.length := by
    have := hY.2.1
    omega
  have hall : ∀ e ∈ Y.fake_tasks, 0 ≤ e.2 := by
    intro e he
    by_contra hneg
    have hpl : placed Y.fake_tasks = Y.fake_tasks.length := by
      have := hY.2.1
      omega
    unfold placed at hpl
    rw [List.countP_eq_length] at hpl
    exact hneg (by simpa using hpl e he)
  refine ⟨Y, hlast, hY, hnumY, hall, ?_⟩
  unfold estimateMakespan
  rw [if_neg (by omega)]
  by_cases h0 : tasks.length = 0
  · rw [if_pos h0]
    have hnil : tasks = [] := List.length_eq_zero.1 h0
    subst hnil
    simp only at hret
    unfold schedLoop at hret
    simp only [List.length_nil, Nat.lt_irrefl, if_false, Option.some.injEq] at hret
    rw [← hret, maxIdle_replicate_zero]
  · rw [if_neg h0]
    simp only at hret
    rw [hret]

theorem sum_le_length_mul (l : List ℚ) (m : ℚ) (h : ∀ d ∈ l, d ≤ m) :
    l.sum ≤ (l.length : ℚ) * m := by
  induction l with
  | nil => simp
  | cons a l ih =>
    rw [List.sum_cons, List.length_cons]
    have h1 := h a (by simp)
    have h2 := ih (fun d hd => h d (List.mem_cons_of_mem _ hd))
    push_cast
    linarith

theorem scan_stuck (w : Workflow) (s cur : ℚ) (todo : List (Nat × ℚ)) :
    ∀ (done : List (Nat × ℚ)) (idle : List ℚ) (num : Nat) (b : Bool),
      (∀ e ∈ todo, e.2 < 0 → schedulable w (done ++ todo) cur e.1 = false) →
      scan w s cur done todo idle num b = ⟨done ++ todo, idle, num, b⟩ := by
  induction todo with
  | nil => intro done idle num b _; simp [scan]
  | cons ft rest ih =>
    intro done idle num b h
    have hsame : done ++ [ft] ++ rest = done ++ ft :: rest := by simp
    have hrest := ih (done ++ [ft]) idle num b (by
      intro e he hneg
      rw [hsame]
      exact h e (List.mem_cons_of_mem _ he) hneg)
    rw [hsame] at hrest
    unfold scan
    by_cases h0 : ft.2 ≥ 0
    · rw [if_pos h0]; exact hrest
    · rw [if_neg h0, h ft (by simp) (not_le.1 h0)]
      simp only [Bool.false_eq_true, if_false]
      exact hrest

theorem schedLoop_stuck (w : Workflow) (s : ℚ) (num_tasks : Nat) (fake : List (Nat × ℚ))
    (idle : List ℚ) (num : Nat) (hlt : num < num_tasks)
    (hstuck : ∀ e ∈ fake, e.2 < 0 →
      ∃ p ∈ w.parents e.1, ∃ ft ∈ fake, ft.1 = p ∧ ft.2 < 0) (fuel : Nat) :
    ∀ cur : ℚ, schedLoop w s num_tasks fuel fake idle num cur = none := by
  have hns : ∀ cur : ℚ, ∀ e ∈ fake, e.2 < 0 → schedulable w fake cur e.1 = false := by
    intro cur e he hneg
    by_contra hsch
    have hsch' : schedulable w fake cur e.1 = true := by simpa using hsch
    obtain ⟨p, hp, ft, hft, hfp, hfneg⟩ := hstuck e he hneg
    have := ((schedulable_iff w fake cur e.1).1 hsch' p hp ft hft hfp).1
    linarith
  induction fuel with
  | zero => intro cur; rw [schedLoop, if_pos hlt]
  | succ fuel ih =>
    intro cur
    rw [schedLoop, if_pos hlt]
    have hsc := scan_stuck w s cur fake [] idle num false (by simpa using hns cur)
    simp only [List.nil_append] at hsc
    simp only [hsc]
    exact ih _

theorem scan_speed (w : Workflow) (k s cur : ℚ) (todo : List (Nat × ℚ)) :
    ∀ (done : List (Nat × ℚ)) (idle : List ℚ) (num : Nat) (b : Bool),
      scan w (k * s) cur done todo idle num b
        = scan (scaleFlops k⁻¹ w) s cur done todo idle num b := by
  have hq : ∀ t, w.flops t / (k * s) = (scaleFlops k⁻¹ w).flops t / s := by
    intro t
    simp only [scaleFlops]
    rw [div_mul_eq_div_div, div_eq_inv_mul (w.flops t) k]
  induction todo with
  | nil => intro done idle num b; simp [scan]
  | cons ft rest ih =>
    intro done idle num b
    unfold scan
    rw [hq]
    simp only [ih]
    rfl

theorem schedLoop_speed (w : Workflow) (k s : ℚ) (num_tasks fuel : Nat) :
    ∀ (fake : List (Nat × ℚ)) (idle : List ℚ) (num : Nat) (cur : ℚ),
      schedLoop w (k * s) num_tasks fuel fake idle num cur
        = schedLoop (scaleFlops k⁻¹ w) s num_tasks fuel fake idle num cur ∧
      schedTrace w (k * s) num_tasks fuel fake idle num cur
        = schedTrace (scaleFlops k⁻¹ w) s num_tasks fuel fake idle num cur := by
  induction fuel with
  | zero =>
    intro fake idle num cur
    rw [schedLoop, schedLoop, schedTrace, schedTrace]
    exact ⟨rfl, rfl⟩
  | succ fuel ih =>
    intro fake idle num cur
    rw [schedLoop, schedLoop, schedTrace, schedTrace]
    simp only [scan_speed, ih, and_self]

theorem estimateMakespan_speed (fuel : Nat) (w : Workflow) (tasks : List Nat) (n : Nat)
    (k s : ℚ) :
    estimateMakespan fuel w tasks n (k * s)
      = estimateMakespan fuel (scaleFlops k⁻¹ w) tasks n s := by
  unfold estimateMakespan
  rw [(schedLoop_speed w k s tasks.length fuel _ _ _ _).1]

theorem schedLoop_succ (w : Workflow) (s : ℚ) (num_tasks fuel : Nat)
    (fake : List (Nat × ℚ)) (idle : List ℚ) (num : Nat) (cur : ℚ) (hlt : num < num_tasks) :
    schedLoop w s num_tasks (fuel + 1) fake idle num cur
        = schedLoop w s num_tasks fuel (scan w s cur [] fake idle num false).fake_tasks
            (scan w s cur [] fake idle num false).idle_date
            (scan w s cur [] fake idle num false).num_scheduled_tasks
            (if (scan w s cur [] fake idle num false).scheduled_something then
              minIdle (scan w s cur [] fake idle num false).idle_date
            else secondMinIdle (scan w s cur [] fake idle num false).idle_date cur) ∧
    schedTrace w s num_tasks (fuel + 1) fake idle num cur
        = ⟨fake, idle, num, cur⟩ ::
          schedTrace w s num_tasks fuel (scan w s cur [] fake idle num false).fake_tasks
            (scan w s cur [] fake idle num false).idle_date
            (scan w s cur [] fake idle num false).num_scheduled_tasks
            (if (scan w s cur [] fake idle num false).scheduled_something then
              minIdle (scan w s cur [] fake idle num false).idle_date
            else secondMinIdle (scan w s cur [] fake idle num false).idle_date cur) := by
  constructor
  · rw [schedLoop, if_pos hlt]
  · rw [schedTrace, if_pos hlt]

theorem schedLoop_done (w : Workflow) (s : ℚ) (num_tasks fuel : Nat)
    (fake : List (Nat × ℚ)) (idle : List ℚ) (num : Nat) (cur : ℚ) (hlt : ¬ num < num_tasks) :
    schedLoop w s num_tasks fuel fake idle num cur = some idle ∧
    schedTrace w s num_tasks fuel fake idle num cur = [⟨fake, idle, num, cur⟩] := by
  constructor
  · cases fuel <;> rw [schedLoop, if_neg hlt]
  · cases fuel <;> rw [schedTrace, if_neg hlt]

theorem schedLoop_scale_any {w : Workflow} {tasks : List Nat} (k : ℚ)
    (hk : 0 < k) (s : ℚ) (hs : 0 < s) (hf : ∀ t ∈ tasks, 0 ≤ w.flops t)
    (hB : (tasks.map (dur w s)).sum ≤ DBL_MAX)
    (hB' : k * (tasks.map (dur w s)).sum ≤ DBL_MAX) (fuel : Nat) :
    ∀ (fake : List (Nat × ℚ)) (idle : List ℚ) (num : Nat) (cur : ℚ),
      fake.map Prod.fst = tasks → num = placed fake → idle ≠ [] → 0 ≤ cur →
      cur ≤ work w s fake → (∀ d ∈ idle, 0 ≤ d ∧ d ≤ work w s fake) →
      (∀ e ∈ fake, 0 ≤ e.2 → ∃ d ∈ idle, e.2 ≤ d) →
      schedLoop (scaleFlops k w) s tasks.length fuel (scaleFake k fake) (idle.map (k * ·)) num
          (k * cur)
        = (schedLoop w s tasks.length fuel fake idle num cur).map (List.map (k * ·)) ∧
      (schedLoop w s tasks.length fuel fake idle num cur ≠ none →
        schedTrace (scaleFlops k w) s tasks.length fuel (scaleFake k fake) (idle.map (k * ·))
            num (k * cur)
          = (schedTrace w s tasks.length fuel fake idle num cur).map (scaleState k)) := by
  induction fuel with
  | zero =>
    intro fake idle num cur _ _ _ _ _ _ _
    by_cases hlt : num < tasks.length
    · constructor
      · rw [schedLoop, schedLoop, if_pos hlt, if_pos hlt]; rfl
      · intro h
        rw [schedLoop, if_pos hlt] at h
        exact absurd rfl h
    · rw [(schedLoop_done _ _ _ _ _ _ _ _ hlt).1, (schedLoop_done _ _ _ _ _ _ _ _ hlt).2,
        (schedLoop_done _ _ _ _ _ _ _ _ hlt).1, (schedLoop_done _ _ _ _ _ _ _ _ hlt).2]
      exact ⟨rfl, fun _ => rfl⟩
  | succ fuel ih =>
    intro fake idle num cur hfst hnum hne hcur hc hI hK
    have hlen : fake.length = tasks.length := by rw [← hfst]; simp
    have hmem : ∀ e ∈ fake, e.1 ∈ tasks := by
      intro e he; rw [← hfst]; exact List.mem_map_of_mem _ he
    have hdur : ∀ e ∈ fake, 0 ≤ w.flops e.1 / s :=
      fun e he => div_nonneg (hf _ (hmem e he)) (le_of_lt hs)
    by_cases hlt : num < tasks.length
    · rw [(schedLoop_succ _ _ _ _ _ _ _ _ hlt).1, (schedLoop_succ _ _ _ _ _ _ _ _ hlt).2,
        (schedLoop_succ _ _ _ _ _ _ _ _ hlt).1, (schedLoop_succ _ _ _ _ _ _ _ _ hlt).2]
      have hsc := scan_scale w k hk s cur hcur fake [] idle num false hdur
      have hnil : scaleFake k [] = [] := rfl
      rw [hnil] at hsc
      rw [hsc]
      obtain ⟨hw, hI', hK', hlen'⟩ := scan_sound w s cur hcur fake [] idle num false hdur
        (by simpa using hc) (by simpa using hI) (by simpa using hK)
      obtain ⟨p1, _, _⟩ := scan_placed w s cur hcur fake [] idle num false hdur
      have hfst' := scan_fake_fst w s cur fake [] idle num false
      simp only [List.nil_append] at hw p1 hfst'
      rw [hfst] at hfst'
      have hne' : (scan w s cur [] fake idle num false).idle_date ≠ [] := by
        intro h
        rw [h] at hlen'
        exact hne (List.length_eq_zero.1 hlen'.symm)
      have htot : work w s (scan w s cur [] fake idle num false).fake_tasks
          ≤ (tasks.map (dur w s)).sum := by
        refine le_trans (work_le w s _ ?_) (by rw [hfst'])
        intro e he
        have : e.1 ∈ tasks := by rw [← hfst']; exact List.mem_map_of_mem _ he
        exact div_nonneg (hf _ this) (le_of_lt hs)
      have hbd : ∀ d ∈ (scan w s cur [] fake idle num false).idle_date, d ≤ DBL_MAX :=
        fun d hd => le_trans (le_trans (hI' d hd).2 htot) hB
      have hbd' : ∀ d ∈ (scan w s cur [] fake idle num false).idle_date, k * d ≤ DBL_MAX :=
        fun d hd => le_trans
          (mul_le_mul_of_nonneg_left (le_trans (hI' d hd).2 htot) (le_of_lt hk)) hB'
      have hsim : (scaleSim k (scan w s cur [] fake idle num false)).scheduled_something
          = (scan w s cur [] fake idle num false).scheduled_something := rfl
      have hsimi : (scaleSim k (scan w s cur [] fake idle num false)).idle_date
          = (scan w s cur [] fake idle num false).idle_date.map (k * ·) := rfl
      have hsimf : (scaleSim k (scan w s cur [] fake idle num false)).fake_tasks
          = scaleFake k (scan w s cur [] fake idle num false).fake_tasks := rfl
      have hsimn : (scaleSim k (scan w s cur [] fake idle num false)).num_scheduled_tasks
          = (scan w s cur [] fake idle num false).num_scheduled_tasks := rfl
      rw [hsim, hsimi, hsimf, hsimn]
      have hhead : (⟨scaleFake k fake, idle.map (k * ·), num, k * cur⟩ : LoopState)
          = scaleState k ⟨fake, idle, num, cur⟩ := rfl
      by_cases hflag : (scan w s cur [] fake idle num false).scheduled_something = true
      · rw [if_pos hflag, if_pos hflag, minIdle_scale k hk _ hne' hbd hbd']
        obtain ⟨hm, _⟩ := minIdle_eq _ hne' hbd
        obtain ⟨ih1, ih2⟩ := ih (scan w s cur [] fake idle num false).fake_tasks
          (scan w s cur [] fake idle num false).idle_date
          (scan w s cur [] fake idle num false).num_scheduled_tasks
          (minIdle (scan w s cur [] fake idle num false).idle_date)
          hfst' (by omega) hne' (hI' _ hm).1 (hI' _ hm).2 hI' hK'
        refine ⟨ih1, fun hret => ?_⟩
        rw [ih2 hret, List.map_cons, hhead]
      · rw [if_neg hflag, if_neg hflag]
        have hun := scan_unchanged w s cur fake [] idle num false (by simpa using hflag)
        have hidle : (scan w s cur [] fake idle num false).idle_date = idle := by rw [hun]
        have hfake : (scan w s cur [] fake idle num false).fake_tasks = fake := by
          rw [hun]; rfl
        have hnumeq : (scan w s cur [] fake idle num false).num_scheduled_tasks = num := by
          rw [hun]
        rw [hidle, hfake, hnumeq]
        rw [hidle] at hbd hbd' hI' hne' hK'
        rw [hfake] at hI' hK' hfst'
        by_cases hex : ∃ d ∈ idle, d > cur
        · rw [secondMinIdle_scale k hk idle cur hex hbd hbd']
          obtain ⟨hm, hgt, _⟩ := secondMinIdle_eq idle cur hex hbd
          obtain ⟨ih1, ih2⟩ := ih fake idle num (secondMinIdle idle cur) hfst hnum hne'
            (le_of_lt (lt_of_le_of_lt hcur hgt)) (hI' _ hm).2 hI' hK'
          refine ⟨ih1, fun hret => ?_⟩
          rw [ih2 hret, List.map_cons, hhead]
        · have hall : ∀ d ∈ idle, d ≤ cur :=
            fun d hd => not_lt.1 (fun h => hex ⟨d, hd, h⟩)
          obtain ⟨a, ha⟩ := List.exists_mem_of_ne_nil idle hne
          have hplaced : ∀ e ∈ fake, 0 ≤ e.2 → e.2 ≤ cur := by
            intro e he hnn
            obtain ⟨d, hd, hle⟩ := hK e he hnn
            exact le_trans hle (hall d hd)
          have hstuck : ∀ e ∈ fake, e.2 < 0 →
              ∃ p ∈ w.parents e.1, ∃ ft ∈ fake, ft.1 = p ∧ ft.2 < 0 := by
            intro e he hneg
            have hnot : ¬ schedulable w fake cur e.1 = true := by
              intro hsch
              exact hflag (scan_progress w s cur fake [] idle num false ⟨a, ha, hall a ha⟩
                ⟨e, he, hneg, hsch⟩)
            rw [schedulable_iff] at hnot
            push_neg at hnot
            obtain ⟨p, hp, ft, hft, hfp, hbad⟩ := hnot
            refine ⟨p, hp, ft, hft, hfp, ?_⟩
            by_contra hnn
            have hnn' : 0 ≤ ft.2 := not_lt.1 hnn
            exact absurd (hplaced ft hft hnn') (not_le.2 (hbad hnn'))
          have hstuck' : ∀ e ∈ scaleFake k fake, e.2 < 0 →
              ∃ p ∈ (scaleFlops k w).parents e.1, ∃ ft ∈ scaleFake k fake,
                ft.1 = p ∧ ft.2 < 0 := by
            intro e he hneg
            obtain ⟨e0, he0, rfl⟩ := List.mem_map.1 he
            have hneg0 : e0.2 < 0 := by
              by_contra hnn
              have := (scaleDate_nonneg_iff k e0.2 hk).2 (not_lt.1 hnn)
              exact absurd hneg (not_lt.2 this)
            obtain ⟨p, hp, ft, hft, hfp, hfneg⟩ := hstuck e0 he0 hneg0
            refine ⟨p, hp, (ft.1, scaleDate k ft.2), List.mem_map_of_mem _ hft, hfp, ?_⟩
            by_contra hnn
            have := (scaleDate_nonneg_iff k ft.2 hk).1 (not_lt.1 hnn)
            exact absurd hfneg (not_lt.2 this)
          rw [schedLoop_stuck _ s _ _ _ _ hlt hstuck', schedLoop_stuck _ s _ _ _ _ hlt hstuck]
          exact ⟨rfl, fun h => absurd rfl h⟩
    · rw [(schedLoop_done _ _ _ _ _ _ _ _ hlt).1, (schedLoop_done _ _ _ _ _ _ _ _ hlt).2,
        (schedLoop_done _ _ _ _ _ _ _ _ hlt).1, (schedLoop_done _ _ _ _ _ _ _ _ hlt).2]
      exact ⟨rfl, fun _ => rfl⟩

theorem estimateMakespan_scale_any (w : Workflow) (tasks : List Nat) (k : ℚ) (hk : 0 < k)
    (s : ℚ) (hs : 0 < s) (hf : ∀ t ∈ tasks, 0 ≤ w.flops t)
    (hB : (tasks.map (dur w s)).sum ≤ DBL_MAX)
    (hB' : k * (tasks.map (dur w s)).sum ≤ DBL_MAX) (fuel n : Nat) :
    estimateMakespan fuel (scaleFlops k w) tasks n s
        = scaleRun k (estimateMakespan fuel w tasks n s) ∧
      ((∃ m, estimateMakespan fuel w tasks n s = Run.ret m) →
        schedTrace (scaleFlops k w) s tasks.length fuel (tasks.map fun t => (t, (-1 : ℚ)))
            (List.replicate n 0) 0 0
          = (schedTrace w s tasks.length fuel (tasks.map fun t => (t, (-1 : ℚ)))
              (List.replicate n 0) 0 0).map (scaleState k)) := by
  unfold estimateMakespan
  by_cases hn : n = 0
  · rw [if_pos hn, if_pos hn]
    refine ⟨rfl, ?_⟩
    rintro ⟨m, hm⟩
    cases hm
  · rw [if_neg hn, if_neg hn]
    have hfresh : (tasks.map fun t => (t, (-1 : ℚ)))
        = scaleFake k (tasks.map fun t => (t, (-1 : ℚ))) := by
      unfold scaleFake
      rw [List.map_map]
      apply List.map_congr_left
      intro t _
      simp [scaleDate]
    have hidle : List.replicate n (0 : ℚ) = (List.replicate n (0 : ℚ)).map (k * ·) := by
      simp
    have hcur : (0 : ℚ) = k * 0 := by ring
    have hplaced : placed (tasks.map fun t => (t, (-1 : ℚ))) = 0 := by
      simp [placed]
    obtain ⟨h1, h2⟩ := @schedLoop_scale_any w tasks k hk s hs hf hB hB' fuel
      (tasks.map fun t => (t, (-1 : ℚ))) (List.replicate n 0) 0 0
      (by simp [List.map_map, Function.comp_def]) hplaced.symm
      (by
        intro h
        have := congrArg List.length h
        simp at this
        exact hn this)
      (le_refl _) (by rw [work_fresh])
      (by
        intro d hd
        rw [List.eq_of_mem_replicate hd, work_fresh]
        exact ⟨le_refl _, le_refl _⟩)
      (by
        intro e he hnn
        obtain ⟨t, _, rfl⟩ := List.mem_map.1 he
        norm_num at hnn)
    rw [← hfresh, ← hidle, ← hcur] at h1 h2
    by_cases h0 : tasks.length = 0
    · rw [if_pos h0, if_pos h0]
      refine ⟨by simp [scaleRun], fun _ => h2 ?_⟩
      rw [(schedLoop_done _ _ _ _ _ _ _ _ (by omega)).1]
      simp
    · rw [if_neg h0, if_neg h0, h1]
      cases hl : schedLoop w s tasks.length fuel (tasks.map fun t => (t, (-1 : ℚ)))
          (List.replicate n 0) 0 0 with
      | none =>
        refine ⟨rfl, ?_⟩
        rintro ⟨m, hm⟩
        cases hm
      | some idle =>
        simp only [Option.map_some', scaleRun]
        rw [maxIdle_scale k hk]
        exact ⟨rfl, fun _ => h2 (by rw [hl]; simp)⟩

end WorkflowUtil

namespace TestClusteringWMS

open WorkflowUtil

theorem wasteExceeds_iff (i : Nat) (curr_makespan all_tasks_time waste_bound : ℚ)
    (h : (i : ℚ) * curr_makespan ≠ 0) :
    wasteExceeds i curr_makespan all_tasks_time waste_bound = false ↔
      wasteRatio i curr_makespan all_tasks_time ≤ waste_bound := by
  simp [wasteExceeds, quotientGt, wasteRatio, h]

/-- C7 (counterexample): the levels 1..1 of the one-level `fanWorkflow` hold no task, so
the search over `n` is empty, and `computeBestNumHosts(1, 1)` returns
`(DBL_MAX, DBL_MAX, 1)` instead of failing. -/
theorem computeBestNumHosts_no_candidate_returns :
    findMaxTasks fanWorkflow 1 1 = 0 ∧
    computeBestNumHosts 5 fanWorkflow idleService 0 1 (1 / 5) 1 1 0
      = Run.ret (⟨DBL_MAX, DBL_MAX, 1⟩, 0) := by
  constructor <;> decide!

/-- C7 (amended): when `findMaxTasks(a, b) = 0` the search over `n` is empty and
`computeBestNumHosts(a, b)` returns wait time `DBL_MAX`, makespan `DBL_MAX` and 1 host,
with the sequence number unchanged (no estimate is queried); it does not throw. -/
theorem computeBestNumHosts_empty_search (fuel : Nat) (w : Workflow) (bs : BatchService)
    (now core_speed waste_bound : ℚ) (a b seq : Nat) (h : findMaxTasks w a b = 0) :
    computeBestNumHosts fuel w bs now core_speed waste_bound a b seq
      = Run.ret (⟨DBL_MAX, DBL_MAX, 1⟩, seq) := by
  simp [computeBestNumHosts, h, bestLoop]

/-- C7 (amended), instance: the empty level range 1..1 of `fanWorkflow`. -/
theorem computeBestNumHosts_empty_search_witness :
    computeBestNumHosts 5 fanWorkflow idleService 0 1 (1 / 5) 1 1 7
      = Run.ret (⟨DBL_MAX, DBL_MAX, 1⟩, 7) :=
  computeBestNumHosts_empty_search 5 fanWorkflow idleService 0 1 (1 / 5) 1 1 7 (by decide)

/-- C9 (counterexample): the 8 tasks of `fanWorkflow` in one level with a batch service
that always predicts the start date 10000: the whole workflow has `waitAll = 10000`,
`runAll = 100`, no split exists, and `applyGroupingHeuristic` leaves the individual mode
off and submits the placeholder job of 8 nodes for the levels 0..0. -/
theorem test_heuristic_submits_despite_long_wait :
    computeBestNumHosts 8 fanWorkflow busyService 0 1 (1 / 5) 0 0 8
      = Run.ret (⟨10000, 100, 8⟩, 16) ∧ (10000 : ℚ) > 2 * 100 ∧
    observe (applyGroupingHeuristic 8 fanWorkflow busyService 0 (initial (1 / 5) 0 8))
      = some (false, some ⟨0, 8, [0, 1, 2, 3, 4, 5, 6, 7], 0, 0, 0⟩, 0,
          [Submitted.pilotJob 0 ⟨"8", "1", "2"⟩]) := by
  refine ⟨by decide!, by norm_num, by decide!⟩

theorem applyGroupingHeuristic_eq (fuel : Nat) (w : Workflow) (bs : BatchService) (now : ℚ)
    (st : TestClusteringWMS) (hp : st.pending_placeholder_job = none)
    (hi : st.individual_mode = false)
    (ho : st.overlap = true ∨ st.running_placeholder_jobs = [])
    (hs : startLevel w st.running_placeholder_jobs < w.getNumLevels)
    (cols : List Estimate × List Estimate) (seq : Nat)
    (hte : timeEstimates fuel w bs now st (startLevel w st.running_placeholder_jobs)
      = Run.ret (cols, seq)) :
    applyGroupingHeuristic fuel w bs now st
      = Run.ret (submitChoice w { st with sequence := seq }
          (startLevel w st.running_placeholder_jobs)
          (splitLoop st.beat_bound (startLevel w st.running_placeholder_jobs) w.getNumLevels
            (tableOf (startLevel w st.running_placeholder_jobs) cols))) := by
  unfold applyGroupingHeuristic
  have h3 : (!st.overlap && !st.running_placeholder_jobs.isEmpty) = false := by
    rcases ho with h | h <;> simp [h]
  rw [hp, hi, h3, if_neg (not_le.2 hs), hte]
  simp

theorem splitStep_cases (beat_bound : ℚ) (e : Nat) (te : Nat → Estimate × Estimate)
    (c : Choice) (i : Nat) :
    splitStep beat_bound e te c i = c ∨
      (splitStep beat_bound e te c i).partial_dag_end_level = i := by
  unfold splitStep
  by_cases hr : splitRejected te i = true
  · left; rw [if_pos hr]
  · rw [if_neg hr]
    simp only
    by_cases h : (if c.partial_dag_end_level = e
        then splitTotal te i + splitTotal te i * beat_bound
        else splitTotal te i) < c.best_total_time
    · right; rw [if_pos h]
    · left; rw [if_neg h]

theorem splitLoop_range (beat_bound : ℚ) (s L : Nat) (te : Nat → Estimate × Estimate) :
    (splitLoop beat_bound s L te).partial_dag_end_level = L - 1 ∨
      (s ≤ (splitLoop beat_bound s L te).partial_dag_end_level ∧
        (splitLoop beat_bound s L te).partial_dag_end_level < L - 1) := by
  have key : ∀ (l : List Nat) (c : Choice), (∀ i ∈ l, s ≤ i ∧ i < L - 1) →
      (c.partial_dag_end_level = L - 1 ∨
        (s ≤ c.partial_dag_end_level ∧ c.partial_dag_end_level < L - 1)) →
      ((l.foldl (splitStep beat_bound (L - 1) te) c).partial_dag_end_level = L - 1 ∨
        (s ≤ (l.foldl (splitStep beat_bound (L - 1) te) c).partial_dag_end_level ∧
          (l.foldl (splitStep beat_bound (L - 1) te) c).partial_dag_end_level < L - 1)) := by
    intro l
    induction l with
    | nil => intro c _ h; simpa using h
    | cons i l ih =>
      intro c hl hc
      rw [List.foldl_cons]
      apply ih _ (fun j hj => hl j (List.mem_cons_of_mem _ hj))
      rcases splitStep_cases beat_bound (L - 1) te c i with h | h
      · rw [h]; exact hc
      · rw [h]; right; exact hl i (by simp)
  unfold splitLoop
  exact key _ _
    (by
      intro i hi
      rw [List.mem_range'_1] at hi
      omega)
    (Or.inl rfl)

/-- C10: when no placeholder job is pending before the call and one is pending after it,
`applyGroupingHeuristic` has submitted it in this call, and its level range satisfies
`start_level <= end_level <= num_levels - 1` with `start_level` the computed start
level. -/
theorem applyGroupingHeuristic_range (fuel : Nat) (w : Workflow) (bs : BatchService)
    (now : ℚ) (st st' : TestClusteringWMS) (ph : TestPlaceHolderJob)
    (hp : st.pending_placeholder_job = none)
    (hrun : applyGroupingHeuristic fuel w bs now st = Run.ret st')
    (hph : st'.pending_placeholder_job = some ph) :
    ph.start_level = startLevel w st.running_placeholder_jobs ∧
    ph.start_level ≤ ph.end_level ∧ ph.end_level ≤ w.getNumLevels - 1 ∧
    (∃ args, st'.submitted = st.submitted ++ [Submitted.pilotJob ph.pilot_job args]) := by
  unfold applyGroupingHeuristic at hrun
  rw [hp] at hrun
  simp only [Option.isSome_none, Bool.false_eq_true, if_false] at hrun
  have hstay : Run.ret st = Run.ret st' → False := by
    intro h
    injection h with h
    rw [← h, hp] at hph
    cases hph
  split at hrun
  · exact (hstay hrun).elim
  · rename_i hi
    split at hrun
    · exact (hstay hrun).elim
    · split at hrun
      · exact (hstay hrun).elim
      · rename_i hs
        split at hrun
        · rename_i cols seq hte
          injection hrun with hrun
          have hi' : st.individual_mode = false := by simpa using hi
          have hs' : startLevel w st.running_placeholder_jobs < w.getNumLevels := not_le.1 hs
          rw [← hrun] at hph ⊢
          simp only [submitChoice] at hph ⊢
          have hcases := splitLoop_range st.beat_bound
            (startLevel w st.running_placeholder_jobs) w.getNumLevels
            (tableOf (startLevel w st.running_placeholder_jobs) cols)
          split at hph
          · rename_i hend
            simp only [hi', Bool.not_false, if_true, createAndSubmitPlaceholderJob,
              Option.some.injEq] at hph ⊢
            rw [if_pos hend]
            simp only [hi', Bool.not_false, if_true, createAndSubmitPlaceholderJob]
            subst hph
            exact ⟨rfl, by simp only; omega, by simp only; omega, _, rfl⟩
          · rename_i hend
            simp only [hi', Bool.not_false, if_true, createAndSubmitPlaceholderJob,
              Option.some.injEq] at hph ⊢
            rw [if_neg hend]
            simp only [hi', Bool.not_false, if_true, createAndSubmitPlaceholderJob]
            subst hph
            rcases hcases with h | ⟨h1, h2⟩
            · exact absurd h hend
            · exact ⟨rfl, h1, by simp only; omega, _, rfl⟩
        · cases hrun
        · cases hrun

/-- C10, instance: the first decision on `fanWorkflow` with an idle batch service submits
the placeholder job of the levels 0..0. -/
theorem applyGroupingHeuristic_range_witness :
    (0 : Nat) = startLevel fanWorkflow (initial 0 0 8).running_placeholder_jobs ∧
    (0 : Nat) ≤ 0 ∧ 0 ≤ fanWorkflow.getNumLevels - 1 ∧
    (∃ args, [Submitted.pilotJob 0 ⟨"8", "1", "2"⟩]
      = (initial 0 0 8).submitted ++ [Submitted.pilotJob 0 args]) :=
  applyGroupingHeuristic_range 8 fanWorkflow idleService 0 (initial 0 0 8)
    { initial 0 0 8 with
      pending_placeholder_job := some ⟨0, 8, [0, 1, 2, 3, 4, 5, 6, 7], 0, 0, 0⟩
      parent_runtime := 110
      sequence := 16
      next_pilot_job := 1
      submitted := [Submitted.pilotJob 0 ⟨"8", "1", "2"⟩] }
    ⟨0, 8, [0, 1, 2, 3, 4, 5, 6, 7], 0, 0, 0⟩ rfl (by decide!) rfl

theorem splitLoop_fields (beat_bound : ℚ) (s L : Nat) (te : Nat → Estimate × Estimate) :
    splitLoop beat_bound s L te
        = ⟨L - 1, (te s).2.wait_time + (te s).2.makespan, (te s).2.makespan,
            (te s).2.num_hosts, (te s).2.wait_time⟩ ∨
      (s ≤ (splitLoop beat_bound s L te).partial_dag_end_level ∧
        (splitLoop beat_bound s L te).partial_dag_end_level < L - 1 ∧
        (splitLoop beat_bound s L te).estimated_wait_time
          = (te (splitLoop beat_bound s L te).partial_dag_end_level).1.wait_time ∧
        (splitLoop beat_bound s L te).requested_execution_time
          = (te (splitLoop beat_bound s L te).partial_dag_end_level).1.makespan ∧
        (splitLoop beat_bound s L te).requested_parallelism
          = (te (splitLoop beat_bound s L te).partial_dag_end_level).1.num_hosts) := by
  have key : ∀ (l : List Nat) (c0 c : Choice), (∀ i ∈ l, s ≤ i ∧ i < L - 1) →
      (c = c0 ∨ (s ≤ c.partial_dag_end_level ∧ c.partial_dag_end_level < L - 1 ∧
        c.estimated_wait_time = (te c.partial_dag_end_level).1.wait_time ∧
        c.requested_execution_time = (te c.partial_dag_end_level).1.makespan ∧
        c.requested_parallelism = (te c.partial_dag_end_level).1.num_hosts)) →
      (l.foldl (splitStep beat_bound (L - 1) te) c = c0 ∨
        (s ≤ (l.foldl (splitStep beat_bound (L - 1) te) c).partial_dag_end_level ∧
          (l.foldl (splitStep beat_bound (L - 1) te) c).partial_dag_end_level < L - 1 ∧
          (l.foldl (splitStep beat_bound (L - 1) te) c).estimated_wait_time
            = (te (l.foldl (splitStep beat_bound (L - 1) te) c).partial_dag_end_level).1.wait_time ∧
          (l.foldl (splitStep beat_bound (L - 1) te) c).requested_execution_time
            = (te (l.foldl (splitStep beat_bound (L - 1) te) c).partial_dag_end_level).1.makespan ∧
          (l.foldl (splitStep beat_bound (L - 1) te) c).requested_parallelism
            = (te (l.foldl (splitStep beat_bound (L - 1) te) c).partial_dag_end_level).1.num_hosts)) := by
    intro l c0
    induction l with
    | nil => intro c _ h; simpa using h
    | cons i l ih =>
      intro c hl hc
      rw [List.foldl_cons]
      apply ih _ (fun j hj => hl j (List.mem_cons_of_mem _ hj))
      unfold splitStep
      by_cases hr : splitRejected te i = true
      · rw [if_pos hr]; exact hc
      · rw [if_neg hr]
        simp only
        by_cases h : (if c.partial_dag_end_level = L - 1
            then splitTotal te i + splitTotal te i * beat_bound
            else splitTotal te i) < c.best_total_time
        · rw [if_pos h]
          right
          exact ⟨(hl i (by simp)).1, (hl i (by simp)).2, rfl, rfl, rfl⟩
        · rw [if_neg h]; exact hc
  unfold splitLoop
  exact key _ _ _
    (by
      intro i hi
      rw [List.mem_range'_1] at hi
      omega)
    (Or.inl rfl)

/-- C18, as the code behaves: on the three-level `chainWorkflow` with one host,
`parent_runtime = 50` and `stepService`, the whole workflow has wait 100 and run time 12,
the split after level 1 is chosen (wait 0, run time 7), and the walltime submitted is
`7 + (50 - 0) = 57`, inflated to `62.7`; with the leeway `max(0, 50 - 100) = 0` it would be
`7.7`. -/
theorem applyGroupingHeuristic_leeway_counterexample :
    timeEstimates 8 chainWorkflow stepService 0
        { initial (1 / 5) 0 1 with parent_runtime := 50 } 0
      = Run.ret (([⟨0, 3, 1⟩, ⟨0, 7, 1⟩, ⟨100, 12, 1⟩], [⟨100, 12, 1⟩, ⟨0, 9, 1⟩, ⟨7, 5, 1⟩]), 6) ∧
    applyGroupingHeuristic 8 chainWorkflow stepService 0
        { initial (1 / 5) 0 1 with parent_runtime := 50 }
      = Run.ret { initial (1 / 5) 0 1 with
          parent_runtime := 627 / 10
          pending_placeholder_job := some ⟨0, 1, [0, 1], 0, 1, 0⟩
          number_of_splits := 1
          sequence := 6
          next_pilot_job := 1
          submitted := [Submitted.pilotJob 0 ⟨"1", "1", "2"⟩] } ∧
    ((7 : ℚ) + max 0 (50 - 100)) * EXECUTION_TIME_FUDGE_FACTOR = 77 / 10 := by
  refine ⟨by decide!, by decide!, by decide!⟩

/-- C18, amended: when `TestClusteringWMS::applyGroupingHeuristic` passes its guards and
the table of estimates is computed, the call returns; the walltime handed to
`createAndSubmitPlaceholderJob` is `requested_execution_time
+ max(0, parent_runtime - estimated_wait_time)` (inflated by the fudge factor in
`parent_runtime` and in `-t`), where `estimated_wait_time` is the wait estimate of the
whole remaining workflow (`time_estimates[s][1]`) when no split is chosen and the wait
estimate of the levels up to the split (`time_estimates[end][0]`) when a split is
chosen. -/
theorem applyGroupingHeuristic_leeway (fuel : Nat) (w : Workflow) (bs : BatchService)
    (now : ℚ) (st : TestClusteringWMS) (hp : st.pending_placeholder_job = none)
    (hi : st.individual_mode = false)
    (ho : st.overlap = true ∨ st.running_placeholder_jobs = [])
    (s : Nat) (hs0 : s = startLevel w st.running_placeholder_jobs)
    (hs : s < w.getNumLevels)
    (cols : List Estimate × List Estimate) (seq : Nat)
    (hte : timeEstimates fuel w bs now st s = Run.ret (cols, seq))
    (c : Choice) (hc : c = splitLoop st.beat_bound s w.getNumLevels (tableOf s cols)) :
    ∃ st', applyGroupingHeuristic fuel w bs now st = Run.ret st' ∧
      c.estimated_wait_time
        = (if c.partial_dag_end_level = w.getNumLevels - 1 then (tableOf s cols s).2.wait_time
            else (tableOf s cols c.partial_dag_end_level).1.wait_time) ∧
      c.requested_execution_time
        = (if c.partial_dag_end_level = w.getNumLevels - 1 then (tableOf s cols s).2.makespan
            else (tableOf s cols c.partial_dag_end_level).1.makespan) ∧
      st'.parent_runtime
        = (c.requested_execution_time + max 0 (st.parent_runtime - c.estimated_wait_time))
            * EXECUTION_TIME_FUDGE_FACTOR ∧
      st'.submitted = st.submitted ++ [Submitted.pilotJob st.next_pilot_job
        ⟨toString c.requested_parallelism, "1",
          toString (1 + ⌊(c.requested_execution_time
            + max 0 (st.parent_runtime - c.estimated_wait_time))
              * EXECUTION_TIME_FUDGE_FACTOR⌋₊ / 60)⟩] := by
  subst hs0
  have hmax : ∀ a b r : ℚ, (if a > b then r + (a - b) else r) = r + max 0 (a - b) := by
    intro a b r
    by_cases h : a > b
    · rw [if_pos h, max_eq_right (by linarith)]
    · rw [if_neg h, max_eq_left (by linarith), add_zero]
  refine ⟨_, applyGroupingHeuristic_eq fuel w bs now st hp hi ho hs cols seq hte, ?_, ?_, ?_, ?_⟩
  · rcases splitLoop_fields st.beat_bound (startLevel w st.running_placeholder_jobs)
      w.getNumLevels (tableOf (startLevel w st.running_placeholder_jobs) cols) with h | h
    · rw [hc, h]; simp
    · rw [← hc] at h
      rw [if_neg (by omega)]
      exact h.2.2.1
  · rcases splitLoop_fields st.beat_bound (startLevel w st.running_placeholder_jobs)
      w.getNumLevels (tableOf (startLevel w st.running_placeholder_jobs) cols) with h | h
    · rw [hc, h]; simp
    · rw [← hc] at h
      rw [if_neg (by omega)]
      exact h.2.2.2.1
  · rw [← hc]
    unfold submitChoice createAndSubmitPlaceholderJob
    by_cases h1 : c.partial_dag_end_level = w.getNumLevels - 1 <;>
      simp only [h1, if_true, if_false, hi, Bool.not_false, hmax]
  · rw [← hc]
    unfold submitChoice createAndSubmitPlaceholderJob
    by_cases h1 : c.partial_dag_end_level = w.getNumLevels - 1 <;>
      simp only [h1, if_true, if_false, hi, Bool.not_false, hmax]

/-- C18, amended, instance: `chainWorkflow` with one host, `parent_runtime = 50` and
`stepService`; the split after level 1 is chosen. -/
theorem applyGroupingHeuristic_leeway_witness :
    ∃ st', applyGroupingHeuristic 8 chainWorkflow stepService 0
        { initial (1 / 5) 0 1 with parent_runtime := 50 } = Run.ret st' ∧
      (⟨1, 12, 7, 1, 0⟩ : Choice).estimated_wait_time
        = (if (⟨1, 12, 7, 1, 0⟩ : Choice).partial_dag_end_level = chainWorkflow.getNumLevels - 1
            then (tableOf 0 ([⟨0, 3, 1⟩, ⟨0, 7, 1⟩, ⟨100, 12, 1⟩],
              [⟨100, 12, 1⟩, ⟨0, 9, 1⟩, ⟨7, 5, 1⟩]) 0).2.wait_time
            else (tableOf 0 ([⟨0, 3, 1⟩, ⟨0, 7, 1⟩, ⟨100, 12, 1⟩],
              [⟨100, 12, 1⟩, ⟨0, 9, 1⟩, ⟨7, 5, 1⟩])
                (⟨1, 12, 7, 1, 0⟩ : Choice).partial_dag_end_level).1.wait_time) ∧
      (⟨1, 12, 7, 1, 0⟩ : Choice).requested_execution_time
        = (if (⟨1, 12, 7, 1, 0⟩ : Choice).partial_dag_end_level = chainWorkflow.getNumLevels - 1
            then (tableOf 0 ([⟨0, 3, 1⟩, ⟨0, 7, 1⟩, ⟨100, 12, 1⟩],
              [⟨100, 12, 1⟩, ⟨0, 9, 1⟩, ⟨7, 5, 1⟩]) 0).2.makespan
            else (tableOf 0 ([⟨0, 3, 1⟩, ⟨0, 7, 1⟩, ⟨100, 12, 1⟩],
              [⟨100, 12, 1⟩, ⟨0, 9, 1⟩, ⟨7, 5, 1⟩])
                (⟨1, 12, 7, 1, 0⟩ : Choice).partial_dag_end_level).1.makespan) ∧
      st'.parent_runtime
        = ((⟨1, 12, 7, 1, 0⟩ : Choice).requested_execution_time
            + max 0 (({ initial (1 / 5) 0 1 with parent_runtime := 50 } :
                TestClusteringWMS).parent_runtime
              - (⟨1, 12, 7, 1, 0⟩ : Choice).estimated_wait_time))
            * EXECUTION_TIME_FUDGE_FACTOR ∧
      st'.submitted
        = ({ initial (1 / 5) 0 1 with parent_runtime := 50 } : TestClusteringWMS).submitted
          ++ [Submitted.pilotJob
            ({ initial (1 / 5) 0 1 with parent_runtime := 50 } : TestClusteringWMS).next_pilot_job
            ⟨toString (⟨1, 12, 7, 1, 0⟩ : Choice).requested_parallelism, "1",
              toString (1 + ⌊((⟨1, 12, 7, 1, 0⟩ : Choice).requested_execution_time
                + max 0 (({ initial (1 / 5) 0 1 with parent_runtime := 50 } :
                    TestClusteringWMS).parent_runtime
                  - (⟨1, 12, 7, 1, 0⟩ : Choice).estimated_wait_time))
                  * EXECUTION_TIME_FUDGE_FACTOR⌋₊ / 60)⟩] :=
  applyGroupingHeuristic_leeway 8 chainWorkflow stepService 0
    { initial (1 / 5) 0 1 with parent_runtime := 50 } rfl rfl (Or.inl rfl) 0 (by decide)
    (by decide) ([⟨0, 3, 1⟩, ⟨0, 7, 1⟩, ⟨100, 12, 1⟩], [⟨100, 12, 1⟩, ⟨0, 9, 1⟩, ⟨7, 5, 1⟩]) 6
    (by decide!) ⟨1, 12, 7, 1, 0⟩ (by decide!)

theorem flatMap_part_le (f : Nat → List Nat) (g : Nat → ℚ) (js : List Nat)
    (hg : ∀ j ∈ js, ∀ t ∈ f j, 0 ≤ g t) :
    ∀ j ∈ js, ((f j).map g).sum ≤ ((js.flatMap f).map g).sum ∧
      (f j).length ≤ (js.flatMap f).length := by
  induction js with
  | nil => intro j hj; cases hj
  | cons x js ih =>
    intro j hj
    simp only [List.flatMap_cons, List.map_append, List.sum_append, List.length_append]
    have hx : 0 ≤ ((f x).map g).sum :=
      List.sum_nonneg (fun y hy => by
        obtain ⟨t, ht, rfl⟩ := List.mem_map.1 hy
        exact hg x (by simp) t ht)
    have hrest : 0 ≤ ((js.flatMap f).map g).sum :=
      List.sum_nonneg (fun y hy => by
        obtain ⟨t, ht, rfl⟩ := List.mem_map.1 hy
        obtain ⟨i, hi, hti⟩ := List.mem_flatMap.1 ht
        exact hg i (List.mem_cons_of_mem _ hi) t hti)
    rcases List.mem_cons.1 hj with h | h
    · subst h
      exact ⟨by linarith, by omega⟩
    · have := ih (fun i hi => hg i (List.mem_cons_of_mem _ hi)) j h
      exact ⟨by linarith [this.1], by omega⟩

theorem findMaxTasks_pos_of_level (w : Workflow) (a b j : Nat) (haj : a ≤ j) (hjb : j ≤ b)
    (hne : w.getTasksInTopLevelRange j j ≠ []) : 1 ≤ findMaxTasks w a b := by
  obtain ⟨_, h2, _⟩ := foldl_max_spec (fun i => (w.getTasksInTopLevelRange i i).length)
    (List.range' a (b + 1 - a)) 0
  have := h2 j (by rw [List.mem_range'_1]; omega)
  have hlen : 1 ≤ (w.getTasksInTopLevelRange j j).length := by
    cases hl : w.getTasksInTopLevelRange j j with
    | nil => exact absurd hl hne
    | cons x l => simp
  unfold findMaxTasks
  simp only at this
  omega

/-- C9 (amended): when the guards pass, the estimates return, no split is accepted
(`partial_dag_end_level = num_levels - 1`) and `waitAll > 2 * runAll`,
`applyGroupingHeuristic` returns with the individual mode still off, the split counter
unchanged and one pilot job submitted: the pending placeholder job covers the levels
`start_level .. num_levels - 1`, its number of nodes and the `-N` argument of its pilot job
are the parallelism of the whole-workflow estimate `time_estimates[start_level][1]`,
`-c` is 1, and nothing else is submitted. -/
theorem applyGroupingHeuristic_long_wait (fuel : Nat) (w : Workflow) (bs : BatchService)
    (now : ℚ) (st : TestClusteringWMS) (hp : st.pending_placeholder_job = none)
    (hi : st.individual_mode = false)
    (ho : st.overlap = true ∨ st.running_placeholder_jobs = [])
    (hs : startLevel w st.running_placeholder_jobs < w.getNumLevels)
    (cols : List Estimate × List Estimate) (seq : Nat)
    (hte : timeEstimates fuel w bs now st (startLevel w st.running_placeholder_jobs)
      = Run.ret (cols, seq))
    (hno : (splitLoop st.beat_bound (startLevel w st.running_placeholder_jobs) w.getNumLevels
      (tableOf (startLevel w st.running_placeholder_jobs) cols)).partial_dag_end_level
        = w.getNumLevels - 1)
    (_hwait : (tableOf (startLevel w st.running_placeholder_jobs) cols
        (startLevel w st.running_placeholder_jobs)).2.wait_time
      > 2 * (tableOf (startLevel w st.running_placeholder_jobs) cols
        (startLevel w st.running_placeholder_jobs)).2.makespan) :
    ∃ st' ph args, applyGroupingHeuristic fuel w bs now st = Run.ret st' ∧
      st'.individual_mode = false ∧ st'.number_of_splits = st.number_of_splits ∧
      st'.pending_placeholder_job = some ph ∧
      ph.start_level = startLevel w st.running_placeholder_jobs ∧
      ph.end_level = w.getNumLevels - 1 ∧
      st'.submitted = st.submitted ++ [Submitted.pilotJob ph.pilot_job args] ∧
      ph.num_nodes = (tableOf (startLevel w st.running_placeholder_jobs) cols
        (startLevel w st.running_placeholder_jobs)).2.num_hosts ∧
      args.N = toString (tableOf (startLevel w st.running_placeholder_jobs) cols
        (startLevel w st.running_placeholder_jobs)).2.num_hosts ∧
      args.c = "1" ∧
      ph.tasks = (List.range' (startLevel w st.running_placeholder_jobs)
          (w.getNumLevels - 1 + 1 - startLevel w st.running_placeholder_jobs)).flatMap
        (fun l => (w.getTasksInTopLevelRange l l).filter
          fun t => w.state t != TaskState.COMPLETED) := by
  rw [applyGroupingHeuristic_eq fuel w bs now st hp hi ho hs cols seq hte]
  have hsub : ∀ (st1 : TestClusteringWMS) (s : Nat) (c : Choice),
      st1.individual_mode = false → c.partial_dag_end_level = w.getNumLevels - 1 →
      submitChoice w st1 s c = createAndSubmitPlaceholderJob w st1
        (if st1.parent_runtime > c.estimated_wait_time then
          c.requested_execution_time + (st1.parent_runtime - c.estimated_wait_time)
        else c.requested_execution_time) c.requested_parallelism s c.partial_dag_end_level := by
    intro st1 s c h1 h2
    simp [submitChoice, h1, h2]
  rw [hsub { st with sequence := seq } _ _ hi hno]
  have hpar : (splitLoop st.beat_bound (startLevel w st.running_placeholder_jobs)
      w.getNumLevels (tableOf (startLevel w st.running_placeholder_jobs) cols)).requested_parallelism
      = (tableOf (startLevel w st.running_placeholder_jobs) cols
        (startLevel w st.running_placeholder_jobs)).2.num_hosts := by
    rcases splitLoop_fields st.beat_bound (startLevel w st.running_placeholder_jobs)
        w.getNumLevels (tableOf (startLevel w st.running_placeholder_jobs) cols) with h | h
    · rw [h]
    · rw [hno] at h
      omega
  refine ⟨_, _, _, rfl, hi, rfl, rfl, rfl, hno, rfl, ?_, ?_, rfl, ?_⟩
  · exact hpar
  · simp only [hpar]
  · simp only [hno]

/-- C9 (amended), instance: `fanWorkflow` with the batch service that predicts the start
date 10000: the placeholder job and its pilot job ask for the 8 nodes of the
whole-workflow estimate. -/
theorem applyGroupingHeuristic_long_wait_witness :
    ∃ st' ph args,
      applyGroupingHeuristic 8 fanWorkflow busyService 0 (initial (1 / 5) 0 8) = Run.ret st' ∧
      st'.individual_mode = false ∧
      st'.pending_placeholder_job = some ph ∧
      st'.submitted = (initial (1 / 5) 0 8).submitted ++ [Submitted.pilotJob ph.pilot_job args] ∧
      ph.num_nodes = 8 ∧ args.N = toString 8 ∧ args.c = "1" :=
  have h := applyGroupingHeuristic_long_wait 8 fanWorkflow busyService 0 (initial (1 / 5) 0 8)
    rfl rfl (Or.inl rfl) (by decide) ([⟨10000, 100, 8⟩], [⟨10000, 100, 8⟩]) 16 (by decide!)
    (by decide!) (by decide!)
  by
    obtain ⟨st', ph, args, h1, h2, _, h4, _, _, h7, h8, h9, h10, _⟩ := h
    exact ⟨st', ph, args, h1, h2, h4, h7, h8, h9, h10⟩

end TestClusteringWMS

namespace ZhangFixedWMS

open WorkflowUtil

theorem ulongPred_of_pos (n : Nat) (h1 : 1 ≤ n) (h2 : n ≤ 2 ^ 64) : ulongPred n = n - 1 := by
  unfold ulongPred ULONG_MAX
  have : n + (2 ^ 64 - 1) = (n - 1) + 2 ^ 64 := by omega
  rw [this, Nat.add_mod_right, Nat.mod_eq_of_lt (by omega)]

theorem ulongSucc_of_lt (n : Nat) (h : n < ULONG_MAX) : ulongSucc n = n + 1 := by
  unfold ulongSucc
  unfold ULONG_MAX at h
  exact Nat.mod_eq_of_lt (by omega)

theorem ulongPred_ulongSucc (n : Nat) (h : n ≤ ULONG_MAX) : ulongPred (ulongSucc n) = n := by
  unfold ULONG_MAX at h
  rcases Nat.lt_or_eq_of_le h with h1 | h1
  · rw [ulongSucc_of_lt n h1, ulongPred_of_pos (n + 1) (by omega) (by omega)]
    simp
  · subst h1
    decide

theorem candidateLoop_range (fuel : Nat) (w : Workflow) (proxy : ProxyWMS) (now cs : ℚ)
    (hosts : Nat) (parent : ℚ) (s e : Nat) (steps : Nat) :
    ∀ (c : Nat) (giant : Bool) (best : Best) (seq : Nat) (g : Grouping), c ≤ e →
      candidateLoop fuel w proxy now cs hosts parent s e steps c giant best seq = Run.ret g →
      c ≤ g.candidate_end_level ∧ g.candidate_end_level ≤ e := by
  induction steps with
  | zero =>
    intro c giant best seq g hce h
    rw [candidateLoop] at h
    split at h
    · cases h
    · injection h with h
      subst h
      exact ⟨le_refl _, hce⟩
  | succ k ih =>
    intro c giant best seq g hce h
    rw [candidateLoop] at h
    split at h
    · rename_i hlt
      split at h
      · split at h
        · have := ih _ _ _ _ g (by omega) h
          omega
        · split at h
          · injection h with h
            subst h
            exact ⟨le_refl _, hce⟩
          · have := ih _ _ _ _ g (by omega) h
            omega
      · cases h
      · cases h
    · injection h with h
      subst h
      exact ⟨le_refl _, hce⟩

theorem candidateLoop_returns (fuel : Nat) (w : Workflow) (proxy : ProxyWMS) (now cs : ℚ)
    (hosts : Nat) (parent : ℚ) (s e : Nat)
    (hev : ∀ c seq, s ≤ c → c < e →
      ∃ r, evalCandidate fuel w proxy now cs hosts parent s c seq = Run.ret r)
    (steps : Nat) :
    ∀ (c : Nat) (giant : Bool) (best : Best) (seq : Nat), s ≤ c → e - c ≤ steps →
      ∃ g, candidateLoop fuel w proxy now cs hosts parent s e steps c giant best seq
        = Run.ret g := by
  induction steps with
  | zero =>
    intro c giant best seq hsc hst
    rw [candidateLoop, if_neg (by omega)]
    exact ⟨_, rfl⟩
  | succ k ih =>
    intro c giant best seq hsc hst
    rw [candidateLoop]
    by_cases hlt : c < e
    · rw [if_pos hlt]
      obtain ⟨r, hr⟩ := hev c seq hsc hlt
      simp only [hr]
      split
      · exact ih _ _ _ _ (by omega) (by omega)
      · split
        · exact ⟨_, rfl⟩
        · exact ih _ _ _ _ (by omega) (by omega)
    · rw [if_neg hlt]
      exact ⟨_, rfl⟩

/-- The end level returned by `groupLevels` lies in `[start_level, end_level]`, and the
candidate it is computed from is at least 1. -/
theorem groupLevelsRaw_range (fuel : Nat) (w : Workflow) (proxy : ProxyWMS) (now : ℚ)
    (st : ZhangFixedWMS) (s e : Nat) (hse : s ≤ e) (he : e < ULONG_MAX)
    (wt rt : ℚ) (cand seq : Nat)
    (h : groupLevelsRaw fuel w proxy now st s e = Run.ret ((wt, rt, cand), seq)) :
    1 ≤ cand ∧ s ≤ ulongPred cand ∧ ulongPred cand ≤ e := by
  have hU : ULONG_MAX = 2 ^ 64 - 1 := rfl
  unfold groupLevelsRaw at h
  split at h
  · rename_i g hg
    have hr := candidateLoop_range _ _ _ _ _ _ _ _ _ _ _ _ _ _ g hse hg
    split at h
    · split at h
      · split at h
        · injection h with h
          simp only [Prod.mk.injEq] at h
          obtain ⟨⟨_, _, h3⟩, _⟩ := h
          rw [← h3, ulongPred_ulongSucc e (le_of_lt he), ulongSucc_of_lt e he]
          omega
        · cases h
        · cases h
      · cases h
      · cases h
    · rename_i hcond
      simp only [Bool.or_eq_true, beq_iff_eq, not_or] at hcond
      injection h with h
      simp only [Prod.mk.injEq] at h
      obtain ⟨⟨_, _, h3⟩, _⟩ := h
      rw [← h3, ulongPred_of_pos _ (by omega) (by omega)]
      have := hcond.2
      omega
  · cases h
  · cases h

theorem groupLevels_range (fuel : Nat) (w : Workflow) (proxy : ProxyWMS) (now : ℚ)
    (st : ZhangFixedWMS) (s e : Nat) (hse : s ≤ e) (he : e < ULONG_MAX)
    (wt rt : ℚ) (el seq : Nat)
    (h : groupLevels fuel w proxy now st s e = Run.ret ((wt, rt, el), seq)) :
    s ≤ el ∧ el ≤ e := by
  unfold groupLevels at h
  split at h
  · rename_i wt' rt' cand seq' hraw
    injection h with h
    simp only [Prod.mk.injEq] at h
    obtain ⟨⟨_, _, h3⟩, _⟩ := h
    rw [← h3]
    exact (groupLevelsRaw_range fuel w proxy now st s e hse he _ _ _ _ hraw).2
  · cases h
  · cases h

/-- C11: for `start_level <= end_level`, with `end_level` below `ULONG_MAX` (the level
count `end_level + 1` fits `unsigned long`), every result of `groupLevels` has its end
level in `[start_level, end_level]`; the candidate at the `return` is at least 1, so the
subtraction `candidate_end_level - 1` does not wrap; and `groupLevels` returns whenever
the estimates of the candidates and of the whole range return. -/
theorem groupLevels_end_level_in_range (fuel : Nat) (w : Workflow) (proxy : ProxyWMS) (now : ℚ)
    (st : ZhangFixedWMS) (s e : Nat) (hse : s ≤ e) (he : e < ULONG_MAX) :
    (∀ wt rt el seq, groupLevels fuel w proxy now st s e = Run.ret ((wt, rt, el), seq) →
      s ≤ el ∧ el ≤ e) ∧
    (∀ wt rt cand seq, groupLevelsRaw fuel w proxy now st s e = Run.ret ((wt, rt, cand), seq) →
      1 ≤ cand) ∧
    ((∀ c seq, s ≤ c → c < e →
        ∃ r, evalCandidate fuel w proxy now st.core_speed st.number_of_hosts
          (proxy.findMaxDuration st.running_placeholder_jobs) s c seq = Run.ret r) →
      (∃ runtime_all, WorkflowUtil.estimateMakespan fuel w (w.getTasksInTopLevelRange s e)
          (maxParallelism w st.number_of_hosts s e) st.core_speed = Run.ret runtime_all ∧
        ∀ seq, ∃ r, proxy.estimateWaitTime (maxParallelism w st.number_of_hosts s e)
          runtime_all now seq = Run.ret r) →
      ∃ r, groupLevels fuel w proxy now st s e = Run.ret r) := by
  refine ⟨?_, ?_, ?_⟩
  · intro wt rt el seq h
    exact groupLevels_range fuel w proxy now st s e hse he wt rt el seq h
  · intro wt rt cand seq h
    exact (groupLevelsRaw_range fuel w proxy now st s e hse he _ _ _ _ h).1
  · intro hev hall
    obtain ⟨ra, hra, hwa⟩ := hall
    obtain ⟨g, hg⟩ := candidateLoop_returns fuel w proxy now st.core_speed st.number_of_hosts
      (proxy.findMaxDuration st.running_placeholder_jobs) s e hev (e - s) s true
      ⟨DBL_MAX, 0, 0⟩ st.sequence (le_refl _) (le_refl _)
    obtain ⟨⟨wa, sq⟩, hwa'⟩ := hwa g.sequence
    unfold groupLevels groupLevelsRaw
    rw [hg]
    simp only [hra, hwa']
    by_cases hc : (g.giant || g.candidate_end_level == s) = true
    · rw [if_pos hc]; exact ⟨_, rfl⟩
    · rw [if_neg hc]; exact ⟨_, rfl⟩

/-- C11, instance: the two levels of `pairWorkflow` with the idle proxy. -/
theorem groupLevels_end_level_in_range_witness :
    (∀ wt rt el seq, groupLevels 5 pairWorkflow idleProxy 0 (initial 4) 0 1
        = Run.ret ((wt, rt, el), seq) → 0 ≤ el ∧ el ≤ 1) ∧
    (∀ wt rt cand seq, groupLevelsRaw 5 pairWorkflow idleProxy 0 (initial 4) 0 1
        = Run.ret ((wt, rt, cand), seq) → 1 ≤ cand) ∧
    ((∀ c seq, 0 ≤ c → c < 1 →
        ∃ r, evalCandidate 5 pairWorkflow idleProxy 0 (initial 4).core_speed
          (initial 4).number_of_hosts
          (idleProxy.findMaxDuration (initial 4).running_placeholder_jobs) 0 c seq = Run.ret r) →
      (∃ runtime_all, WorkflowUtil.estimateMakespan 5 pairWorkflow
          (pairWorkflow.getTasksInTopLevelRange 0 1)
          (maxParallelism pairWorkflow (initial 4).number_of_hosts 0 1) (initial 4).core_speed
            = Run.ret runtime_all ∧
        ∀ seq, ∃ r, idleProxy.estimateWaitTime
          (maxParallelism pairWorkflow (initial 4).number_of_hosts 0 1)
          runtime_all 0 seq = Run.ret r) →
      ∃ r, groupLevels 5 pairWorkflow idleProxy 0 (initial 4) 0 1 = Run.ret r) :=
  groupLevels_end_level_in_range 5 pairWorkflow idleProxy 0 (initial 4) 0 1 (by decide)
    (by decide)

theorem candidateLoop_allGiant (fuel : Nat) (w : Workflow) (proxy : ProxyWMS) (now cs : ℚ)
    (hosts : Nat) (parent : ℚ) (s e : Nat) (c seq seq' : Nat)
    (h : AllGiant fuel w proxy now cs hosts parent s e c seq seq') :
    ∀ (steps : Nat) (best : Best), e - c ≤ steps →
      ∃ c', candidateLoop fuel w proxy now cs hosts parent s e steps c true best seq
        = Run.ret ⟨c', true, best, seq'⟩ := by
  induction h with
  | done c seq hle =>
    intro steps best _
    have hn : ¬ (c < e) := by omega
    rw [candidateLoop.eq_def]
    simp only [hn, if_false]
    exact ⟨_, rfl⟩
  | step c seq seq1 seq' cand hlt hev hgiant _ ih =>
    intro steps best hst
    obtain ⟨k, hk⟩ : ∃ k, steps = k + 1 := ⟨steps - 1, by omega⟩
    subst hk
    rw [candidateLoop, if_pos hlt]
    simp only [hev, Bool.true_and, decide_eq_true_eq]
    rw [if_pos hgiant]
    exact ih k best (by omega)

/-- C13: when every candidate end level `c` with `s <= c < e` is evaluated with
`wait_time > run_time` (also when `s = e` and there is no candidate) and the run time
`runAll` and wait time `waitAll` of the levels `s..e` on `maxParallelism(s, e)` nodes
return, `groupLevels(s, e)` returns the end level `e`, the wait time `waitAll` and the
run time `runAll + max(0, parent_runtime - waitAll)`. -/
theorem groupLevels_giant_fallback (fuel : Nat) (w : Workflow) (proxy : ProxyWMS) (now : ℚ)
    (st : ZhangFixedWMS) (s e : Nat) (he : e ≤ ULONG_MAX) (seq1 seq2 : Nat)
    (runAll waitAll : ℚ)
    (hgiant : AllGiant fuel w proxy now st.core_speed st.number_of_hosts
      (proxy.findMaxDuration st.running_placeholder_jobs) s e s st.sequence seq1)
    (hrun : WorkflowUtil.estimateMakespan fuel w (w.getTasksInTopLevelRange s e)
      (maxParallelism w st.number_of_hosts s e) st.core_speed = Run.ret runAll)
    (hwait : proxy.estimateWaitTime (maxParallelism w st.number_of_hosts s e) runAll now seq1
      = Run.ret (waitAll, seq2)) :
    groupLevels fuel w proxy now st s e
      = Run.ret ((waitAll,
          runAll + max 0 (proxy.findMaxDuration st.running_placeholder_jobs - waitAll), e),
          seq2) := by
  obtain ⟨c', hc'⟩ := candidateLoop_allGiant fuel w proxy now st.core_speed st.number_of_hosts
    (proxy.findMaxDuration st.running_placeholder_jobs) s e s st.sequence seq1 hgiant (e - s)
    ⟨DBL_MAX, 0, 0⟩ (le_refl _)
  unfold groupLevels groupLevelsRaw
  rw [hc']
  simp only [Bool.true_or, if_true, hrun, hwait, ulongPred_ulongSucc e he]

/-- C13, instance: `pairWorkflow` with the proxy that always estimates the wait 10000:
the only candidate (level 0) has wait 10000 above its run time 100. -/
theorem groupLevels_giant_fallback_witness :
    groupLevels 5 pairWorkflow busyProxy 0 (initial 4) 0 1
      = Run.ret (((10000 : ℚ),
          (200 : ℚ) + max 0 (busyProxy.findMaxDuration (initial 4).running_placeholder_jobs
            - 10000), 1), 2) :=
  groupLevels_giant_fallback 5 pairWorkflow busyProxy 0 (initial 4) 0 1 (by decide) 1 2 200
    10000
    (AllGiant.step 0 0 1 1 ⟨100, 10000, 0⟩ (by decide) (by decide!) (by decide!)
      (AllGiant.done 1 1 (by decide)))
    (by decide!) (by decide!)

/-- `maxParallelism(a, b)` is the number of hosts capped by the largest level of the range. -/
theorem maxParallelism_spec (w : Workflow) (hosts a b : Nat) (hab : a ≤ b) :
    ∃ l, a ≤ l ∧ l ≤ b ∧
      (∀ l', a ≤ l' → l' ≤ b →
        (w.getTasksInTopLevelRange l' l').length ≤ (w.getTasksInTopLevelRange l l).length) ∧
      maxParallelism w hosts a b = min hosts (w.getTasksInTopLevelRange l l).length := by
  obtain ⟨_, h2, h3⟩ := foldl_max_spec (fun i => (w.getTasksInTopLevelRange i i).length)
    (List.range' a (b + 1 - a)) 0
  have hmem : ∀ i, i ∈ List.range' a (b + 1 - a) ↔ a ≤ i ∧ i ≤ b := by
    intro i; rw [List.mem_range'_1]; omega
  rcases h3 with h | ⟨l, hl, h⟩
  · refine ⟨a, le_refl _, hab, ?_, ?_⟩
    · intro l' h1' h2'
      have := h2 l' ((hmem l').2 ⟨h1', h2'⟩)
      simp only at this
      omega
    · have := h2 a ((hmem a).2 ⟨le_refl _, hab⟩)
      simp only at this
      unfold maxParallelism
      rw [h]
      have h0 : (w.getTasksInTopLevelRange a a).length = 0 := by omega
      rw [h0]; simp
  · refine ⟨l, ((hmem l).1 hl).1, ((hmem l).1 hl).2, ?_, ?_⟩
    · intro l' h1' h2'
      have := h2 l' ((hmem l').2 ⟨h1', h2'⟩)
      omega
    · unfold maxParallelism
      rw [← h, min_comm]

theorem applyGroupingHeuristic_submitGrouping (fuel : Nat) (w : Workflow) (proxy : ProxyWMS) (now : ℚ)
    (st : ZhangFixedWMS) (hp : st.pending_placeholder_job = none)
    (hi : st.individual_mode = false)
    (ho : st.overlap = true ∨ st.running_placeholder_jobs = [])
    (hL1 : 1 ≤ w.getNumLevels) (hL2 : w.getNumLevels ≤ ULONG_MAX)
    (hs : getStartLevel w st.running_placeholder_jobs ≤ w.getNumLevels - 1)
    (wt mk : ℚ) (el seq1 : Nat) (runAll waitAll : ℚ) (seq2 : Nat)
    (hg : groupLevels fuel w proxy now st (getStartLevel w st.running_placeholder_jobs)
      (w.getNumLevels - 1) = Run.ret ((wt, mk, el), seq1))
    (hrun : WorkflowUtil.estimateMakespan fuel w
      (w.getTasksInTopLevelRange (getStartLevel w st.running_placeholder_jobs)
        (w.getNumLevels - 1))
      (maxParallelism w st.number_of_hosts (getStartLevel w st.running_placeholder_jobs)
        (w.getNumLevels - 1)) st.core_speed = Run.ret runAll)
    (hwait : proxy.estimateWaitTime
      (maxParallelism w st.number_of_hosts (getStartLevel w st.running_placeholder_jobs)
        (w.getNumLevels - 1)) runAll now seq1 = Run.ret (waitAll, seq2)) :
    applyGroupingHeuristic fuel w proxy now st
      = Run.ret (submitGrouping w proxy { st with sequence := seq2 }
          (getStartLevel w st.running_placeholder_jobs) (w.getNumLevels - 1) mk el runAll
          waitAll) := by
  have hU : ULONG_MAX = 2 ^ 64 - 1 := rfl
  have hpred : ulongPred w.getNumLevels = w.getNumLevels - 1 :=
    ulongPred_of_pos _ hL1 (by omega)
  have hel := (groupLevels_range fuel w proxy now st _ _ hs (by omega) wt mk el seq1 hg).2
  unfold applyGroupingHeuristic
  have h3 : (!st.overlap && !st.running_placeholder_jobs.isEmpty) = false := by
    rcases ho with h | h <;> simp [h]
  rw [hp, hi, h3, hpred, if_neg (not_lt.2 hs), hg]
  simp only [Option.isSome_none, Bool.false_eq_true, if_false, hrun, hwait, if_pos hel]

/-- C14: when `ZhangFixedWMS::applyGroupingHeuristic` passes its guards, the start level
`s` is at most `L - 1`, `groupLevels(s, L - 1)` returns the execution time `mk` (its
`best_so_far_run_time + best_so_far_leeway`) and the end level `el`, and the estimates
`runAll` and `waitAll` of the levels `s..L-1` return, the call returns; individual mode
is switched on iff `el = L - 1` and `waitAll > 2 * runAll`, and then no placeholder is
submitted and the only proxy call is `submitAllOneJobPerTask`; otherwise exactly one
placeholder is submitted, for `[s, el]` with execution time `mk` and parallelism
`maxParallelism(s, el)`, which is the number of hosts capped by the size of a largest
level of `s..el`; a split is counted iff `el` is not `L - 1`. -/
theorem applyGroupingHeuristic_decision (fuel : Nat) (w : Workflow) (proxy : ProxyWMS)
    (now : ℚ) (st : ZhangFixedWMS) (hp : st.pending_placeholder_job = none)
    (hi : st.individual_mode = false)
    (ho : st.overlap = true ∨ st.running_placeholder_jobs = [])
    (hL1 : 1 ≤ w.getNumLevels) (hL2 : w.getNumLevels ≤ ULONG_MAX)
    (hs : getStartLevel w st.running_placeholder_jobs ≤ w.getNumLevels - 1)
    (wt mk : ℚ) (el seq1 : Nat) (runAll waitAll : ℚ) (seq2 : Nat)
    (hg : groupLevels fuel w proxy now st (getStartLevel w st.running_placeholder_jobs)
      (w.getNumLevels - 1) = Run.ret ((wt, mk, el), seq1))
    (hrun : WorkflowUtil.estimateMakespan fuel w
      (w.getTasksInTopLevelRange (getStartLevel w st.running_placeholder_jobs)
        (w.getNumLevels - 1))
      (maxParallelism w st.number_of_hosts (getStartLevel w st.running_placeholder_jobs)
        (w.getNumLevels - 1)) st.core_speed = Run.ret runAll)
    (hwait : proxy.estimateWaitTime
      (maxParallelism w st.number_of_hosts (getStartLevel w st.running_placeholder_jobs)
        (w.getNumLevels - 1)) runAll now seq1 = Run.ret (waitAll, seq2)) :
    ∃ st', applyGroupingHeuristic fuel w proxy now st = Run.ret st' ∧
      (st'.individual_mode = true ↔ el = w.getNumLevels - 1 ∧ waitAll > 2 * runAll) ∧
      (st'.individual_mode = true →
        st'.pending_placeholder_job = none ∧
        st'.calls = st.calls ++ [ProxyCall.submitAllOneJobPerTask st.core_speed]) ∧
      (st'.individual_mode = false →
        st'.pending_placeholder_job = some (proxy.createAndSubmitPlaceholderJob mk
          (maxParallelism w st.number_of_hosts (getStartLevel w st.running_placeholder_jobs)
            el) (getStartLevel w st.running_placeholder_jobs) el) ∧
        st'.calls = st.calls ++ [ProxyCall.createAndSubmitPlaceholderJob mk
          (maxParallelism w st.number_of_hosts (getStartLevel w st.running_placeholder_jobs)
            el) (getStartLevel w st.running_placeholder_jobs) el]) ∧
      st'.number_of_splits
        = (if el = w.getNumLevels - 1 then st.number_of_splits
            else st.number_of_splits + 1) ∧
      ∃ l, getStartLevel w st.running_placeholder_jobs ≤ l ∧ l ≤ el ∧
        (∀ l', getStartLevel w st.running_placeholder_jobs ≤ l' → l' ≤ el →
          (w.getTasksInTopLevelRange l' l').length
            ≤ (w.getTasksInTopLevelRange l l).length) ∧
        maxParallelism w st.number_of_hosts (getStartLevel w st.running_placeholder_jobs) el
          = min st.number_of_hosts (w.getTasksInTopLevelRange l l).length := by
  have hU : ULONG_MAX = 2 ^ 64 - 1 := rfl
  have hrange := groupLevels_range fuel w proxy now st _ _ hs (by omega) wt mk el seq1 hg
  refine ⟨_, applyGroupingHeuristic_submitGrouping fuel w proxy now st hp hi ho hL1 hL2 hs wt
    mk el seq1 runAll waitAll seq2 hg hrun hwait, ?_, ?_, ?_, ?_,
    maxParallelism_spec w st.number_of_hosts _ el hrange.1⟩
  · unfold submitGrouping
    by_cases h1 : el = w.getNumLevels - 1
    · by_cases h2 : waitAll > runAll * 2
      · simp [h1, h2, mul_comm]
      · simp only [h1, h2, if_true, if_false, hi, Bool.not_false, true_and]
        simp only [gt_iff_lt, mul_comm] at h2 ⊢
        simp [h2]
    · simp [h1, hi]
  · unfold submitGrouping
    by_cases h1 : el = w.getNumLevels - 1
    · by_cases h2 : waitAll > runAll * 2
      · simp [h1, h2, hp]
      · simp [h1, h2, hi]
    · simp [h1, hi]
  · unfold submitGrouping
    by_cases h1 : el = w.getNumLevels - 1
    · by_cases h2 : waitAll > runAll * 2
      · simp [h1, h2]
      · simp [h1, h2, hi]
    · simp [h1, hi]
  · unfold submitGrouping
    by_cases h1 : el = w.getNumLevels - 1
    · by_cases h2 : waitAll > runAll * 2
      · simp [h1, h2]
      · simp [h1, h2, hi]
    · simp [h1, hi]

/-- C14, instance: `pairWorkflow` with the proxy that always estimates the wait 10000:
`groupLevels(0, 1)` ends at level 1 and the wait 10000 of both levels is above twice
their run time 200. -/
theorem applyGroupingHeuristic_decision_witness :
    ∃ st', applyGroupingHeuristic 5 pairWorkflow busyProxy 0 (initial 4) = Run.ret st' ∧
      (st'.individual_mode = true ↔
        1 = pairWorkflow.getNumLevels - 1 ∧ (10000 : ℚ) > 2 * 200) ∧
      (st'.individual_mode = true →
        st'.pending_placeholder_job = none ∧
        st'.calls = (initial 4).calls
          ++ [ProxyCall.submitAllOneJobPerTask (initial 4).core_speed]) ∧
      (st'.individual_mode = false →
        st'.pending_placeholder_job = some (busyProxy.createAndSubmitPlaceholderJob 200
          (maxParallelism pairWorkflow (initial 4).number_of_hosts
            (getStartLevel pairWorkflow (initial 4).running_placeholder_jobs) 1)
          (getStartLevel pairWorkflow (initial 4).running_placeholder_jobs) 1) ∧
        st'.calls = (initial 4).calls ++ [ProxyCall.createAndSubmitPlaceholderJob 200
          (maxParallelism pairWorkflow (initial 4).number_of_hosts
            (getStartLevel pairWorkflow (initial 4).running_placeholder_jobs) 1)
          (getStartLevel pairWorkflow (initial 4).running_placeholder_jobs) 1]) ∧
      st'.number_of_splits
        = (if 1 = pairWorkflow.getNumLevels - 1 then (initial 4).number_of_splits
            else (initial 4).number_of_splits + 1) ∧
      ∃ l, getStartLevel pairWorkflow (initial 4).running_placeholder_jobs ≤ l ∧ l ≤ 1 ∧
        (∀ l', getStartLevel pairWorkflow (initial 4).running_placeholder_jobs ≤ l' → l' ≤ 1 →
          (pairWorkflow.getTasksInTopLevelRange l' l').length
            ≤ (pairWorkflow.getTasksInTopLevelRange l l).length) ∧
        maxParallelism pairWorkflow (initial 4).number_of_hosts
            (getStartLevel pairWorkflow (initial 4).running_placeholder_jobs) 1
          = min (initial 4).number_of_hosts (pairWorkflow.getTasksInTopLevelRange l l).length :=
  applyGroupingHeuristic_decision 5 pairWorkflow busyProxy 0 (initial 4) rfl rfl (Or.inl rfl)
    (by decide) (by decide) (by decide) 10000 200 1 2 200 10000 3 (by decide!) (by decide!)
    (by decide!)

theorem maxParallelism_single (w : Workflow) (hosts i : Nat) (hh : 1 ≤ hosts)
    (hlen : (w.getTasksInTopLevelRange i i).length = 1) : maxParallelism w hosts i i = 1 := by
  unfold maxParallelism
  rw [Nat.add_sub_cancel_left]
  simp [hlen, hh]

theorem maxParallelism_pair (w : Workflow) (hosts : Nat) (hh : 1 ≤ hosts)
    (h0 : (w.getTasksInTopLevelRange 0 0).length = 1)
    (h1 : (w.getTasksInTopLevelRange 1 1).length = 1) : maxParallelism w hosts 0 1 = 1 := by
  unfold maxParallelism
  simp [List.range', h0, h1, hh]

/-- C12, as the code behaves: on the chain of two tasks of 100 flops, with 4 hosts of
speed 1, nothing running and every wait estimate 0, the only proxy call submits a
placeholder for the levels `[0, 0]` with 1 node and 100 seconds, and one split is counted;
no placeholder for `[0, 1]` with 200 seconds is submitted. -/
theorem applyGroupingHeuristic_pair_counterexample :
    applyGroupingHeuristic 5 pairWorkflow idleProxy 0 (initial 4)
        = Run.ret { initial 4 with
            pending_placeholder_job := some (idleProxy.createAndSubmitPlaceholderJob 100 1 0 0)
            number_of_splits := 1
            sequence := 2
            calls := [ProxyCall.createAndSubmitPlaceholderJob 100 1 0 0] } ∧
      ProxyCall.createAndSubmitPlaceholderJob 200 1 0 1
        ≠ ProxyCall.createAndSubmitPlaceholderJob 100 1 0 0 := by
  decide!

theorem getStartLevel_pair (w : Workflow) (A B : Nat) (hL : w.getNumLevels = 2)
    (h00 : w.getTasksInTopLevelRange 0 0 = [A]) (h11 : w.getTasksInTopLevelRange 1 1 = [B])
    (hsA : w.state A ≠ TaskState.COMPLETED) (hsB : w.state B ≠ TaskState.COMPLETED) :
    getStartLevel w [] = 0 := by
  unfold getStartLevel
  rw [hL]
  simp [List.range_succ, h00, h11, hsA, hsB]

theorem groupLevels_pair (fuel : Nat) (w : Workflow) (proxy : ProxyWMS) (now : ℚ)
    (st : ZhangFixedWMS) (A : Nat) (hfuel : 1 ≤ fuel)
    (h00 : w.getTasksInTopLevelRange 0 0 = [A]) (hpA : w.parents A = [])
    (hfA : 0 < w.flops A) (hspeed : 0 < st.core_speed) (hh : 1 ≤ st.number_of_hosts)
    (hmax : w.flops A / st.core_speed ≤ DBL_MAX)
    (hr : st.running_placeholder_jobs = [])
    (hidle : ∀ n t seq, ∃ seq', proxy.estimateWaitTime n t now seq = Run.ret (0, seq'))
    (hdur : proxy.findMaxDuration [] = 0) :
    ∃ seq1, groupLevels fuel w proxy now st 0 1
      = Run.ret ((0, w.flops A / st.core_speed, 0), seq1) := by
  have hm : maxParallelism w st.number_of_hosts 0 0 = 1 :=
    maxParallelism_single w _ 0 hh (by rw [h00]; rfl)
  have hac : Acyclic w [A] := ⟨fun _ => 0, by
    intro t ht p hp _
    rw [List.mem_singleton.1 ht, hpA] at hp
    cases hp⟩
  have hrun := estimateMakespan_one_host hac st.core_speed hspeed
    (by intro t ht; rw [List.mem_singleton.1 ht]; exact le_of_lt hfA)
    (by simpa [dur] using hmax) fuel (by simpa using hfuel)
  simp only [List.map_cons, List.map_nil, List.sum_cons, List.sum_nil, add_zero, dur] at hrun
  obtain ⟨seq1, hw⟩ := hidle 1 (w.flops A / st.core_speed) st.sequence
  have hpos : 0 < w.flops A / st.core_speed := div_pos hfA hspeed
  have hev : evalCandidate fuel w proxy now st.core_speed st.number_of_hosts 0 0 0 st.sequence
      = Run.ret (⟨w.flops A / st.core_speed, 0, 0⟩, seq1) := by
    unfold evalCandidate
    rw [hm, h00, hrun]
    simp only [hw, lt_irrefl, if_false]
  refine ⟨seq1, ?_⟩
  unfold groupLevels groupLevelsRaw
  rw [hr, hdur]
  have hloop : candidateLoop fuel w proxy now st.core_speed st.number_of_hosts 0 0 1 (1 - 0) 0
      true ⟨DBL_MAX, 0, 0⟩ st.sequence
      = Run.ret ⟨1, false, ⟨0, w.flops A / st.core_speed, 0⟩, seq1⟩ := by
    rw [candidateLoop, if_pos (by decide)]
    simp only [hev]
    have h1 : ¬ ((0 : ℚ) > w.flops A / st.core_speed) := not_lt.2 (le_of_lt hpos)
    have h2 : (divideDouble 0 (w.flops A / st.core_speed)).gt (divideDouble DBL_MAX 0)
        = false := by
      unfold divideDouble
      rw [if_neg (ne_of_gt hpos), if_pos rfl, if_pos (by decide!)]
      rfl
    simp only [h1, decide_False, Bool.and_false, Bool.false_eq_true, if_false, h2]
    rw [candidateLoop.eq_def]
    simp
  rw [hloop]
  have hpred : ulongPred 1 = 0 := by decide
  simp [hpred]

/-- C12, amended: for a chain `A -> B` with level 0 = `[A]`, level 1 = `[B]`, positive
flops, no task completed, nothing pending or running, and every wait estimate 0,
`ZhangFixedWMS::applyGroupingHeuristic` returns, its only proxy call submits a placeholder
for the levels `[0, 0]` with 1 node and run time `flops(A) / core_speed`, the controller
stays out of individual mode and one split is counted. -/
theorem applyGroupingHeuristic_pair (fuel : Nat) (w : Workflow) (proxy : ProxyWMS) (now : ℚ)
    (st : ZhangFixedWMS) (A B : Nat) (hfuel : 2 ≤ fuel) (hL : w.getNumLevels = 2)
    (h00 : w.getTasksInTopLevelRange 0 0 = [A]) (h11 : w.getTasksInTopLevelRange 1 1 = [B])
    (h01 : w.getTasksInTopLevelRange 0 1 = [A, B])
    (hpA : w.parents A = []) (hpB : w.parents B = [A]) (hAB : A ≠ B)
    (hsA : w.state A ≠ TaskState.COMPLETED) (hsB : w.state B ≠ TaskState.COMPLETED)
    (hfA : 0 < w.flops A) (hfB : 0 < w.flops B) (hspeed : 0 < st.core_speed)
    (hh : 1 ≤ st.number_of_hosts)
    (hmax : (w.flops A + w.flops B) / st.core_speed ≤ DBL_MAX)
    (hp : st.pending_placeholder_job = none) (hi : st.individual_mode = false)
    (hr : st.running_placeholder_jobs = [])
    (hidle : ∀ n t seq, ∃ seq', proxy.estimateWaitTime n t now seq = Run.ret (0, seq'))
    (hdur : proxy.findMaxDuration [] = 0) :
    ∃ st', applyGroupingHeuristic fuel w proxy now st = Run.ret st' ∧
      st'.calls = st.calls
        ++ [ProxyCall.createAndSubmitPlaceholderJob (w.flops A / st.core_speed) 1 0 0] ∧
      st'.pending_placeholder_job
        = some (proxy.createAndSubmitPlaceholderJob (w.flops A / st.core_speed) 1 0 0) ∧
      st'.individual_mode = false ∧
      st'.number_of_splits = st.number_of_splits + 1 := by
  have hstart : getStartLevel w st.running_placeholder_jobs = 0 := by
    rw [hr]; exact getStartLevel_pair w A B hL h00 h11 hsA hsB
  have hle : w.flops A / st.core_speed ≤ (w.flops A + w.flops B) / st.core_speed :=
    div_le_div_of_nonneg_right (by linarith) (le_of_lt hspeed)
  obtain ⟨seq1, hg⟩ := groupLevels_pair fuel w proxy now st A (by omega) h00 hpA hfA hspeed
    hh (le_trans hle hmax) hr hidle hdur
  have hm0 : maxParallelism w st.number_of_hosts 0 0 = 1 :=
    maxParallelism_single w _ 0 hh (by rw [h00]; rfl)
  have hm : maxParallelism w st.number_of_hosts 0 1 = 1 :=
    maxParallelism_pair w _ hh (by rw [h00]; rfl) (by rw [h11]; rfl)
  have hac : Acyclic w [A, B] := ⟨fun t => if t = B then 1 else 0, by
    intro t ht p hp _
    rcases List.mem_cons.1 ht with h | h
    · rw [h, hpA] at hp; cases hp
    · rw [List.mem_singleton.1 h, hpB] at hp
      rw [List.mem_singleton.1 hp, List.mem_singleton.1 h]
      simp [hAB]⟩
  have hrun := estimateMakespan_one_host hac st.core_speed hspeed
    (by
      intro t ht
      rcases List.mem_cons.1 ht with h | h
      · rw [h]; exact le_of_lt hfA
      · rw [List.mem_singleton.1 h]; exact le_of_lt hfB)
    (by simpa [dur, add_div] using hmax) fuel (by simpa using hfuel)
  simp only [List.map_cons, List.map_nil, List.sum_cons, List.sum_nil, add_zero, dur] at hrun
  obtain ⟨seq2, hw⟩ := hidle 1 (w.flops A / st.core_speed + w.flops B / st.core_speed) seq1
  have hL1 : w.getNumLevels - 1 = 1 := by rw [hL]
  have happly := applyGroupingHeuristic_submitGrouping fuel w proxy now st hp hi (Or.inr hr)
    (by omega) (by rw [hL]; decide) (by rw [hstart]; omega) 0 (w.flops A / st.core_speed) 0
    seq1 (w.flops A / st.core_speed + w.flops B / st.core_speed) 0 seq2
    (by rw [hstart, hL1]; exact hg) (by rw [hstart, hL1, hm, h01]; exact hrun)
    (by rw [hstart, hL1, hm]; exact hw)
  refine ⟨_, happly, ?_, ?_, ?_, ?_⟩ <;>
    simp [submitGrouping, hstart, hL1, hi, hm0]

/-- C12, amended, instance: `pairWorkflow` with 4 hosts of speed 1. -/
theorem applyGroupingHeuristic_pair_witness :
    ∃ st', applyGroupingHeuristic 5 pairWorkflow idleProxy 0 (initial 4) = Run.ret st' ∧
      st'.calls = (initial 4).calls
        ++ [ProxyCall.createAndSubmitPlaceholderJob
          (pairWorkflow.flops 0 / (initial 4).core_speed) 1 0 0] ∧
      st'.pending_placeholder_job
        = some (idleProxy.createAndSubmitPlaceholderJob
          (pairWorkflow.flops 0 / (initial 4).core_speed) 1 0 0) ∧
      st'.individual_mode = false ∧
      st'.number_of_splits = (initial 4).number_of_splits + 1 :=
  applyGroupingHeuristic_pair 5 pairWorkflow idleProxy 0 (initial 4) 0 1 (by decide) rfl
    (by decide) (by decide) (by decide) (by decide) (by decide) (by decide) (by decide)
    (by decide) (by decide!) (by decide!) (by decide!) (by decide) (by decide!) rfl rfl rfl
    (fun _ _ seq => ⟨seq + 1, rfl⟩) rfl

/-- C16, failing input: on the three-level `chainWorkflow` (no task completed) with two
running placeholder jobs, one for level 1 and one for level 0, the code computes the
start level 3 when the job of level 1 is iterated first and 2 in the other order, in
`ZhangFixedWMS::getStartLevel` and in `TestClusteringWMS::applyGroupingHeuristic` alike;
the stated value is 2. -/
theorem getStartLevel_depends_on_order :
    getStartLevel chainWorkflow [⟨0, [1], 1, 1⟩, ⟨1, [0], 0, 0⟩] = 3 ∧
    getStartLevel chainWorkflow [⟨1, [0], 0, 0⟩, ⟨0, [1], 1, 1⟩] = 2 ∧
    TestClusteringWMS.startLevel chainWorkflow [⟨0, 1, [1], 1, 1, 0⟩, ⟨1, 1, [0], 0, 0, 0⟩] = 3 ∧
    TestClusteringWMS.startLevel chainWorkflow [⟨1, 1, [0], 0, 0, 0⟩, ⟨0, 1, [1], 1, 1, 0⟩] = 2 ∧
    statedStartLevel chainWorkflow [1, 0] = 2 ∧ statedStartLevel chainWorkflow [0, 1] = 2 := by
  decide

/-- C17: in both controllers `applyGroupingHeuristic` returns the controller state as it
was (nothing submitted, the sequence number of the estimate queries unchanged, no field
changed), for every workflow, oracle, date and fuel, whenever a placeholder job is
pending, or the individual mode is on, or `overlap` is false and a placeholder job is
running. -/
theorem applyGroupingHeuristic_guarded (fuel : Nat) (w : Workflow) (proxy : ProxyWMS)
    (bs : BatchService) (now : ℚ) (zhang : ZhangFixedWMS) (test : TestClusteringWMS)
    (hz : zhang.pending_placeholder_job ≠ none ∨ zhang.individual_mode = true ∨
      (zhang.overlap = false ∧ zhang.running_placeholder_jobs ≠ []))
    (ht : test.pending_placeholder_job ≠ none ∨ test.individual_mode = true ∨
      (test.overlap = false ∧ test.running_placeholder_jobs ≠ [])) :
    applyGroupingHeuristic fuel w proxy now zhang = Run.ret zhang ∧
      TestClusteringWMS.applyGroupingHeuristic fuel w bs now test = Run.ret test := by
  constructor
  · unfold applyGroupingHeuristic
    by_cases h1 : zhang.pending_placeholder_job.isSome = true
    · rw [if_pos h1]
    · rw [if_neg h1]
      by_cases h2 : zhang.individual_mode = true
      · rw [if_pos h2]
      · rw [if_neg h2]
        rcases hz with h | h | ⟨h, h'⟩
        · exact absurd (Option.isSome_iff_ne_none.2 h) h1
        · exact absurd h h2
        · rw [if_pos (by
            cases hr : zhang.running_placeholder_jobs with
            | nil => exact absurd hr h'
            | cons a l => simp [h])]
  · unfold TestClusteringWMS.applyGroupingHeuristic
    by_cases h1 : test.pending_placeholder_job.isSome = true
    · rw [if_pos h1]
    · rw [if_neg h1]
      by_cases h2 : test.individual_mode = true
      · rw [if_pos h2]
      · rw [if_neg h2]
        rcases ht with h | h | ⟨h, h'⟩
        · exact absurd (Option.isSome_iff_ne_none.2 h) h1
        · exact absurd h h2
        · rw [if_pos (by
            cases hr : test.running_placeholder_jobs with
            | nil => exact absurd hr h'
            | cons a l => simp [h])]

/-- C17, instance: a Zhang controller with a pending placeholder job and a Test controller
in individual mode, on `pairWorkflow`. -/
theorem applyGroupingHeuristic_guarded_witness :
    applyGroupingHeuristic 5 pairWorkflow idleProxy 0
        { initial 4 with pending_placeholder_job := some ⟨0, [0], 0, 0⟩ }
      = Run.ret { initial 4 with pending_placeholder_job := some ⟨0, [0], 0, 0⟩ } ∧
    TestClusteringWMS.applyGroupingHeuristic 5 pairWorkflow TestClusteringWMS.idleService 0
        { TestClusteringWMS.initial 0 0 4 with individual_mode := true }
      = Run.ret { TestClusteringWMS.initial 0 0 4 with individual_mode := true } :=
  applyGroupingHeuristic_guarded 5 pairWorkflow idleProxy TestClusteringWMS.idleService 0
    { initial 4 with pending_placeholder_job := some ⟨0, [0], 0, 0⟩ }
    { TestClusteringWMS.initial 0 0 4 with individual_mode := true }
    (Or.inl (by decide)) (Or.inr (Or.inl rfl))

theorem leewayLoop_spec (proxy : ProxyWMS) (now parent : ℚ) (n : Nat) (run : ℚ)
    (hret : ∀ t q, ∃ r, proxy.estimateWaitTime n t now q = Run.ret r) (fuel : Nat) :
    ∀ (L wt : ℚ) (q : Nat), 0 < L → L ≤ 2 ^ fuel →
      ∃ (j p : Nat) (L' wt' : ℚ) (q' : Nat),
        leewayLoop proxy now parent n run fuel L wt q = Run.ret (L', wt', q') ∧
        L' = L / 2 ^ j ∧
        ((∀ t q r, proxy.estimateWaitTime n t now q = Run.ret r → r.2 = q + 1) → q' = q + p) ∧
        ((p = 0 ∧ j = 0 ∧ L ≤ 1 ∧ wt' = wt ∧ q' = q) ∨
         (p = j + 1 ∧ 1 < L' ∧ wt' ≤ parent ∧
            ∃ q1, proxy.estimateWaitTime n (run + L' / 2) now q1 = Run.ret (wt', q')) ∨
         (p = j ∧ 1 ≤ j ∧ L' ≤ 1 ∧ 1 < 2 * L' ∧ parent < wt' ∧
            ∃ q1, proxy.estimateWaitTime n (run + L') now q1 = Run.ret (wt', q'))) := by
  induction fuel with
  | zero =>
    intro L wt q _ hle
    have hle1 : L ≤ 1 := by simpa using hle
    rw [leewayLoop, if_neg (not_lt.2 hle1)]
    exact ⟨0, 0, L, wt, q, rfl, by simp, fun _ => rfl, Or.inl ⟨rfl, rfl, hle1, rfl, rfl⟩⟩
  | succ f ih =>
    intro L wt q hL hle
    by_cases hgt : L > 1
    · rw [leewayLoop, if_pos hgt]
      obtain ⟨⟨w1, q1⟩, hr⟩ := hret (run + L / 2) q
      simp only [hr]
      by_cases hw : w1 > parent
      · rw [if_pos hw]
        have hle2 : L / 2 ≤ 2 ^ f := by
          rw [pow_succ] at hle
          linarith
        obtain ⟨j, p, L', wt', q', hloop, hL', hseq, hcases⟩ :=
          ih (L / 2) w1 q1 (by linarith) hle2
        rw [hloop]
        have hL'' : L' = L / 2 ^ (j + 1) := by
          rw [hL', pow_succ, div_div, mul_comm]
        rcases hcases with ⟨hp, hj, hle1, hwt, hq⟩ | ⟨hp, h1, hwp, q2, hq2⟩ |
            ⟨hp, hj, h1, h2, hwp, q2, hq2⟩
        · subst hj
          have hLh : L' = L / 2 := by rw [hL']; simp
          refine ⟨1, 1, L', wt', q', rfl, by rw [hLh]; simp, ?_,
            Or.inr (Or.inr ⟨rfl, le_refl _, by rw [hLh]; exact hle1, by rw [hLh]; linarith,
              by rw [hwt]; exact hw, q, ?_⟩)⟩
          · intro hs
            have := hs _ _ _ hr
            simp only at this
            rw [hq, this]
          · rw [hLh, hwt, hq]; exact hr
        · refine ⟨j + 1, p + 1, L', wt', q', rfl, hL'', ?_,
            Or.inr (Or.inl ⟨by omega, h1, hwp, q2, hq2⟩)⟩
          intro hs
          have h1' := hs _ _ _ hr
          have h2' := hseq hs
          simp only at h1'
          omega
        · refine ⟨j + 1, p + 1, L', wt', q', rfl, hL'', ?_,
            Or.inr (Or.inr ⟨by omega, by omega, h1, h2, hwp, q2, hq2⟩)⟩
          intro hs
          have h1' := hs _ _ _ hr
          have h2' := hseq hs
          simp only at h1'
          omega
      · rw [if_neg hw]
        exact ⟨0, 1, L, w1, q1, rfl, by simp, fun hs => hs _ _ _ hr,
          Or.inr (Or.inl ⟨rfl, hgt, not_lt.1 hw, q, hr⟩)⟩
    · rw [leewayLoop, if_neg hgt]
      exact ⟨0, 0, L, wt, q, rfl, by simp, fun _ => rfl,
        Or.inl ⟨rfl, rfl, not_lt.1 hgt, rfl, rfl⟩⟩

theorem leewayLoop_no_spin (proxy : ProxyWMS) (now parent : ℚ) (n : Nat) (run : ℚ)
    (hns : ∀ t q, proxy.estimateWaitTime n t now q ≠ Run.spin) (fuel : Nat) :
    ∀ (L wt : ℚ) (q : Nat), L ≤ 2 ^ fuel →
      leewayLoop proxy now parent n run fuel L wt q ≠ Run.spin := by
  induction fuel with
  | zero =>
    intro L wt q hle
    have hle1 : L ≤ 1 := by simpa using hle
    rw [leewayLoop, if_neg (not_lt.2 hle1)]
    intro h; cases h
  | succ f ih =>
    intro L wt q hle
    by_cases hgt : L > 1
    · rw [leewayLoop, if_pos hgt]
      cases hr : proxy.estimateWaitTime n (run + L / 2) now q with
      | ret r =>
        obtain ⟨w1, q1⟩ := r
        simp only
        by_cases hw : w1 > parent
        · rw [if_pos hw]
          exact ih _ _ _ (by rw [pow_succ] at hle; linarith)
        · rw [if_neg hw]
          intro h; cases h
      | throw e => simp only; intro h; cases h
      | spin => exact absurd hr (hns _ _)
    · rw [leewayLoop, if_neg hgt]
      intro h; cases h

theorem probes_le_clog (p : Nat) (L : ℚ) (hL : 0 < L) (h : p = 0 ∨ (2 : ℚ) ^ (p - 1) < L) :
    (p : ℤ) ≤ max 0 (Int.clog 2 L) := by
  rcases h with h | h
  · subst h
    exact le_max_left _ _
  · by_cases hp : p = 0
    · subst hp
      exact le_max_left _ _
    · have h2 : (((2 : ℕ) : ℚ)) ^ (((p - 1 : ℕ) : ℤ)) < L := by
        rw [zpow_natCast]
        exact_mod_cast h
      have := (Int.zpow_lt_iff_lt_clog (by decide : 1 < 2) hL).1 h2
      have hc : (p : ℤ) ≤ Int.clog 2 L := by
        have : ((p - 1 : ℕ) : ℤ) = (p : ℤ) - 1 := by omega
        omega
      exact le_trans hc (le_max_right _ _)

/-- C38 (counterexample): with `parent_runtime - wait_time = 1/8` the bisection issues no
probe (the loop returns at once, the sequence number stays 7), while the stated bound
`ceil(log2(1/8)) + 1` is `-2`: the number of probes, 0, is not at most the bound. -/
theorem leewayLoop_probe_bound_counterexample :
    leewayLoop idleProxy 0 (1 / 8) 1 100 5 (1 / 8 - 0) 0 7 = Run.ret (1 / 8 - 0, 0, 7) ∧
    Int.clog 2 ((1 : ℚ) / 8 - 0) + 1 = -2 ∧
    ¬ ((0 : ℤ) ≤ Int.clog 2 ((1 : ℚ) / 8 - 0) + 1) := by
  have hc : Int.clog 2 ((1 : ℚ) / 8 - 0) = -3 := by
    have h : Int.clog 2 ((((2 : ℕ) : ℚ)) ^ (-3 : ℤ)) = -3 :=
      Int.clog_zpow (by decide : 1 < 2) (-3)
    have e : (((2 : ℕ) : ℚ)) ^ (-3 : ℤ) = (1 : ℚ) / 8 - 0 := by norm_num
    rw [e] at h
    exact h
  refine ⟨by decide!, by rw [hc]; rfl, by rw [hc]; decide⟩

/-- C38 (amended): the leeway bisection started with `leeway = parent_runtime - wait_time
> 0` ends for every oracle that answers each probe (it returns, or ends with the oracle's
failure); when every probe is answered it returns a final leeway
`(parent_runtime - wait_time) / 2^j` for some `j >= 0`, which lies in
`(0, parent_runtime - wait_time]`, and it stops with `leeway <= 1` or with a probe answered
by a wait of at most `parent_runtime`; the number `p` of probes is `j` or `j + 1`, it is 0
or satisfies `2^(p-1) < parent_runtime - wait_time`, so it is at most
`max(0, ceil(log2(parent_runtime - wait_time)))`, and the sequence number grows by `p`
when each probe increments it by one. -/
theorem leewayLoop_terminates (proxy : ProxyWMS) (now parent_runtime : ℚ) (num_nodes : Nat)
    (run_time wait_time : ℚ) (sequence fuel : Nat) (hwait : wait_time < parent_runtime)
    (hfuel : parent_runtime - wait_time ≤ 2 ^ fuel) :
    ((∀ t q, proxy.estimateWaitTime num_nodes t now q ≠ Run.spin) →
      leewayLoop proxy now parent_runtime num_nodes run_time fuel
        (parent_runtime - wait_time) wait_time sequence ≠ Run.spin) ∧
    ((∀ t q, ∃ r, proxy.estimateWaitTime num_nodes t now q = Run.ret r) →
      ∃ (j p : Nat) (leeway wait_time' : ℚ) (sequence' : Nat),
        leewayLoop proxy now parent_runtime num_nodes run_time fuel
          (parent_runtime - wait_time) wait_time sequence
            = Run.ret (leeway, wait_time', sequence') ∧
        leeway = (parent_runtime - wait_time) / 2 ^ j ∧
        0 < leeway ∧ leeway ≤ parent_runtime - wait_time ∧
        (leeway ≤ 1 ∨ wait_time' ≤ parent_runtime) ∧
        (p = j ∨ p = j + 1) ∧
        (p = 0 ∨ (2 : ℚ) ^ (p - 1) < parent_runtime - wait_time) ∧
        (p : ℤ) ≤ max 0 (Int.clog 2 (parent_runtime - wait_time)) ∧
        ((∀ t q r, proxy.estimateWaitTime num_nodes t now q = Run.ret r → r.2 = q + 1) →
          sequence' = sequence + p)) := by
  have hL : 0 < parent_runtime - wait_time := by linarith
  refine ⟨fun hns => leewayLoop_no_spin proxy now parent_runtime num_nodes run_time hns fuel
    _ _ _ hfuel, fun hret => ?_⟩
  obtain ⟨j, p, L', wt', q', hloop, hL', hseq, hcases⟩ :=
    leewayLoop_spec proxy now parent_runtime num_nodes run_time hret fuel _ wait_time sequence
      hL hfuel
  have hpow : (0 : ℚ) < 2 ^ j := by positivity
  have hpow1 : (1 : ℚ) ≤ 2 ^ j := one_le_pow₀ (by norm_num)
  have hpos : 0 < L' := by rw [hL']; exact div_pos hL hpow
  have hle : L' ≤ parent_runtime - wait_time := by
    rw [hL']
    exact div_le_self (le_of_lt hL) hpow1
  have hp : p = 0 ∨ (2 : ℚ) ^ (p - 1) < parent_runtime - wait_time := by
    rcases hcases with ⟨hp, _⟩ | ⟨hp, h1, _⟩ | ⟨hp, hj, _, h2, _⟩
    · exact Or.inl hp
    · right
      rw [hp, Nat.add_sub_cancel]
      rw [hL', lt_div_iff₀ hpow] at h1
      linarith
    · right
      rw [hp]
      obtain ⟨i, hi⟩ : ∃ i, j = i + 1 := ⟨j - 1, by omega⟩
      rw [hi, Nat.add_sub_cancel]
      rw [hL', hi, pow_succ] at h2
      have hpi : (0 : ℚ) < 2 ^ i := by positivity
      have h3 : 2 * ((parent_runtime - wait_time) / (2 ^ i * 2))
          = (parent_runtime - wait_time) / 2 ^ i := by
        field_simp
        ring
      rw [h3, lt_div_iff₀ hpi] at h2
      linarith
  refine ⟨j, p, L', wt', q', hloop, hL', hpos, hle, ?_, ?_, hp,
    probes_le_clog p _ hL hp, hseq⟩
  · rcases hcases with ⟨_, hj0, h, _⟩ | ⟨_, _, h, _⟩ | ⟨_, _, h, _⟩
    · left
      rw [hL', hj0, pow_zero, div_one]
      exact h
    · exact Or.inr h
    · exact Or.inl h
  · rcases hcases with ⟨hp, hj, _⟩ | ⟨hp, _⟩ | ⟨hp, _⟩
    · left; omega
    · exact Or.inr hp
    · exact Or.inl hp

/-- C38 (amended), instance: the proxy that answers 200 to every padded probe, with
`parent_runtime = 50` and a first wait of 10: the leeway 40 is halved six times, with six
probes. -/
theorem leewayLoop_terminates_witness :
    ∃ (j p : Nat) (leeway wait_time' : ℚ) (sequence' : Nat),
      leewayLoop paddedProxy 0 50 1 100 10 (50 - 10) 10 1
        = Run.ret (leeway, wait_time', sequence') ∧
      leeway = (50 - 10) / 2 ^ j ∧ 0 < leeway ∧ leeway ≤ 50 - 10 ∧
      (p : ℤ) ≤ max 0 (Int.clog 2 ((50 : ℚ) - 10)) ∧ sequence' = 1 + p :=
  have h := (leewayLoop_terminates paddedProxy 0 50 1 100 10 1 10 (by decide!)
    (by decide!)).2 (fun _ _ => ⟨_, rfl⟩)
  by
    obtain ⟨j, p, l, wt, q, h1, h2, h3, h4, _, _, _, h8, h9⟩ := h
    exact ⟨j, p, l, wt, q, h1, h2, h3, h4, h8, h9 (fun t q r hr => by
      have : r = (if t = 100 then 10 else 200, q + 1) := by
        injection hr with hr
        exact hr.symm
      rw [this])⟩

/-- C31 (counterexample): level 0 of `pairWorkflow` on one host runs 100 seconds and the
oracle's estimate for that run time is 10, below the run time; with `parent_runtime = 50`
the bisection probes padded run times and is answered 200 each time, so the candidate is
left with `wait_time = 200`: the giant guard compares 200 (not 10) with the run time 100,
skips the candidate, and the loop ends with `giant` still set and no best stored. -/
theorem evalCandidate_wait_counterexample :
    estimateMakespan 10 pairWorkflow (pairWorkflow.getTasksInTopLevelRange 0 0)
        (maxParallelism pairWorkflow 1 0 0) 1 = Run.ret 100 ∧
    paddedProxy.estimateWaitTime (maxParallelism pairWorkflow 1 0 0) 100 0 0
        = Run.ret (10, 1) ∧
    evalCandidate 10 pairWorkflow paddedProxy 0 1 1 50 0 0 0
        = Run.ret (⟨100, 200, 5 / 8⟩, 7) ∧
    candidateLoop 10 pairWorkflow paddedProxy 0 1 1 50 0 1 1 0 true ⟨DBL_MAX, 0, 0⟩ 0
        = Run.ret ⟨1, true, ⟨DBL_MAX, 0, 0⟩, 7⟩ := by
  refine ⟨by decide!, by decide!, by decide!, by decide!⟩

/-- C31 (amended): for a candidate prefix whose run time `run` and first estimate
`w0 = estimateWait(n, run, now)` return, with an oracle that answers every probe, the
candidate is evaluated and the wait value it carries, which the giant guard and the ratio
test of the loop read and which is stored as the best wait, is the value last assigned to
`wait_time`: it is `w0` when the bisection issues no probe (`w0 >= parent_runtime`, or
`parent_runtime - w0 <= 1`); otherwise it is the answer to the last bisection probe, made
for the padded run time `run + leeway / 2` when that answer is at most `parent_runtime`
(the final leeway is above 1), or for `run + leeway` when the loop stops with
`leeway <= 1` (that answer is above `parent_runtime`). -/
theorem evalCandidate_wait_last_probe (fuel : Nat) (w : Workflow) (proxy : ProxyWMS)
    (now core_speed : ℚ) (number_of_hosts : Nat) (parent_runtime : ℚ)
    (start_level candidate_end_level sequence : Nat) (run w0 : ℚ) (q0 : Nat)
    (hrun : estimateMakespan fuel w (w.getTasksInTopLevelRange start_level candidate_end_level)
      (maxParallelism w number_of_hosts start_level candidate_end_level) core_speed
        = Run.ret run)
    (hw0 : proxy.estimateWaitTime
      (maxParallelism w number_of_hosts start_level candidate_end_level) run now sequence
        = Run.ret (w0, q0))
    (hret : ∀ t q, ∃ r, proxy.estimateWaitTime
      (maxParallelism w number_of_hosts start_level candidate_end_level) t now q = Run.ret r)
    (hfuel : parent_runtime - w0 ≤ 2 ^ fuel) :
    ∃ (cand : Candidate) (q : Nat),
      evalCandidate fuel w proxy now core_speed number_of_hosts parent_runtime start_level
        candidate_end_level sequence = Run.ret (cand, q) ∧
      cand.run_time = run ∧
      ((¬ (w0 < parent_runtime) ∧ cand.wait_time = w0 ∧ cand.leeway = 0 ∧ q = q0) ∨
       (w0 < parent_runtime ∧ parent_runtime - w0 ≤ 1 ∧ cand.wait_time = w0 ∧
          cand.leeway = parent_runtime - w0 ∧ q = q0) ∨
       (w0 < parent_runtime ∧ 1 < parent_runtime - w0 ∧ 1 < cand.leeway ∧
          cand.wait_time ≤ parent_runtime ∧
          ∃ q1, proxy.estimateWaitTime
            (maxParallelism w number_of_hosts start_level candidate_end_level)
            (run + cand.leeway / 2) now q1 = Run.ret (cand.wait_time, q)) ∨
       (w0 < parent_runtime ∧ 1 < parent_runtime - w0 ∧ cand.leeway ≤ 1 ∧
          parent_runtime < cand.wait_time ∧
          ∃ q1, proxy.estimateWaitTime
            (maxParallelism w number_of_hosts start_level candidate_end_level)
            (run + cand.leeway) now q1 = Run.ret (cand.wait_time, q))) ∧
      (∀ (steps end_level : Nat) (giant : Bool) (best : Best),
        candidate_end_level < end_level →
        candidateLoop fuel w proxy now core_speed number_of_hosts parent_runtime start_level
          end_level (steps + 1) candidate_end_level giant best sequence
          = if giant && decide (cand.wait_time > cand.run_time) then
              candidateLoop fuel w proxy now core_speed number_of_hosts parent_runtime
                start_level end_level steps (candidate_end_level + 1) giant best q
            else if (divideDouble cand.wait_time cand.run_time).gt
                (divideDouble best.wait_time best.run_time) then
              Run.ret ⟨candidate_end_level, false, best, q⟩
            else
              candidateLoop fuel w proxy now core_speed number_of_hosts parent_runtime
                start_level end_level steps (candidate_end_level + 1) false
                ⟨cand.wait_time, cand.run_time, cand.leeway⟩ q) := by
  have hstep : ∀ (cand : Candidate) (q : Nat),
      evalCandidate fuel w proxy now core_speed number_of_hosts parent_runtime start_level
        candidate_end_level sequence = Run.ret (cand, q) →
      ∀ (steps end_level : Nat) (giant : Bool) (best : Best),
        candidate_end_level < end_level →
        candidateLoop fuel w proxy now core_speed number_of_hosts parent_runtime start_level
          end_level (steps + 1) candidate_end_level giant best sequence
          = if giant && decide (cand.wait_time > cand.run_time) then
              candidateLoop fuel w proxy now core_speed number_of_hosts parent_runtime
                start_level end_level steps (candidate_end_level + 1) giant best q
            else if (divideDouble cand.wait_time cand.run_time).gt
                (divideDouble best.wait_time best.run_time) then
              Run.ret ⟨candidate_end_level, false, best, q⟩
            else
              candidateLoop fuel w proxy now core_speed number_of_hosts parent_runtime
                start_level end_level steps (candidate_end_level + 1) false
                ⟨cand.wait_time, cand.run_time, cand.leeway⟩ q := by
    intro cand q hev steps end_level giant best hlt
    rw [candidateLoop, if_pos hlt]
    simp only [hev]
  by_cases hlt : w0 < parent_runtime
  · obtain ⟨j, p, L', wt', q', hloop, hL', _, hcases⟩ :=
      leewayLoop_spec proxy now parent_runtime
        (maxParallelism w number_of_hosts start_level candidate_end_level) run hret fuel
        (parent_runtime - w0) w0 q0 (by linarith) hfuel
    have hev : evalCandidate fuel w proxy now core_speed number_of_hosts parent_runtime
        start_level candidate_end_level sequence = Run.ret (⟨run, wt', L'⟩, q') := by
      unfold evalCandidate
      simp only [hrun, hw0, if_pos hlt, hloop]
    refine ⟨⟨run, wt', L'⟩, q', hev, rfl, ?_, hstep _ _ hev⟩
    rcases hcases with ⟨_, hj, hle1, hwt, hq⟩ | ⟨_, h1, hwp, q2, hq2⟩ |
        ⟨_, hj, h1, h2, hwp, q2, hq2⟩
    · right; left
      refine ⟨hlt, hle1, hwt, ?_, hq⟩
      simp only
      rw [hL', hj, pow_zero, div_one]
    · right; right; left
      have hpow1 : (1 : ℚ) ≤ 2 ^ j := one_le_pow₀ (by norm_num)
      have hle : L' ≤ parent_runtime - w0 := by
        rw [hL']
        exact div_le_self (by linarith) hpow1
      exact ⟨hlt, by linarith, h1, hwp, q2, hq2⟩
    · right; right; right
      have hpj : (0 : ℚ) < 2 ^ j := by positivity
      have h2j : (2 : ℚ) ≤ 2 ^ j := by
        calc (2 : ℚ) = 2 ^ 1 := by norm_num
          _ ≤ 2 ^ j := pow_le_pow_right₀ (by norm_num) hj
      have hgt : 1 < parent_runtime - w0 := by
        have h3 : 1 < 2 * ((parent_runtime - w0) / 2 ^ j) := by rw [← hL']; exact h2
        have h4 : (parent_runtime - w0) / 2 ^ j ≤ (parent_runtime - w0) / 2 :=
          div_le_div_of_nonneg_left (by linarith) (by norm_num) h2j
        linarith
      exact ⟨hlt, hgt, h1, hwp, q2, hq2⟩
  · have hev : evalCandidate fuel w proxy now core_speed number_of_hosts parent_runtime
        start_level candidate_end_level sequence = Run.ret (⟨run, w0, 0⟩, q0) := by
      unfold evalCandidate
      simp only [hrun, hw0, if_neg hlt]
    exact ⟨⟨run, w0, 0⟩, q0, hev, rfl, Or.inl ⟨hlt, rfl, rfl, rfl⟩, hstep _ _ hev⟩

/-- C31 (amended), instance: level 0 of `pairWorkflow` with the proxy that answers 10 for
the run time 100 and 200 for every padded run time. -/
theorem evalCandidate_wait_last_probe_witness :
    ∃ (cand : Candidate) (q : Nat),
      evalCandidate 10 pairWorkflow paddedProxy 0 1 1 50 0 0 0 = Run.ret (cand, q) ∧
      cand.run_time = 100 :=
  have h := evalCandidate_wait_last_probe 10 pairWorkflow paddedProxy 0 1 1 50 0 0 0 100 10 1
    (by decide!) (by decide!) (fun _ _ => ⟨_, rfl⟩) (by decide!)
  by
    obtain ⟨cand, q, h1, h2, _⟩ := h
    exact ⟨cand, q, h1, h2⟩

theorem doubleQuotient_gt_posInf (x : DoubleQuotient) :
    x.gt DoubleQuotient.posInf = false := by
  cases x <;> rfl

theorem candidateLoop_not_giant (fuel : Nat) (w : Workflow) (proxy : ProxyWMS) (now cs : ℚ)
    (hosts : Nat) (parent : ℚ) (s e : Nat) (steps : Nat) :
    ∀ (c : Nat) (best : Best) (seq : Nat) (g : Grouping), c ≤ e →
      candidateLoop fuel w proxy now cs hosts parent s e steps c false best seq = Run.ret g →
      g.giant = false ∧ c ≤ g.candidate_end_level ∧ g.candidate_end_level ≤ e := by
  induction steps with
  | zero =>
    intro c best seq g hce h
    rw [candidateLoop] at h
    split at h
    · cases h
    · injection h with h
      subst h
      exact ⟨rfl, le_refl _, hce⟩
  | succ k ih =>
    intro c best seq g hce h
    rw [candidateLoop] at h
    split at h
    · rename_i hlt
      split at h
      · simp only [Bool.false_and, Bool.false_eq_true, if_false] at h
        split at h
        · injection h with h
          subst h
          exact ⟨rfl, le_refl _, hce⟩
        · have := ih _ _ _ g (by omega) h
          exact ⟨this.1, by omega, this.2.2⟩
      · cases h
      · cases h
    · injection h with h
      subst h
      exact ⟨rfl, le_refl _, hce⟩

theorem candidateLoop_first_accept (fuel : Nat) (w : Workflow) (proxy : ProxyWMS)
    (now cs : ℚ) (hosts : Nat) (parent : ℚ) (s e : Nat) (best0 : Best)
    (hbest : divideDouble best0.wait_time best0.run_time = DoubleQuotient.posInf)
    (steps : Nat) :
    ∀ (c seq : Nat) (g : Grouping), c ≤ e →
      candidateLoop fuel w proxy now cs hosts parent s e steps c true best0 seq = Run.ret g →
      (g.giant = true ∧ g.candidate_end_level = e ∧
        AllGiant fuel w proxy now cs hosts parent s e c seq g.sequence) ∨
      (g.giant = false ∧ ∃ (c0 : Nat) (cand : Candidate) (q0 q1 : Nat), c ≤ c0 ∧ c0 < e ∧
        AllGiant fuel w proxy now cs hosts parent s c0 c seq q0 ∧
        evalCandidate fuel w proxy now cs hosts parent s c0 q0 = Run.ret (cand, q1) ∧
        cand.wait_time ≤ cand.run_time ∧
        c0 < g.candidate_end_level ∧ g.candidate_end_level ≤ e) := by
  induction steps with
  | zero =>
    intro c seq g hce h
    rw [candidateLoop] at h
    split at h
    · cases h
    · rename_i hn
      injection h with h
      subst h
      exact Or.inl ⟨rfl, by simp only; omega, AllGiant.done _ _ (by omega)⟩
  | succ k ih =>
    intro c seq g hce h
    rw [candidateLoop] at h
    split at h
    · rename_i hlt
      split at h
      · rename_i cand q1 hev
        by_cases hg : cand.wait_time > cand.run_time
        · simp only [Bool.true_and, decide_eq_true_eq, if_pos hg] at h
          rcases ih _ _ g (by omega) h with ⟨h1, h2, h3⟩ | ⟨h1, c0, cd, q0, q2, h2, h3, h4, h5⟩
          · exact Or.inl ⟨h1, h2, AllGiant.step c seq q1 _ cand hlt hev hg h3⟩
          · exact Or.inr ⟨h1, c0, cd, q0, q2, by omega, h3,
              AllGiant.step c seq q1 _ cand (by omega) hev hg h4, h5⟩
        · simp only [Bool.true_and, decide_eq_true_eq, if_neg hg, hbest,
            doubleQuotient_gt_posInf, Bool.false_eq_true, if_false] at h
          have := candidateLoop_not_giant _ _ _ _ _ _ _ _ _ _ _ _ _ g (by omega) h
          exact Or.inr ⟨this.1, c, cand, seq, q1, le_refl _, hlt,
            AllGiant.done _ _ (le_refl _), hev, not_lt.1 hg, by omega, this.2.2⟩
      · cases h
      · cases h
    · rename_i hn
      injection h with h
      subst h
      exact Or.inl ⟨rfl, by simp only; omega, AllGiant.done _ _ (by omega)⟩

/-- C33: in `groupLevels(s, e)` with `s < e` only the candidate end levels `c` of
`[s, e - 1]` are evaluated.  Every result comes about in one of two ways: every candidate
was evaluated with `wait_time > run_time`, the fallback is taken and the end level is `e`;
or the candidates before some `c0 < e` were evaluated with `wait_time > run_time`, the
candidate `c0` has `wait_time <= run_time` and is accepted, and the returned end level
lies in `[c0, e - 1]`.  The first ratio test cannot reject, since no quotient is greater
than `DBL_MAX / 0`.  In `applyGroupingHeuristic` a split is counted exactly when the
returned end level is not `e`; and `groupLevels` returns whenever the estimates of the
candidates and of the whole range return. -/
theorem groupLevels_first_accept (fuel : Nat) (w : Workflow) (proxy : ProxyWMS) (now : ℚ)
    (st : ZhangFixedWMS) (s e : Nat) (hse : s < e) (he : e < ULONG_MAX) :
    (∀ wt rt el q, groupLevels fuel w proxy now st s e = Run.ret ((wt, rt, el), q) →
      ((∃ q1, AllGiant fuel w proxy now st.core_speed st.number_of_hosts
          (proxy.findMaxDuration st.running_placeholder_jobs) s e s st.sequence q1) ∧
        el = e) ∨
      (∃ (c0 : Nat) (cand : Candidate) (q0 q1 : Nat), s ≤ c0 ∧ c0 < e ∧
        AllGiant fuel w proxy now st.core_speed st.number_of_hosts
          (proxy.findMaxDuration st.running_placeholder_jobs) s c0 s st.sequence q0 ∧
        evalCandidate fuel w proxy now st.core_speed st.number_of_hosts
          (proxy.findMaxDuration st.running_placeholder_jobs) s c0 q0 = Run.ret (cand, q1) ∧
        cand.wait_time ≤ cand.run_time ∧ c0 ≤ el ∧ el ≤ e - 1)) ∧
    (∀ cand : Candidate,
      (divideDouble cand.wait_time cand.run_time).gt (divideDouble DBL_MAX 0) = false) ∧
    (∀ (mk : ℚ) (el : Nat) (runAll waitAll : ℚ),
      (submitGrouping w proxy st s e mk el runAll waitAll).number_of_splits
        = if el = e then st.number_of_splits else st.number_of_splits + 1) ∧
    ((∀ c seq, s ≤ c → c < e →
        ∃ r, evalCandidate fuel w proxy now st.core_speed st.number_of_hosts
          (proxy.findMaxDuration st.running_placeholder_jobs) s c seq = Run.ret r) →
      (∃ runtime_all, WorkflowUtil.estimateMakespan fuel w (w.getTasksInTopLevelRange s e)
          (maxParallelism w st.number_of_hosts s e) st.core_speed = Run.ret runtime_all ∧
        ∀ seq, ∃ r, proxy.estimateWaitTime (maxParallelism w st.number_of_hosts s e)
          runtime_all now seq = Run.ret r) →
      ∃ r, groupLevels fuel w proxy now st s e = Run.ret r) := by
  have hU : ULONG_MAX = 2 ^ 64 - 1 := rfl
  have hinf : divideDouble DBL_MAX 0 = DoubleQuotient.posInf := by decide!
  refine ⟨?_, ?_, ?_, ?_⟩
  · intro wt rt el q h
    unfold groupLevels at h
    split at h
    · rename_i wt' rt' cand' seq' hraw
      injection h with h
      simp only [Prod.mk.injEq] at h
      obtain ⟨⟨_, _, h3⟩, _⟩ := h
      unfold groupLevelsRaw at hraw
      split at hraw
      · rename_i g hg
        have hcases := candidateLoop_first_accept fuel w proxy now st.core_speed
          st.number_of_hosts (proxy.findMaxDuration st.running_placeholder_jobs) s e
          ⟨DBL_MAX, 0, 0⟩ hinf (e - s) s st.sequence g (le_of_lt hse) hg
        rcases hcases with ⟨h1, h2, h4⟩ | ⟨h1, c0, cd, q0, q1, h2, h4, h5, h6, h7, h8, h9⟩
        · left
          refine ⟨⟨_, h4⟩, ?_⟩
          rw [h1] at hraw
          simp only [Bool.true_or, if_true] at hraw
          split at hraw
          · split at hraw
            · have hraw' := Run.ret.inj hraw
              simp only [Prod.mk.injEq] at hraw'
              obtain ⟨⟨_, _, hc⟩, _⟩ := hraw'
              rw [← h3, ← hc, ulongPred_ulongSucc e (le_of_lt he)]
            · cases hraw
            · cases hraw
          · cases hraw
          · cases hraw
        · right
          have hne : (g.candidate_end_level == s) = false := by
            simp only [beq_eq_false_iff_ne, ne_eq]
            omega
          rw [h1, hne] at hraw
          simp only [Bool.or_self, Bool.false_eq_true, if_false] at hraw
          injection hraw with hraw
          simp only [Prod.mk.injEq] at hraw
          obtain ⟨⟨_, _, hc⟩, _⟩ := hraw
          refine ⟨c0, cd, q0, q1, h2, h4, h5, h6, h7, ?_, ?_⟩
          · rw [← h3, ← hc, ulongPred_of_pos _ (by omega) (by omega)]
            omega
          · rw [← h3, ← hc, ulongPred_of_pos _ (by omega) (by omega)]
            omega
      · cases hraw
      · cases hraw
    · cases h
    · cases h
  · intro cand
    rw [hinf]
    exact doubleQuotient_gt_posInf _
  · intro mk el runAll waitAll
    unfold submitGrouping
    by_cases hel : el = e
    · simp only [hel, if_true]
      split <;> split <;> rfl
    · simp only [hel, if_false]
      split <;> rfl
  · intro hev hall
    obtain ⟨ra, hra, hwa⟩ := hall
    obtain ⟨g, hg⟩ := candidateLoop_returns fuel w proxy now st.core_speed st.number_of_hosts
      (proxy.findMaxDuration st.running_placeholder_jobs) s e hev (e - s) s true
      ⟨DBL_MAX, 0, 0⟩ st.sequence (le_refl _) (le_refl _)
    obtain ⟨⟨wa, sq⟩, hwa'⟩ := hwa g.sequence
    unfold groupLevels groupLevelsRaw
    rw [hg]
    simp only [hra, hwa']
    by_cases hc : (g.giant || g.candidate_end_level == s) = true
    · rw [if_pos hc]; exact ⟨_, rfl⟩
    · rw [if_neg hc]; exact ⟨_, rfl⟩

/-- C33, instance: the two levels of `pairWorkflow` with the idle proxy: level 0 has wait 0
and run time 100, it is accepted, and the end level 0 is returned. -/
theorem groupLevels_first_accept_witness :
    groupLevels 5 pairWorkflow idleProxy 0 (initial 4) 0 1 = Run.ret ((0, 100, 0), 1) ∧
    (((∃ q1, AllGiant 5 pairWorkflow idleProxy 0 (initial 4).core_speed
          (initial 4).number_of_hosts
          (idleProxy.findMaxDuration (initial 4).running_placeholder_jobs) 0 1 0
          (initial 4).sequence q1) ∧ (0 : Nat) = 1) ∨
      (∃ (c0 : Nat) (cand : Candidate) (q0 q1 : Nat), 0 ≤ c0 ∧ c0 < 1 ∧
        AllGiant 5 pairWorkflow idleProxy 0 (initial 4).core_speed (initial 4).number_of_hosts
          (idleProxy.findMaxDuration (initial 4).running_placeholder_jobs) 0 c0 0
          (initial 4).sequence q0 ∧
        evalCandidate 5 pairWorkflow idleProxy 0 (initial 4).core_speed
          (initial 4).number_of_hosts
          (idleProxy.findMaxDuration (initial 4).running_placeholder_jobs) 0 c0 q0
            = Run.ret (cand, q1) ∧
        cand.wait_time ≤ cand.run_time ∧ c0 ≤ 0 ∧ 0 ≤ 1 - 1)) :=
  have hg : groupLevels 5 pairWorkflow idleProxy 0 (initial 4) 0 1
      = Run.ret ((0, 100, 0), 1) := by decide!
  ⟨hg, (groupLevels_first_accept 5 pairWorkflow idleProxy 0 (initial 4) 0 1 (by decide)
    (by decide)).1 0 100 0 1 hg⟩

end ZhangFixedWMS

namespace Controllers

open WorkflowUtil

theorem dispatchStep_fold (w : Workflow) (tasks : List Nat) :
    ∀ (ph : TestPlaceHolderJob) (submitted : List Submitted),
      tasks.foldl (TestClusteringWMS.dispatchStep w) (ph, submitted)
        = ({ ph with
              num_currently_running_tasks := ph.num_currently_running_tasks
                + min (ph.num_nodes - ph.num_currently_running_tasks)
                    (tasks.filter fun t => w.state t == TaskState.READY).length },
            submitted ++
              ((tasks.filter fun t => w.state t == TaskState.READY).take
                (ph.num_nodes - ph.num_currently_running_tasks)).map
                  (fun t => Submitted.standardJobOn t ph.pilot_job)) := by
  induction tasks with
  | nil => intro ph submitted; simp
  | cons t tasks ih =>
    intro ph submitted
    rw [List.foldl_cons]
    by_cases hr : (w.state t == TaskState.READY) = true
    · by_cases hc : ph.num_currently_running_tasks < ph.num_nodes
      · have hstep : TestClusteringWMS.dispatchStep w (ph, submitted) t
            = ({ ph with num_currently_running_tasks := ph.num_currently_running_tasks + 1 },
                submitted ++ [Submitted.standardJobOn t ph.pilot_job]) := by
          unfold TestClusteringWMS.dispatchStep
          simp only [hr, hc, decide_True, Bool.and_self, if_true]
        rw [hstep, ih]
        obtain ⟨m, hm⟩ : ∃ m, ph.num_nodes - ph.num_currently_running_tasks = m + 1 :=
          ⟨ph.num_nodes - ph.num_currently_running_tasks - 1, by omega⟩
        have hm' : ph.num_nodes - (ph.num_currently_running_tasks + 1) = m := by omega
        simp only [List.filter_cons, hr, if_true, hm, hm', List.take_succ_cons, List.map_cons,
          List.length_cons, List.append_assoc, List.singleton_append]
        congr 2
        omega
      · have hstep : TestClusteringWMS.dispatchStep w (ph, submitted) t = (ph, submitted) := by
          unfold TestClusteringWMS.dispatchStep
          simp only [hr, hc, decide_False, Bool.and_false, Bool.false_eq_true, if_false]
        rw [hstep, ih]
        have hz : ph.num_nodes - ph.num_currently_running_tasks = 0 := by omega
        simp [hz]
    · have hstep : TestClusteringWMS.dispatchStep w (ph, submitted) t = (ph, submitted) := by
        unfold TestClusteringWMS.dispatchStep
        simp only [hr, Bool.false_and, Bool.false_eq_true, if_false]
      rw [hstep, ih]
      simp [List.filter_cons, hr]

theorem dispatchAll_fst (w : Workflow) (running : List TestPlaceHolderJob) :
    ∀ submitted : List Submitted,
      (TestClusteringWMS.dispatchAll w running submitted).1
        = running.map fun ph =>
            { ph with
              num_currently_running_tasks := ph.num_currently_running_tasks
                + min (ph.num_nodes - ph.num_currently_running_tasks)
                    (ph.tasks.filter fun t => w.state t == TaskState.READY).length } := by
  induction running with
  | nil => intro submitted; rfl
  | cons ph phs ih =>
    intro submitted
    simp only [TestClusteringWMS.dispatchAll, List.map_cons, ih, dispatchStep_fold]

theorem mem_insert_slot {α : Type} (l : List α) (slot : Nat) (a x : α) :
    x ∈ l.take slot ++ a :: l.drop slot ↔ x = a ∨ x ∈ l := by
  constructor
  · intro h
    rcases List.mem_append.1 h with h | h
    · exact Or.inr (List.mem_of_mem_take h)
    · rcases List.mem_cons.1 h with h | h
      · exact Or.inl h
      · exact Or.inr (List.mem_of_mem_drop h)
  · intro h
    rcases h with h | h
    · rw [h]; simp
    · rw [← List.take_append_drop slot l] at h
      rcases List.mem_append.1 h with h | h
      · exact List.mem_append_left _ h
      · exact List.mem_append_right _ (List.mem_cons_of_mem _ h)

/-- C21: `processEventPilotJobStart`, in both controllers.  With no pending placeholder
job it throws.  When the started pilot job is not the one of the pending placeholder job
it returns the controller state as it was (only `total_queue_wait_time` of the simulator
has grown): nothing is dispatched and the heuristic is not called.  When it is the
pending one, the state on which the dispatch loop runs (`promote`) has the placeholder
job in the running set next to the former members, an empty pending slot and the
submissions so far unchanged; the heuristic is then called on the state left by the
dispatch loop, and the handler returns what the heuristic returns. -/
theorem processEventPilotJobStart_cases (fuel : Nat) (w : Workflow) (bs : BatchService)
    (proxy : ProxyWMS) (sim : Simulation) (slot pilot_job : Nat) (test : TestClusteringWMS)
    (zhang : ZhangFixedWMS) (simulator : Simulator) :
    ((test.pending_placeholder_job = none →
        TestClusteringWMS.processEventPilotJobStart fuel w bs sim slot pilot_job test simulator
          = Run.throw Failure.noPendingPlaceholder) ∧
      (∀ ph, test.pending_placeholder_job = some ph → pilot_job ≠ ph.pilot_job →
        TestClusteringWMS.processEventPilotJobStart fuel w bs sim slot pilot_job test simulator
          = Run.ret (test,
              { simulator with
                total_queue_wait_time := simulator.total_queue_wait_time
                  + (sim.getCurrentSimulatedDate - sim.getSubmitDate pilot_job) })) ∧
      (∀ ph, test.pending_placeholder_job = some ph → pilot_job = ph.pilot_job →
        (TestClusteringWMS.promote slot test ph).pending_placeholder_job = none ∧
        (∀ x, x ∈ (TestClusteringWMS.promote slot test ph).running_placeholder_jobs
          ↔ x = ph ∨ x ∈ test.running_placeholder_jobs) ∧
        (TestClusteringWMS.promote slot test ph).submitted = test.submitted ∧
        (∀ st', TestClusteringWMS.applyGroupingHeuristic fuel w bs sim.getCurrentSimulatedDate
            (TestClusteringWMS.dispatchStarted w (TestClusteringWMS.promote slot test ph) ph)
            = Run.ret st' →
          TestClusteringWMS.processEventPilotJobStart fuel w bs sim slot pilot_job test
              simulator
            = Run.ret (st',
                { simulator with
                  total_queue_wait_time := simulator.total_queue_wait_time
                    + (sim.getCurrentSimulatedDate - sim.getSubmitDate pilot_job) })))) ∧
    ((zhang.pending_placeholder_job = none →
        ZhangFixedWMS.processEventPilotJobStart fuel w proxy sim slot pilot_job zhang simulator
          = Run.throw Failure.noPendingPlaceholder) ∧
      (∀ ph, zhang.pending_placeholder_job = some ph → pilot_job ≠ ph.pilot_job →
        ZhangFixedWMS.processEventPilotJobStart fuel w proxy sim slot pilot_job zhang simulator
          = Run.ret (zhang,
              { simulator with
                total_queue_wait_time := simulator.total_queue_wait_time
                  + (sim.getCurrentSimulatedDate - sim.getSubmitDate pilot_job) })) ∧
      (∀ ph, zhang.pending_placeholder_job = some ph → pilot_job = ph.pilot_job →
        (ZhangFixedWMS.promote slot zhang ph).pending_placeholder_job = none ∧
        (∀ x, x ∈ (ZhangFixedWMS.promote slot zhang ph).running_placeholder_jobs
          ↔ x = ph ∨ x ∈ zhang.running_placeholder_jobs) ∧
        (ZhangFixedWMS.promote slot zhang ph).submitted = zhang.submitted ∧
        (∀ st', ZhangFixedWMS.applyGroupingHeuristic fuel w proxy sim.getCurrentSimulatedDate
            (ZhangFixedWMS.dispatchStarted w (ZhangFixedWMS.promote slot zhang ph) ph)
            = Run.ret st' →
          ZhangFixedWMS.processEventPilotJobStart fuel w proxy sim slot pilot_job zhang
              simulator
            = Run.ret (st',
                { simulator with
                  total_queue_wait_time := simulator.total_queue_wait_time
                    + (sim.getCurrentSimulatedDate - sim.getSubmitDate pilot_job) })))) := by
  refine ⟨⟨?_, ?_, ?_⟩, ⟨?_, ?_, ?_⟩⟩
  · intro h
    unfold TestClusteringWMS.processEventPilotJobStart
    simp only [h]
  · intro ph h hne
    unfold TestClusteringWMS.processEventPilotJobStart
    simp only [h, hne, ne_eq, not_false_eq_true, if_true]
  · intro ph h he
    refine ⟨rfl, fun x => mem_insert_slot _ slot ph x, rfl, ?_⟩
    intro st' hst
    unfold TestClusteringWMS.processEventPilotJobStart
    simp only [h, he, ne_eq, not_true_eq_false, if_false]
    rw [← he, hst]
  · intro h
    unfold ZhangFixedWMS.processEventPilotJobStart
    simp only [h]
  · intro ph h hne
    unfold ZhangFixedWMS.processEventPilotJobStart
    simp only [h, hne, ne_eq, not_false_eq_true, if_true]
  · intro ph h he
    refine ⟨rfl, fun x => mem_insert_slot _ slot ph x, rfl, ?_⟩
    intro st' hst
    unfold ZhangFixedWMS.processEventPilotJobStart
    simp only [h, he, ne_eq, not_true_eq_false, if_false]
    rw [← he, hst]

theorem zhang_heuristic_frame (fuel : Nat) (w : Workflow) (proxy : ProxyWMS) (now : ℚ)
    (st st' : ZhangFixedWMS)
    (h : ZhangFixedWMS.applyGroupingHeuristic fuel w proxy now st = Run.ret st') :
    st'.running_placeholder_jobs = st.running_placeholder_jobs ∧
      st'.submitted = st.submitted ∧ st'.core_speed = st.core_speed ∧
      st'.overlap = st.overlap := by
  unfold ZhangFixedWMS.applyGroupingHeuristic at h
  have hret : ∀ {a b : ZhangFixedWMS}, Run.ret a = Run.ret b → a = b := by
    intro a b hab; injection hab
  split at h
  · rw [← hret h]; exact ⟨rfl, rfl, rfl, rfl⟩
  · split at h
    · rw [← hret h]; exact ⟨rfl, rfl, rfl, rfl⟩
    · split at h
      · rw [← hret h]; exact ⟨rfl, rfl, rfl, rfl⟩
      · split at h
        · rw [← hret h]; exact ⟨rfl, rfl, rfl, rfl⟩
        · split at h
          · split at h
            · split at h
              · split at h
                · rw [← hret h]
                  unfold ZhangFixedWMS.submitGrouping
                  simp only
                  split <;> split <;> (try split) <;> exact ⟨rfl, rfl, rfl, rfl⟩
                · cases h
              · cases h
              · cases h
            · cases h
            · cases h
          · cases h
          · cases h

theorem test_heuristic_frame (fuel : Nat) (w : Workflow) (bs : BatchService) (now : ℚ)
    (st st' : TestClusteringWMS)
    (h : TestClusteringWMS.applyGroupingHeuristic fuel w bs now st = Run.ret st') :
    st'.running_placeholder_jobs = st.running_placeholder_jobs ∧
      st'.core_speed = st.core_speed ∧ st'.overlap = st.overlap := by
  unfold TestClusteringWMS.applyGroupingHeuristic at h
  have hret : ∀ {a b : TestClusteringWMS}, Run.ret a = Run.ret b → a = b := by
    intro a b hab; injection hab
  split at h
  · rw [← hret h]; exact ⟨rfl, rfl, rfl⟩
  · split at h
    · rw [← hret h]; exact ⟨rfl, rfl, rfl⟩
    · split at h
      · rw [← hret h]; exact ⟨rfl, rfl, rfl⟩
      · split at h
        · rw [← hret h]; exact ⟨rfl, rfl, rfl⟩
        · split at h
          · rw [← hret h]
            unfold TestClusteringWMS.submitChoice
              TestClusteringWMS.createAndSubmitPlaceholderJob TestClusteringWMS.submitReadyTasks
            simp only
            split <;> split <;> exact ⟨rfl, rfl, rfl⟩
          · cases h
          · cases h

/-- C23, as the code behaves: the pilot job 0 of a placeholder job requested with `-N 1`
starts, its 8 tasks being READY: `ZhangFixedWMS::processEventPilotJobStart` submits all 8
tasks to the pilot job. -/
theorem zhang_pilot_start_counterexample :
    quietSimulation.argN fanPlaceholder.pilot_job = 1 ∧
    ZhangFixedWMS.processEventPilotJobStart 5 fanWorkflow ZhangFixedWMS.idleProxy
        quietSimulation 0 0 zhangFanPending noMetrics
      = Run.ret
          ({ ZhangFixedWMS.initial 1 with
              running_placeholder_jobs := [fanPlaceholder]
              submitted := [Submitted.standardJobOn 0 0, Submitted.standardJobOn 1 0,
                Submitted.standardJobOn 2 0, Submitted.standardJobOn 3 0,
                Submitted.standardJobOn 4 0, Submitted.standardJobOn 5 0,
                Submitted.standardJobOn 6 0, Submitted.standardJobOn 7 0] },
            noMetrics) := by
  refine ⟨rfl, by decide!⟩

/-- C23, amended: when the pilot job of the pending placeholder job starts and the
heuristic called at the end returns, `ZhangFixedWMS::processEventPilotJobStart` returns
and has submitted to the pilot job every READY task of the placeholder job, in stored
order and whatever the number of nodes requested: as many tasks as are READY. -/
theorem zhang_pilot_start_dispatches_ready (fuel : Nat) (w : Workflow) (proxy : ProxyWMS)
    (sim : Simulation) (slot pilot_job : Nat) (zhang : ZhangFixedWMS) (simulator : Simulator)
    (ph : PlaceHolderJob) (st' : ZhangFixedWMS)
    (hp : zhang.pending_placeholder_job = some ph) (he : pilot_job = ph.pilot_job)
    (hst : ZhangFixedWMS.applyGroupingHeuristic fuel w proxy sim.getCurrentSimulatedDate
      (ZhangFixedWMS.dispatchStarted w (ZhangFixedWMS.promote slot zhang ph) ph)
      = Run.ret st') :
    ZhangFixedWMS.processEventPilotJobStart fuel w proxy sim slot pilot_job zhang simulator
        = Run.ret (st',
            { simulator with
              total_queue_wait_time := simulator.total_queue_wait_time
                + (sim.getCurrentSimulatedDate - sim.getSubmitDate pilot_job) }) ∧
      st'.submitted = zhang.submitted ++
        (ph.tasks.filter fun task => w.state task == TaskState.READY).map
          (fun task => Submitted.standardJobOn task ph.pilot_job) ∧
      st'.submitted.length
        = zhang.submitted.length
          + (ph.tasks.filter fun task => w.state task == TaskState.READY).length := by
  have hsub := (zhang_heuristic_frame fuel w proxy _ _ _ hst).2.1
  have hd : (ZhangFixedWMS.dispatchStarted w (ZhangFixedWMS.promote slot zhang ph) ph).submitted
      = zhang.submitted ++
        (ph.tasks.filter fun task => w.state task == TaskState.READY).map
          (fun task => Submitted.standardJobOn task ph.pilot_job) := rfl
  refine ⟨?_, by rw [hsub, hd], by rw [hsub, hd]; simp⟩
  unfold ZhangFixedWMS.processEventPilotJobStart
  simp only [hp, he, ne_eq, not_true_eq_false, if_false]
  rw [← he, hst]

/-- C23, amended, instance: the 8 READY tasks of `fanWorkflow` with `-N 1`. -/
theorem zhang_pilot_start_dispatches_ready_witness :
    ZhangFixedWMS.processEventPilotJobStart 5 fanWorkflow ZhangFixedWMS.idleProxy
        quietSimulation 0 0 zhangFanPending noMetrics
        = Run.ret
            ({ ZhangFixedWMS.initial 1 with
                running_placeholder_jobs := [fanPlaceholder]
                submitted := [Submitted.standardJobOn 0 0, Submitted.standardJobOn 1 0,
                  Submitted.standardJobOn 2 0, Submitted.standardJobOn 3 0,
                  Submitted.standardJobOn 4 0, Submitted.standardJobOn 5 0,
                  Submitted.standardJobOn 6 0, Submitted.standardJobOn 7 0] },
              { noMetrics with
                total_queue_wait_time := noMetrics.total_queue_wait_time
                  + (quietSimulation.getCurrentSimulatedDate - quietSimulation.getSubmitDate 0) }) ∧
      ({ ZhangFixedWMS.initial 1 with
          running_placeholder_jobs := [fanPlaceholder]
          submitted := [Submitted.standardJobOn 0 0, Submitted.standardJobOn 1 0,
            Submitted.standardJobOn 2 0, Submitted.standardJobOn 3 0,
            Submitted.standardJobOn 4 0, Submitted.standardJobOn 5 0,
            Submitted.standardJobOn 6 0, Submitted.standardJobOn 7 0] } :
          ZhangFixedWMS).submitted
        = zhangFanPending.submitted ++
          (fanPlaceholder.tasks.filter fun task => fanWorkflow.state task == TaskState.READY).map
            (fun task => Submitted.standardJobOn task fanPlaceholder.pilot_job) ∧
      ({ ZhangFixedWMS.initial 1 with
          running_placeholder_jobs := [fanPlaceholder]
          submitted := [Submitted.standardJobOn 0 0, Submitted.standardJobOn 1 0,
            Submitted.standardJobOn 2 0, Submitted.standardJobOn 3 0,
            Submitted.standardJobOn 4 0, Submitted.standardJobOn 5 0,
            Submitted.standardJobOn 6 0, Submitted.standardJobOn 7 0] } :
          ZhangFixedWMS).submitted.length
        = zhangFanPending.submitted.length
          + (fanPlaceholder.tasks.filter fun task =>
              fanWorkflow.state task == TaskState.READY).length :=
  zhang_pilot_start_dispatches_ready 5 fanWorkflow ZhangFixedWMS.idleProxy quietSimulation 0 0
    zhangFanPending noMetrics fanPlaceholder _ rfl rfl (by decide!)

theorem mem_pruned {α : Type} [DecidableEq α] (w : Workflow) (tasks : α → List Nat)
    (running : List α) (ph x : α) (hnd : running.Nodup) :
    x ∈ (running.erase ph).filter
        (fun y => (tasks y).any fun task => w.state task != TaskState.NOT_READY)
      ↔ x ∈ running ∧ x ≠ ph ∧ ¬ ∀ task ∈ tasks x, w.state task = TaskState.NOT_READY := by
  rw [List.mem_filter, hnd.mem_erase_iff]
  constructor
  · rintro ⟨⟨hne, hx⟩, hany⟩
    refine ⟨hx, hne, fun hall => ?_⟩
    obtain ⟨task, ht, hs⟩ := List.any_eq_true.1 hany
    rw [hall task ht] at hs
    exact absurd hs (by decide)
  · rintro ⟨hx, hne, hnot⟩
    refine ⟨⟨hne, hx⟩, ?_⟩
    by_contra hany
    apply hnot
    intro task ht
    by_contra hs
    apply hany
    refine List.any_eq_true.2 ⟨task, ht, ?_⟩
    simpa using hs

/-- C25: a pilot-job expiration for a running placeholder job, in both controllers.  If
a task of the placeholder job is not COMPLETED and terminating the pilot job of the
pending placeholder job does not throw, the state on which the heuristic is then called
has an empty pending slot and as running set the former one without the expired
placeholder job and without every placeholder job none of whose tasks is in a state other
than NOT_READY; in a running set without repetition a placeholder job is kept exactly
when it is not the expired one and not all its tasks are NOT_READY.  The handler returns
what the heuristic returns on that state.  If all tasks of the expired
placeholder job are COMPLETED the handler returns the state with that placeholder job
erased from the running set and nothing else changed, the heuristic not being called. -/
theorem expiration_pruning (fuel : Nat) (w : Workflow) (bs : BatchService)
    (proxy : ProxyWMS) (sim : Simulation) (pilot_job : Nat) (test : TestClusteringWMS)
    (zhang : ZhangFixedWMS) (simulator : Simulator) (tph : TestPlaceHolderJob)
    (zph : PlaceHolderJob)
    (htest : test.running_placeholder_jobs.find? (fun ph => ph.pilot_job == pilot_job)
      = some tph)
    (hzhang : zhang.running_placeholder_jobs.find? (fun ph => ph.pilot_job == pilot_job)
      = some zph) :
    ((tph.tasks.any fun t => w.state t != TaskState.COMPLETED) = true →
      (test.pending_placeholder_job.any fun ph => sim.terminateJobThrows ph.pilot_job)
        = false →
      ∃ m1,
        TestClusteringWMS.expirationCleanup w sim pilot_job test simulator
          = Run.ret
              ({ test with
                  pending_placeholder_job := none
                  running_placeholder_jobs :=
                    (test.running_placeholder_jobs.erase tph).filter fun ph =>
                      ph.tasks.any fun task => w.state task != TaskState.NOT_READY },
                m1, true) ∧
        (∀ st', TestClusteringWMS.applyGroupingHeuristic fuel w bs sim.getCurrentSimulatedDate
            { test with
              pending_placeholder_job := none
              running_placeholder_jobs :=
                (test.running_placeholder_jobs.erase tph).filter fun ph =>
                  ph.tasks.any fun task => w.state task != TaskState.NOT_READY }
            = Run.ret st' →
          TestClusteringWMS.processEventPilotJobExpiration fuel w bs sim pilot_job test
            simulator = Run.ret (st', m1)) ∧
        (test.running_placeholder_jobs.Nodup →
          ∀ x, x ∈ (test.running_placeholder_jobs.erase tph).filter
                (fun ph => ph.tasks.any fun task => w.state task != TaskState.NOT_READY)
            ↔ x ∈ test.running_placeholder_jobs ∧ x ≠ tph ∧
              ¬ ∀ task ∈ x.tasks, w.state task = TaskState.NOT_READY)) ∧
    ((tph.tasks.any fun t => w.state t != TaskState.COMPLETED) = false →
      ∃ m1,
        TestClusteringWMS.processEventPilotJobExpiration fuel w bs sim pilot_job test simulator
          = Run.ret
              ({ test with running_placeholder_jobs := test.running_placeholder_jobs.erase tph },
                m1)) ∧
    ((zph.tasks.any fun t => w.state t != TaskState.COMPLETED) = true →
      (zhang.pending_placeholder_job.any fun ph => sim.terminateJobThrows ph.pilot_job)
        = false →
      ∃ m1,
        ZhangFixedWMS.expirationCleanup w sim pilot_job zhang simulator
          = Run.ret
              ({ zhang with
                  pending_placeholder_job := none
                  running_placeholder_jobs :=
                    (zhang.running_placeholder_jobs.erase zph).filter fun ph =>
                      ph.tasks.any fun task => w.state task != TaskState.NOT_READY },
                m1, true) ∧
        (∀ st', ZhangFixedWMS.applyGroupingHeuristic fuel w proxy sim.getCurrentSimulatedDate
            { zhang with
              pending_placeholder_job := none
              running_placeholder_jobs :=
                (zhang.running_placeholder_jobs.erase zph).filter fun ph =>
                  ph.tasks.any fun task => w.state task != TaskState.NOT_READY }
            = Run.ret st' →
          ZhangFixedWMS.processEventPilotJobExpiration fuel w proxy sim pilot_job zhang
            simulator = Run.ret (st', m1)) ∧
        (zhang.running_placeholder_jobs.Nodup →
          ∀ x, x ∈ (zhang.running_placeholder_jobs.erase zph).filter
                (fun ph => ph.tasks.any fun task => w.state task != TaskState.NOT_READY)
            ↔ x ∈ zhang.running_placeholder_jobs ∧ x ≠ zph ∧
              ¬ ∀ task ∈ x.tasks, w.state task = TaskState.NOT_READY)) ∧
    ((zph.tasks.any fun t => w.state t != TaskState.COMPLETED) = false →
      ∃ m1,
        ZhangFixedWMS.processEventPilotJobExpiration fuel w proxy sim pilot_job zhang simulator
          = Run.ret
              ({ zhang with
                  running_placeholder_jobs := zhang.running_placeholder_jobs.erase zph },
                m1)) := by
  refine ⟨?_, ?_, ?_, ?_⟩
  · intro hu htp
    have hc : TestClusteringWMS.expirationCleanup w sim pilot_job test simulator
        = Run.ret
            ({ test with
                pending_placeholder_job := none
                running_placeholder_jobs :=
                  (test.running_placeholder_jobs.erase tph).filter fun ph =>
                    ph.tasks.any fun task => w.state task != TaskState.NOT_READY },
              { simulator with
                wasted_node_seconds := simulator.wasted_node_seconds
                  + expirationWaste w sim test.core_speed pilot_job tph.tasks
                num_pilot_job_expirations_with_remaining_tasks_to_do :=
                  simulator.num_pilot_job_expirations_with_remaining_tasks_to_do + 1 },
              true) := by
      unfold TestClusteringWMS.expirationCleanup
      simp only [htest, hu, Bool.not_true, Bool.false_eq_true, if_false, htp]
    refine ⟨_, hc, ?_, fun hnd x => mem_pruned w TestPlaceHolderJob.tasks _ tph x hnd⟩
    intro st' hst
    unfold TestClusteringWMS.processEventPilotJobExpiration
    rw [hc]
    simp only [if_true, hst]
  · intro hu
    refine ⟨{ simulator with
      wasted_node_seconds := simulator.wasted_node_seconds
        + expirationWaste w sim test.core_speed pilot_job tph.tasks }, ?_⟩
    unfold TestClusteringWMS.processEventPilotJobExpiration
      TestClusteringWMS.expirationCleanup
    simp only [htest, hu, Bool.not_false, if_true, Bool.false_eq_true, if_false]
  · intro hu hzp
    have hc : ZhangFixedWMS.expirationCleanup w sim pilot_job zhang simulator
        = Run.ret
            ({ zhang with
                pending_placeholder_job := none
                running_placeholder_jobs :=
                  (zhang.running_placeholder_jobs.erase zph).filter fun ph =>
                    ph.tasks.any fun task => w.state task != TaskState.NOT_READY },
              { simulator with
                wasted_node_seconds := simulator.wasted_node_seconds
                  + expirationWaste w sim zhang.core_speed pilot_job zph.tasks
                num_pilot_job_expirations_with_remaining_tasks_to_do :=
                  simulator.num_pilot_job_expirations_with_remaining_tasks_to_do + 1 },
              true) := by
      unfold ZhangFixedWMS.expirationCleanup
      simp only [hzhang, hu, Bool.not_true, Bool.false_eq_true, if_false, hzp]
    refine ⟨_, hc, ?_, fun hnd x => mem_pruned w PlaceHolderJob.tasks _ zph x hnd⟩
    intro st' hst
    unfold ZhangFixedWMS.processEventPilotJobExpiration
    rw [hc]
    simp only [if_true, hst]
  · intro hu
    refine ⟨{ simulator with
      wasted_node_seconds := simulator.wasted_node_seconds
        + expirationWaste w sim zhang.core_speed pilot_job zph.tasks }, ?_⟩
    unfold ZhangFixedWMS.processEventPilotJobExpiration ZhangFixedWMS.expirationCleanup
    simp only [htest, hzhang, hu, Bool.not_false, if_true, Bool.false_eq_true, if_false]

/-- C25, instance: pilot job 1 of `stalledTest` and `stalledZhang` expires with task 1 not
COMPLETED: the pending placeholder job is dropped and so is the running placeholder job of
pilot job 2, whose only task is NOT_READY. -/
theorem expiration_pruning_witness :
    (∃ m1,
      TestClusteringWMS.expirationCleanup stalledWorkflow (lateSimulation []) 1 stalledTest
        noMetrics
        = Run.ret
            ({ stalledTest with pending_placeholder_job := none, running_placeholder_jobs := [] },
              m1, true)) ∧
    (∃ m1,
      ZhangFixedWMS.expirationCleanup stalledWorkflow (lateSimulation []) 1 stalledZhang
        noMetrics
        = Run.ret
            ({ stalledZhang with
                pending_placeholder_job := none, running_placeholder_jobs := [] },
              m1, true)) :=
  have h := expiration_pruning 5 stalledWorkflow TestClusteringWMS.idleService
    ZhangFixedWMS.idleProxy (lateSimulation []) 1 stalledTest stalledZhang noMetrics
    ⟨1, 1, [0, 1], 0, 1, 0⟩ ⟨1, [0, 1], 0, 1⟩ rfl rfl
  ⟨(h.1 rfl rfl).imp fun _ h1 => h1.1, (h.2.2.1 rfl rfl).imp fun _ h1 => h1.1⟩

/-- C27, as the code behaves: pilot job 1 of `stalledTest` and `stalledZhang` expires with
task 1 not COMPLETED.  When `terminateJob` throws for pilot job 3, the one of the pending
placeholder job, `processEventPilotJobExpiration` throws that exception in both
controllers: the call is outside any `try`.  When it throws for pilot job 2, the one of
the running placeholder job whose task is NOT_READY, the exception is caught: the cleanup
is the same as when nothing throws and the handler returns. -/
theorem expiration_pending_termination_throws :
    TestClusteringWMS.processEventPilotJobExpiration 5 stalledWorkflow
        TestClusteringWMS.idleService (lateSimulation [3]) 1 stalledTest noMetrics
      = Run.throw Failure.workflowExecutionException ∧
    ZhangFixedWMS.processEventPilotJobExpiration 5 stalledWorkflow ZhangFixedWMS.idleProxy
        (lateSimulation [3]) 1 stalledZhang noMetrics
      = Run.throw Failure.workflowExecutionException ∧
    TestClusteringWMS.expirationCleanup stalledWorkflow (lateSimulation [2]) 1 stalledTest
        noMetrics
      = Run.ret
          ({ stalledTest with pending_placeholder_job := none, running_placeholder_jobs := [] },
            ⟨0, 20, 0, 1⟩, true) ∧
    ZhangFixedWMS.expirationCleanup stalledWorkflow (lateSimulation [2]) 1 stalledZhang
        noMetrics
      = Run.ret
          ({ stalledZhang with pending_placeholder_job := none, running_placeholder_jobs := [] },
            ⟨0, 20, 0, 1⟩, true) ∧
    TestClusteringWMS.processEventPilotJobExpiration 5 stalledWorkflow
        TestClusteringWMS.idleService (lateSimulation [2]) 1 stalledTest noMetrics
      = Run.ret
          ({ stalledTest with
              pending_placeholder_job := some ⟨4, 1, [1, 2, 3], 1, 3, 0⟩
              running_placeholder_jobs := []
              next_pilot_job := 5
              sequence := 6
              parent_runtime := 330
              submitted := [Submitted.pilotJob 4 ⟨"1", "1", "6"⟩] },
            ⟨0, 20, 0, 1⟩) := by
  refine ⟨by decide!, by decide!, by decide!, by decide!, by decide!⟩

theorem dispatchAll_snd (w : Workflow) (running : List TestPlaceHolderJob) :
    ∀ submitted : List Submitted,
      ∃ extra, (TestClusteringWMS.dispatchAll w running submitted).2 = submitted ++ extra ∧
        ∀ x ∈ extra, ∃ task pilot_job, x = Submitted.standardJobOn task pilot_job := by
  induction running with
  | nil => intro submitted; exact ⟨[], by simp [TestClusteringWMS.dispatchAll], by simp⟩
  | cons ph phs ih =>
    intro submitted
    simp only [TestClusteringWMS.dispatchAll, dispatchStep_fold]
    obtain ⟨extra, he, hx⟩ := ih (submitted ++
      ((ph.tasks.filter fun t => w.state t == TaskState.READY).take
        (ph.num_nodes - ph.num_currently_running_tasks)).map
          (fun t => Submitted.standardJobOn t ph.pilot_job))
    refine ⟨((ph.tasks.filter fun t => w.state t == TaskState.READY).take
        (ph.num_nodes - ph.num_currently_running_tasks)).map
          (fun t => Submitted.standardJobOn t ph.pilot_job) ++ extra,
      by rw [he, List.append_assoc], ?_⟩
    intro x hmem
    rcases List.mem_append.1 hmem with h | h
    · obtain ⟨t, _, rfl⟩ := List.mem_map.1 h
      exact ⟨t, ph.pilot_job, rfl⟩
    · exact hx x h

theorem test_completion_frame (w : Workflow) (sim : Simulation) (task : Nat)
    (st st' : TestClusteringWMS) (m m' : Simulator)
    (h : TestClusteringWMS.processEventStandardJobCompletion w sim task st m
      = Run.ret (st', m')) :
    st'.pending_placeholder_job = st.pending_placeholder_job ∧ st'.sequence = st.sequence ∧
    st'.next_pilot_job = st.next_pilot_job ∧ st'.number_of_splits = st.number_of_splits ∧
    st'.parent_runtime = st.parent_runtime ∧ st'.individual_mode = st.individual_mode ∧
    ∃ extra, st'.submitted = st.submitted ++ extra ∧
      ∀ x ∈ extra, ∀ p a, x ≠ Submitted.pilotJob p a := by
  have hA : ∀ s : TestClusteringWMS,
      s.pending_placeholder_job = st.pending_placeholder_job → s.sequence = st.sequence →
      s.next_pilot_job = st.next_pilot_job → s.number_of_splits = st.number_of_splits →
      s.parent_runtime = st.parent_runtime → s.individual_mode = st.individual_mode →
      s.submitted = st.submitted →
      st' = TestClusteringWMS.submitReadyTasksIfIndividual w
        (TestClusteringWMS.dispatchRunning w s) →
      st'.pending_placeholder_job = st.pending_placeholder_job ∧ st'.sequence = st.sequence ∧
      st'.next_pilot_job = st.next_pilot_job ∧ st'.number_of_splits = st.number_of_splits ∧
      st'.parent_runtime = st.parent_runtime ∧ st'.individual_mode = st.individual_mode ∧
      ∃ extra, st'.submitted = st.submitted ++ extra ∧
        ∀ x ∈ extra, ∀ p a, x ≠ Submitted.pilotJob p a := by
    intro s h1 h2 h3 h4 h5 h6 h7 hs
    obtain ⟨extra, he, hx⟩ := dispatchAll_snd w s.running_placeholder_jobs s.submitted
    rw [hs]
    unfold TestClusteringWMS.submitReadyTasksIfIndividual TestClusteringWMS.dispatchRunning
    split
    · refine ⟨h1, h2, h3, h4, h5, h6,
        extra ++ (w.getTasks.filter fun task => w.state task == TaskState.READY).map
          (fun task => Submitted.standardJob task
            ⟨"1", "1",
              toString (1 + ⌊w.flops task / s.core_speed
                * TestClusteringWMS.EXECUTION_TIME_FUDGE_FACTOR⌋₊ / 60)⟩), ?_, ?_⟩
      · simp only [he]
        simp only [h7, List.append_assoc]
      intro x hmem p a hxe
      rcases List.mem_append.1 hmem with hm | hm
      · obtain ⟨t, q, hq⟩ := hx x hm
        rw [hq] at hxe
        cases hxe
      · obtain ⟨t, _, ht⟩ := List.mem_map.1 hm
        rw [← ht] at hxe
        cases hxe
    · refine ⟨h1, h2, h3, h4, h5, h6, extra, by simp only [he]; simp only [h7], ?_⟩
      intro x hmem p a hxe
      obtain ⟨t, q, hq⟩ := hx x hmem
      rw [hq] at hxe
      cases hxe
  unfold TestClusteringWMS.processEventStandardJobCompletion at h
  split at h
  · split at h
    · cases h
    · injection h with h
      simp only [Prod.mk.injEq] at h
      exact hA st rfl rfl rfl rfl rfl rfl rfl h.1.symm
  · rename_i ph _
    injection h with h
    simp only [Prod.mk.injEq] at h
    refine hA _ ?_ ?_ ?_ ?_ ?_ ?_ ?_ h.1.symm <;>
      (unfold TestClusteringWMS.completePlaceholder; split <;> rfl)

theorem zhang_completion_frame (w : Workflow) (sim : Simulation) (task : Nat)
    (st st' : ZhangFixedWMS) (m m' : Simulator)
    (h : ZhangFixedWMS.processEventStandardJobCompletion w sim task st m
      = Run.ret (st', m')) :
    st'.pending_placeholder_job = st.pending_placeholder_job ∧ st'.sequence = st.sequence ∧
    st'.calls = st.calls ∧ st'.number_of_splits = st.number_of_splits ∧
    st'.individual_mode = st.individual_mode ∧
    ∃ extra, st'.submitted = st.submitted ++ extra ∧
      ∀ x ∈ extra, ∀ p a, x ≠ Submitted.pilotJob p a := by
  have hA : ∀ s : ZhangFixedWMS,
      s.pending_placeholder_job = st.pending_placeholder_job → s.sequence = st.sequence →
      s.calls = st.calls → s.number_of_splits = st.number_of_splits →
      s.individual_mode = st.individual_mode → s.submitted = st.submitted →
      st' = ZhangFixedWMS.submitReadyTasks w (ZhangFixedWMS.dispatchChildren w sim task s) →
      st'.pending_placeholder_job = st.pending_placeholder_job ∧ st'.sequence = st.sequence ∧
      st'.calls = st.calls ∧ st'.number_of_splits = st.number_of_splits ∧
      st'.individual_mode = st.individual_mode ∧
      ∃ extra, st'.submitted = st.submitted ++ extra ∧
        ∀ x ∈ extra, ∀ p a, x ≠ Submitted.pilotJob p a := by
    intro s h1 h2 h3 h4 h5 h7 hs
    have hx : ∀ x ∈ (s.running_placeholder_jobs.flatMap fun ph =>
        (ph.tasks.filter fun task' =>
          (sim.getTaskChildren task).contains task'
            && w.state task' == TaskState.READY).map fun task' =>
              Submitted.standardJobOn task' ph.pilot_job),
        ∀ p a, x ≠ Submitted.pilotJob p a := by
      intro x hmem p a hxe
      obtain ⟨ph, _, hph⟩ := List.mem_flatMap.1 hmem
      obtain ⟨t, _, ht⟩ := List.mem_map.1 hph
      rw [← ht] at hxe
      cases hxe
    rw [hs]
    unfold ZhangFixedWMS.submitReadyTasks ZhangFixedWMS.dispatchChildren
    split
    · refine ⟨h1, h2, h3, h4, h5, _, by simp only [h7, List.append_assoc]; rfl, ?_⟩
      intro x hmem p a hxe
      rcases List.mem_append.1 hmem with hm | hm
      · exact hx x hm p a hxe
      · obtain ⟨t, _, ht⟩ := List.mem_map.1 hm
        rw [← ht] at hxe
        cases hxe
    · exact ⟨h1, h2, h3, h4, h5, _, by simp only [h7], hx⟩
  unfold ZhangFixedWMS.processEventStandardJobCompletion at h
  split at h
  · split at h
    · cases h
    · injection h with h
      simp only [Prod.mk.injEq] at h
      exact hA st rfl rfl rfl rfl rfl rfl h.1.symm
  · rename_i ph _
    injection h with h
    simp only [Prod.mk.injEq] at h
    refine hA _ ?_ ?_ ?_ ?_ ?_ ?_ h.1.symm <;>
      (unfold ZhangFixedWMS.completePlaceholder; split <;> rfl)

/-- C29, as the code behaves: task 0 of `pairWorkflow` completes while pilot job 0 runs it
(no overlap).  The completion handler submits nothing, but the loop of `main` then calls
the grouping heuristic, which submits a placeholder job for task 1 before the next event
(the start of pilot job 1) is processed: in `TestClusteringWMS` the pilot job 1 is in the
launch record when that event is handled, in `ZhangFixedWMS` the proxy was asked to
create and submit a placeholder job. -/
theorem completion_then_heuristic_counterexample :
    TestClusteringWMS.processEventStandardJobCompletion pairHalfDone pairSimulation 0 pairTest
        noMetrics
      = Run.ret ({ pairTest with running_placeholder_jobs := [] }, ⟨0, 0, 100, 0⟩) ∧
    TestClusteringWMS.applyGroupingHeuristic 8 pairHalfDone TestClusteringWMS.idleService 100
        { pairTest with running_placeholder_jobs := [] }
      = Run.ret
          { pairTest with
            running_placeholder_jobs := []
            pending_placeholder_job := some ⟨1, 1, [1], 1, 1, 0⟩
            sequence := 2
            next_pilot_job := 2
            parent_runtime := 231
            submitted := [Submitted.pilotJob 0 ⟨"1", "1", "2"⟩, Submitted.standardJobOn 0 0,
              Submitted.pilotJob 1 ⟨"1", "1", "4"⟩] } ∧
    TestClusteringWMS.mainLoop 8 TestClusteringWMS.idleService
        [completionIteration, nextIteration] pairTest noMetrics
      = TestClusteringWMS.processNextEvent 8 pairHalfDone TestClusteringWMS.idleService
          pairSimulation 0 (Event.pilotJobStarted 1)
          { pairTest with
            running_placeholder_jobs := []
            pending_placeholder_job := some ⟨1, 1, [1], 1, 1, 0⟩
            sequence := 2
            next_pilot_job := 2
            parent_runtime := 231
            submitted := [Submitted.pilotJob 0 ⟨"1", "1", "2"⟩, Submitted.standardJobOn 0 0,
              Submitted.pilotJob 1 ⟨"1", "1", "4"⟩] }
          ⟨0, 0, 100, 0⟩ ∧
    ZhangFixedWMS.processEventStandardJobCompletion pairHalfDone pairSimulation 0 pairZhang
        noMetrics
      = Run.ret ({ pairZhang with running_placeholder_jobs := [] }, ⟨0, 0, 100, 0⟩) ∧
    ZhangFixedWMS.mainLoop 8 ZhangFixedWMS.idleProxy [completionIteration, nextIteration]
        pairZhang noMetrics
      = Run.ret
          ({ pairZhang with
              running_placeholder_jobs := []
              pending_placeholder_job := some ⟨0, [], 1, 1⟩
              sequence := 2
              calls := [ProxyCall.createAndSubmitPlaceholderJob 100 1 1 1] },
            ⟨100, 0, 100, 0⟩) := by
  refine ⟨by decide!, by decide!, by decide!, by decide!, by decide!⟩

/-- C29, amended: in both controllers the handler of a standard-job completion leaves the
pending placeholder job, the sequence number of the estimate queries, the number of
splits and the individual mode as they were and adds to the launch record only one-task
standard jobs (no pilot job; in `ZhangFixedWMS` the record of proxy calls is unchanged):
the handler does not run the grouping heuristic.  The loop of `main` however runs the
grouping heuristic at the head of every iteration: when an iteration ends with a
standard-job completion and the workflow is not done, the heuristic is called on the
state the handler left, and the next event is processed on the state the heuristic
returns; an exception of the heuristic ends the loop. -/
theorem completion_then_heuristic (fuel : Nat) (bs : BatchService) (proxy : ProxyWMS)
    (it it2 : Iteration) (rest : List Iteration) (task : Nat)
    (test t1 t2 : TestClusteringWMS) (zhang z1 z2 : ZhangFixedWMS) (m mt mz : Simulator)
    (hdone : it.isDone = false) (hev : it.event = Event.standardJobCompleted task)
    (hT1 : TestClusteringWMS.applyGroupingHeuristic fuel it.workflow bs it.now test
      = Run.ret t1)
    (hT2 : TestClusteringWMS.processEventStandardJobCompletion it.atEvent it.sim task t1 m
      = Run.ret (t2, mt))
    (hZ1 : ZhangFixedWMS.applyGroupingHeuristic fuel it.workflow proxy it.now zhang
      = Run.ret z1)
    (hZ2 : ZhangFixedWMS.processEventStandardJobCompletion it.atEvent it.sim task z1 m
      = Run.ret (z2, mz)) :
    (t2.pending_placeholder_job = t1.pending_placeholder_job ∧ t2.sequence = t1.sequence ∧
      t2.next_pilot_job = t1.next_pilot_job ∧ t2.number_of_splits = t1.number_of_splits ∧
      t2.parent_runtime = t1.parent_runtime ∧ t2.individual_mode = t1.individual_mode ∧
      ∃ extra, t2.submitted = t1.submitted ++ extra ∧
        ∀ x ∈ extra, ∀ p a, x ≠ Submitted.pilotJob p a) ∧
    (z2.pending_placeholder_job = z1.pending_placeholder_job ∧ z2.sequence = z1.sequence ∧
      z2.calls = z1.calls ∧ z2.number_of_splits = z1.number_of_splits ∧
      z2.individual_mode = z1.individual_mode ∧
      ∃ extra, z2.submitted = z1.submitted ++ extra ∧
        ∀ x ∈ extra, ∀ p a, x ≠ Submitted.pilotJob p a) ∧
    TestClusteringWMS.mainLoop fuel bs (it :: it2 :: rest) test m
      = TestClusteringWMS.mainLoop fuel bs (it2 :: rest) t2 mt ∧
    ZhangFixedWMS.mainLoop fuel proxy (it :: it2 :: rest) zhang m
      = ZhangFixedWMS.mainLoop fuel proxy (it2 :: rest) z2 mz ∧
    (it2.isDone = false →
      (∀ t3 t4 m4,
        TestClusteringWMS.applyGroupingHeuristic fuel it2.workflow bs it2.now t2 = Run.ret t3 →
        TestClusteringWMS.processNextEvent fuel it2.atEvent bs it2.sim it2.slot it2.event t3 mt
          = Run.ret (t4, m4) →
        TestClusteringWMS.mainLoop fuel bs (it :: it2 :: rest) test m
          = TestClusteringWMS.mainLoop fuel bs rest t4 m4) ∧
      (∀ x,
        TestClusteringWMS.applyGroupingHeuristic fuel it2.workflow bs it2.now t2
          = Run.throw x →
        TestClusteringWMS.mainLoop fuel bs (it :: it2 :: rest) test m = Run.throw x) ∧
      (∀ z3 z4 m4,
        ZhangFixedWMS.applyGroupingHeuristic fuel it2.workflow proxy it2.now z2 = Run.ret z3 →
        ZhangFixedWMS.processNextEvent fuel it2.atEvent proxy it2.sim it2.slot it2.event z3 mz
          = Run.ret (z4, m4) →
        ZhangFixedWMS.mainLoop fuel proxy (it :: it2 :: rest) zhang m
          = ZhangFixedWMS.mainLoop fuel proxy rest z4 m4) ∧
      (∀ x,
        ZhangFixedWMS.applyGroupingHeuristic fuel it2.workflow proxy it2.now z2
          = Run.throw x →
        ZhangFixedWMS.mainLoop fuel proxy (it :: it2 :: rest) zhang m = Run.throw x)) := by
  have hT : TestClusteringWMS.mainLoop fuel bs (it :: it2 :: rest) test m
      = TestClusteringWMS.mainLoop fuel bs (it2 :: rest) t2 mt := by
    rw [TestClusteringWMS.mainLoop]
    simp only [hdone, Bool.false_eq_true, if_false, hT1, TestClusteringWMS.processNextEvent,
      hev, hT2]
  have hZ : ZhangFixedWMS.mainLoop fuel proxy (it :: it2 :: rest) zhang m
      = ZhangFixedWMS.mainLoop fuel proxy (it2 :: rest) z2 mz := by
    rw [ZhangFixedWMS.mainLoop]
    simp only [hdone, Bool.false_eq_true, if_false, hZ1, ZhangFixedWMS.processNextEvent,
      hev, hZ2]
  refine ⟨test_completion_frame _ _ _ _ _ _ _ hT2, zhang_completion_frame _ _ _ _ _ _ _ hZ2,
    hT, hZ, ?_⟩
  intro hd2
  refine ⟨?_, ?_, ?_, ?_⟩
  · intro t3 t4 m4 h3 h4
    rw [hT, TestClusteringWMS.mainLoop]
    simp only [hd2, Bool.false_eq_true, if_false, h3, h4]
  · intro x h3
    rw [hT, TestClusteringWMS.mainLoop]
    simp only [hd2, Bool.false_eq_true, if_false, h3]
  · intro z3 z4 m4 h3 h4
    rw [hZ, ZhangFixedWMS.mainLoop]
    simp only [hd2, Bool.false_eq_true, if_false, h3, h4]
  · intro x h3
    rw [hZ, ZhangFixedWMS.mainLoop]
    simp only [hd2, Bool.false_eq_true, if_false, h3]

/-- C29, amended, instance: the completion of task 0 of `pairWorkflow` followed by the
start of pilot job 1. -/
theorem completion_then_heuristic_witness :
    TestClusteringWMS.mainLoop 8 TestClusteringWMS.idleService
        [completionIteration, nextIteration] pairTest noMetrics
      = TestClusteringWMS.mainLoop 8 TestClusteringWMS.idleService [nextIteration]
          { pairTest with running_placeholder_jobs := [] } ⟨0, 0, 100, 0⟩ ∧
    ZhangFixedWMS.mainLoop 8 ZhangFixedWMS.idleProxy [completionIteration, nextIteration]
        pairZhang noMetrics
      = ZhangFixedWMS.mainLoop 8 ZhangFixedWMS.idleProxy [nextIteration]
          { pairZhang with running_placeholder_jobs := [] } ⟨0, 0, 100, 0⟩ :=
  have h := completion_then_heuristic 8 TestClusteringWMS.idleService ZhangFixedWMS.idleProxy
    completionIteration nextIteration [] 0 pairTest pairTest
    { pairTest with running_placeholder_jobs := [] } pairZhang pairZhang
    { pairZhang with running_placeholder_jobs := [] } noMetrics ⟨0, 0, 100, 0⟩ ⟨0, 0, 100, 0⟩
    rfl rfl (by decide!) (by decide!) (by decide!) (by decide!)
  ⟨h.2.2.1, h.2.2.2.1⟩

theorem digitChar_toNat (m : Nat) (h : m < 10) : (Nat.digitChar m).toNat - 48 = m := by
  interval_cases m <;> rfl

theorem toDigitsCore_append (fuel : Nat) :
    ∀ (n : Nat) (ds : List Char),
      Nat.toDigitsCore 10 fuel n ds = Nat.toDigitsCore 10 fuel n [] ++ ds := by
  induction fuel with
  | zero => intro n ds; rfl
  | succ f ih =>
    intro n ds
    simp only [Nat.toDigitsCore]
    split
    · rfl
    · rw [ih (n / 10) (Nat.digitChar (n % 10) :: ds), ih (n / 10) [Nat.digitChar (n % 10)]]
      simp

theorem toDigitsCore_value (fuel : Nat) :
    ∀ n : Nat, n < fuel →
      (Nat.toDigitsCore 10 fuel n []).foldl (fun acc c => 10 * acc + (c.toNat - 48)) 0 = n := by
  induction fuel with
  | zero => intro n h; omega
  | succ f ih =>
    intro n h
    simp only [Nat.toDigitsCore]
    split
    · rename_i h0
      simp only [List.foldl_cons, List.foldl_nil, Nat.mul_zero, Nat.zero_add]
      rw [digitChar_toNat _ (Nat.mod_lt _ (by decide))]
      omega
    · rename_i h0
      rw [toDigitsCore_append, List.foldl_append, ih (n / 10) (by omega)]
      simp only [List.foldl_cons, List.foldl_nil]
      rw [digitChar_toNat _ (Nat.mod_lt _ (by decide))]
      omega

theorem toString_nat_injective (a b : Nat) (h : toString a = toString b) : a = b := by
  have h1 : Nat.toDigits 10 a = Nat.toDigits 10 b := by
    have : (Nat.toDigits 10 a).asString = (Nat.toDigits 10 b).asString := h
    exact congrArg String.data this
  have h2 := congrArg (List.foldl (fun acc c => 10 * acc + (Char.toNat c - 48)) 0) h1
  unfold Nat.toDigits at h2
  rw [toDigitsCore_value _ a (by omega), toDigitsCore_value _ b (by omega)] at h2
  exact h2

theorem probe_key_injective (a b : Nat)
    (h : "config_XXXX_" ++ toString a = "config_XXXX_" ++ toString b) : a = b := by
  apply toString_nat_injective
  have h1 := congrArg String.data h
  simp only [String.data_append] at h1
  exact String.ext (List.append_cancel_left h1)

theorem option_toList_length_le {α : Type} (o : Option α) : o.toList.length ≤ 1 := by
  cases o <;> simp

theorem test_heuristic_slots (fuel : Nat) (w : Workflow) (bs : BatchService) (now : ℚ)
    (st st' : TestClusteringWMS) (ho : st.overlap = false) (hs : testSlots st ≤ 1)
    (h : TestClusteringWMS.applyGroupingHeuristic fuel w bs now st = Run.ret st') :
    st'.overlap = false ∧ testSlots st' ≤ 1 := by
  obtain ⟨hrun, _, hov⟩ := test_heuristic_frame fuel w bs now st st' h
  refine ⟨by rw [hov, ho], ?_⟩
  have hcases : st' = st ∨ st.running_placeholder_jobs = [] := by
    unfold TestClusteringWMS.applyGroupingHeuristic at h
    by_cases h1 : st.pending_placeholder_job.isSome = true
    · rw [if_pos h1] at h
      injection h with h
      exact Or.inl h.symm
    · rw [if_neg h1] at h
      by_cases h2 : st.individual_mode = true
      · rw [if_pos h2] at h
        injection h with h
        exact Or.inl h.symm
      · rw [if_neg h2] at h
        by_cases h3 : (!st.overlap && !st.running_placeholder_jobs.isEmpty) = true
        · rw [if_pos h3] at h
          injection h with h
          exact Or.inl h.symm
        · right
          rw [ho] at h3
          simpa using h3
  rcases hcases with h1 | h1
  · rw [h1]; exact hs
  · unfold testSlots
    rw [hrun, h1]
    simpa using option_toList_length_le _

theorem zhang_heuristic_slots (fuel : Nat) (w : Workflow) (proxy : ProxyWMS) (now : ℚ)
    (st st' : ZhangFixedWMS) (ho : st.overlap = false) (hs : zhangSlots st ≤ 1)
    (h : ZhangFixedWMS.applyGroupingHeuristic fuel w proxy now st = Run.ret st') :
    st'.overlap = false ∧ zhangSlots st' ≤ 1 := by
  obtain ⟨hrun, _, _, hov⟩ := zhang_heuristic_frame fuel w proxy now st st' h
  refine ⟨by rw [hov, ho], ?_⟩
  have hcases : st' = st ∨ st.running_placeholder_jobs = [] := by
    unfold ZhangFixedWMS.applyGroupingHeuristic at h
    by_cases h1 : st.pending_placeholder_job.isSome = true
    · rw [if_pos h1] at h
      injection h with h
      exact Or.inl h.symm
    · rw [if_neg h1] at h
      by_cases h2 : st.individual_mode = true
      · rw [if_pos h2] at h
        injection h with h
        exact Or.inl h.symm
      · rw [if_neg h2] at h
        by_cases h3 : (!st.overlap && !st.running_placeholder_jobs.isEmpty) = true
        · rw [if_pos h3] at h
          injection h with h
          exact Or.inl h.symm
        · right
          rw [ho] at h3
          simpa using h3
  rcases hcases with h1 | h1
  · rw [h1]; exact hs
  · unfold zhangSlots
    rw [hrun, h1]
    simpa using option_toList_length_le _

theorem test_event_slots (fuel : Nat) (w : Workflow) (bs : BatchService) (sim : Simulation)
    (slot : Nat) (e : Event) (st st' : TestClusteringWMS) (m m' : Simulator)
    (ho : st.overlap = false) (hs : testSlots st ≤ 1)
    (h : TestClusteringWMS.processNextEvent fuel w bs sim slot e st m = Run.ret (st', m')) :
    st'.overlap = false ∧ testSlots st' ≤ 1 := by
  cases e with
  | pilotJobStarted p =>
    simp only [TestClusteringWMS.processNextEvent,
      TestClusteringWMS.processEventPilotJobStart] at h
    cases hp : st.pending_placeholder_job with
    | none => rw [hp] at h; cases h
    | some ph =>
      rw [hp] at h
      simp only at h
      by_cases hne : p ≠ ph.pilot_job
      · rw [if_pos hne] at h
        injection h with h
        injection h with h1 _
        rw [← h1]
        exact ⟨ho, hs⟩
      · rw [if_neg hne] at h
        cases hh : TestClusteringWMS.applyGroupingHeuristic fuel w bs sim.getCurrentSimulatedDate
            (TestClusteringWMS.dispatchStarted w (TestClusteringWMS.promote slot st ph) ph) with
        | ret st'' =>
          rw [hh] at h
          injection h with h
          injection h with h1 _
          rw [← h1]
          refine test_heuristic_slots fuel w bs _ _ _
            (show (TestClusteringWMS.dispatchStarted w
              (TestClusteringWMS.promote slot st ph) ph).overlap = false from ho) ?_ hh
          unfold testSlots at hs ⊢
          rw [hp] at hs
          have hr : st.running_placeholder_jobs = [] := by
            cases hl : st.running_placeholder_jobs with
            | nil => rfl
            | cons x l => rw [hl] at hs; simp at hs
          simp [TestClusteringWMS.dispatchStarted, TestClusteringWMS.promote, hr]
        | throw x => rw [hh] at h; cases h
        | spin => rw [hh] at h; cases h
  | pilotJobExpired p =>
    simp only [TestClusteringWMS.processNextEvent,
      TestClusteringWMS.processEventPilotJobExpiration] at h
    cases hc : TestClusteringWMS.expirationCleanup w sim p st m with
    | ret r =>
      obtain ⟨st1, m1, again⟩ := r
      rw [hc] at h
      simp only at h
      have hst1 : st1.overlap = false ∧ testSlots st1 ≤ 1 := by
        unfold TestClusteringWMS.expirationCleanup at hc
        cases hf : st.running_placeholder_jobs.find? (fun ph => ph.pilot_job == p) with
        | none => rw [hf] at hc; cases hc
        | some ph =>
          rw [hf] at hc
          simp only at hc
          have hlen : (st.running_placeholder_jobs.erase ph).length
              ≤ st.running_placeholder_jobs.length :=
            (List.erase_sublist ph st.running_placeholder_jobs).length_le
          split at hc
          · injection hc with hc
            injection hc with h1 _
            rw [← h1]
            refine ⟨ho, ?_⟩
            unfold testSlots at hs ⊢
            simp only
            omega
          · split at hc
            · cases hc
            · injection hc with hc
              injection hc with h1 _
              rw [← h1]
              refine ⟨ho, ?_⟩
              unfold testSlots at hs ⊢
              simp only [Option.toList_none, List.length_nil, Nat.zero_add]
              have := List.length_filter_le
                (fun ph => ph.tasks.any fun task => w.state task != TaskState.NOT_READY)
                (st.running_placeholder_jobs.erase ph)
              omega
      by_cases ha : again = true
      · rw [if_pos ha] at h
        cases hh : TestClusteringWMS.applyGroupingHeuristic fuel w bs sim.getCurrentSimulatedDate
            st1 with
        | ret st'' =>
          rw [hh] at h
          injection h with h
          injection h with h1 _
          rw [← h1]
          exact test_heuristic_slots fuel w bs _ _ _ hst1.1 hst1.2 hh
        | throw x => rw [hh] at h; cases h
        | spin => rw [hh] at h; cases h
      · rw [if_neg ha] at h
        injection h with h
        injection h with h1 _
        rw [← h1]
        exact hst1
    | throw x => rw [hc] at h; cases h
    | spin => rw [hc] at h; cases h
  | standardJobCompleted task =>
    simp only [TestClusteringWMS.processNextEvent,
      TestClusteringWMS.processEventStandardJobCompletion] at h
    have hafter : ∀ X : TestClusteringWMS,
        (TestClusteringWMS.submitReadyTasksIfIndividual w
          (TestClusteringWMS.dispatchRunning w X)).overlap = X.overlap ∧
        testSlots (TestClusteringWMS.submitReadyTasksIfIndividual w
          (TestClusteringWMS.dispatchRunning w X)) = testSlots X := by
      intro X
      unfold TestClusteringWMS.submitReadyTasksIfIndividual testSlots
      split <;> simp [TestClusteringWMS.dispatchRunning, dispatchAll_fst]
    cases hf : TestClusteringWMS.findPlaceholder st.running_placeholder_jobs task with
    | none =>
      rw [hf] at h
      simp only at h
      split at h
      · cases h
      · injection h with h
        injection h with h1 _
        rw [← h1, (hafter st).1, (hafter st).2]
        exact ⟨ho, hs⟩
    | some ph =>
      rw [hf] at h
      simp only at h
      injection h with h
      injection h with h1 _
      rw [← h1, (hafter _).1, (hafter _).2]
      unfold TestClusteringWMS.completePlaceholder
      split
      · refine ⟨ho, ?_⟩
        unfold testSlots at hs ⊢
        simp only
        have := (List.erase_sublist ph st.running_placeholder_jobs).length_le
        omega
      · refine ⟨ho, ?_⟩
        unfold testSlots at hs ⊢
        simp only [List.length_map]
        exact hs
  | standardJobFailed task =>
    simp only [TestClusteringWMS.processNextEvent,
      TestClusteringWMS.processEventStandardJobFailure] at h
    injection h with h
    injection h with h1 _
    rw [← h1]
    exact ⟨ho, hs⟩

theorem zhang_event_slots (fuel : Nat) (w : Workflow) (proxy : ProxyWMS) (sim : Simulation)
    (slot : Nat) (e : Event) (st st' : ZhangFixedWMS) (m m' : Simulator)
    (ho : st.overlap = false) (hs : zhangSlots st ≤ 1)
    (h : ZhangFixedWMS.processNextEvent fuel w proxy sim slot e st m = Run.ret (st', m')) :
    st'.overlap = false ∧ zhangSlots st' ≤ 1 := by
  cases e with
  | pilotJobStarted p =>
    simp only [ZhangFixedWMS.processNextEvent,
      ZhangFixedWMS.processEventPilotJobStart] at h
    cases hp : st.pending_placeholder_job with
    | none => rw [hp] at h; cases h
    | some ph =>
      rw [hp] at h
      simp only at h
      by_cases hne : p ≠ ph.pilot_job
      · rw [if_pos hne] at h
        injection h with h
        injection h with h1 _
        rw [← h1]
        exact ⟨ho, hs⟩
      · rw [if_neg hne] at h
        cases hh : ZhangFixedWMS.applyGroupingHeuristic fuel w proxy sim.getCurrentSimulatedDate
            (ZhangFixedWMS.dispatchStarted w (ZhangFixedWMS.promote slot st ph) ph) with
        | ret st'' =>
          rw [hh] at h
          injection h with h
          injection h with h1 _
          rw [← h1]
          refine zhang_heuristic_slots fuel w proxy _ _ _
            (show (ZhangFixedWMS.dispatchStarted w
              (ZhangFixedWMS.promote slot st ph) ph).overlap = false from ho) ?_ hh
          unfold zhangSlots at hs ⊢
          rw [hp] at hs
          have hr : st.running_placeholder_jobs = [] := by
            cases hl : st.running_placeholder_jobs with
            | nil => rfl
            | cons x l => rw [hl] at hs; simp at hs
          simp [ZhangFixedWMS.dispatchStarted, ZhangFixedWMS.promote, hr]
        | throw x => rw [hh] at h; cases h
        | spin => rw [hh] at h; cases h
  | pilotJobExpired p =>
    simp only [ZhangFixedWMS.processNextEvent,
      ZhangFixedWMS.processEventPilotJobExpiration] at h
    cases hc : ZhangFixedWMS.expirationCleanup w sim p st m with
    | ret r =>
      obtain ⟨st1, m1, again⟩ := r
      rw [hc] at h
      simp only at h
      have hst1 : st1.overlap = false ∧ zhangSlots st1 ≤ 1 := by
        unfold ZhangFixedWMS.expirationCleanup at hc
        cases hf : st.running_placeholder_jobs.find? (fun ph => ph.pilot_job == p) with
        | none => rw [hf] at hc; cases hc
        | some ph =>
          rw [hf] at hc
          simp only at hc
          have hlen : (st.running_placeholder_jobs.erase ph).length
              ≤ st.running_placeholder_jobs.length :=
            (List.erase_sublist ph st.running_placeholder_jobs).length_le
          split at hc
          · injection hc with hc
            injection hc with h1 _
            rw [← h1]
            refine ⟨ho, ?_⟩
            unfold zhangSlots at hs ⊢
            simp only
            omega
          · split at hc
            · cases hc
            · injection hc with hc
              injection hc with h1 _
              rw [← h1]
              refine ⟨ho, ?_⟩
              unfold zhangSlots at hs ⊢
              simp only [Option.toList_none, List.length_nil, Nat.zero_add]
              have := List.length_filter_le
                (fun ph => ph.tasks.any fun task => w.state task != TaskState.NOT_READY)
                (st.running_placeholder_jobs.erase ph)
              omega
      by_cases ha : again = true
      · rw [if_pos ha] at h
        cases hh : ZhangFixedWMS.applyGroupingHeuristic fuel w proxy sim.getCurrentSimulatedDate
            st1 with
        | ret st'' =>
          rw [hh] at h
          injection h with h
          injection h with h1 _
          rw [← h1]
          exact zhang_heuristic_slots fuel w proxy _ _ _ hst1.1 hst1.2 hh
        | throw x => rw [hh] at h; cases h
        | spin => rw [hh] at h; cases h
      · rw [if_neg ha] at h
        injection h with h
        injection h with h1 _
        rw [← h1]
        exact hst1
    | throw x => rw [hc] at h; cases h
    | spin => rw [hc] at h; cases h
  | standardJobCompleted task =>
    simp only [ZhangFixedWMS.processNextEvent,
      ZhangFixedWMS.processEventStandardJobCompletion] at h
    have hafter : ∀ X : ZhangFixedWMS,
        (ZhangFixedWMS.submitReadyTasks w
          (ZhangFixedWMS.dispatchChildren w sim task X)).overlap = X.overlap ∧
        zhangSlots (ZhangFixedWMS.submitReadyTasks w
          (ZhangFixedWMS.dispatchChildren w sim task X)) = zhangSlots X := by
      intro X
      unfold ZhangFixedWMS.submitReadyTasks zhangSlots
      split <;> simp [ZhangFixedWMS.dispatchChildren]
    cases hf : ZhangFixedWMS.findPlaceholder st.running_placeholder_jobs task with
    | none =>
      rw [hf] at h
      simp only at h
      split at h
      · cases h
      · injection h with h
        injection h with h1 _
        rw [← h1, (hafter st).1, (hafter st).2]
        exact ⟨ho, hs⟩
    | some ph =>
      rw [hf] at h
      simp only at h
      injection h with h
      injection h with h1 _
      rw [← h1, (hafter _).1, (hafter _).2]
      unfold ZhangFixedWMS.completePlaceholder
      split
      · refine ⟨ho, ?_⟩
        unfold zhangSlots at hs ⊢
        simp only
        have := (List.erase_sublist ph st.running_placeholder_jobs).length_le
        omega
      · exact ⟨ho, hs⟩
  | standardJobFailed task =>
    simp only [ZhangFixedWMS.processNextEvent,
      ZhangFixedWMS.processEventStandardJobFailure] at h
    injection h with h
    injection h with h1 _
    rw [← h1]
    exact ⟨ho, hs⟩

theorem testOperations_slots (fuel : Nat) (bs : BatchService) (ops : List Operation) :
    ∀ (st st' : TestClusteringWMS) (m m' : Simulator), st.overlap = false →
      testSlots st ≤ 1 → testOperations fuel bs ops st m = Run.ret (st', m') →
      st'.overlap = false ∧ testSlots st' ≤ 1 := by
  induction ops with
  | nil =>
    intro st st' m m' ho hs h
    simp only [testOperations] at h
    injection h with h
    injection h with h1 _
    rw [← h1]
    exact ⟨ho, hs⟩
  | cons op rest ih =>
    intro st st' m m' ho hs h
    cases op with
    | heuristic w now =>
      simp only [testOperations] at h
      cases hh : TestClusteringWMS.applyGroupingHeuristic fuel w bs now st with
      | ret st1 =>
        rw [hh] at h
        obtain ⟨h1, h2⟩ := test_heuristic_slots fuel w bs now st st1 ho hs hh
        exact ih st1 st' m m' h1 h2 h
      | throw x => rw [hh] at h; cases h
      | spin => rw [hh] at h; cases h
    | event w sim slot e =>
      simp only [testOperations] at h
      cases hh : TestClusteringWMS.processNextEvent fuel w bs sim slot e st m with
      | ret r =>
        obtain ⟨st1, m1⟩ := r
        rw [hh] at h
        obtain ⟨h1, h2⟩ := test_event_slots fuel w bs sim slot e st st1 m m1 ho hs hh
        exact ih st1 st' m1 m' h1 h2 h
      | throw x => rw [hh] at h; cases h
      | spin => rw [hh] at h; cases h

theorem zhangOperations_slots (fuel : Nat) (proxy : ProxyWMS) (ops : List Operation) :
    ∀ (st st' : ZhangFixedWMS) (m m' : Simulator), st.overlap = false →
      zhangSlots st ≤ 1 → zhangOperations fuel proxy ops st m = Run.ret (st', m') →
      st'.overlap = false ∧ zhangSlots st' ≤ 1 := by
  induction ops with
  | nil =>
    intro st st' m m' ho hs h
    simp only [zhangOperations] at h
    injection h with h
    injection h with h1 _
    rw [← h1]
    exact ⟨ho, hs⟩
  | cons op rest ih =>
    intro st st' m m' ho hs h
    cases op with
    | heuristic w now =>
      simp only [zhangOperations] at h
      cases hh : ZhangFixedWMS.applyGroupingHeuristic fuel w proxy now st with
      | ret st1 =>
        rw [hh] at h
        obtain ⟨h1, h2⟩ := zhang_heuristic_slots fuel w proxy now st st1 ho hs hh
        exact ih st1 st' m m' h1 h2 h
      | throw x => rw [hh] at h; cases h
      | spin => rw [hh] at h; cases h
    | event w sim slot e =>
      simp only [zhangOperations] at h
      cases hh : ZhangFixedWMS.processNextEvent fuel w proxy sim slot e st m with
      | ret r =>
        obtain ⟨st1, m1⟩ := r
        rw [hh] at h
        obtain ⟨h1, h2⟩ := zhang_event_slots fuel w proxy sim slot e st st1 m m1 ho hs hh
        exact ih st1 st' m1 m' h1 h2 h
      | throw x => rw [hh] at h; cases h
      | spin => rw [hh] at h; cases h

theorem test_mainLoop_slots (fuel : Nat) (bs : BatchService) (its : List Iteration) :
    ∀ (st st' : TestClusteringWMS) (m m' : Simulator), st.overlap = false →
      testSlots st ≤ 1 → TestClusteringWMS.mainLoop fuel bs its st m = Run.ret (st', m') →
      st'.overlap = false ∧ testSlots st' ≤ 1 := by
  induction its with
  | nil =>
    intro st st' m m' ho hs h
    simp only [TestClusteringWMS.mainLoop] at h
    injection h with h
    injection h with h1 _
    rw [← h1]
    exact ⟨ho, hs⟩
  | cons it rest ih =>
    intro st st' m m' ho hs h
    simp only [TestClusteringWMS.mainLoop] at h
    split at h
    · injection h with h
      injection h with h1 _
      rw [← h1]
      exact ⟨ho, hs⟩
    · cases hh : TestClusteringWMS.applyGroupingHeuristic fuel it.workflow bs it.now st with
      | ret st1 =>
        rw [hh] at h
        simp only at h
        obtain ⟨h1, h2⟩ := test_heuristic_slots fuel _ bs _ st st1 ho hs hh
        cases he : TestClusteringWMS.processNextEvent fuel it.atEvent bs it.sim it.slot it.event
            st1 m with
        | ret r =>
          obtain ⟨st2, m2⟩ := r
          rw [he] at h
          obtain ⟨h3, h4⟩ := test_event_slots fuel _ bs _ _ _ st1 st2 m m2 h1 h2 he
          exact ih st2 st' m2 m' h3 h4 h
        | throw x => rw [he] at h; cases h
        | spin => rw [he] at h; cases h
      | throw x => rw [hh] at h; cases h
      | spin => rw [hh] at h; cases h

theorem zhang_mainLoop_slots (fuel : Nat) (proxy : ProxyWMS) (its : List Iteration) :
    ∀ (st st' : ZhangFixedWMS) (m m' : Simulator), st.overlap = false →
      zhangSlots st ≤ 1 → ZhangFixedWMS.mainLoop fuel proxy its st m = Run.ret (st', m') →
      st'.overlap = false ∧ zhangSlots st' ≤ 1 := by
  induction its with
  | nil =>
    intro st st' m m' ho hs h
    simp only [ZhangFixedWMS.mainLoop] at h
    injection h with h
    injection h with h1 _
    rw [← h1]
    exact ⟨ho, hs⟩
  | cons it rest ih =>
    intro st st' m m' ho hs h
    simp only [ZhangFixedWMS.mainLoop] at h
    split at h
    · injection h with h
      injection h with h1 _
      rw [← h1]
      exact ⟨ho, hs⟩
    · cases hh : ZhangFixedWMS.applyGroupingHeuristic fuel it.workflow proxy it.now st with
      | ret st1 =>
        rw [hh] at h
        simp only at h
        obtain ⟨h1, h2⟩ := zhang_heuristic_slots fuel _ proxy _ st st1 ho hs hh
        cases he : ZhangFixedWMS.processNextEvent fuel it.atEvent proxy it.sim it.slot it.event
            st1 m with
        | ret r =>
          obtain ⟨st2, m2⟩ := r
          rw [he] at h
          obtain ⟨h3, h4⟩ := zhang_event_slots fuel _ proxy _ _ _ st1 st2 m m2 h1 h2 he
          exact ih st2 st' m2 m' h3 h4 h
        | throw x => rw [he] at h; cases h
        | spin => rw [he] at h; cases h
      | throw x => rw [hh] at h; cases h
      | spin => rw [hh] at h; cases h

/-- C39: in both controllers, from a state with overlap off and at most one placeholder
job pending or running (in particular from no pending and no running placeholder job),
every state reached by a sequence of invocations of the grouping heuristic and of
pilot-start, pilot-expiration, standard-job-completion and standard-job-failure events,
in any order and with any workflows and simulation answers, has overlap off and at most one
placeholder job pending or running; the same holds for every state returned by the main
loop and by `main`. -/
theorem at_most_one_placeholder (fuel : Nat) (bs : BatchService) (proxy : ProxyWMS)
    (test : TestClusteringWMS) (zhang : ZhangFixedWMS)
    (hto : test.overlap = false) (htp : test.pending_placeholder_job = none)
    (htr : test.running_placeholder_jobs = [])
    (hzo : zhang.overlap = false) (hzp : zhang.pending_placeholder_job = none)
    (hzr : zhang.running_placeholder_jobs = []) :
    (∀ (ops : List Operation) (m m' : Simulator) (test' : TestClusteringWMS),
      testOperations fuel bs ops test m = Run.ret (test', m') →
      test'.pending_placeholder_job.toList.length + test'.running_placeholder_jobs.length
        ≤ 1) ∧
    (∀ (ops : List Operation) (m m' : Simulator) (zhang' : ZhangFixedWMS),
      zhangOperations fuel proxy ops zhang m = Run.ret (zhang', m') →
      zhang'.pending_placeholder_job.toList.length + zhang'.running_placeholder_jobs.length
        ≤ 1) ∧
    (∀ (core_flop_rate : ℚ) (num_hosts : Nat) (its : List Iteration) (m m' : Simulator)
        (test' : TestClusteringWMS),
      TestClusteringWMS.main fuel bs core_flop_rate num_hosts its test m
        = Run.ret (test', m') →
      test'.pending_placeholder_job.toList.length + test'.running_placeholder_jobs.length
        ≤ 1) ∧
    (∀ (core_flop_rate : ℚ) (num_hosts : Nat) (its : List Iteration) (m m' : Simulator)
        (zhang' : ZhangFixedWMS),
      ZhangFixedWMS.main fuel proxy core_flop_rate num_hosts its zhang m
        = Run.ret (zhang', m') →
      zhang'.pending_placeholder_job.toList.length + zhang'.running_placeholder_jobs.length
        ≤ 1) := by
  have ht : testSlots test ≤ 1 := by simp [testSlots, htp, htr]
  have hz : zhangSlots zhang ≤ 1 := by simp [zhangSlots, hzp, hzr]
  refine ⟨?_, ?_, ?_, ?_⟩
  · intro ops m m' test' h
    exact (testOperations_slots fuel bs ops test test' m m' hto ht h).2
  · intro ops m m' zhang' h
    exact (zhangOperations_slots fuel proxy ops zhang zhang' m m' hzo hz h).2
  · intro cfr nh its m m' test' h
    unfold TestClusteringWMS.main at h
    exact (test_mainLoop_slots fuel bs its
      { test with core_speed := cfr, number_of_hosts := nh } test' m m' hto
      (by simp [testSlots, htp, htr]) h).2
  · intro cfr nh its m m' zhang' h
    unfold ZhangFixedWMS.main at h
    exact (zhang_mainLoop_slots fuel proxy its
      { zhang with core_speed := cfr, number_of_hosts := nh } zhang' m m' hzo
      (by simp [zhangSlots, hzp, hzr]) h).2

/-- C39, instance: the Test controller on `fanWorkflow` and the Zhang controller, both with
overlap off and nothing pending or running; after the heuristic and the start of the
submitted pilot job the Test controller has no pending and one running placeholder job. -/
theorem at_most_one_placeholder_witness :
    (∀ (ops : List Operation) (m m' : Simulator) (test' : TestClusteringWMS),
      testOperations 72 TestClusteringWMS.idleService ops testNoOverlap m = Run.ret (test', m') →
      test'.pending_placeholder_job.toList.length + test'.running_placeholder_jobs.length
        ≤ 1) ∧
    (∀ (ops : List Operation) (m m' : Simulator) (zhang' : ZhangFixedWMS),
      zhangOperations 72 ZhangFixedWMS.idleProxy ops zhangNoOverlap m = Run.ret (zhang', m') →
      zhang'.pending_placeholder_job.toList.length + zhang'.running_placeholder_jobs.length
        ≤ 1) ∧
    (match testOperations 72 TestClusteringWMS.idleService
        [Operation.heuristic fanWorkflow 0,
          Operation.event fanWorkflow quietSimulation 0 (Event.pilotJobStarted 0)]
        testNoOverlap noMetrics with
      | Run.ret (t, _) =>
        some (t.pending_placeholder_job.toList.length, t.running_placeholder_jobs.length)
      | _ => none) = some (0, 1) :=
  have h := at_most_one_placeholder 72 TestClusteringWMS.idleService ZhangFixedWMS.idleProxy testNoOverlap
    zhangNoOverlap rfl rfl rfl rfl rfl rfl
  ⟨h.1, h.2.1, by decide!⟩

theorem dispatchAll_submitted (w : Workflow) (running : List TestPlaceHolderJob) :
    ∀ submitted : List Submitted,
      (TestClusteringWMS.dispatchAll w running submitted).2
        = submitted ++ running.flatMap fun ph =>
            ((ph.tasks.filter fun t => w.state t == TaskState.READY).take
              (ph.num_nodes - ph.num_currently_running_tasks)).map
                (fun t => Submitted.standardJobOn t ph.pilot_job) := by
  induction running with
  | nil => intro submitted; simp [TestClusteringWMS.dispatchAll]
  | cons ph phs ih =>
    intro submitted
    simp only [TestClusteringWMS.dispatchAll, dispatchStep_fold, ih, List.flatMap_cons,
      List.append_assoc]

theorem test_heuristic_submitted (fuel : Nat) (w : Workflow) (bs : BatchService) (now : ℚ)
    (st st' : TestClusteringWMS)
    (h : TestClusteringWMS.applyGroupingHeuristic fuel w bs now st = Run.ret st') :
    ∃ extra, st'.submitted = st.submitted ++ extra ∧
      ∀ x ∈ extra, ∀ t p, x ≠ Submitted.standardJobOn t p := by
  unfold TestClusteringWMS.applyGroupingHeuristic at h
  have hret : ∀ {a b : TestClusteringWMS}, Run.ret a = Run.ret b → a = b := by
    intro a b hab; injection hab
  have hself : ∃ extra, st.submitted = st.submitted ++ extra ∧
      ∀ x ∈ extra, ∀ t p, x ≠ Submitted.standardJobOn t p := ⟨[], by simp, by simp⟩
  split at h
  · rw [← hret h]; exact hself
  · split at h
    · rw [← hret h]; exact hself
    · split at h
      · rw [← hret h]; exact hself
      · split at h
        · rw [← hret h]; exact hself
        · split at h
          · rw [← hret h]
            unfold TestClusteringWMS.submitChoice
              TestClusteringWMS.createAndSubmitPlaceholderJob TestClusteringWMS.submitReadyTasks
            simp only
            split <;> split
            all_goals first
              | refine ⟨[_], rfl, ?_⟩
                intro x hx t p
                rw [List.mem_singleton] at hx
                rw [hx]
                intro hc
                cases hc
              | refine ⟨_, rfl, ?_⟩
                intro x hx t p
                obtain ⟨y, _, rfl⟩ := List.mem_map.1 hx
                intro hc
                cases hc
          · cases h
          · cases h

/-- C22: in `TestClusteringWMS`, one step of a dispatch loop changes something only for a
READY task while `num_currently_running_tasks < num_nodes`, and then it submits that task
to the pilot job and increments the counter by one; the loop over the tasks of a
placeholder job therefore submits, in stored order, the first
`num_nodes - num_currently_running_tasks` READY tasks of the list (all of them when fewer
are READY) and adds their number to the counter, and a counter that is at most
`num_nodes` stays so.  On a pilot start for the pending placeholder job `ph` with counter
0, `processEventPilotJobStart` is the grouping heuristic applied to the state left by the
dispatch loop; every state it returns has `ph` in the running set with the counter
`min(num_nodes, number of READY tasks)`, and its submissions are those before the event,
then the first `min(num_nodes, number of READY tasks)` READY tasks of `ph` in stored
order, each to the pilot job of `ph`, then submissions of the heuristic, none of which
goes to a pilot job.  On a standard-job completion the handler returns
`submitReadyTasksIfIndividual (dispatchRunning X)` with `X` the state after the
placeholder job of the task has been completed; the dispatch loop adds to each running
placeholder job the counter increment `min(num_nodes - counter, number of READY tasks)`
and submits to its pilot job exactly that many of its READY tasks, in stored order, so a
counter that is at most `num_nodes` before the loop is at most `num_nodes` after it. -/
theorem dispatch_within_capacity (fuel : Nat) (w : Workflow) (bs : BatchService)
    (sim : Simulation) (slot : Nat) (st : TestClusteringWMS) (simulator : Simulator)
    (ph : TestPlaceHolderJob) (hpend : st.pending_placeholder_job = some ph)
    (h0 : ph.num_currently_running_tasks = 0) :
    (∀ (ph0 : TestPlaceHolderJob) (submitted : List Submitted) (task : Nat),
      (TestClusteringWMS.dispatchStep w (ph0, submitted) task = (ph0, submitted) ∨
        (w.state task = TaskState.READY ∧ ph0.num_currently_running_tasks < ph0.num_nodes ∧
          TestClusteringWMS.dispatchStep w (ph0, submitted) task
            = ({ ph0 with num_currently_running_tasks := ph0.num_currently_running_tasks + 1 },
                submitted ++ [Submitted.standardJobOn task ph0.pilot_job]))) ∧
      ph0.tasks.foldl (TestClusteringWMS.dispatchStep w) (ph0, submitted)
        = ({ ph0 with
              num_currently_running_tasks := ph0.num_currently_running_tasks
                + min (ph0.num_nodes - ph0.num_currently_running_tasks)
                    (ph0.tasks.filter fun t => w.state t == TaskState.READY).length },
            submitted ++
              ((ph0.tasks.filter fun t => w.state t == TaskState.READY).take
                (ph0.num_nodes - ph0.num_currently_running_tasks)).map
                  (fun t => Submitted.standardJobOn t ph0.pilot_job)) ∧
      (ph0.num_currently_running_tasks ≤ ph0.num_nodes →
        (ph0.tasks.foldl (TestClusteringWMS.dispatchStep w)
          (ph0, submitted)).1.num_currently_running_tasks ≤ ph0.num_nodes)) ∧
    TestClusteringWMS.processEventPilotJobStart fuel w bs sim slot ph.pilot_job st simulator
      = (match TestClusteringWMS.applyGroupingHeuristic fuel w bs sim.getCurrentSimulatedDate
            (TestClusteringWMS.dispatchStarted w (TestClusteringWMS.promote slot st ph) ph) with
        | Run.ret st' =>
          Run.ret (st',
            { simulator with
              total_queue_wait_time := simulator.total_queue_wait_time
                + (sim.getCurrentSimulatedDate - sim.getSubmitDate ph.pilot_job) })
        | Run.throw x => Run.throw x
        | Run.spin => Run.spin) ∧
    (∀ (st' : TestClusteringWMS) (simulator' : Simulator),
      TestClusteringWMS.processEventPilotJobStart fuel w bs sim slot ph.pilot_job st simulator
        = Run.ret (st', simulator') →
      st'.running_placeholder_jobs
        = (st.running_placeholder_jobs.take slot ++ ph :: st.running_placeholder_jobs.drop slot).map
            (fun x => if x = ph then
              { ph with
                num_currently_running_tasks :=
                  min ph.num_nodes (ph.tasks.filter fun t => w.state t == TaskState.READY).length }
              else x) ∧
      ∃ extra, st'.submitted
          = st.submitted ++
            ((ph.tasks.filter fun t => w.state t == TaskState.READY).take
              (min ph.num_nodes
                (ph.tasks.filter fun t => w.state t == TaskState.READY).length)).map
              (fun t => Submitted.standardJobOn t ph.pilot_job) ++ extra ∧
        ∀ x ∈ extra, ∀ t p, x ≠ Submitted.standardJobOn t p) ∧
    (∀ X : TestClusteringWMS,
      (TestClusteringWMS.dispatchRunning w X).running_placeholder_jobs
        = X.running_placeholder_jobs.map (fun p =>
            { p with
              num_currently_running_tasks := p.num_currently_running_tasks
                + min (p.num_nodes - p.num_currently_running_tasks)
                    (p.tasks.filter fun t => w.state t == TaskState.READY).length }) ∧
      (TestClusteringWMS.dispatchRunning w X).submitted
        = X.submitted ++ X.running_placeholder_jobs.flatMap fun p =>
            ((p.tasks.filter fun t => w.state t == TaskState.READY).take
              (p.num_nodes - p.num_currently_running_tasks)).map
                (fun t => Submitted.standardJobOn t p.pilot_job)) ∧
    (∀ X : TestClusteringWMS,
      ∀ p' ∈ (TestClusteringWMS.dispatchRunning w X).running_placeholder_jobs,
        ∃ p ∈ X.running_placeholder_jobs, p'.num_nodes = p.num_nodes ∧
          p'.pilot_job = p.pilot_job ∧ p'.tasks = p.tasks ∧
          p.num_currently_running_tasks ≤ p'.num_currently_running_tasks ∧
          (p.num_currently_running_tasks ≤ p.num_nodes →
            p'.num_currently_running_tasks ≤ p'.num_nodes)) ∧
    (∀ (sim' : Simulation) (task : Nat) (st0 st' : TestClusteringWMS) (m m' : Simulator),
      TestClusteringWMS.processEventStandardJobCompletion w sim' task st0 m = Run.ret (st', m') →
      ∃ X : TestClusteringWMS,
        st' = TestClusteringWMS.submitReadyTasksIfIndividual w
          (TestClusteringWMS.dispatchRunning w X) ∧
        X.submitted = st0.submitted ∧
        (X = st0 ∨ ∃ (p : TestPlaceHolderJob) (m1 : Simulator),
          TestClusteringWMS.findPlaceholder st0.running_placeholder_jobs task = some p ∧
          X = (TestClusteringWMS.completePlaceholder w sim' st0 m1 p).1) ∧
        st'.running_placeholder_jobs
          = X.running_placeholder_jobs.map (fun p =>
              { p with
                num_currently_running_tasks := p.num_currently_running_tasks
                  + min (p.num_nodes - p.num_currently_running_tasks)
                      (p.tasks.filter fun t => w.state t == TaskState.READY).length }) ∧
        ∃ extra, st'.submitted
            = st0.submitted ++ (X.running_placeholder_jobs.flatMap fun p =>
              ((p.tasks.filter fun t => w.state t == TaskState.READY).take
                (p.num_nodes - p.num_currently_running_tasks)).map
                  (fun t => Submitted.standardJobOn t p.pilot_job)) ++ extra ∧
          ∀ x ∈ extra, ∀ t p, x ≠ Submitted.standardJobOn t p) := by
  have htake : ∀ (n : Nat) (l : List Nat), l.take (min n l.length) = l.take n :=
    fun n l => List.take_eq_take.2 (by omega)
  have hhandler : TestClusteringWMS.processEventPilotJobStart fuel w bs sim slot ph.pilot_job
      st simulator
      = (match TestClusteringWMS.applyGroupingHeuristic fuel w bs sim.getCurrentSimulatedDate
            (TestClusteringWMS.dispatchStarted w (TestClusteringWMS.promote slot st ph) ph) with
        | Run.ret st' =>
          Run.ret (st',
            { simulator with
              total_queue_wait_time := simulator.total_queue_wait_time
                + (sim.getCurrentSimulatedDate - sim.getSubmitDate ph.pilot_job) })
        | Run.throw x => Run.throw x
        | Run.spin => Run.spin) := by
    unfold TestClusteringWMS.processEventPilotJobStart
    simp only [hpend, ne_eq, not_true_eq_false, if_false]
  have hdisp : ∀ X : TestClusteringWMS,
      (TestClusteringWMS.dispatchRunning w X).running_placeholder_jobs
        = X.running_placeholder_jobs.map (fun p =>
            { p with
              num_currently_running_tasks := p.num_currently_running_tasks
                + min (p.num_nodes - p.num_currently_running_tasks)
                    (p.tasks.filter fun t => w.state t == TaskState.READY).length }) ∧
      (TestClusteringWMS.dispatchRunning w X).submitted
        = X.submitted ++ X.running_placeholder_jobs.flatMap fun p =>
            ((p.tasks.filter fun t => w.state t == TaskState.READY).take
              (p.num_nodes - p.num_currently_running_tasks)).map
                (fun t => Submitted.standardJobOn t p.pilot_job) := by
    intro X
    unfold TestClusteringWMS.dispatchRunning
    simp only [dispatchAll_fst, dispatchAll_submitted]
    exact ⟨trivial, trivial⟩
  refine ⟨?_, hhandler, ?_, hdisp, ?_, ?_⟩
  · intro ph0 submitted task
    refine ⟨?_, dispatchStep_fold w ph0.tasks ph0 submitted, ?_⟩
    · unfold TestClusteringWMS.dispatchStep
      by_cases hr : (w.state task == TaskState.READY) = true
      · by_cases hc : ph0.num_currently_running_tasks < ph0.num_nodes
        · right
          refine ⟨by simpa using hr, hc, ?_⟩
          simp only [hr, hc, decide_True, Bool.and_self, if_true]
        · left
          simp only [hr, hc, decide_False, Bool.and_false, Bool.false_eq_true, if_false]
      · left
        simp only [hr, Bool.false_and, Bool.false_eq_true, if_false]
    · intro hle
      rw [dispatchStep_fold]
      simp only
      omega
  · intro st' simulator' hret
    rw [hhandler] at hret
    cases hh : TestClusteringWMS.applyGroupingHeuristic fuel w bs sim.getCurrentSimulatedDate
        (TestClusteringWMS.dispatchStarted w (TestClusteringWMS.promote slot st ph) ph) with
    | ret st'' =>
      rw [hh] at hret
      injection hret with hret
      injection hret with h1 _
      subst h1
      obtain ⟨hrun, _, _⟩ := test_heuristic_frame fuel w bs _ _ _ hh
      obtain ⟨extra, hsub, hextra⟩ := test_heuristic_submitted fuel w bs _ _ _ hh
      constructor
      · rw [hrun]
        simp only [TestClusteringWMS.dispatchStarted, TestClusteringWMS.promote,
          dispatchStep_fold, h0, Nat.sub_zero, Nat.zero_add]
      · refine ⟨extra, ?_, hextra⟩
        rw [hsub]
        simp only [TestClusteringWMS.dispatchStarted, TestClusteringWMS.promote,
          dispatchStep_fold, h0, Nat.sub_zero, htake]
    | throw x => rw [hh] at hret; cases hret
    | spin => rw [hh] at hret; cases hret
  · intro X p' hp'
    rw [(hdisp X).1] at hp'
    obtain ⟨p, hp, rfl⟩ := List.mem_map.1 hp'
    refine ⟨p, hp, rfl, rfl, rfl, ?_, ?_⟩
    · simp only
      omega
    · intro hle
      simp only
      omega
  · intro sim' task st0 st' m m' hret
    unfold TestClusteringWMS.processEventStandardJobCompletion at hret
    simp only at hret
    have hfin : ∀ X : TestClusteringWMS, X.submitted = st0.submitted →
        st' = TestClusteringWMS.submitReadyTasksIfIndividual w
          (TestClusteringWMS.dispatchRunning w X) →
        st'.running_placeholder_jobs
          = X.running_placeholder_jobs.map (fun p =>
              { p with
                num_currently_running_tasks := p.num_currently_running_tasks
                  + min (p.num_nodes - p.num_currently_running_tasks)
                      (p.tasks.filter fun t => w.state t == TaskState.READY).length }) ∧
        ∃ extra, st'.submitted
            = st0.submitted ++ (X.running_placeholder_jobs.flatMap fun p =>
              ((p.tasks.filter fun t => w.state t == TaskState.READY).take
                (p.num_nodes - p.num_currently_running_tasks)).map
                  (fun t => Submitted.standardJobOn t p.pilot_job)) ++ extra ∧
          ∀ x ∈ extra, ∀ t p, x ≠ Submitted.standardJobOn t p := by
      intro X hX hst
      rw [hst]
      unfold TestClusteringWMS.submitReadyTasksIfIndividual
      split
      · refine ⟨(hdisp X).1,
          (w.getTasks.filter fun task => w.state task == TaskState.READY).map fun task =>
            Submitted.standardJob task
              ⟨"1", "1",
                toString (1 + ⌊w.flops task / (TestClusteringWMS.dispatchRunning w X).core_speed
                  * TestClusteringWMS.EXECUTION_TIME_FUDGE_FACTOR⌋₊ / 60)⟩, ?_, ?_⟩
        · simp only
          rw [(hdisp X).2, hX]
        · intro x hx t p
          obtain ⟨y, _, rfl⟩ := List.mem_map.1 hx
          intro hc
          cases hc
      · refine ⟨(hdisp X).1, [], ?_, by simp⟩
        rw [(hdisp X).2, hX, List.append_nil]
    cases hf : TestClusteringWMS.findPlaceholder st0.running_placeholder_jobs task with
    | none =>
      rw [hf] at hret
      simp only at hret
      split at hret
      · cases hret
      · injection hret with hret
        injection hret with h1 _
        exact ⟨st0, h1.symm, rfl, Or.inl rfl, hfin st0 rfl h1.symm⟩
    | some p =>
      rw [hf] at hret
      simp only at hret
      injection hret with hret
      injection hret with h1 _
      have hX : (TestClusteringWMS.completePlaceholder w sim' st0
          { m with used_node_seconds := m.used_node_seconds + w.flops task / st0.core_speed }
          p).1.submitted = st0.submitted := by
        unfold TestClusteringWMS.completePlaceholder
        split <;> rfl
      exact ⟨_, h1.symm, hX, Or.inr ⟨p, _, rfl, rfl⟩, hfin _ hX h1.symm⟩

/-- C22, instance: the pilot job of `narrowPlaceholder` (2 nodes, 8 READY tasks, counter 0)
starts: the handler returns, the placeholder job is running with the counter 2, and the
tasks 0 and 1 have been submitted to its pilot job. -/
theorem dispatch_within_capacity_witness :
    TestClusteringWMS.processEventPilotJobStart 8 fanWorkflow TestClusteringWMS.idleService
        quietSimulation 0 narrowPlaceholder.pilot_job testNarrowPending noMetrics
      = Run.ret ({ testNarrowPending with
          pending_placeholder_job := none
          running_placeholder_jobs := [{ narrowPlaceholder with num_currently_running_tasks := 2 }]
          submitted := [Submitted.standardJobOn 0 0, Submitted.standardJobOn 1 0] },
        noMetrics) ∧
    ∀ (st' : TestClusteringWMS) (simulator' : Simulator),
      TestClusteringWMS.processEventPilotJobStart 8 fanWorkflow TestClusteringWMS.idleService
          quietSimulation 0 narrowPlaceholder.pilot_job testNarrowPending noMetrics
        = Run.ret (st', simulator') →
      st'.running_placeholder_jobs
        = (testNarrowPending.running_placeholder_jobs.take 0 ++
            narrowPlaceholder :: testNarrowPending.running_placeholder_jobs.drop 0).map
            (fun x => if x = narrowPlaceholder then
              { narrowPlaceholder with
                num_currently_running_tasks :=
                  min narrowPlaceholder.num_nodes
                    (narrowPlaceholder.tasks.filter
                      fun t => fanWorkflow.state t == TaskState.READY).length }
              else x) ∧
      ∃ extra, st'.submitted
          = testNarrowPending.submitted ++
            ((narrowPlaceholder.tasks.filter
                fun t => fanWorkflow.state t == TaskState.READY).take
              (min narrowPlaceholder.num_nodes
                (narrowPlaceholder.tasks.filter
                  fun t => fanWorkflow.state t == TaskState.READY).length)).map
              (fun t => Submitted.standardJobOn t narrowPlaceholder.pilot_job) ++ extra ∧
        ∀ x ∈ extra, ∀ t p, x ≠ Submitted.standardJobOn t p :=
  ⟨by decide!,
    (dispatch_within_capacity 8 fanWorkflow TestClusteringWMS.idleService quietSimulation 0
      testNarrowPending noMetrics narrowPlaceholder rfl rfl).2.2.1⟩

end Controllers

namespace Rounded

open Wrench.WorkflowUtil

theorem roundDouble_zero : roundDouble 0 = 0 := by
  unfold roundDouble
  rw [if_pos rfl]

theorem roundDouble_nonneg (q : ℚ) (h : 0 ≤ q) : 0 ≤ roundDouble q := by
  unfold roundDouble
  split
  · exact le_refl _
  · simp only
    rw [if_neg (not_lt.2 h)]
    split
    · exact Nat.cast_nonneg _
    · exact div_nonneg (Nat.cast_nonneg _) (Nat.cast_nonneg _)

theorem log2Fuel_spec (fuel : Nat) : ∀ n : Nat, n ≤ fuel → n ≠ 0 →
    2 ^ log2Fuel fuel n ≤ n ∧ n < 2 ^ (log2Fuel fuel n + 1) := by
  induction fuel with
  | zero => intro n hn h0; omega
  | succ fuel ih =>
    intro n hn h0
    unfold log2Fuel
    by_cases h2 : 2 ≤ n
    · rw [if_pos h2]
      have hdiv : n / 2 ≤ fuel := by omega
      have hne : n / 2 ≠ 0 := by omega
      obtain ⟨h1, h3⟩ := ih (n / 2) hdiv hne
      constructor
      · rw [pow_succ]
        omega
      · rw [pow_succ]
        omega
    · rw [if_neg h2]
      have : n = 1 := by omega
      rw [this]
      exact ⟨by norm_num, by norm_num⟩

theorem ilog2_self_le (n : Nat) (h : n ≠ 0) : 2 ^ ilog2 n ≤ n :=
  (log2Fuel_spec n n (le_refl n) h).1

theorem lt_ilog2_self (n : Nat) (h : n ≠ 0) : n < 2 ^ (ilog2 n + 1) :=
  (log2Fuel_spec n n (le_refl n) h).2

theorem ilog2_lt (n k : Nat) (h : n ≠ 0) (hk : n < 2 ^ k) : ilog2 n < k := by
  by_contra hc
  have h1 := ilog2_self_le n h
  have h2 : 2 ^ k ≤ 2 ^ ilog2 n := Nat.pow_le_pow_right (by norm_num) (by omega)
  omega

theorem ilog2_one : ilog2 1 = 0 := by decide

theorem roundHalfEven_le (n d k : Nat) (hd : 0 < d) (h : n ≤ k * d) : roundHalfEven n d ≤ k := by
  unfold roundHalfEven
  have hq : n / d ≤ k := by
    calc n / d ≤ k * d / d := Nat.div_le_div_right h
      _ = k := Nat.mul_div_cancel _ hd
  rcases Nat.lt_or_ge (n / d) k with hlt | hge
  · split <;> omega
  · have hk : n / d = k := le_antisymm hq hge
    have hn : n = k * d := by
      apply le_antisymm h
      calc k * d = n / d * d := by rw [hk]
        _ ≤ n := Nat.div_mul_le_self n d
    have hmod : n % d = 0 := by rw [hn]; exact Nat.mul_mod_left k d
    rw [if_neg]
    · exact hq
    · rw [hmod]
      omega

theorem roundHalfEven_mul (k d : Nat) (hd : 0 < d) : roundHalfEven (k * d) d = k := by
  unfold roundHalfEven
  rw [Nat.mul_mod_left, Nat.mul_div_cancel _ hd, if_neg]
  omega

theorem floorLog2_le (a b : Nat) (ha : 0 < a) (hb : 0 < b) :
    (2 : ℚ) ^ (floorLog2 a b) * (b : ℚ) ≤ (a : ℚ) := by
  have h1 : 2 ^ ilog2 a ≤ a := ilog2_self_le a (by omega)
  have h2 : b < 2 ^ (ilog2 b + 1) := lt_ilog2_self b (by omega)
  have h1q : (2 : ℚ) ^ (ilog2 a : ℤ) ≤ (a : ℚ) := by
    rw [zpow_natCast]; exact_mod_cast h1
  have h2q : (b : ℚ) < (2 : ℚ) ^ ((ilog2 b : ℤ) + 1) := by
    have : ((ilog2 b : ℤ) + 1) = ((ilog2 b + 1 : ℕ) : ℤ) := by push_cast; rfl
    rw [this, zpow_natCast]; exact_mod_cast h2
  have hbq : (0 : ℚ) < b := by exact_mod_cast hb
  unfold floorLog2
  split
  · have hsplit : (2 : ℚ) ^ ((ilog2 a : ℤ) - (ilog2 b : ℤ) - 1)
        * (2 : ℚ) ^ ((ilog2 b : ℤ) + 1) = (2 : ℚ) ^ (ilog2 a : ℤ) := by
      rw [← zpow_add₀ (by norm_num : (2 : ℚ) ≠ 0)]
      congr 1
      ring
    have hp : (0 : ℚ) < (2 : ℚ) ^ ((ilog2 a : ℤ) - (ilog2 b : ℤ) - 1) :=
      zpow_pos (by norm_num) _
    calc (2 : ℚ) ^ ((ilog2 a : ℤ) - (ilog2 b : ℤ) - 1) * (b : ℚ)
        ≤ (2 : ℚ) ^ ((ilog2 a : ℤ) - (ilog2 b : ℤ) - 1)
          * (2 : ℚ) ^ ((ilog2 b : ℤ) + 1) :=
          mul_le_mul_of_nonneg_left (le_of_lt h2q) (le_of_lt hp)
      _ = (2 : ℚ) ^ (ilog2 a : ℤ) := hsplit
      _ ≤ a := h1q
  · rename_i hno
    rw [not_or] at hno
    obtain ⟨hn1, hn2⟩ := hno
    rcases Nat.lt_or_ge (ilog2 a) (ilog2 b) with hlt | hge
    · have h3 : b ≤ a * 2 ^ (ilog2 b - ilog2 a) := by
        by_contra hc
        exact hn2 ⟨hlt, by omega⟩
      have h3q : (b : ℚ) ≤ (a : ℚ) * (2 : ℚ) ^ (ilog2 b - ilog2 a) := by exact_mod_cast h3
      have he : (2 : ℚ) ^ ((ilog2 a : ℤ) - (ilog2 b : ℤ))
          = ((2 : ℚ) ^ (ilog2 b - ilog2 a))⁻¹ := by
        have : ((ilog2 a : ℤ) - (ilog2 b : ℤ)) = -((ilog2 b - ilog2 a : ℕ) : ℤ) := by
          omega
        rw [this, zpow_neg, zpow_natCast]
      rw [he]
      have hp : (0 : ℚ) < (2 : ℚ) ^ (ilog2 b - ilog2 a) := pow_pos (by norm_num) _
      rw [inv_mul_le_iff₀ hp]
      linarith
    · have h3 : b * 2 ^ (ilog2 a - ilog2 b) ≤ a := by
        by_contra hc
        exact hn1 ⟨hge, by omega⟩
      have h3q : (b : ℚ) * (2 : ℚ) ^ (ilog2 a - ilog2 b) ≤ (a : ℚ) := by exact_mod_cast h3
      have he : (2 : ℚ) ^ ((ilog2 a : ℤ) - (ilog2 b : ℤ))
          = (2 : ℚ) ^ (ilog2 a - ilog2 b) := by
        have : ((ilog2 a : ℤ) - (ilog2 b : ℤ)) = ((ilog2 a - ilog2 b : ℕ) : ℤ) := by
          omega
        rw [this, zpow_natCast]
      rw [he]
      linarith

theorem floorLog2_one (n : Nat) (hn : 0 < n) : floorLog2 n 1 = (ilog2 n : Int) := by
  have h1 : 2 ^ ilog2 n ≤ n := ilog2_self_le n (by omega)
  have h0 : ilog2 1 = 0 := ilog2_one
  unfold floorLog2
  rw [h0, if_neg]
  · simp
  · rw [not_or]
    constructor
    · intro h
      have := h.2
      simp only [Nat.sub_zero, Nat.one_mul] at this
      omega
    · intro h
      exact absurd h.1 (Nat.not_lt_zero _)

/-- A natural number up to `2^53` is a double. -/
theorem roundDouble_natCast (n : Nat) (h : n ≤ 2 ^ 53) : roundDouble (n : ℚ) = (n : ℚ) := by
  rcases Nat.eq_zero_or_pos n with h0 | hpos
  · rw [h0]; simp [roundDouble_zero]
  rcases Nat.lt_or_ge n (2 ^ 53) with hlt | hge
  · have hne : (n : ℚ) ≠ 0 := by exact_mod_cast (Nat.pos_iff_ne_zero.1 hpos)
    have hlog : ilog2 n < 53 := ilog2_lt n 53 (Nat.pos_iff_ne_zero.1 hpos) hlt
    have hu : max ((ilog2 n : ℤ) - 52) (-1074) = (ilog2 n : ℤ) - 52 :=
      max_eq_left (by omega)
    unfold roundDouble
    rw [if_neg hne]
    simp only [Rat.num_natCast, Rat.den_natCast, Int.natAbs_ofNat, floorLog2_one n hpos, hu]
    rw [if_neg (by exact_mod_cast (Nat.zero_le n) |> not_lt.2)]
    by_cases h52 : ilog2 n = 52
    · rw [h52]
      simp only [Nat.cast_ofNat, sub_self, le_refl, if_true, Int.toNat_zero, pow_zero, mul_one]
      have := roundHalfEven_mul n 1 Nat.one_pos
      rw [Nat.mul_one] at this
      rw [this]
    · have hneg : ¬ (0 ≤ (ilog2 n : ℤ) - 52) := by omega
      rw [if_neg hneg]
      have := roundHalfEven_mul (n * 2 ^ (-((ilog2 n : ℤ) - 52)).toNat) 1 Nat.one_pos
      rw [Nat.mul_one] at this
      rw [this]
      have hp : ((2 ^ (-((ilog2 n : ℤ) - 52)).toNat : ℕ) : ℚ) ≠ 0 := by
        exact_mod_cast (Nat.pos_iff_ne_zero.1 (Nat.pow_pos (by norm_num)))
      rw [Nat.cast_mul, mul_div_assoc, div_self hp, mul_one]
  · have hn : n = 2 ^ 53 := le_antisymm h hge
    rw [hn]
    decide!

theorem roundDouble_le_scaled (q : ℚ) (j K : Nat) (hj : j < 2 ^ 53)
    (h : q ≤ (j : ℚ) * (2 : ℚ) ^ K) : roundDouble q ≤ (j : ℚ) * (2 : ℚ) ^ K := by
  have hpK : (0 : ℚ) < (2 : ℚ) ^ K := pow_pos (by norm_num) K
  have hK : (0 : ℚ) ≤ (j : ℚ) * (2 : ℚ) ^ K := mul_nonneg (Nat.cast_nonneg _) (le_of_lt hpK)
  rcases lt_trichotomy q 0 with hneg | h0 | hpos
  · unfold roundDouble
    rw [if_neg (ne_of_lt hneg)]
    simp only
    rw [if_pos hneg]
    refine le_trans ?_ hK
    rw [neg_nonpos]
    split
    · exact Nat.cast_nonneg _
    · exact div_nonneg (Nat.cast_nonneg _) (Nat.cast_nonneg _)
  · rw [h0, roundDouble_zero]; exact hK
  · have hnum : 0 < q.num := Rat.num_pos.2 hpos
    have ha : 0 < q.num.natAbs := Int.natAbs_pos.2 (ne_of_gt hnum)
    have hb : 0 < q.den := q.den_pos
    have hq : q = (q.num.natAbs : ℚ) / (q.den : ℚ) := by
      have h1 : ((q.num.natAbs : ℤ) : ℚ) = (q.num : ℚ) := by
        rw [Int.natAbs_of_nonneg (le_of_lt hnum)]
      have h2 : ((q.num.natAbs : ℕ) : ℚ) = ((q.num.natAbs : ℤ) : ℚ) := (Int.cast_natCast _).symm
      rw [h2, h1]
      exact (Rat.num_div_den q).symm
    have hbq : (0 : ℚ) < q.den := by exact_mod_cast hb
    -- `a <= j * 2^K * b`
    have hab : q.num.natAbs ≤ j * 2 ^ K * q.den := by
      have : (q.num.natAbs : ℚ) ≤ (j : ℚ) * (2 : ℚ) ^ K * q.den := by
        have := h
        rw [hq, div_le_iff₀ hbq] at this
        exact this
      exact_mod_cast this
    have hfl := floorLog2_le q.num.natAbs q.den ha hb
    -- `e < 53 + K`
    have heK : floorLog2 q.num.natAbs q.den < 53 + (K : ℤ) := by
      by_contra hc
      have hlt : (53 : ℤ) + (K : ℤ) ≤ floorLog2 q.num.natAbs q.den := by omega
      have hmono : (2 : ℚ) ^ ((53 : ℤ) + (K : ℤ)) ≤ (2 : ℚ) ^ (floorLog2 q.num.natAbs q.den) :=
        zpow_le_zpow_right₀ (by norm_num) hlt
      rw [zpow_add₀ (by norm_num : (2 : ℚ) ≠ 0), zpow_natCast] at hmono
      have h3 : (2 : ℚ) ^ (floorLog2 q.num.natAbs q.den) * q.den
          ≤ (j : ℚ) * (2 : ℚ) ^ K * q.den := by
        have h4 : (q.num.natAbs : ℚ) ≤ (j : ℚ) * (2 : ℚ) ^ K * q.den := by exact_mod_cast hab
        linarith
      have h6 : (2 : ℚ) ^ (floorLog2 q.num.natAbs q.den) ≤ (j : ℚ) * (2 : ℚ) ^ K :=
        le_of_mul_le_mul_right h3 hbq
      have h7 : (j : ℚ) < (2 : ℚ) ^ (53 : ℤ) := by
        rw [show ((53 : ℤ)) = ((53 : ℕ) : ℤ) from rfl, zpow_natCast]
        exact_mod_cast hj
      have h8 : (j : ℚ) * (2 : ℚ) ^ K < (2 : ℚ) ^ (53 : ℤ) * (2 : ℚ) ^ K :=
        mul_lt_mul_of_pos_right h7 hpK
      linarith
    unfold roundDouble
    rw [if_neg (ne_of_gt hpos)]
    simp only
    rw [if_neg (not_lt.2 (le_of_lt hpos))]
    split
    · rename_i hu
      have hU : (max (floorLog2 q.num.natAbs q.den - 52) (-1074)).toNat ≤ K := by
        have : max (floorLog2 q.num.natAbs q.den - 52) (-1074) ≤ (K : ℤ) := by
          apply max_le <;> omega
        omega
      generalize (max (floorLog2 q.num.natAbs q.den - 52) (-1074)).toNat = U at hU ⊢
      have hr : roundHalfEven q.num.natAbs (q.den * 2 ^ U) ≤ j * 2 ^ (K - U) := by
        apply roundHalfEven_le _ _ _ (Nat.mul_pos hb (Nat.pow_pos (by norm_num)))
        calc q.num.natAbs ≤ j * 2 ^ K * q.den := hab
          _ = j * 2 ^ (K - U) * (q.den * 2 ^ U) := by
            rw [← Nat.sub_add_cancel hU, pow_add]
            rw [Nat.add_sub_cancel]
            ring
      have : roundHalfEven q.num.natAbs (q.den * 2 ^ U) * 2 ^ U ≤ j * 2 ^ K := by
        calc roundHalfEven q.num.natAbs (q.den * 2 ^ U) * 2 ^ U ≤ j * 2 ^ (K - U) * 2 ^ U :=
              Nat.mul_le_mul_right _ hr
          _ = j * 2 ^ K := by rw [Nat.mul_assoc, ← pow_add, Nat.sub_add_cancel hU]
      exact_mod_cast this
    · generalize (-(max (floorLog2 q.num.natAbs q.den - 52) (-1074))).toNat = U
      have hr : roundHalfEven (q.num.natAbs * 2 ^ U) q.den ≤ j * 2 ^ K * 2 ^ U := by
        apply roundHalfEven_le _ _ _ hb
        calc q.num.natAbs * 2 ^ U ≤ j * 2 ^ K * q.den * 2 ^ U := Nat.mul_le_mul_right _ hab
          _ = j * 2 ^ K * 2 ^ U * q.den := by ring
      have hp : (0 : ℚ) < ((2 ^ U : ℕ) : ℚ) := by
        exact_mod_cast (Nat.pow_pos (by norm_num) : 0 < 2 ^ U)
      rw [div_le_iff₀ hp]
      exact_mod_cast hr

theorem roundDouble_le_DBL_MAX (q : ℚ) (h : q ≤ DBL_MAX) : roundDouble q ≤ DBL_MAX := by
  have hd : DBL_MAX = ((2 ^ 53 - 1 : Nat) : ℚ) * (2 : ℚ) ^ 971 := by
    unfold DBL_MAX
    norm_num
  rw [hd] at h ⊢
  exact roundDouble_le_scaled q (2 ^ 53 - 1) 971 (by norm_num) h

theorem roundDouble_le_dyadic (q : ℚ) (j J : Nat) (hj : j < 2 ^ 53) (hJ : J ≤ 1074)
    (h : q ≤ (j : ℚ) / (2 : ℚ) ^ J) : roundDouble q ≤ (j : ℚ) / (2 : ℚ) ^ J := by
  have hpJ : (0 : ℚ) < (2 : ℚ) ^ J := pow_pos (by norm_num) J
  have hK : (0 : ℚ) ≤ (j : ℚ) / (2 : ℚ) ^ J := div_nonneg (Nat.cast_nonneg _) (le_of_lt hpJ)
  rcases lt_trichotomy q 0 with hneg | h0 | hpos
  · unfold roundDouble
    rw [if_neg (ne_of_lt hneg)]
    simp only
    rw [if_pos hneg]
    refine le_trans ?_ hK
    rw [neg_nonpos]
    split
    · exact Nat.cast_nonneg _
    · exact div_nonneg (Nat.cast_nonneg _) (Nat.cast_nonneg _)
  · rw [h0, roundDouble_zero]; exact hK
  · have hnum : 0 < q.num := Rat.num_pos.2 hpos
    have ha : 0 < q.num.natAbs := Int.natAbs_pos.2 (ne_of_gt hnum)
    have hb : 0 < q.den := q.den_pos
    have hq : q = (q.num.natAbs : ℚ) / (q.den : ℚ) := by
      have h1 : ((q.num.natAbs : ℤ) : ℚ) = (q.num : ℚ) := by
        rw [Int.natAbs_of_nonneg (le_of_lt hnum)]
      have h2 : ((q.num.natAbs : ℕ) : ℚ) = ((q.num.natAbs : ℤ) : ℚ) := (Int.cast_natCast _).symm
      rw [h2, h1]
      exact (Rat.num_div_den q).symm
    have hbq : (0 : ℚ) < q.den := by exact_mod_cast hb
    -- `a * 2^J <= j * b`
    have hab : q.num.natAbs * 2 ^ J ≤ j * q.den := by
      have : (q.num.natAbs : ℚ) * (2 : ℚ) ^ J ≤ (j : ℚ) * q.den := by
        have := h
        rw [hq, div_le_div_iff hbq hpJ] at this
        exact this
      exact_mod_cast this
    have hfl := floorLog2_le q.num.natAbs q.den ha hb
    -- `e + J < 53`
    have heK : floorLog2 q.num.natAbs q.den + (J : ℤ) < 53 := by
      by_contra hc
      have hlt : (53 : ℤ) ≤ floorLog2 q.num.natAbs q.den + (J : ℤ) := by omega
      have hmono : (2 : ℚ) ^ (53 : ℤ) ≤ (2 : ℚ) ^ (floorLog2 q.num.natAbs q.den + (J : ℤ)) :=
        zpow_le_zpow_right₀ (by norm_num) hlt
      rw [zpow_add₀ (by norm_num : (2 : ℚ) ≠ 0), zpow_natCast] at hmono
      have h3 : (2 : ℚ) ^ (floorLog2 q.num.natAbs q.den) * (2 : ℚ) ^ J * q.den
          ≤ (j : ℚ) * q.den := by
        have h4 : (q.num.natAbs : ℚ) * (2 : ℚ) ^ J ≤ (j : ℚ) * q.den := by exact_mod_cast hab
        have h5 := mul_le_mul_of_nonneg_right hfl (le_of_lt hpJ)
        nlinarith
      have h6 : (2 : ℚ) ^ (floorLog2 q.num.natAbs q.den) * (2 : ℚ) ^ J ≤ (j : ℚ) :=
        le_of_mul_le_mul_right h3 hbq
      have h7 : (j : ℚ) < (2 : ℚ) ^ (53 : ℤ) := by
        have : (j : ℚ) < ((2 ^ 53 : ℕ) : ℚ) := by exact_mod_cast hj
        rw [show ((53 : ℤ)) = ((53 : ℕ) : ℤ) from rfl, zpow_natCast]
        exact_mod_cast hj
      linarith
    have hu : max (floorLog2 q.num.natAbs q.den - 52) (-1074) ≤ -(J : ℤ) := by
      apply max_le <;> omega
    unfold roundDouble
    rw [if_neg (ne_of_gt hpos)]
    simp only
    rw [if_neg (not_lt.2 (le_of_lt hpos))]
    split
    · rename_i hu0
      have hJ0 : J = 0 := by omega
      have hU0 : (max (floorLog2 q.num.natAbs q.den - 52) (-1074)).toNat = 0 := by omega
      rw [hU0, hJ0]
      simp only [pow_zero, Nat.mul_one, div_one]
      have : roundHalfEven q.num.natAbs q.den ≤ j := by
        apply roundHalfEven_le _ _ _ hb
        rw [hJ0] at hab
        simpa using hab
      exact_mod_cast this
    · have hU : J ≤ (-(max (floorLog2 q.num.natAbs q.den - 52) (-1074))).toNat := by omega
      generalize (-(max (floorLog2 q.num.natAbs q.den - 52) (-1074))).toNat = U at hU ⊢
      have hr : roundHalfEven (q.num.natAbs * 2 ^ U) q.den ≤ j * 2 ^ (U - J) := by
        apply roundHalfEven_le _ _ _ hb
        calc q.num.natAbs * 2 ^ U = q.num.natAbs * 2 ^ J * 2 ^ (U - J) := by
              rw [Nat.mul_assoc, ← pow_add, Nat.add_sub_cancel' hU]
          _ ≤ j * q.den * 2 ^ (U - J) := Nat.mul_le_mul_right _ hab
          _ = j * 2 ^ (U - J) * q.den := by ring
      have hp : (0 : ℚ) < ((2 ^ U : ℕ) : ℚ) := by
        exact_mod_cast (Nat.pow_pos (by norm_num) : 0 < 2 ^ U)
      rw [div_le_div_iff hp hpJ]
      have h8 : roundHalfEven (q.num.natAbs * 2 ^ U) q.den * 2 ^ J ≤ j * 2 ^ U := by
        calc roundHalfEven (q.num.natAbs * 2 ^ U) q.den * 2 ^ J
            ≤ j * 2 ^ (U - J) * 2 ^ J := Nat.mul_le_mul_right _ hr
          _ = j * 2 ^ U := by rw [Nat.mul_assoc, ← pow_add, Nat.sub_add_cancel hU]
      exact_mod_cast h8

theorem scan_exact (w : Workflow) (s cur : ℚ) (todo : List (Nat × ℚ)) :
    ∀ (done : List (Nat × ℚ)) (idle : List ℚ) (num : Nat) (b : Bool),
      (∀ ft ∈ todo, ft.2 < 0 →
        roundDouble (cur + roundDouble (w.flops ft.1 / s)) = cur + w.flops ft.1 / s) →
      Rounded.WorkflowUtil.scan w s cur done todo idle num b
        = Wrench.WorkflowUtil.scan w s cur done todo idle num b := by
  induction todo with
  | nil => intro done idle num b _; simp [Rounded.WorkflowUtil.scan, Wrench.WorkflowUtil.scan]
  | cons ft rest ih =>
    intro done idle num b h
    have hrest : ∀ ft' ∈ rest, ft'.2 < 0 →
        roundDouble (cur + roundDouble (w.flops ft'.1 / s)) = cur + w.flops ft'.1 / s :=
      fun ft' hm => h ft' (List.mem_cons_of_mem _ hm)
    unfold Rounded.WorkflowUtil.scan Wrench.WorkflowUtil.scan
    by_cases h0 : ft.2 ≥ 0
    · rw [if_pos h0, if_pos h0]
      exact ih _ _ _ _ hrest
    · rw [if_neg h0, if_neg h0, h ft (by simp) (not_le.1 h0)]
      split
      · cases hp : placeOnHost idle cur (cur + w.flops ft.1 / s) with
        | none => exact ih _ _ _ _ hrest
        | some idle' => exact ih _ _ _ _ hrest
      · exact ih _ _ _ _ hrest

theorem scan_dates (P : ℚ → Prop) (w : Workflow) (s cur : ℚ) (todo : List (Nat × ℚ)) :
    ∀ (done : List (Nat × ℚ)) (idle : List ℚ) (num : Nat) (b : Bool),
      (∀ e ∈ done ++ todo, 0 ≤ e.2 → P e.2) →
      (∀ ft ∈ todo, ft.2 < 0 → P (cur + w.flops ft.1 / s)) →
      ∀ e ∈ (Wrench.WorkflowUtil.scan w s cur done todo idle num b).fake_tasks,
        0 ≤ e.2 → P e.2 := by
  induction todo with
  | nil =>
    intro done idle num b h _
    simpa [Wrench.WorkflowUtil.scan] using h
  | cons ft rest ih =>
    intro done idle num b h hnew
    have hrest : ∀ ft' ∈ rest, ft'.2 < 0 → P (cur + w.flops ft'.1 / s) :=
      fun ft' hm => hnew ft' (List.mem_cons_of_mem _ hm)
    have hsame : done ++ [ft] ++ rest = done ++ ft :: rest := by simp
    have hskip := ih (done ++ [ft]) idle num b (by rw [hsame]; exact h) hrest
    unfold Wrench.WorkflowUtil.scan
    by_cases h0 : ft.2 ≥ 0
    · rw [if_pos h0]; exact hskip
    · rw [if_neg h0]
      split
      · cases hp : placeOnHost idle cur (cur + w.flops ft.1 / s) with
        | none => exact hskip
        | some idle' =>
          refine ih _ idle' (num + 1) true ?_ hrest
          intro e he hnn
          simp only [List.mem_append, List.mem_cons, List.mem_singleton, List.not_mem_nil,
            or_false] at he
          rcases he with (he | he) | he
          · exact h e (by simp [he]) hnn
          · rw [he]; exact hnew ft (by simp) (not_le.1 h0)
          · exact h e (by simp [he]) hnn
      · exact hskip

theorem work_add_unplaced (w : Workflow) (s : ℚ) (fake : List (Nat × ℚ))
    (h : ∀ e ∈ fake, 0 ≤ dur w s e.1) (e : Nat × ℚ) (he : e ∈ fake) (hneg : e.2 < 0) :
    work w s fake + dur w s e.1 ≤ ((fake.map Prod.fst).map (dur w s)).sum := by
  induction fake with
  | nil => simp at he
  | cons a l ih =>
    have hl : ∀ e ∈ l, 0 ≤ dur w s e.1 := fun e he => h e (List.mem_cons_of_mem _ he)
    rw [work_cons]
    simp only [List.map_cons, List.sum_cons]
    rcases List.mem_cons.1 he with hea | hel
    · rw [← hea, if_neg (not_le.2 hneg)]
      have := work_le w s l hl
      linarith
    · have := ih hl hel
      have ha := h a (by simp)
      split <;> linarith

theorem sum_dur_grid (w : Workflow) (s u : ℚ) (k : Nat → Nat) (tasks : List Nat)
    (hk : ∀ t ∈ tasks, w.flops t / s = (k t : ℚ) * u) :
    (tasks.map (dur w s)).sum = (((tasks.map k).sum : Nat) : ℚ) * u := by
  induction tasks with
  | nil => simp
  | cons a l ih =>
    simp only [List.map_cons, List.sum_cons]
    rw [ih (fun t ht => hk t (List.mem_cons_of_mem _ ht))]
    simp only [dur]
    rw [hk a (by simp)]
    push_cast
    ring

theorem le_sum_of_mem_map (k : Nat → Nat) (tasks : List Nat) (t : Nat) (ht : t ∈ tasks) :
    k t ≤ (tasks.map k).sum := by
  induction tasks with
  | nil => simp at ht
  | cons a l ih =>
    simp only [List.map_cons, List.sum_cons]
    rcases List.mem_cons.1 ht with h | h
    · rw [h]; omega
    · have := ih h
      omega

theorem schedLoop_exact {w : Workflow} {tasks : List Nat} (hA : Acyclic w tasks) (s : ℚ)
    (hs : 0 < s) (hf : ∀ t ∈ tasks, 0 ≤ w.flops t)
    (hB : (tasks.map (dur w s)).sum ≤ DBL_MAX) (n : Nat) (hn : 0 < n)
    (u : ℚ) (k : Nat → Nat) (hu : 0 < u) (hk : ∀ t ∈ tasks, w.flops t / s = (k t : ℚ) * u)
    (hN : ∀ m : Nat, m ≤ (tasks.map k).sum → roundDouble ((m : ℚ) * u) = (m : ℚ) * u)
    (fuel : Nat) :
    ∀ X : LoopState, LoopInv w s tasks n X →
      (∃ c : Nat, X.current_time = (c : ℚ) * u) →
      (∀ e ∈ X.fake_tasks, 0 ≤ e.2 → ∃ c : Nat, e.2 = (c : ℚ) * u) →
      Rounded.WorkflowUtil.schedLoop w s tasks.length fuel X.fake_tasks X.idle_date
          X.num_scheduled_tasks X.current_time
        = Wrench.WorkflowUtil.schedLoop w s tasks.length fuel X.fake_tasks X.idle_date
          X.num_scheduled_tasks X.current_time ∧
      Rounded.WorkflowUtil.schedTrace w s tasks.length fuel X.fake_tasks X.idle_date
          X.num_scheduled_tasks X.current_time
        = Wrench.WorkflowUtil.schedTrace w s tasks.length fuel X.fake_tasks X.idle_date
          X.num_scheduled_tasks X.current_time ∧
      ∀ Y ∈ Wrench.WorkflowUtil.schedTrace w s tasks.length fuel X.fake_tasks X.idle_date
          X.num_scheduled_tasks X.current_time,
        ∀ e ∈ Y.fake_tasks, 0 ≤ e.2 → ∃ c : Nat, e.2 = (c : ℚ) * u := by
  induction fuel with
  | zero =>
    intro X _ _ hdates
    unfold Rounded.WorkflowUtil.schedLoop Wrench.WorkflowUtil.schedLoop
      Rounded.WorkflowUtil.schedTrace Wrench.WorkflowUtil.schedTrace
    refine ⟨rfl, rfl, ?_⟩
    intro Y hY
    have hYX : Y = X := by
      split at hY <;> simpa using hY
    rw [hYX]
    exact hdates
  | succ fuel ih =>
    intro X hX hcur hdates
    unfold Rounded.WorkflowUtil.schedLoop Wrench.WorkflowUtil.schedLoop
      Rounded.WorkflowUtil.schedTrace Wrench.WorkflowUtil.schedTrace
    by_cases hlt : X.num_scheduled_tasks < tasks.length
    · rw [if_pos hlt, if_pos hlt, if_pos hlt, if_pos hlt]
      simp only
      obtain ⟨hfst, hnum, hlenI, hc0, hc, hI, hK, hD, hS, hZ⟩ := hX
      have hmem : ∀ e ∈ X.fake_tasks, e.1 ∈ tasks := by
        intro e he; rw [← hfst]; exact List.mem_map_of_mem _ he
      have hdur : ∀ e ∈ X.fake_tasks, 0 ≤ dur w s e.1 :=
        fun e he => div_nonneg (hf _ (hmem e he)) (le_of_lt hs)
      obtain ⟨c, hcu⟩ := hcur
      have htotal := sum_dur_grid w s u k tasks hk
      have hplace : ∀ ft ∈ X.fake_tasks, ft.2 < 0 →
          ∃ m : Nat, m ≤ (tasks.map k).sum ∧
            X.current_time + w.flops ft.1 / s = (m : ℚ) * u := by
        intro ft hft hneg
        have h1 := work_add_unplaced w s X.fake_tasks hdur ft hft hneg
        rw [hfst, htotal] at h1
        have h2 : X.current_time + dur w s ft.1 ≤ (((tasks.map k).sum : Nat) : ℚ) * u := by
          linarith
        simp only [dur] at h2
        rw [hcu, hk ft.1 (hmem ft hft), ← add_mul] at h2
        have h3 : ((c : ℚ) + (k ft.1 : ℚ)) ≤ (((tasks.map k).sum : Nat) : ℚ) :=
          le_of_mul_le_mul_right h2 hu
        refine ⟨c + k ft.1, by exact_mod_cast h3, ?_⟩
        rw [hcu, hk ft.1 (hmem ft hft)]
        push_cast
        ring
      have hexact : ∀ ft ∈ X.fake_tasks, ft.2 < 0 →
          roundDouble (X.current_time + roundDouble (w.flops ft.1 / s))
            = X.current_time + w.flops ft.1 / s := by
        intro ft hft hneg
        have hd : roundDouble (w.flops ft.1 / s) = w.flops ft.1 / s := by
          rw [hk ft.1 (hmem ft hft)]
          exact hN _ (le_sum_of_mem_map k tasks ft.1 (hmem ft hft))
        obtain ⟨m, hm, hsum⟩ := hplace ft hft hneg
        rw [hd, hsum]
        exact hN m hm
      rw [scan_exact w s X.current_time X.fake_tasks [] X.idle_date X.num_scheduled_tasks false
        hexact]
      have hX' : LoopInv w s tasks n X := ⟨hfst, hnum, hlenI, hc0, hc, hI, hK, hD, hS, hZ⟩
      obtain ⟨hinv, hno, _⟩ := loopInv_step hA s hs hf hB n hn X hX' hlt
      have hdates' : ∀ e ∈ (Wrench.WorkflowUtil.scan w s X.current_time [] X.fake_tasks
          X.idle_date X.num_scheduled_tasks false).fake_tasks, 0 ≤ e.2 →
          ∃ c : Nat, e.2 = (c : ℚ) * u := by
        refine scan_dates (fun d => ∃ c : Nat, d = (c : ℚ) * u) w s X.current_time X.fake_tasks
          [] X.idle_date X.num_scheduled_tasks false (by simpa using hdates) ?_
        intro ft hft hneg
        obtain ⟨m, _, hsum⟩ := hplace ft hft hneg
        exact ⟨m, hsum⟩
      suffices hnext : ∃ c : Nat,
          (if (Wrench.WorkflowUtil.scan w s X.current_time [] X.fake_tasks X.idle_date
              X.num_scheduled_tasks false).scheduled_something = true then
            minIdle (Wrench.WorkflowUtil.scan w s X.current_time [] X.fake_tasks X.idle_date
              X.num_scheduled_tasks false).idle_date
          else
            secondMinIdle (Wrench.WorkflowUtil.scan w s X.current_time [] X.fake_tasks
              X.idle_date X.num_scheduled_tasks false).idle_date X.current_time)
            = (c : ℚ) * u by
        obtain ⟨i1, i2, i3⟩ := ih _ hinv hnext hdates'
        simp only at i1 i2 i3
        refine ⟨i1, by rw [i2], ?_⟩
        intro Y hY
        rcases List.mem_cons.1 hY with h | h
        · rw [h]; exact hdates
        · exact i3 Y h
      -- the next `current_time` is an idle date
      obtain ⟨_, _, hlenI', _, _, hI', _, _, _, hZ'⟩ := hinv
      simp only at hlenI' hI' hZ'
      have hgridI : ∀ d ∈ (Wrench.WorkflowUtil.scan w s X.current_time [] X.fake_tasks
          X.idle_date X.num_scheduled_tasks false).idle_date, ∃ c : Nat, d = (c : ℚ) * u := by
        intro d hd
        rcases hZ' d hd with h0 | ⟨e, he, hnn, hed⟩
        · exact ⟨0, by rw [h0]; simp⟩
        · rw [← hed]; exact hdates' e he hnn
      by_cases hflag : (Wrench.WorkflowUtil.scan w s X.current_time [] X.fake_tasks X.idle_date
          X.num_scheduled_tasks false).scheduled_something = true
      · rw [if_pos hflag]
        have hne' : (Wrench.WorkflowUtil.scan w s X.current_time [] X.fake_tasks X.idle_date
            X.num_scheduled_tasks false).idle_date ≠ [] := by
          intro h
          rw [h] at hlenI'
          simp at hlenI'
          omega
        have hbd : ∀ d ∈ (Wrench.WorkflowUtil.scan w s X.current_time [] X.fake_tasks
            X.idle_date X.num_scheduled_tasks false).idle_date, d ≤ DBL_MAX := by
          intro d hd
          refine le_trans (hI' d hd).2 (le_trans (work_le w s _ ?_) ?_)
          · intro e he
            have hfst' := scan_fake_fst w s X.current_time X.fake_tasks [] X.idle_date
              X.num_scheduled_tasks false
            simp only [List.nil_append] at hfst'
            have : e.1 ∈ tasks := by
              rw [← hfst, ← hfst']; exact List.mem_map_of_mem _ he
            exact div_nonneg (hf _ this) (le_of_lt hs)
          · have hfst' := scan_fake_fst w s X.current_time X.fake_tasks [] X.idle_date
              X.num_scheduled_tasks false
            simp only [List.nil_append] at hfst'
            rw [hfst', hfst]
            exact hB
        exact hgridI _ (minIdle_eq _ hne' hbd).1
      · rw [if_neg hflag]
        have hflag' : (Wrench.WorkflowUtil.scan w s X.current_time [] X.fake_tasks X.idle_date
            X.num_scheduled_tasks false).scheduled_something = false := by simpa using hflag
        have hun := scan_unchanged w s X.current_time X.fake_tasks [] X.idle_date
          X.num_scheduled_tasks false hflag'
        have hm := (hno hflag').2.1
        rw [hun] at hgridI ⊢
        simp only at hgridI ⊢
        exact hgridI _ hm
    · rw [if_neg hlt, if_neg hlt, if_neg hlt, if_neg hlt]
      refine ⟨rfl, rfl, ?_⟩
      intro Y hY
      have hYX : Y = X := by simpa using hY
      rw [hYX]
      exact hdates

/-- With exact sums the estimate computed in doubles is the estimate computed in the
rationals. -/
theorem estimateMakespan_exact {w : Workflow} {tasks : List Nat} (hA : Acyclic w tasks)
    (s : ℚ) (hs : 0 < s) (hf : ∀ t ∈ tasks, 0 ≤ w.flops t)
    (hB : (tasks.map (dur w s)).sum ≤ DBL_MAX) (n : Nat) (hE : ExactSums w s tasks 1)
    (fuel : Nat) :
    Rounded.WorkflowUtil.estimateMakespan fuel w tasks n s
        = Wrench.WorkflowUtil.estimateMakespan fuel w tasks n s ∧
      (0 < n →
        Rounded.WorkflowUtil.schedLoop w s tasks.length fuel (tasks.map fun t => (t, (-1 : ℚ)))
            (List.replicate n 0) 0 0
          = Wrench.WorkflowUtil.schedLoop w s tasks.length fuel
              (tasks.map fun t => (t, (-1 : ℚ))) (List.replicate n 0) 0 0 ∧
        Rounded.WorkflowUtil.schedTrace w s tasks.length fuel (tasks.map fun t => (t, (-1 : ℚ)))
            (List.replicate n 0) 0 0
          = Wrench.WorkflowUtil.schedTrace w s tasks.length fuel
              (tasks.map fun t => (t, (-1 : ℚ))) (List.replicate n 0) 0 0) := by
  obtain ⟨u, k, hu, hk, hN⟩ := hE
  have hloop : 0 < n →
      Rounded.WorkflowUtil.schedLoop w s tasks.length fuel (tasks.map fun t => (t, (-1 : ℚ)))
          (List.replicate n 0) 0 0
        = Wrench.WorkflowUtil.schedLoop w s tasks.length fuel
            (tasks.map fun t => (t, (-1 : ℚ))) (List.replicate n 0) 0 0 ∧
      Rounded.WorkflowUtil.schedTrace w s tasks.length fuel (tasks.map fun t => (t, (-1 : ℚ)))
          (List.replicate n 0) 0 0
        = Wrench.WorkflowUtil.schedTrace w s tasks.length fuel
            (tasks.map fun t => (t, (-1 : ℚ))) (List.replicate n 0) 0 0 := by
    intro hn
    have := schedLoop_exact hA s hs hf hB n hn u k hu hk
      (fun m hm => hN m (by simpa using hm)) fuel
      ⟨tasks.map fun t => (t, (-1 : ℚ)), List.replicate n 0, 0, 0⟩ (loopInv_initial w s tasks n)
      ⟨0, by simp⟩
      (by
        intro e he hnn
        obtain ⟨t, _, rfl⟩ := List.mem_map.1 he
        norm_num at hnn)
    exact ⟨this.1, this.2.1⟩
  refine ⟨?_, hloop⟩
  unfold Rounded.WorkflowUtil.estimateMakespan Wrench.WorkflowUtil.estimateMakespan
  by_cases h0 : n = 0
  · rw [if_pos h0, if_pos h0]
  · rw [if_neg h0, if_neg h0]
    have := (hloop (by omega)).1
    rw [this]

theorem rounded_schedTrace_cons (w : Workflow) (s : ℚ) (len fuel : Nat)
    (fake : List (Nat × ℚ)) (idle : List ℚ) (num : Nat) (cur : ℚ) :
    ∃ rest, Rounded.WorkflowUtil.schedTrace w s len fuel fake idle num cur
      = ⟨fake, idle, num, cur⟩ :: rest := by
  cases fuel <;> rw [Rounded.WorkflowUtil.schedTrace] <;> exact ⟨_, rfl⟩

theorem rounded_schedLoop_eq_trace (w : Workflow) (s : ℚ) (len : Nat) (fuel : Nat) :
    ∀ (fake : List (Nat × ℚ)) (idle : List ℚ) (num : Nat) (cur : ℚ),
      Rounded.WorkflowUtil.schedLoop w s len fuel fake idle num cur
        = (Rounded.WorkflowUtil.schedTrace w s len fuel fake idle num cur).getLast?.bind
            fun Y => if Y.num_scheduled_tasks < len then none else some Y.idle_date := by
  induction fuel with
  | zero =>
    intro fake idle num cur
    rw [Rounded.WorkflowUtil.schedLoop, Rounded.WorkflowUtil.schedTrace]
    by_cases h : num < len
    · simp [h]
    · simp [h]
  | succ f ih =>
    intro fake idle num cur
    rw [Rounded.WorkflowUtil.schedLoop, Rounded.WorkflowUtil.schedTrace]
    by_cases h : num < len
    · simp only [h, if_true]
      rw [ih]
      obtain ⟨rest, hrest⟩ := rounded_schedTrace_cons w s len f
        (Rounded.WorkflowUtil.scan w s cur [] fake idle num false).fake_tasks
        (Rounded.WorkflowUtil.scan w s cur [] fake idle num false).idle_date
        (Rounded.WorkflowUtil.scan w s cur [] fake idle num false).num_scheduled_tasks
        (if (Rounded.WorkflowUtil.scan w s cur [] fake idle num false).scheduled_something
          then minIdle (Rounded.WorkflowUtil.scan w s cur [] fake idle num false).idle_date
          else secondMinIdle (Rounded.WorkflowUtil.scan w s cur [] fake idle num false).idle_date
            cur)
      rw [hrest, List.getLast?_cons_cons]
    · simp [h]

/-- C2, as the code behaves: the ten tasks of `unitChain` (1 flop each, a chain
`0 -> 1 -> ... -> 9`) on one host at core speed 10: the sum of the flops divided by the
core speed is 1, and the estimate, which adds ten times the double `1.0 / 10`, is
`1 - 2^-53` (printed `0.9999999999999999`). -/
theorem estimateMakespan_chain_counterexample :
    Rounded.WorkflowUtil.estimateMakespan 10 unitChain (List.range 10) 1 10
      = Run.ret (9007199254740991 / 9007199254740992) ∧
    ((List.range 10).map unitChain.flops).sum / 10 = (1 : ℚ) ∧
    (∀ i : Fin 10, ∀ j : Fin 10,
      (List.range 10)[j.val]! ∈ unitChain.parents (List.range 10)[i.val]! ↔ j.val + 1 = i.val) := by
  refine ⟨by decide!, by decide!, by decide⟩

/-- C2, amended: a task list that is a single dependency chain (listed in any order; inside
the list, the parents of a task are exactly its predecessor in the chain), with
non-negative flops and core speed `s > 0`, whose run times `flops / s` are whole multiples
of a unit `u > 0` such that every multiple of `u` up to their sum is a double
(`ExactSums`), has on one host the estimated makespan `(sum of flops) / s`; fuel of the list
length suffices. -/
theorem estimateMakespan_chain_exact_sums (w : Workflow) (chain tasks : List Nat) (s : ℚ)
    (fuel : Nat) (hperm : tasks.Perm chain)
    (hchain : ∀ (i : Nat) (hi : i < chain.length) (j : Nat) (hj : j < chain.length),
      chain[j] ∈ w.parents chain[i] ↔ j + 1 = i)
    (hf : ∀ t ∈ tasks, 0 ≤ w.flops t) (hs : 0 < s)
    (hB : (tasks.map w.flops).sum / s ≤ DBL_MAX) (hfuel : tasks.length ≤ fuel)
    (hE : ExactSums w s tasks 1) :
    Rounded.WorkflowUtil.estimateMakespan fuel w tasks 1 s
      = Run.ret ((tasks.map w.flops).sum / s) := by
  have hA := acyclic_of_chain w chain tasks hperm hchain
  have hB' : (tasks.map (dur w s)).sum ≤ DBL_MAX := by rw [sum_map_dur]; exact hB
  rw [(estimateMakespan_exact hA s hs hf hB' 1 hE fuel).1, ← sum_map_dur]
  exact estimateMakespan_one_host hA s hs hf hB' fuel hfuel

/-- C2, amended, instance: the chain `0 -> 1 -> 2` of `chainWorkflow` (3, 4 and 5 flops)
listed as `[2, 0, 1]` at core speed 2, whose run times are multiples of half a second, has
the makespan `(5 + 3 + 4) / 2`. -/
theorem estimateMakespan_chain_exact_sums_witness :
    Rounded.WorkflowUtil.estimateMakespan 3 chainWorkflow [2, 0, 1] 1 2
      = Run.ret (([2, 0, 1].map chainWorkflow.flops).sum / 2) :=
  estimateMakespan_chain_exact_sums chainWorkflow [0, 1, 2] [2, 0, 1] 2 3 (by decide)
    (by decide) (by decide!) (by decide) (by decide!) (by decide)
    ⟨1 / 2, fun t => [3, 4, 5].getD t 1, by norm_num, by decide!, by decide!⟩

/-- C3, as the code behaves: the ten tasks of `unitFan` (1 flop each, no dependencies) on
one host at core speed 10: `ceil(10 / 1) * 1 / 10` is 1, and the estimate is `1 - 2^-53`
(printed `0.9999999999999999`). -/
theorem estimateMakespan_uniform_counterexample :
    Rounded.WorkflowUtil.estimateMakespan 10 unitFan (List.range 10) 1 10
      = Run.ret (9007199254740991 / 9007199254740992) ∧
    (⌈(((List.range 10).length : ℚ)) / (1 : Nat)⌉₊ : ℚ) * 1 / 10 = 1 ∧
    (∀ t ∈ List.range 10, unitFan.flops t = 1 ∧ ∀ p ∈ unitFan.parents t, p ∉ List.range 10) := by
  refine ⟨by decide!, ?_, by decide!⟩
  norm_num

/-- C3, amended: `m` tasks without a parent inside the list, all of `f >= 0` flops, on
`n >= 1` hosts at core speed `s > 0`, when every multiple of the run time `f / s` up to
`m * f / s` is a double (`ExactSums`), have the estimated makespan `ceil(m / n) * f / s`;
fuel `m` suffices.  The 8 tasks of 100 flops of `fanWorkflow` on 8 hosts at core speed 1
give 100, and the Test heuristic, with a batch service that predicts the start date 0,
submits for them one pilot job with `-N 8` and `-t 2` (the walltime `100 * 1.1` seconds in
doubles). -/
theorem estimateMakespan_uniform_exact_sums (w : Workflow) (tasks : List Nat) (n : Nat)
    (s f : ℚ) (fuel : Nat) (hn : 1 ≤ n) (hs : 0 < s) (hf0 : 0 ≤ f)
    (hflops : ∀ t ∈ tasks, w.flops t = f)
    (hI : ∀ t ∈ tasks, ∀ p ∈ w.parents t, p ∉ tasks)
    (hB : (tasks.length : ℚ) * f / s ≤ DBL_MAX) (hfuel : tasks.length ≤ fuel)
    (hE : ExactSums w s tasks 1) :
    Rounded.WorkflowUtil.estimateMakespan fuel w tasks n s
      = Run.ret ((⌈(tasks.length : ℚ) / n⌉₊ : ℚ) * f / s) ∧
    Rounded.WorkflowUtil.estimateMakespan 8 fanWorkflow [0, 1, 2, 3, 4, 5, 6, 7] 8 1
      = Run.ret 100 ∧
    Wrench.TestClusteringWMS.observe
        (Rounded.TestClusteringWMS.applyGroupingHeuristic 8 fanWorkflow (fixedEstimates 0) 0
          (Wrench.TestClusteringWMS.initial (1 / 5) 0 8))
      = some (false, some ⟨0, 8, [0, 1, 2, 3, 4, 5, 6, 7], 0, 0, 0⟩, 0,
          [Submitted.pilotJob 0 ⟨"8", "1", "2"⟩]) := by
  refine ⟨?_, by decide!, by decide!⟩
  have hmap : tasks.map (dur w s) = List.replicate tasks.length (f / s) := by
    apply List.eq_replicate_iff.2
    refine ⟨by simp, ?_⟩
    intro d hd
    obtain ⟨t, ht, e⟩ := List.mem_map.1 hd
    rw [← e, dur, hflops t ht]
  have hd0 : 0 ≤ f / s := div_nonneg hf0 (le_of_lt hs)
  have hf : ∀ t ∈ tasks, 0 ≤ w.flops t := fun t ht => by rw [hflops t ht]; exact hf0
  have hB' : (tasks.map (dur w s)).sum ≤ DBL_MAX := by
    rw [hmap]; simp only [List.sum_replicate, nsmul_eq_mul]
    rw [← mul_div_assoc]; exact hB
  have hA : Acyclic w tasks := ⟨fun _ => 0, fun t ht p hp hpt => absurd hpt (hI t ht p hp)⟩
  rw [(estimateMakespan_exact hA s hs hf hB' n hE fuel).1,
    estimateMakespan_indep hI s hs hf n hn hB' fuel hfuel, hmap, greedy_uniform n hn _ hd0,
    mul_div_assoc]

/-- C3, amended, instance: the 8 tasks of 100 flops of `fanWorkflow` on 8 hosts at core
speed 1 (whole seconds, so the sums are exact) give `ceil(8 / 8) * 100 / 1`. -/
theorem estimateMakespan_uniform_exact_sums_witness :
    Rounded.WorkflowUtil.estimateMakespan 8 fanWorkflow [0, 1, 2, 3, 4, 5, 6, 7] 8 1
      = Run.ret ((⌈(([0, 1, 2, 3, 4, 5, 6, 7] : List Nat).length : ℚ) / (8 : Nat)⌉₊ : ℚ)
          * 100 / 1) :=
  (estimateMakespan_uniform_exact_sums fanWorkflow [0, 1, 2, 3, 4, 5, 6, 7] 8 1 100 8
    (by decide) (by decide) (by decide) (fun _ _ => rfl) (by decide) (by decide!) (by decide)
    ⟨1, fun _ => 100, by norm_num, by decide!,
      fun m hm => by
        have := roundDouble_natCast m (le_trans hm (by decide))
        simpa using this⟩).1

/-- C34, as the code behaves: the ten tasks of `unitFan` (1 flop each) on one host at core
speed 10 have the estimate `1 - 2^-53`, below `(sum of flops) / (n * s) = 1`; and for the
levels `{0.3}`, `{0.2, 0.1}` at core speed 1 the one-host makespan of the range is the
double `0.6` while the run times of the levels add up to `0.6000000000000001`, so the waste
ratio of the candidate `n = 1` in `computeBestNumHosts` is negative (about `-1.85e-16`). -/
theorem estimateMakespan_bounds_counterexample :
    Rounded.WorkflowUtil.estimateMakespan 10 unitFan (List.range 10) 1 10
      = Run.ret (9007199254740991 / 9007199254740992) ∧
    (9007199254740991 / 9007199254740992 : ℚ)
      < ((List.range 10).map unitFan.flops).sum / (((1 : Nat) : ℚ) * 10) ∧
    Rounded.WorkflowUtil.estimateMakespan 3 (twoLevels (3 / 10) (2 / 10) (1 / 10)) [0, 1, 2] 1 1
      = Run.ret (5404319552844595 / 9007199254740992) ∧
    Rounded.TestClusteringWMS.allTasksTime 3 (twoLevels (3 / 10) (2 / 10) (1 / 10)) 1 [0, 1] 0
      = Run.ret (1351079888211149 / 2251799813685248) ∧
    Rounded.TestClusteringWMS.wasteDenominator 1 (5404319552844595 / 9007199254740992) ≠ 0 ∧
    Rounded.TestClusteringWMS.wasteRatio 1 (5404319552844595 / 9007199254740992)
        (1351079888211149 / 2251799813685248)
      = -7505999378950827 / 40564819207303340847894502572032 := by
  refine ⟨by decide!, by decide!, by decide!, by decide!, by decide!, by decide!⟩

theorem estimateMakespan_bounds_aux {w : Workflow} {tasks : List Nat} (hA : Acyclic w tasks)
    (s : ℚ) (hs : 0 < s) (hf : ∀ t ∈ tasks, 0 ≤ w.flops t)
    (hB : (tasks.map (dur w s)).sum ≤ DBL_MAX) (n : Nat) (hn : 0 < n) (fuel : Nat)
    (hfuel : tasks.length * (n + 1) ≤ fuel + n)
    (u : ℚ) (k : Nat → Nat) (hu : 0 < u) (hk : ∀ t ∈ tasks, w.flops t / s = (k t : ℚ) * u)
    (hN : ∀ m : Nat, m ≤ (tasks.map k).sum → roundDouble ((m : ℚ) * u) = (m : ℚ) * u) :
    ∃ Y, (Rounded.WorkflowUtil.schedTrace w s tasks.length fuel
          (tasks.map fun t => (t, (-1 : ℚ))) (List.replicate n 0) 0 0).getLast? = some Y ∧
      (Wrench.WorkflowUtil.schedTrace w s tasks.length fuel
          (tasks.map fun t => (t, (-1 : ℚ))) (List.replicate n 0) 0 0).getLast? = some Y ∧
      Rounded.WorkflowUtil.schedLoop w s tasks.length fuel (tasks.map fun t => (t, (-1 : ℚ)))
          (List.replicate n 0) 0 0 = some Y.idle_date ∧
      Rounded.WorkflowUtil.estimateMakespan fuel w tasks n s = Run.ret (maxIdle Y.idle_date) ∧
      Wrench.WorkflowUtil.estimateMakespan fuel w tasks n s = Run.ret (maxIdle Y.idle_date) ∧
      LoopInv w s tasks n Y ∧ Y.num_scheduled_tasks = tasks.length ∧
      (∀ e ∈ Y.fake_tasks, 0 ≤ e.2 ∧ ∃ c : Nat, e.2 = (c : ℚ) * u) := by
  obtain ⟨Y, hlast, hY, hnum, hall, hret⟩ := estimateMakespan_exit hA s hs hf hB n hn fuel hfuel
  obtain ⟨e1, e2, e3⟩ := schedLoop_exact hA s hs hf hB n hn u k hu hk hN fuel
    ⟨tasks.map fun t => (t, (-1 : ℚ)), List.replicate n 0, 0, 0⟩ (loopInv_initial w s tasks n)
    ⟨0, by simp⟩
    (by
      intro e he hnn
      obtain ⟨t, _, rfl⟩ := List.mem_map.1 he
      norm_num at hnn)
  simp only at e1 e2 e3
  have hE : ExactSums w s tasks 1 := ⟨u, k, hu, hk, fun m hm => hN m (by simpa using hm)⟩
  refine ⟨Y, by rw [e2]; exact hlast, hlast, ?_, ?_, hret, hY, hnum, ?_⟩
  · rw [rounded_schedLoop_eq_trace, e2, hlast]
    simp [hnum]
  · rw [(estimateMakespan_exact hA s hs hf hB n hE fuel).1]; exact hret
  · intro e he
    exact ⟨hall e he, e3 Y (List.mem_of_getLast?_eq_some hlast) e he (hall e he)⟩

/-- C34, amended: for a task list whose in-list parent relation is acyclic, with
non-negative flops, `1 <= n <= 2^53` hosts, core speed `s > 0`, a total run time inside the
finite double range, and run times `flops / s` that are whole multiples of a unit `u > 0`
such that every multiple of `u` up to `n` times their sum is a double (`ExactSums`), the
estimate computed in doubles returns a makespan `m` (fuel for `length * (n + 1)` iterations
suffices) with `(sum of flops) / (n * s) <= m` and `flops(t) / s <= m` for every listed
task.  The loop is left with the idle dates `Y.idle_date` of the last state of its trace,
`m` is their maximum, every entry of `fake_tasks` then holds a completion date, none is
later than `m`, and for a non-empty list one of them equals `m`.  When `m > 0`, the
numerator and the denominator of the waste ratio of `computeBestNumHosts`, computed in
doubles with `total = (sum of flops) / s`, are `n * m - total` and `n * m`, and the waste
ratio lies in `[0, 1)`. -/
theorem estimateMakespan_bounds_exact_sums (w : Workflow) (tasks : List Nat) (n : Nat) (s : ℚ)
    (fuel : Nat) (hA : Acyclic w tasks) (hf : ∀ t ∈ tasks, 0 ≤ w.flops t) (hn : 1 ≤ n)
    (hn53 : n ≤ 2 ^ 53) (hs : 0 < s) (hB : (tasks.map w.flops).sum / s ≤ DBL_MAX)
    (hfuel : tasks.length * (n + 1) ≤ fuel) (hE : ExactSums w s tasks n) :
    ∃ m Y, Rounded.WorkflowUtil.estimateMakespan fuel w tasks n s = Run.ret m ∧
      (tasks.map w.flops).sum / ((n : ℚ) * s) ≤ m ∧
      (∀ t ∈ tasks, w.flops t / s ≤ m) ∧
      (Rounded.WorkflowUtil.schedTrace w s tasks.length fuel (tasks.map fun t => (t, (-1 : ℚ)))
        (List.replicate n 0) 0 0).getLast? = some Y ∧
      Rounded.WorkflowUtil.schedLoop w s tasks.length fuel (tasks.map fun t => (t, (-1 : ℚ)))
        (List.replicate n 0) 0 0 = some Y.idle_date ∧
      m = maxIdle Y.idle_date ∧
      Y.fake_tasks.map Prod.fst = tasks ∧
      (∀ e ∈ Y.fake_tasks, 0 ≤ e.2 ∧ e.2 ≤ m) ∧
      (tasks ≠ [] → ∃ e ∈ Y.fake_tasks, e.2 = m) ∧
      (0 < m →
        Rounded.TestClusteringWMS.wasteDenominator n m = (n : ℚ) * m ∧
        Rounded.TestClusteringWMS.wasteNumerator n m ((tasks.map w.flops).sum / s)
          = (n : ℚ) * m - (tasks.map w.flops).sum / s ∧
        0 ≤ Rounded.TestClusteringWMS.wasteRatio n m ((tasks.map w.flops).sum / s) ∧
        Rounded.TestClusteringWMS.wasteRatio n m ((tasks.map w.flops).sum / s) < 1) := by
  have hB' : (tasks.map (dur w s)).sum ≤ DBL_MAX := by rw [sum_map_dur]; exact hB
  obtain ⟨u, k, hu, hk, hN⟩ := hE
  have hN1 : ∀ m : Nat, m ≤ (tasks.map k).sum → roundDouble ((m : ℚ) * u) = (m : ℚ) * u :=
    fun m hm => hN m (le_trans hm (Nat.le_mul_of_pos_left _ hn))
  obtain ⟨Y, hlastR, hlast, hloop, hretR, hret, hY, hnum, hall⟩ :=
    estimateMakespan_bounds_aux hA s hs hf hB' n hn fuel (by omega) u k hu hk hN1
  obtain ⟨hfst, hpl, hlenI, _, _, hI, hK, hD, hS, hZ⟩ := hY
  have hlenY : Y.fake_tasks.length = tasks.length := by rw [← hfst]; simp
  have hwork : work w s Y.fake_tasks = (tasks.map w.flops).sum / s := by
    rw [work_all w s Y.fake_tasks (by omega), hfst, sum_map_dur]
  have hgrid := sum_dur_grid w s u k tasks hk
  rw [sum_map_dur] at hgrid
  have hle : ∀ e ∈ Y.fake_tasks, e.2 ≤ maxIdle Y.idle_date := by
    intro e he
    obtain ⟨d, hd, hed⟩ := hK e he (hall e he).1
    exact le_trans hed (le_maxIdle _ d hd)
  have hnq : (0 : ℚ) < n := by exact_mod_cast hn
  have htot : (tasks.map w.flops).sum / s ≤ (n : ℚ) * maxIdle Y.idle_date := by
    rw [← hwork]
    refine le_trans hS ?_
    have := sum_le_length_mul Y.idle_date (maxIdle Y.idle_date) (fun d hd => le_maxIdle _ d hd)
    rw [hlenI] at this
    exact this
  have hT0 : 0 ≤ (tasks.map w.flops).sum / s :=
    div_nonneg (List.sum_nonneg (by
      intro x hx
      obtain ⟨t, ht, rfl⟩ := List.mem_map.1 hx
      exact hf t ht)) (le_of_lt hs)
  have hmT : maxIdle Y.idle_date ≤ (tasks.map w.flops).sum / s := by
    rw [← hwork]
    refine maxIdle_le _ _ ?_ (fun d hd => (hI d hd).2)
    rw [hwork]
    exact hT0
  have hmax : tasks ≠ [] → ∃ e ∈ Y.fake_tasks, e.2 = maxIdle Y.idle_date := by
    intro hne
    rcases (maxIdle_aux Y.idle_date 0).2.2 with h0 | hmem
    · obtain ⟨t, ht⟩ := List.exists_mem_of_ne_nil tasks hne
      rw [← hfst] at ht
      obtain ⟨e, he, _⟩ := List.mem_map.1 ht
      refine ⟨e, he, le_antisymm (hle e he) ?_⟩
      have h0' : maxIdle Y.idle_date = 0 := h0
      rw [h0']
      exact (hall e he).1
    · have hmem' : maxIdle Y.idle_date ∈ Y.idle_date := hmem
      rcases hZ _ hmem' with h0 | ⟨e, he, _, hed⟩
      · obtain ⟨t, ht⟩ := List.exists_mem_of_ne_nil tasks hne
        rw [← hfst] at ht
        obtain ⟨e, he, _⟩ := List.mem_map.1 ht
        refine ⟨e, he, le_antisymm (hle e he) ?_⟩
        rw [h0]
        exact (hall e he).1
      · exact ⟨e, he, hed⟩
  refine ⟨maxIdle Y.idle_date, Y, hretR, ?_, ?_, hlastR, hloop, rfl, hfst,
    fun e he => ⟨(hall e he).1, hle e he⟩, hmax, ?_⟩
  · rw [div_le_iff₀ (mul_pos hnq hs)]
    rw [div_le_iff₀ hs] at htot
    linarith
  · intro t ht
    rw [← hfst] at ht
    obtain ⟨e, he, rfl⟩ := List.mem_map.1 ht
    exact le_trans (hD e he (hall e he).1) (hle e he)
  · intro hm
    have hne : tasks ≠ [] := by
      intro h
      rw [h] at hmT
      simp at hmT
      linarith
    obtain ⟨e, he, hem⟩ := hmax hne
    obtain ⟨c, hc⟩ := (hall e he).2
    rw [hem] at hc
    -- `m = c * u` with `c <= sum k <= n * c`
    have hc1 : c ≤ (tasks.map k).sum := by
      have : (c : ℚ) * u ≤ (((tasks.map k).sum : Nat) : ℚ) * u := by
        rw [← hc, ← hgrid]; exact hmT
      exact_mod_cast le_of_mul_le_mul_right this hu
    have hc2 : (tasks.map k).sum ≤ n * c := by
      have : (((tasks.map k).sum : Nat) : ℚ) * u ≤ ((n : ℚ) * c) * u := by
        rw [← hgrid, mul_assoc, ← hc]; exact htot
      exact_mod_cast le_of_mul_le_mul_right this hu
    have hrn : roundDouble (n : ℚ) = (n : ℚ) := roundDouble_natCast n hn53
    have hden : Rounded.TestClusteringWMS.wasteDenominator n (maxIdle Y.idle_date)
        = (n : ℚ) * maxIdle Y.idle_date := by
      unfold Rounded.TestClusteringWMS.wasteDenominator
      rw [hrn, hc]
      have := hN (n * c) (Nat.mul_le_mul_left n hc1)
      rw [Nat.cast_mul] at this
      rw [← mul_assoc]
      exact this
    have hnum' : Rounded.TestClusteringWMS.wasteNumerator n (maxIdle Y.idle_date)
          ((tasks.map w.flops).sum / s)
        = (n : ℚ) * maxIdle Y.idle_date - (tasks.map w.flops).sum / s := by
      have hd := hden
      unfold Rounded.TestClusteringWMS.wasteDenominator at hd
      unfold Rounded.TestClusteringWMS.wasteNumerator
      rw [hd, hgrid, hc]
      have := hN (n * c - (tasks.map k).sum) (le_trans (Nat.sub_le _ _)
        (Nat.mul_le_mul_left n hc1))
      rw [Nat.cast_sub hc2, Nat.cast_mul] at this
      have hre : (n : ℚ) * ((c : ℚ) * u) - (((tasks.map k).sum : Nat) : ℚ) * u
          = ((n : ℚ) * c - (((tasks.map k).sum : Nat) : ℚ)) * u := by ring
      rw [hre]
      exact this
    have hpos : (0 : ℚ) < (n : ℚ) * maxIdle Y.idle_date := mul_pos hnq hm
    refine ⟨hden, hnum', ?_, ?_⟩
    · unfold Rounded.TestClusteringWMS.wasteRatio
      rw [hnum', hden]
      exact roundDouble_nonneg _ (div_nonneg (by linarith) (le_of_lt hpos))
    · unfold Rounded.TestClusteringWMS.wasteRatio
      rw [hnum', hden]
      have hq : ((n : ℚ) * maxIdle Y.idle_date - (tasks.map w.flops).sum / s)
          / ((n : ℚ) * maxIdle Y.idle_date)
          ≤ ((2 ^ 53 - 1 : Nat) : ℚ) / (2 : ℚ) ^ 53 := by
        rw [div_le_div_iff hpos (by positivity)]
        have h53 : (n : ℚ) ≤ (2 : ℚ) ^ 53 := by exact_mod_cast hn53
        have hcast : ((2 ^ 53 - 1 : Nat) : ℚ) = (2 : ℚ) ^ 53 - 1 := by norm_num
        rw [hcast]
        nlinarith
      have := roundDouble_le_dyadic _ (2 ^ 53 - 1) 53 (by norm_num) (by norm_num) hq
      refine lt_of_le_of_lt this ?_
      rw [div_lt_one (by positivity)]
      norm_num

/-- C34, amended, instance: the six tasks of `anomalyWorkflow` on 2 hosts at core speed 1
(whole seconds, 18 in all) have the estimated makespan 9 with `18 / (2 * 1) <= 9`. -/
theorem estimateMakespan_bounds_exact_sums_witness :
    ∃ m, Rounded.WorkflowUtil.estimateMakespan 18 anomalyWorkflow [2, 5, 1, 3, 4, 0] 2 1
        = Run.ret m ∧
      (([2, 5, 1, 3, 4, 0] : List Nat).map anomalyWorkflow.flops).sum / (((2 : Nat) : ℚ) * 1)
        ≤ m :=
  (estimateMakespan_bounds_exact_sums anomalyWorkflow [2, 5, 1, 3, 4, 0] 2 1 18
    ⟨fun t => [0, 0, 0, 1, 0, 1].getD t 0, by decide⟩ (by decide!) (by decide) (by decide)
    (by decide) (by decide!) (by decide)
    ⟨1, fun t => [3, 4, 3, 6, 1, 1].getD t 0, by norm_num, by decide!,
      fun m hm => by
        have := roundDouble_natCast m (le_trans hm (by decide))
        simpa using this⟩).elim fun m h => h.elim fun _ h' => ⟨m, h'.1, h'.2.1⟩

/-- C36, as the code behaves: the ten tasks of `unitFan` (1 flop each) on one host: at
core speed 1 the estimate is 10, at core speed `10 * 1` it is `1 - 2^-53` (printed
`0.9999999999999999`) and not `10 / 10`. -/
theorem estimateMakespan_homogeneous_counterexample :
    Rounded.WorkflowUtil.estimateMakespan 10 unitFan (List.range 10) 1 1 = Run.ret 10 ∧
    Rounded.WorkflowUtil.estimateMakespan 10 unitFan (List.range 10) 1 (10 * 1)
      = Run.ret (9007199254740991 / 9007199254740992) ∧
    Rounded.WorkflowUtil.estimateMakespan 10 unitFan (List.range 10) 1 (10 * 1)
      ≠ scaleRun 10⁻¹ (Rounded.WorkflowUtil.estimateMakespan 10 unitFan (List.range 10) 1 1) := by
  refine ⟨by decide!, by decide!, by decide!⟩

/-- C36, amended: for a task list whose in-list parent relation is acyclic, with
non-negative flops, every host count, core speed `s > 0` and factor `k > 0`, when the sums
of run times are exact before and after the change (`ExactSums` for the original call, for
the flops multiplied by `k` and for the core speed multiplied by `k`; the run times inside
the finite double range), the estimate computed in doubles with every flop count
multiplied by `k` has the outcome of the original call with the returned makespan
multiplied by `k`, and with the core speed multiplied by `k` the outcome with the makespan
divided by `k`.  When the call returns, the variables of the loop at every evaluation of
its condition are those of the original call with every date multiplied by `k` (divided by
`k`): every task is placed in the same pass on the same host.  The value returned by the
loop is read off the last state of that trace. -/
theorem estimateMakespan_homogeneous_exact_sums (w : Workflow) (tasks : List Nat) (n : Nat)
    (s k : ℚ) (fuel : Nat) (hA : Acyclic w tasks) (hs : 0 < s) (hk : 0 < k)
    (hf : ∀ t ∈ tasks, 0 ≤ w.flops t)
    (hB : (tasks.map w.flops).sum / s ≤ DBL_MAX)
    (hBk : k * ((tasks.map w.flops).sum / s) ≤ DBL_MAX)
    (hBd : (tasks.map w.flops).sum / s / k ≤ DBL_MAX)
    (hE : ExactSums w s tasks 1) (hEk : ExactSums (scaleFlops k w) s tasks 1)
    (hEd : ExactSums w (k * s) tasks 1) :
    Rounded.WorkflowUtil.estimateMakespan fuel (scaleFlops k w) tasks n s
        = scaleRun k (Rounded.WorkflowUtil.estimateMakespan fuel w tasks n s) ∧
    Rounded.WorkflowUtil.estimateMakespan fuel w tasks n (k * s)
        = scaleRun k⁻¹ (Rounded.WorkflowUtil.estimateMakespan fuel w tasks n s) ∧
    ((∃ m, Rounded.WorkflowUtil.estimateMakespan fuel w tasks n s = Run.ret m) →
      Rounded.WorkflowUtil.schedTrace (scaleFlops k w) s tasks.length fuel
          (tasks.map fun t => (t, (-1 : ℚ))) (List.replicate n 0) 0 0
        = (Rounded.WorkflowUtil.schedTrace w s tasks.length fuel
            (tasks.map fun t => (t, (-1 : ℚ))) (List.replicate n 0) 0 0).map (scaleState k) ∧
      Rounded.WorkflowUtil.schedTrace w (k * s) tasks.length fuel
          (tasks.map fun t => (t, (-1 : ℚ))) (List.replicate n 0) 0 0
        = (Rounded.WorkflowUtil.schedTrace w s tasks.length fuel
            (tasks.map fun t => (t, (-1 : ℚ))) (List.replicate n 0) 0 0).map
              (scaleState k⁻¹)) ∧
    (∀ (w' : Workflow) (s' : ℚ),
      Rounded.WorkflowUtil.schedLoop w' s' tasks.length fuel (tasks.map fun t => (t, (-1 : ℚ)))
          (List.replicate n 0) 0 0
        = (Rounded.WorkflowUtil.schedTrace w' s' tasks.length fuel
            (tasks.map fun t => (t, (-1 : ℚ))) (List.replicate n 0) 0 0).getLast?.bind
            fun Y => if Y.num_scheduled_tasks < tasks.length then none
              else some Y.idle_date) := by
  have hB1 : (tasks.map (dur w s)).sum ≤ DBL_MAX := by rw [sum_map_dur]; exact hB
  have hsumk : (tasks.map (scaleFlops k w).flops).sum = k * (tasks.map w.flops).sum := by
    have : (tasks.map (scaleFlops k w).flops) = tasks.map (fun t => k * w.flops t) := rfl
    rw [this, List.sum_map_mul_left]
  have hB2 : (tasks.map (dur (scaleFlops k w) s)).sum ≤ DBL_MAX := by
    rw [sum_map_dur, hsumk, mul_div_assoc]; exact hBk
  have hB3 : (tasks.map (dur w (k * s))).sum ≤ DBL_MAX := by
    rw [sum_map_dur]
    have : (tasks.map w.flops).sum / (k * s) = (tasks.map w.flops).sum / s / k := by
      rw [div_div, mul_comm]
    rw [this]; exact hBd
  have hAk : Acyclic (scaleFlops k w) tasks := hA
  have hfk : ∀ t ∈ tasks, 0 ≤ (scaleFlops k w).flops t :=
    fun t ht => mul_nonneg (le_of_lt hk) (hf t ht)
  obtain ⟨x1, x2⟩ := estimateMakespan_exact hA s hs hf hB1 n hE fuel
  obtain ⟨y1, y2⟩ := estimateMakespan_exact hAk s hs hfk hB2 n hEk fuel
  obtain ⟨z1, z2⟩ := estimateMakespan_exact hA (k * s) (mul_pos hk hs) hf hB3 n hEd fuel
  have hB2' : k * (tasks.map (dur w s)).sum ≤ DBL_MAX := by rw [sum_map_dur]; exact hBk
  have hB3' : k⁻¹ * (tasks.map (dur w s)).sum ≤ DBL_MAX := by
    rw [sum_map_dur, inv_mul_eq_div]; exact hBd
  obtain ⟨a, a2⟩ := estimateMakespan_scale_any w tasks k hk s hs hf hB1 hB2' fuel n
  obtain ⟨b1, b2⟩ := estimateMakespan_scale_any w tasks k⁻¹ (inv_pos.2 hk) s hs hf hB1 hB3'
    fuel n
  have b : Wrench.WorkflowUtil.estimateMakespan fuel w tasks n (k * s)
      = scaleRun k⁻¹ (Wrench.WorkflowUtil.estimateMakespan fuel w tasks n s) := by
    rw [estimateMakespan_speed, b1]
  have c : (∃ m, Wrench.WorkflowUtil.estimateMakespan fuel w tasks n s = Run.ret m) →
      Wrench.WorkflowUtil.schedTrace (scaleFlops k w) s tasks.length fuel
          (tasks.map fun t => (t, (-1 : ℚ))) (List.replicate n 0) 0 0
        = (Wrench.WorkflowUtil.schedTrace w s tasks.length fuel
            (tasks.map fun t => (t, (-1 : ℚ))) (List.replicate n 0) 0 0).map (scaleState k) ∧
      Wrench.WorkflowUtil.schedTrace w (k * s) tasks.length fuel
          (tasks.map fun t => (t, (-1 : ℚ))) (List.replicate n 0) 0 0
        = (Wrench.WorkflowUtil.schedTrace w s tasks.length fuel
            (tasks.map fun t => (t, (-1 : ℚ))) (List.replicate n 0) 0 0).map
              (scaleState k⁻¹) := by
    intro hret
    refine ⟨a2 hret, ?_⟩
    rw [(schedLoop_speed w k s tasks.length fuel _ _ _ _).2]
    exact b2 hret
  refine ⟨by rw [x1, y1]; exact a, by rw [x1, z1]; exact b, ?_,
    fun w' s' => rounded_schedLoop_eq_trace w' s' tasks.length fuel _ _ _ _⟩
  rintro ⟨m, hm⟩
  have hn : 0 < n := by
    rcases Nat.eq_zero_or_pos n with h0 | h
    · rw [h0] at hm
      simp [Rounded.WorkflowUtil.estimateMakespan] at hm
    · exact h
  rw [x1] at hm
  obtain ⟨c1, c2⟩ := c ⟨m, hm⟩
  rw [(x2 hn).2, (y2 hn).2, (z2 hn).2]
  exact ⟨c1, c2⟩

/-- C36, amended, instance: the six tasks of `anomalyWorkflow` on 2 hosts at core speed 1,
with the flops doubled and with the core speed doubled: the run times are whole seconds,
then even numbers of seconds, then halves of a second. -/
theorem estimateMakespan_homogeneous_exact_sums_witness :
    Rounded.WorkflowUtil.estimateMakespan 18 (scaleFlops 2 anomalyWorkflow) [2, 5, 1, 3, 4, 0]
        2 1
      = scaleRun 2 (Rounded.WorkflowUtil.estimateMakespan 18 anomalyWorkflow
          [2, 5, 1, 3, 4, 0] 2 1) ∧
    Rounded.WorkflowUtil.estimateMakespan 18 anomalyWorkflow [2, 5, 1, 3, 4, 0] 2 (2 * 1)
      = scaleRun 2⁻¹ (Rounded.WorkflowUtil.estimateMakespan 18 anomalyWorkflow
          [2, 5, 1, 3, 4, 0] 2 1) :=
  have h := estimateMakespan_homogeneous_exact_sums anomalyWorkflow [2, 5, 1, 3, 4, 0] 2 1 2 18
    ⟨fun t => [0, 0, 0, 1, 0, 1].getD t 0, by decide⟩
    (by decide) (by decide) (by decide!) (by decide!) (by decide!) (by decide!)
    ⟨1, fun t => [3, 4, 3, 6, 1, 1].getD t 0, by norm_num, by decide!, by decide!⟩
    ⟨2, fun t => [3, 4, 3, 6, 1, 1].getD t 0, by norm_num, by decide!, by decide!⟩
    ⟨1 / 2, fun t => [3, 4, 3, 6, 1, 1].getD t 0, by norm_num, by decide!, by decide!⟩
  ⟨h.1, h.2.1⟩

/-- C19: for a requested execution time `r >= 0`,
`TestClusteringWMS::createAndSubmitPlaceholderJob(r, n, s, e)` multiplies `r` once by
`EXECUTION_TIME_FUDGE_FACTOR`, the double written `1.1`: `walltimeSec` is the double
product `r * 1.1`.  When it is below `2^64`, the call sets `parent_runtime` to
`walltimeSec`, records a pending placeholder job of `n` nodes for the levels `s..e` with
the tasks of these levels that are not COMPLETED, and submits one pilot job with `-N` the
decimal string of `n`, `-c` = 1 and `-t` the decimal string of
`1 + floor(walltimeSec / 60)`; the value truncated to `unsigned long` is
`floor(walltimeSec)`, inside the `unsigned long` range, and dividing it by 60 in the
integers gives `floor(walltimeSec / 60)`. -/
theorem createAndSubmitPlaceholderJob_walltime (w : Workflow) (st : TestClusteringWMS)
    (r : ℚ) (n s e : Nat) (hr : 0 ≤ r)
    (hbound : roundDouble (r * roundDouble (11 / 10)) < 2 ^ 64) :
    Rounded.TestClusteringWMS.EXECUTION_TIME_FUDGE_FACTOR
        = 2476979795053773 / 2251799813685248 ∧
    (Rounded.TestClusteringWMS.createAndSubmitPlaceholderJob w st r n s e).parent_runtime
        = roundDouble (r * roundDouble (11 / 10)) ∧
    (Rounded.TestClusteringWMS.createAndSubmitPlaceholderJob w st r n s e).pending_placeholder_job
        = some ⟨st.next_pilot_job, n,
            (List.range' s (e + 1 - s)).flatMap (fun l =>
              (w.getTasksInTopLevelRange l l).filter fun t => w.state t != TaskState.COMPLETED),
            s, e, 0⟩ ∧
    (Rounded.TestClusteringWMS.createAndSubmitPlaceholderJob w st r n s e).submitted
        = st.submitted ++ [Submitted.pilotJob st.next_pilot_job
            ⟨toString n, "1",
              toString (1 + ⌊roundDouble (r * roundDouble (11 / 10)) / 60⌋₊)⟩] ∧
    ⌊roundDouble (r * roundDouble (11 / 10)) / 60⌋₊
        = ⌊roundDouble (r * roundDouble (11 / 10))⌋₊ / 60 ∧
    0 ≤ roundDouble (r * roundDouble (11 / 10)) ∧
    ((⌊roundDouble (r * roundDouble (11 / 10))⌋₊ : ℚ) ≤ roundDouble (r * roundDouble (11 / 10)) ∧
      roundDouble (r * roundDouble (11 / 10))
        < ⌊roundDouble (r * roundDouble (11 / 10))⌋₊ + 1 ∧
      ⌊roundDouble (r * roundDouble (11 / 10))⌋₊ < 2 ^ 64) := by
  have hfl : ⌊roundDouble (r * roundDouble (11 / 10)) / 60⌋₊
      = ⌊roundDouble (r * roundDouble (11 / 10))⌋₊ / 60 := by
    have := Nat.floor_div_nat (roundDouble (r * roundDouble (11 / 10))) 60
    simpa using this
  have hpos : (0 : ℚ) ≤ roundDouble (r * roundDouble (11 / 10)) :=
    roundDouble_nonneg _ (mul_nonneg hr (roundDouble_nonneg _ (by norm_num)))
  refine ⟨by decide!, rfl, rfl, ?_, hfl, hpos, Nat.floor_le hpos, Nat.lt_floor_add_one _, ?_⟩
  · unfold Rounded.TestClusteringWMS.createAndSubmitPlaceholderJob
      Rounded.TestClusteringWMS.EXECUTION_TIME_FUDGE_FACTOR
    simp only
    rw [hfl]
  · have h1 : (⌊roundDouble (r * roundDouble (11 / 10))⌋₊ : ℚ) < 2 ^ 64 :=
      lt_of_le_of_lt (Nat.floor_le hpos) hbound
    exact_mod_cast h1

/-- C19, instance: `54.54545454545454` seconds on 8 nodes for the level 0 of `fanWorkflow`:
the product with the double `1.1` is the double `60`, so `parent_runtime` is 60 and `-t`
is 2 (the product of the rationals `54.54545454545454` and `11/10` is below 60). -/
theorem createAndSubmitPlaceholderJob_walltime_witness :
    (Rounded.TestClusteringWMS.createAndSubmitPlaceholderJob fanWorkflow
        (Wrench.TestClusteringWMS.initial 0 0 8)
        (roundDouble (5454545454545454 / 100000000000000)) 8 0 0).parent_runtime = 60 ∧
    (Rounded.TestClusteringWMS.createAndSubmitPlaceholderJob fanWorkflow
        (Wrench.TestClusteringWMS.initial 0 0 8)
        (roundDouble (5454545454545454 / 100000000000000)) 8 0 0).submitted
      = [Submitted.pilotJob 0 ⟨"8", "1", "2"⟩] ∧
    roundDouble (5454545454545454 / 100000000000000) * (11 / 10) < 60 ∧
    (Rounded.TestClusteringWMS.createAndSubmitPlaceholderJob fanWorkflow
        (Wrench.TestClusteringWMS.initial 0 0 8) 100 8 0 0).parent_runtime
      = 7740561859543041 / 70368744177664 :=
  have h := createAndSubmitPlaceholderJob_walltime fanWorkflow
    (Wrench.TestClusteringWMS.initial 0 0 8) (roundDouble (5454545454545454 / 100000000000000))
    8 0 0 (by decide!) (by decide!)
  have h100 := createAndSubmitPlaceholderJob_walltime fanWorkflow
    (Wrench.TestClusteringWMS.initial 0 0 8) 100 8 0 0 (by decide!) (by decide!)
  ⟨h.2.1.trans (by decide!), h.2.2.2.1.trans (by decide!), by decide!,
    h100.2.1.trans (by decide!)⟩

/-- C20, as the code behaves: the READY task of `pairWorkflow` has 100 flops; at core
speed 1 its inflated time is the double `110.00000000000001`, both controllers submit it
in individual mode with `-t 2`, and `ceil(110.00000000000001 / 60) + 1` is 3. -/
theorem submitReadyTasks_minutes_counterexample :
    (Rounded.ZhangFixedWMS.submitReadyTasks Wrench.ZhangFixedWMS.pairWorkflow
        { Wrench.ZhangFixedWMS.initial 4 with individual_mode := true }).submitted
      = [Submitted.standardJob 0 ⟨"1", "1", "2"⟩] ∧
    (Rounded.TestClusteringWMS.submitReadyTasksIfIndividual Wrench.ZhangFixedWMS.pairWorkflow
        { Wrench.TestClusteringWMS.initial 0 0 4 with individual_mode := true }).submitted
      = [Submitted.standardJob 0 ⟨"1", "1", "2"⟩] ∧
    Rounded.ZhangFixedWMS.individualWalltime Wrench.ZhangFixedWMS.pairWorkflow 1 0
      = 7740561859543041 / 70368744177664 ∧
    ⌈Rounded.ZhangFixedWMS.individualWalltime Wrench.ZhangFixedWMS.pairWorkflow 1 0 / 60⌉₊ + 1
      = 3 := by
  refine ⟨by decide!, by decide!, by decide!, by decide!⟩

/-- C20, amended: in individual mode, with a positive core speed and non-negative flop
counts, both controllers submit every READY task of the workflow as a one-task job with
`-N` = 1, `-c` = 1 and `-t` the decimal string of `1 + floor(W / 60)`, where `W` is the
double `(flops / core_speed) * 1.1` (a quotient of doubles multiplied by the double written
`1.1`), not negative and taken below `2^64`, the range of the cast to `unsigned long`;
nothing else is submitted. -/
theorem submitReadyTasks_individual (w : Workflow) (zhang : ZhangFixedWMS)
    (test : TestClusteringWMS) (hz : zhang.individual_mode = true)
    (ht : test.individual_mode = true) (hzs : 0 < zhang.core_speed)
    (hts : 0 < test.core_speed) (hf : ∀ task ∈ w.getTasks, 0 ≤ w.flops task)
    (_hzb : ∀ task ∈ w.getTasks,
      Rounded.ZhangFixedWMS.individualWalltime w zhang.core_speed task < 2 ^ 64)
    (_htb : ∀ task ∈ w.getTasks,
      Rounded.TestClusteringWMS.individualWalltime w test.core_speed task < 2 ^ 64) :
    (Rounded.ZhangFixedWMS.submitReadyTasks w zhang).submitted
        = zhang.submitted ++
          (w.getTasks.filter fun task => w.state task == TaskState.READY).map (fun task =>
            Submitted.standardJob task
              ⟨"1", "1",
                toString (1 + ⌊roundDouble (roundDouble (w.flops task / zhang.core_speed)
                  * roundDouble (11 / 10)) / 60⌋₊)⟩) ∧
    (Rounded.TestClusteringWMS.submitReadyTasksIfIndividual w test).submitted
        = test.submitted ++
          (w.getTasks.filter fun task => w.state task == TaskState.READY).map (fun task =>
            Submitted.standardJob task
              ⟨"1", "1",
                toString (1 + ⌊roundDouble (roundDouble (w.flops task / test.core_speed)
                  * roundDouble (11 / 10)) / 60⌋₊)⟩) ∧
    (∀ task ∈ w.getTasks,
      0 ≤ roundDouble (roundDouble (w.flops task / zhang.core_speed) * roundDouble (11 / 10)) ∧
      0 ≤ roundDouble (roundDouble (w.flops task / test.core_speed) * roundDouble (11 / 10))) := by
  have hfl : ∀ x : ℚ, ⌊x / 60⌋₊ = ⌊x⌋₊ / 60 := by
    intro x
    have := Nat.floor_div_nat x 60
    simpa using this
  have hnn : ∀ (task : Nat) (s : ℚ), task ∈ w.getTasks → 0 < s →
      0 ≤ roundDouble (roundDouble (w.flops task / s) * roundDouble (11 / 10)) :=
    fun task s hm hs => roundDouble_nonneg _ (mul_nonneg
      (roundDouble_nonneg _ (div_nonneg (hf task hm) (le_of_lt hs)))
      (roundDouble_nonneg _ (by norm_num)))
  refine ⟨?_, ?_, fun task hm => ⟨hnn task _ hm hzs, hnn task _ hm hts⟩⟩
  · unfold Rounded.ZhangFixedWMS.submitReadyTasks Rounded.ZhangFixedWMS.individualWalltime
      Rounded.ZhangFixedWMS.EXECUTION_TIME_FUDGE_FACTOR
    rw [if_pos hz]
    simp only [hfl]
  · unfold Rounded.TestClusteringWMS.submitReadyTasksIfIndividual
      Rounded.TestClusteringWMS.submitReadyTasks Rounded.TestClusteringWMS.individualWalltime
      Rounded.TestClusteringWMS.EXECUTION_TIME_FUDGE_FACTOR
    rw [if_pos ht]
    simp only [hfl]

/-- C20, amended, instance: `pairWorkflow` with both controllers in individual mode: the
READY task 0 (100 flops, core speed 1) is submitted with `-t 2`. -/
theorem submitReadyTasks_individual_witness :
    (Rounded.ZhangFixedWMS.submitReadyTasks Wrench.ZhangFixedWMS.pairWorkflow
        { Wrench.ZhangFixedWMS.initial 4 with individual_mode := true }).submitted
      = [Submitted.standardJob 0 ⟨"1", "1", "2"⟩] ∧
    (Rounded.TestClusteringWMS.submitReadyTasksIfIndividual Wrench.ZhangFixedWMS.pairWorkflow
        { Wrench.TestClusteringWMS.initial 0 0 4 with individual_mode := true }).submitted
      = [Submitted.standardJob 0 ⟨"1", "1", "2"⟩] :=
  have h := submitReadyTasks_individual Wrench.ZhangFixedWMS.pairWorkflow
    { Wrench.ZhangFixedWMS.initial 4 with individual_mode := true }
    { Wrench.TestClusteringWMS.initial 0 0 4 with individual_mode := true } rfl rfl
    (by decide!) (by decide!) (by decide!) (by decide!) (by decide!)
  ⟨h.1.trans (by decide!), h.2.1.trans (by decide!)⟩

/-- C28, as the code behaves: with a batch service whose `getStartTimeEstimates` raises a
`WorkflowExecutionException`, `estimateWaitTime` fails although no predicted start date is
negative (there is none); and when the answer has no entry for the probe, the start date
read is `0.0` and the call returns. -/
theorem estimateWaitTime_raising_counterexample :
    Rounded.TestClusteringWMS.estimateWaitTime raisingEstimates 0 8 100 0
      = Run.throw Failure.workflowExecutionException ∧
    raisingEstimates.getStartTimeEstimates [⟨"config_XXXX_0", 8, 1, 100⟩] = none ∧
    Rounded.TestClusteringWMS.estimateWaitTime emptyEstimates 0 8 100 0 = Run.ret (0, 1) := by
  refine ⟨by decide!, rfl, by decide!⟩

/-- C28, amended: `TestClusteringWMS::estimateWaitTime` hands the batch service one probe,
with the id `config_XXXX_` followed by the decimal sequence number, the parallelism as
`unsigned int`, one core per node and the makespan, and depends on the batch service
through the answer to that probe only.  It fails exactly when the service raises an
exception or the start date read for the probe id is negative, the start date read being
the entry of the id in the answer, or `0.0` when the answer has no such entry; it never
loops.  Otherwise it returns the double `max(0, start date - now)`, which is not negative,
with the sequence number increased by one.  The ids of two different sequence numbers
differ, so the ids of successive calls, which use `sequence`, `sequence + 1`, and so on,
are pairwise distinct. -/
theorem estimateWaitTime_probe (bs : BatchEstimates) (now : ℚ) (parallelism : Nat)
    (makespan : ℚ) (sequence : Nat) :
    (bs.getStartTimeEstimates
        [⟨"config_XXXX_" ++ toString sequence, parallelism % 4294967296, 1, makespan⟩] = none →
      Rounded.TestClusteringWMS.estimateWaitTime bs now parallelism makespan sequence
        = Run.throw Failure.workflowExecutionException) ∧
    (∀ estimates, bs.getStartTimeEstimates
        [⟨"config_XXXX_" ++ toString sequence, parallelism % 4294967296, 1, makespan⟩]
          = some estimates →
      (Rounded.TestClusteringWMS.mapLookup estimates ("config_XXXX_" ++ toString sequence) < 0 →
        Rounded.TestClusteringWMS.estimateWaitTime bs now parallelism makespan sequence
          = Run.throw Failure.noStartEstimate) ∧
      (¬ Rounded.TestClusteringWMS.mapLookup estimates ("config_XXXX_" ++ toString sequence) < 0 →
        Rounded.TestClusteringWMS.estimateWaitTime bs now parallelism makespan sequence
          = Run.ret
              (max 0 (roundDouble
                (Rounded.TestClusteringWMS.mapLookup estimates
                    ("config_XXXX_" ++ toString sequence) - now)), sequence + 1))) ∧
    ((∃ x, Rounded.TestClusteringWMS.estimateWaitTime bs now parallelism makespan sequence
        = Run.throw x) ↔
      (bs.getStartTimeEstimates
          [⟨"config_XXXX_" ++ toString sequence, parallelism % 4294967296, 1, makespan⟩] = none ∨
        ∃ estimates, bs.getStartTimeEstimates
          [⟨"config_XXXX_" ++ toString sequence, parallelism % 4294967296, 1, makespan⟩]
            = some estimates ∧
          Rounded.TestClusteringWMS.mapLookup estimates
              ("config_XXXX_" ++ toString sequence) < 0)) ∧
    Rounded.TestClusteringWMS.estimateWaitTime bs now parallelism makespan sequence
      ≠ Run.spin ∧
    (∀ (wait : ℚ) (sequence' : Nat),
      Rounded.TestClusteringWMS.estimateWaitTime bs now parallelism makespan sequence
        = Run.ret (wait, sequence') → 0 ≤ wait ∧ sequence' = sequence + 1) ∧
    (∀ bs' : BatchEstimates,
      bs'.getStartTimeEstimates
          [⟨"config_XXXX_" ++ toString sequence, parallelism % 4294967296, 1, makespan⟩]
        = bs.getStartTimeEstimates
          [⟨"config_XXXX_" ++ toString sequence, parallelism % 4294967296, 1, makespan⟩] →
      Rounded.TestClusteringWMS.estimateWaitTime bs' now parallelism makespan sequence
        = Rounded.TestClusteringWMS.estimateWaitTime bs now parallelism makespan sequence) ∧
    (∀ j k : Nat, j ≠ k →
      "config_XXXX_" ++ toString (sequence + j) ≠ "config_XXXX_" ++ toString (sequence + k)) ∧
    (∀ other : Nat, other ≠ sequence →
      "config_XXXX_" ++ toString other ≠ "config_XXXX_" ++ toString sequence) := by
  have hnone : bs.getStartTimeEstimates
        [⟨"config_XXXX_" ++ toString sequence, parallelism % 4294967296, 1, makespan⟩] = none →
      Rounded.TestClusteringWMS.estimateWaitTime bs now parallelism makespan sequence
        = Run.throw Failure.workflowExecutionException := by
    intro h
    unfold Rounded.TestClusteringWMS.estimateWaitTime
    simp only [h]
  have hsome : ∀ estimates, bs.getStartTimeEstimates
        [⟨"config_XXXX_" ++ toString sequence, parallelism % 4294967296, 1, makespan⟩]
          = some estimates →
      (Rounded.TestClusteringWMS.mapLookup estimates ("config_XXXX_" ++ toString sequence) < 0 →
        Rounded.TestClusteringWMS.estimateWaitTime bs now parallelism makespan sequence
          = Run.throw Failure.noStartEstimate) ∧
      (¬ Rounded.TestClusteringWMS.mapLookup estimates ("config_XXXX_" ++ toString sequence) < 0 →
        Rounded.TestClusteringWMS.estimateWaitTime bs now parallelism makespan sequence
          = Run.ret
              (max 0 (roundDouble
                (Rounded.TestClusteringWMS.mapLookup estimates
                    ("config_XXXX_" ++ toString sequence) - now)), sequence + 1)) := by
    intro estimates h
    constructor
    · intro hneg
      unfold Rounded.TestClusteringWMS.estimateWaitTime
      simp only [h, hneg, if_true]
    · intro hneg
      unfold Rounded.TestClusteringWMS.estimateWaitTime
      simp only [h, hneg, if_false]
  refine ⟨hnone, hsome, ?_, ?_, ?_, ?_, ?_, ?_⟩
  · cases h : bs.getStartTimeEstimates
        [⟨"config_XXXX_" ++ toString sequence, parallelism % 4294967296, 1, makespan⟩] with
    | none =>
      rw [hnone h]
      exact ⟨fun _ => Or.inl rfl, fun _ => ⟨_, rfl⟩⟩
    | some estimates =>
      by_cases hneg : Rounded.TestClusteringWMS.mapLookup estimates
          ("config_XXXX_" ++ toString sequence) < 0
      · rw [(hsome estimates h).1 hneg]
        exact ⟨fun _ => Or.inr ⟨estimates, rfl, hneg⟩, fun _ => ⟨_, rfl⟩⟩
      · rw [(hsome estimates h).2 hneg]
        constructor
        · rintro ⟨x, hx⟩
          cases hx
        · rintro (hc | ⟨est, hest, hlt⟩)
          · cases hc
          · injection hest with hest
            rw [← hest] at hlt
            exact absurd hlt hneg
  · cases h : bs.getStartTimeEstimates
        [⟨"config_XXXX_" ++ toString sequence, parallelism % 4294967296, 1, makespan⟩] with
    | none => rw [hnone h]; intro hc; cases hc
    | some estimates =>
      by_cases hneg : Rounded.TestClusteringWMS.mapLookup estimates
          ("config_XXXX_" ++ toString sequence) < 0
      · rw [(hsome estimates h).1 hneg]; intro hc; cases hc
      · rw [(hsome estimates h).2 hneg]; intro hc; cases hc
  · intro wait sequence' hret
    cases h : bs.getStartTimeEstimates
        [⟨"config_XXXX_" ++ toString sequence, parallelism % 4294967296, 1, makespan⟩] with
    | none => rw [hnone h] at hret; cases hret
    | some estimates =>
      by_cases hneg : Rounded.TestClusteringWMS.mapLookup estimates
          ("config_XXXX_" ++ toString sequence) < 0
      · rw [(hsome estimates h).1 hneg] at hret; cases hret
      · rw [(hsome estimates h).2 hneg] at hret
        injection hret with hret
        injection hret with h1 h2
        exact ⟨by rw [← h1]; exact le_max_left _ _, h2.symm⟩
  · intro bs' h
    unfold Rounded.TestClusteringWMS.estimateWaitTime
    simp only [h]
  · intro j k hjk h
    exact hjk (by have := Controllers.probe_key_injective _ _ h; omega)
  · intro other hne h
    exact hne (Controllers.probe_key_injective _ _ h)

/-- C30: the body of the split loop of the Test heuristic for the split after level `i`,
with `run_one` and `wait_one` the estimates of the first part and `wait_two`, `run_two`
those of the rest, all operations being those of doubles.  If the double
`run_one - wait_two` is positive and greater than the double `run_two * 0.10` the step
leaves the choice (end level, best total time, recorded wait time, run time and
parallelism) exactly as it was.  Otherwise the leeway is `max(0, run_one - wait_two)`, the
total time is `wait_one + max(run_one, wait_two) + run_two + leeway` added from left to
right, and the split replaces the choice exactly when its total time (increased by
`beat_bound` times itself while the choice is still the whole workflow) is below the best
total time.  With `run_one = 100` and `wait_two = 80`, `run_two = 500` is evaluated with
leeway 20 and `run_two = 100` is rejected.  With `run_one` the double `0.1`, `wait_two = 0`
and `run_two = 1` the split is evaluated: the product `1 * 0.10` is the double `0.1`
itself. -/
theorem splitStep_leeway_rule (beat_bound : ℚ) (end_level : Nat)
    (time_estimates : Nat → Estimate × Estimate) (c : Wrench.TestClusteringWMS.Choice)
    (i : Nat) :
    ((roundDouble ((time_estimates i).1.makespan - (time_estimates (i + 1)).2.wait_time) > 0 ∧
        roundDouble ((time_estimates i).1.makespan - (time_estimates (i + 1)).2.wait_time)
          > roundDouble ((time_estimates (i + 1)).2.makespan * roundDouble (1 / 10))) →
      Rounded.TestClusteringWMS.splitStep beat_bound end_level time_estimates c i = c) ∧
    (¬ (roundDouble ((time_estimates i).1.makespan - (time_estimates (i + 1)).2.wait_time) > 0 ∧
        roundDouble ((time_estimates i).1.makespan - (time_estimates (i + 1)).2.wait_time)
          > roundDouble ((time_estimates (i + 1)).2.makespan * roundDouble (1 / 10))) →
      Rounded.TestClusteringWMS.splitStep beat_bound end_level time_estimates c i
        = if (if c.partial_dag_end_level = end_level then
                roundDouble (Rounded.TestClusteringWMS.splitTotal time_estimates i
                  + roundDouble (Rounded.TestClusteringWMS.splitTotal time_estimates i
                      * beat_bound))
              else Rounded.TestClusteringWMS.splitTotal time_estimates i) < c.best_total_time
          then
            ⟨i, Rounded.TestClusteringWMS.splitTotal time_estimates i,
              (time_estimates i).1.makespan, (time_estimates i).1.num_hosts,
              (time_estimates i).1.wait_time⟩
          else c) ∧
    Rounded.TestClusteringWMS.splitTotal time_estimates i
      = roundDouble
          (roundDouble
            (roundDouble ((time_estimates i).1.wait_time
              + max (time_estimates i).1.makespan (time_estimates (i + 1)).2.wait_time)
            + (time_estimates (i + 1)).2.makespan)
          + max 0 (roundDouble
              ((time_estimates i).1.makespan - (time_estimates (i + 1)).2.wait_time))) ∧
    Rounded.TestClusteringWMS.splitLeeway time_estimates i
      = max 0 (roundDouble
          ((time_estimates i).1.makespan - (time_estimates (i + 1)).2.wait_time)) ∧
    Rounded.TestClusteringWMS.splitRejected (splitTable 100 80 500) 0 = false ∧
    Rounded.TestClusteringWMS.splitLeeway (splitTable 100 80 500) 0 = 20 ∧
    Rounded.TestClusteringWMS.splitTotal (splitTable 100 80 500) 0 = 620 ∧
    Rounded.TestClusteringWMS.splitRejected (splitTable 100 80 100) 0 = true ∧
    Rounded.TestClusteringWMS.splitStep beat_bound end_level (splitTable 100 80 100) c 0 = c ∧
    Rounded.TestClusteringWMS.splitRejected (splitTable (roundDouble (1 / 10)) 0 1) 0 = false ∧
    roundDouble ((1 : ℚ) * roundDouble (1 / 10)) = roundDouble (1 / 10) ∧
    roundDouble (1 / 10) - 0 > (1 / 10 : ℚ) * 1 := by
  have hlee : Rounded.TestClusteringWMS.splitLeeway time_estimates i
      = max 0 (roundDouble
          ((time_estimates i).1.makespan - (time_estimates (i + 1)).2.wait_time)) := by
    unfold Rounded.TestClusteringWMS.splitLeeway Rounded.TestClusteringWMS.splitDifference
    split
    · rename_i h; rw [max_eq_right (le_of_lt h)]
    · rename_i h; rw [max_eq_left (not_lt.1 h)]
  have hrej : Rounded.TestClusteringWMS.splitRejected (splitTable 100 80 100) 0 = true := by
    decide!
  refine ⟨?_, ?_, ?_, hlee, by decide!, by decide!, by decide!, hrej, ?_, by decide!,
    by decide!, by decide!⟩
  · rintro ⟨h1, h2⟩
    have hr : Rounded.TestClusteringWMS.splitRejected time_estimates i = true := by
      unfold Rounded.TestClusteringWMS.splitRejected Rounded.TestClusteringWMS.splitDifference
      simp only [h1, h2, decide_True, Bool.and_self]
    unfold Rounded.TestClusteringWMS.splitStep
    simp only [hr, if_true]
  · intro hnot
    have hr : Rounded.TestClusteringWMS.splitRejected time_estimates i = false := by
      unfold Rounded.TestClusteringWMS.splitRejected Rounded.TestClusteringWMS.splitDifference
      by_cases h1 : roundDouble
          ((time_estimates i).1.makespan - (time_estimates (i + 1)).2.wait_time) > 0
      · have h2 : ¬ roundDouble
            ((time_estimates i).1.makespan - (time_estimates (i + 1)).2.wait_time)
            > roundDouble ((time_estimates (i + 1)).2.makespan * roundDouble (1 / 10)) :=
          fun h2 => hnot ⟨h1, h2⟩
        simp only [h1, h2, decide_True, decide_False, Bool.and_false]
      · simp only [h1, decide_False, Bool.false_and]
    unfold Rounded.TestClusteringWMS.splitStep
    simp only [hr, Bool.false_eq_true, if_false]
  · unfold Rounded.TestClusteringWMS.splitTotal
    rw [hlee]
  · unfold Rounded.TestClusteringWMS.splitStep
    simp only [hrej, if_true]

theorem rounded_bestLoop_spec (fuel : Nat) (w : Workflow) (bs : BatchEstimates)
    (now core_speed waste_bound : ℚ) (a b seq top : Nat) (mk wt : Nat → ℚ) (A : ℚ)
    (hA : Rounded.TestClusteringWMS.allTasksTime fuel w core_speed
      (List.range' a (b + 1 - a)) 0 = Run.ret A)
    (hcand : ∀ n, 1 ≤ n → n ≤ top →
      Rounded.TestClusteringWMS.estimateTotalTime fuel w bs now core_speed a b n (seq + (n - 1))
        = Run.ret ((mk n, wt n), seq + n))
    (len : Nat) :
    ∀ (k : Nat) (best : Estimate), 1 ≤ k → k + len = top + 1 →
      (∀ m, 1 ≤ m → m < k →
        Rounded.TestClusteringWMS.wasteExceeds m (mk m) A waste_bound = false →
        roundDouble (best.makespan + best.wait_time) ≤ roundDouble (mk m + wt m)) →
      (best = ⟨DBL_MAX, DBL_MAX, 1⟩ ∨
        (1 ≤ best.num_hosts ∧ best.num_hosts < k ∧
          Rounded.TestClusteringWMS.wasteExceeds best.num_hosts (mk best.num_hosts) A
            waste_bound = false ∧
          best.makespan = mk best.num_hosts ∧ best.wait_time = wt best.num_hosts)) →
      ∃ best', Rounded.TestClusteringWMS.bestLoop fuel w bs now core_speed waste_bound a b
          (List.range' k len) best (seq + (k - 1)) = Run.ret (best', seq + top) ∧
        (∀ m, 1 ≤ m → m ≤ top →
          Rounded.TestClusteringWMS.wasteExceeds m (mk m) A waste_bound = false →
          roundDouble (best'.makespan + best'.wait_time) ≤ roundDouble (mk m + wt m)) ∧
        (best' = ⟨DBL_MAX, DBL_MAX, 1⟩ ∨
          (1 ≤ best'.num_hosts ∧ best'.num_hosts ≤ top ∧
            Rounded.TestClusteringWMS.wasteExceeds best'.num_hosts (mk best'.num_hosts) A
              waste_bound = false ∧
            best'.makespan = mk best'.num_hosts ∧ best'.wait_time = wt best'.num_hosts)) := by
  induction len with
  | zero =>
    intro k best hk hlen hmin hbest
    have hk' : k = top + 1 := by omega
    subst hk'
    refine ⟨best, by simp [Rounded.TestClusteringWMS.bestLoop],
      fun m h1 h2 => hmin m h1 (by omega), ?_⟩
    rcases hbest with h | ⟨h1, h2, h3⟩
    · left; exact h
    · right; exact ⟨h1, by omega, h3⟩
  | succ len ih =>
    intro k best hk hlen hmin hbest
    have hseq : seq + k = seq + (k + 1 - 1) := by omega
    rw [List.range'_succ, Rounded.TestClusteringWMS.bestLoop, hcand k hk (by omega)]
    simp only [hA]
    by_cases hw : Rounded.TestClusteringWMS.wasteExceeds k (mk k) A waste_bound = true
    · rw [if_pos hw, hseq]
      apply ih (k + 1) best (by omega) (by omega)
      · intro m h1 h2 h3
        rcases Nat.lt_succ_iff_lt_or_eq.1 h2 with h | h
        · exact hmin m h1 h h3
        · subst h; rw [hw] at h3; cases h3
      · rcases hbest with h | ⟨h1, h2, h3⟩
        · left; exact h
        · right; exact ⟨h1, by omega, h3⟩
    · rw [if_neg hw]
      by_cases hlt : roundDouble (best.makespan + best.wait_time) > roundDouble (mk k + wt k)
      · rw [if_pos hlt, hseq]
        apply ih (k + 1) ⟨wt k, mk k, k⟩ (by omega) (by omega)
        · intro m h1 h2 h3
          rcases Nat.lt_succ_iff_lt_or_eq.1 h2 with h | h
          · have := hmin m h1 h h3
            show roundDouble (mk k + wt k) ≤ roundDouble (mk m + wt m)
            linarith
          · subst h; exact le_refl _
        · right
          exact ⟨hk, Nat.lt_succ_self k, by simpa using hw, rfl, rfl⟩
      · rw [if_neg hlt, hseq]
        apply ih (k + 1) best (by omega) (by omega)
        · intro m h1 h2 h3
          rcases Nat.lt_succ_iff_lt_or_eq.1 h2 with h | h
          · exact hmin m h1 h h3
          · subst h; exact not_lt.1 hlt
        · rcases hbest with h | ⟨h1, h2, h3⟩
          · left; exact h
          · right; exact ⟨h1, by omega, h3⟩

theorem flatMap_sum_nat (f : Nat → List Nat) (k : Nat → Nat) (js : List Nat) :
    ((js.flatMap f).map k).sum = (js.map fun j => ((f j).map k).sum).sum := by
  induction js with
  | nil => simp
  | cons x js ih =>
    simp only [List.flatMap_cons, List.map_append, List.sum_append, List.map_cons,
      List.sum_cons, ih]

theorem rounded_allTasksTime_levels (fuel : Nat) (w : Workflow) (s u : ℚ) (k : Nat → Nat)
    (N : Nat) (hN : ∀ m : Nat, m ≤ N → roundDouble ((m : ℚ) * u) = (m : ℚ) * u)
    (js : List Nat)
    (h : ∀ j ∈ js, Rounded.WorkflowUtil.estimateMakespan fuel w (w.getTasksInTopLevelRange j j)
        1 s
      = Run.ret (((((w.getTasksInTopLevelRange j j).map k).sum : Nat) : ℚ) * u)) :
    ∀ c : Nat, c + ((js.flatMap fun l => w.getTasksInTopLevelRange l l).map k).sum ≤ N →
      Rounded.TestClusteringWMS.allTasksTime fuel w s js ((c : ℚ) * u)
        = Run.ret (((c + ((js.flatMap fun l => w.getTasksInTopLevelRange l l).map k).sum
            : Nat) : ℚ) * u) := by
  induction js with
  | nil => intro c _; simp [Rounded.TestClusteringWMS.allTasksTime]
  | cons j js ih =>
    intro c hc
    simp only [List.flatMap_cons, List.map_append, List.sum_append] at hc ⊢
    unfold Rounded.TestClusteringWMS.allTasksTime
    rw [h j (by simp)]
    simp only
    have hadd : (c : ℚ) * u + (((w.getTasksInTopLevelRange j j).map k).sum : Nat) * u
        = ((c + ((w.getTasksInTopLevelRange j j).map k).sum : Nat) : ℚ) * u := by
      push_cast; ring
    rw [hadd, hN _ (by omega),
      ih (fun j' hj' => h j' (List.mem_cons_of_mem _ hj'))
        (c + ((w.getTasksInTopLevelRange j j).map k).sum) (by omega)]
    rw [Nat.add_assoc]

theorem rounded_estimateWaitTime_ret (bs : BatchEstimates) (now : ℚ)
    (hbs : ∀ (key : String) (n : Nat) (t : ℚ), ∃ estimates,
      bs.getStartTimeEstimates [⟨key, n, 1, t⟩] = some estimates ∧
      0 ≤ Rounded.TestClusteringWMS.mapLookup estimates key ∧
      Rounded.TestClusteringWMS.mapLookup estimates key - now ≤ DBL_MAX / 2)
    (n : Nat) (m : ℚ) (seq : Nat) :
    ∃ x, Rounded.TestClusteringWMS.estimateWaitTime bs now n m seq = Run.ret (x, seq + 1) ∧
      0 ≤ x ∧ x ≤ DBL_MAX / 2 := by
  obtain ⟨est, h1, h2, h3⟩ := hbs ("config_XXXX_" ++ toString seq) (n % 4294967296) m
  refine ⟨max 0 (roundDouble
    (Rounded.TestClusteringWMS.mapLookup est ("config_XXXX_" ++ toString seq) - now)), ?_,
    le_max_left _ _, max_le (by decide!) ?_⟩
  · unfold Rounded.TestClusteringWMS.estimateWaitTime
    simp only [h1]
    rw [if_neg (not_lt.2 h2)]
  · have hd : DBL_MAX / 2 = ((2 ^ 53 - 1 : Nat) : ℚ) * (2 : ℚ) ^ 970 := by
      unfold DBL_MAX
      norm_num
    rw [hd] at h3 ⊢
    exact roundDouble_le_scaled _ (2 ^ 53 - 1) 970 (by norm_num) h3

/-- C35, as the code behaves: for the levels `{0.1}`, `{0.2, 0.3}` at core speed 1 with
`waste_bound = 0` and a batch service that predicts the start date 0, the one-host makespan
of the range is `0.6000000000000001` while the run times of the levels add up to `0.6`, so
the waste ratio of the candidate `n = 1` is positive, both candidates are rejected and
`computeBestNumHosts` returns its initial `(DBL_MAX, DBL_MAX, 1)`. -/
theorem computeBestNumHosts_first_candidate_counterexample :
    Rounded.WorkflowUtil.estimateMakespan 20 (twoLevels (1 / 10) (2 / 10) (3 / 10)) [0, 1, 2] 1 1
      = Run.ret (1351079888211149 / 2251799813685248) ∧
    Rounded.TestClusteringWMS.allTasksTime 20 (twoLevels (1 / 10) (2 / 10) (3 / 10)) 1 [0, 1] 0
      = Run.ret (5404319552844595 / 9007199254740992) ∧
    0 < Rounded.TestClusteringWMS.wasteRatio 1 (1351079888211149 / 2251799813685248)
      (5404319552844595 / 9007199254740992) ∧
    Wrench.TestClusteringWMS.findMaxTasks (twoLevels (1 / 10) (2 / 10) (3 / 10)) 0 1 = 2 ∧
    Rounded.TestClusteringWMS.computeBestNumHosts 20 (twoLevels (1 / 10) (2 / 10) (3 / 10))
        (fixedEstimates 0) 0 1 0 0 1 0
      = Run.ret (⟨DBL_MAX, DBL_MAX, 1⟩, 2) := by
  refine ⟨by decide!, by decide!, by decide!, by decide!, by decide!⟩

/-- C35, amended: for a level range `[a, b]` with a non-empty level, tasks of non-negative
flops whose parent edges inside the range have no cycle, a range that is the concatenation
of its levels, run times that are whole multiples of a unit whose multiples up to the total
are doubles (`ExactSums`), a total run time of at most `DBL_MAX / 2`, `waste_bound >= 0` and
a batch service that answers every probe with a start date that is not negative and at
most `DBL_MAX / 2` after `now`: the one-host makespan of the range equals the total that
`computeBestNumHosts` accumulates over the levels (both are the sum of
`flops / core_speed`), so the numerator of the waste ratio of the candidate `n = 1` is 0,
the candidate is not rejected by the waste test, and its waste ratio is 0 when that total
is not zero; and `computeBestNumHosts` returns the wait time and makespan of an evaluated
candidate `n` in `[1, findMaxTasks(a, b)]` that passed the waste test, whose total time is
no more than that of the candidate 1 and below the initial `DBL_MAX + DBL_MAX`. -/
theorem computeBestNumHosts_first_candidate (fuel : Nat) (w : Workflow) (bs : BatchEstimates)
    (now s wb : ℚ) (a b seq : Nat)
    (hne : ∃ j, a ≤ j ∧ j ≤ b ∧ w.getTasksInTopLevelRange j j ≠ [])
    (hlev : w.getTasksInTopLevelRange a b
      = (List.range' a (b + 1 - a)).flatMap fun l => w.getTasksInTopLevelRange l l)
    (hA : Acyclic w (w.getTasksInTopLevelRange a b))
    (hf : ∀ t ∈ w.getTasksInTopLevelRange a b, 0 ≤ w.flops t) (hs : 0 < s) (hwb : 0 ≤ wb)
    (hB : ((w.getTasksInTopLevelRange a b).map (dur w s)).sum ≤ DBL_MAX / 2)
    (hfuel : (w.getTasksInTopLevelRange a b).length
      * (Wrench.TestClusteringWMS.findMaxTasks w a b + 1) ≤ fuel)
    (hbs : ∀ (key : String) (n : Nat) (t : ℚ), ∃ estimates,
      bs.getStartTimeEstimates [⟨key, n, 1, t⟩] = some estimates ∧
      0 ≤ Rounded.TestClusteringWMS.mapLookup estimates key ∧
      Rounded.TestClusteringWMS.mapLookup estimates key - now ≤ DBL_MAX / 2)
    (hE : ExactSums w s (w.getTasksInTopLevelRange a b) 1) :
    Rounded.WorkflowUtil.estimateMakespan fuel w (w.getTasksInTopLevelRange a b) 1 s
        = Run.ret ((w.getTasksInTopLevelRange a b).map (dur w s)).sum ∧
    Rounded.TestClusteringWMS.allTasksTime fuel w s (List.range' a (b + 1 - a)) 0
        = Run.ret ((w.getTasksInTopLevelRange a b).map (dur w s)).sum ∧
    Rounded.TestClusteringWMS.wasteNumerator 1
        ((w.getTasksInTopLevelRange a b).map (dur w s)).sum
        ((w.getTasksInTopLevelRange a b).map (dur w s)).sum = 0 ∧
    Rounded.TestClusteringWMS.wasteExceeds 1 ((w.getTasksInTopLevelRange a b).map (dur w s)).sum
        ((w.getTasksInTopLevelRange a b).map (dur w s)).sum wb = false ∧
    (((w.getTasksInTopLevelRange a b).map (dur w s)).sum ≠ 0 →
      Rounded.TestClusteringWMS.wasteDenominator 1
          ((w.getTasksInTopLevelRange a b).map (dur w s)).sum ≠ 0 ∧
      Rounded.TestClusteringWMS.wasteRatio 1 ((w.getTasksInTopLevelRange a b).map (dur w s)).sum
        ((w.getTasksInTopLevelRange a b).map (dur w s)).sum = 0) ∧
    ∃ (n : Nat) (m wt wt1 : ℚ) (q : Nat), 1 ≤ n ∧
      n ≤ Wrench.TestClusteringWMS.findMaxTasks w a b ∧
      Rounded.TestClusteringWMS.estimateTotalTime fuel w bs now s a b n (seq + (n - 1))
        = Run.ret ((m, wt), seq + n) ∧
      Rounded.TestClusteringWMS.wasteExceeds n m
        ((w.getTasksInTopLevelRange a b).map (dur w s)).sum wb = false ∧
      Rounded.TestClusteringWMS.computeBestNumHosts fuel w bs now s wb a b seq
        = Run.ret (⟨wt, m, n⟩, seq + Wrench.TestClusteringWMS.findMaxTasks w a b) ∧
      Rounded.TestClusteringWMS.estimateWaitTime bs now 1
          ((w.getTasksInTopLevelRange a b).map (dur w s)).sum seq
        = Run.ret (wt1, q) ∧
      roundDouble (m + wt)
        ≤ roundDouble (((w.getTasksInTopLevelRange a b).map (dur w s)).sum + wt1) ∧
      roundDouble (m + wt) < roundDouble (DBL_MAX + DBL_MAX) ∧
      (⟨wt, m, n⟩ : Estimate) ≠ ⟨DBL_MAX, DBL_MAX, 1⟩ := by
  obtain ⟨j0, hj1, hj2, hj3⟩ := hne
  have htop := Wrench.TestClusteringWMS.findMaxTasks_pos_of_level w a b j0 hj1 hj2 hj3
  have hDhalf : DBL_MAX / 2 ≤ DBL_MAX := by decide!
  have hB' : ((w.getTasksInTopLevelRange a b).map (dur w s)).sum ≤ DBL_MAX :=
    le_trans hB hDhalf
  have hparts := Wrench.TestClusteringWMS.flatMap_part_le
    (fun l => w.getTasksInTopLevelRange l l) (dur w s)
    (List.range' a (b + 1 - a)) (by
      intro j hj t ht
      have : t ∈ w.getTasksInTopLevelRange a b := by
        rw [hlev]; exact List.mem_flatMap.2 ⟨j, hj, ht⟩
      exact div_nonneg (hf t this) (le_of_lt hs))
  have hsub : ∀ j ∈ List.range' a (b + 1 - a), ∀ t ∈ w.getTasksInTopLevelRange j j,
      t ∈ w.getTasksInTopLevelRange a b := by
    intro j hj t ht
    rw [hlev]; exact List.mem_flatMap.2 ⟨j, hj, ht⟩
  have hlenle : (w.getTasksInTopLevelRange a b).length ≤ fuel := by
    have : (w.getTasksInTopLevelRange a b).length * 1
        ≤ (w.getTasksInTopLevelRange a b).length
          * (Wrench.TestClusteringWMS.findMaxTasks w a b + 1) :=
      Nat.mul_le_mul_left _ (by omega)
    omega
  have hE1 := hE
  obtain ⟨u, k, hu, hk, hN⟩ := hE
  simp only [Nat.one_mul] at hN
  have hT := sum_dur_grid w s u k (w.getTasksInTopLevelRange a b) hk
  have hsumk : ((w.getTasksInTopLevelRange a b).map k).sum
      = ((List.range' a (b + 1 - a)).map fun j =>
          ((w.getTasksInTopLevelRange j j).map k).sum).sum := by
    conv_lhs => rw [hlev]
    exact flatMap_sum_nat _ k _
  have hone : Rounded.WorkflowUtil.estimateMakespan fuel w (w.getTasksInTopLevelRange a b) 1 s
      = Run.ret ((w.getTasksInTopLevelRange a b).map (dur w s)).sum := by
    rw [(estimateMakespan_exact hA s hs hf hB' 1 hE1 fuel).1]
    exact estimateMakespan_one_host hA s hs hf hB' fuel hlenle
  have hlevel : ∀ j ∈ List.range' a (b + 1 - a),
      Rounded.WorkflowUtil.estimateMakespan fuel w (w.getTasksInTopLevelRange j j) 1 s
        = Run.ret (((((w.getTasksInTopLevelRange j j).map k).sum : Nat) : ℚ) * u) := by
    intro j hj
    obtain ⟨rank, hrank⟩ := hA
    have hp := hparts j hj
    simp only at hp
    rw [← hlev] at hp
    have hAj : Acyclic w (w.getTasksInTopLevelRange j j) :=
      ⟨rank, fun t ht p hp1 hp2 => hrank t (hsub j hj t ht) p hp1 (hsub j hj p hp2)⟩
    have hfj : ∀ t ∈ w.getTasksInTopLevelRange j j, 0 ≤ w.flops t :=
      fun t ht => hf t (hsub j hj t ht)
    have hkj : ∀ t ∈ w.getTasksInTopLevelRange j j, w.flops t / s = (k t : ℚ) * u :=
      fun t ht => hk t (hsub j hj t ht)
    have hle : ((w.getTasksInTopLevelRange j j).map k).sum
        ≤ ((w.getTasksInTopLevelRange a b).map k).sum := by
      rw [hsumk]
      exact le_sum_of_mem_map (fun j => ((w.getTasksInTopLevelRange j j).map k).sum) _ j hj
    have hEj : ExactSums w s (w.getTasksInTopLevelRange j j) 1 :=
      ⟨u, k, hu, hkj, fun m hm => hN m (by simp only [Nat.one_mul] at hm; omega)⟩
    rw [(estimateMakespan_exact hAj s hs hfj (le_trans hp.1 hB') 1 hEj fuel).1,
      estimateMakespan_one_host hAj s hs hfj (le_trans hp.1 hB') fuel (by omega),
      sum_dur_grid w s u k _ hkj]
  have hatt : Rounded.TestClusteringWMS.allTasksTime fuel w s (List.range' a (b + 1 - a)) 0
      = Run.ret ((w.getTasksInTopLevelRange a b).map (dur w s)).sum := by
    have := rounded_allTasksTime_levels fuel w s u k
      ((w.getTasksInTopLevelRange a b).map k).sum hN (List.range' a (b + 1 - a)) hlevel 0
      (by rw [Nat.zero_add, ← hlev])
    rw [Nat.zero_add, ← hlev, ← hT] at this
    simpa using this
  have hr1 : roundDouble ((1 : Nat) : ℚ) = 1 := by
    have := roundDouble_natCast 1 (by norm_num)
    simpa using this
  have hrT : roundDouble ((w.getTasksInTopLevelRange a b).map (dur w s)).sum
      = ((w.getTasksInTopLevelRange a b).map (dur w s)).sum := by
    rw [hT]; exact hN _ (le_refl _)
  have hden : Rounded.TestClusteringWMS.wasteDenominator 1
      ((w.getTasksInTopLevelRange a b).map (dur w s)).sum
      = ((w.getTasksInTopLevelRange a b).map (dur w s)).sum := by
    unfold Rounded.TestClusteringWMS.wasteDenominator
    rw [hr1, one_mul, hrT]
  have hnum : Rounded.TestClusteringWMS.wasteNumerator 1
      ((w.getTasksInTopLevelRange a b).map (dur w s)).sum
      ((w.getTasksInTopLevelRange a b).map (dur w s)).sum = 0 := by
    unfold Rounded.TestClusteringWMS.wasteNumerator
    rw [hr1, one_mul, hrT, sub_self, roundDouble_zero]
  have hratio : Rounded.TestClusteringWMS.wasteRatio 1
      ((w.getTasksInTopLevelRange a b).map (dur w s)).sum
      ((w.getTasksInTopLevelRange a b).map (dur w s)).sum = 0 := by
    unfold Rounded.TestClusteringWMS.wasteRatio
    rw [hnum, zero_div, roundDouble_zero]
  have hnw : Rounded.TestClusteringWMS.wasteExceeds 1
      ((w.getTasksInTopLevelRange a b).map (dur w s)).sum
      ((w.getTasksInTopLevelRange a b).map (dur w s)).sum wb = false := by
    unfold Rounded.TestClusteringWMS.wasteExceeds
    rw [hnum, hratio]
    split
    · simp
    · simp [not_lt.2 hwb]
  have hexit : ∀ n, 1 ≤ n → n ≤ Wrench.TestClusteringWMS.findMaxTasks w a b →
      ∃ m, Rounded.WorkflowUtil.estimateMakespan fuel w (w.getTasksInTopLevelRange a b) n s
        = Run.ret m := by
    intro n h1 h2
    have hle : (w.getTasksInTopLevelRange a b).length * (n + 1)
        ≤ (w.getTasksInTopLevelRange a b).length
          * (Wrench.TestClusteringWMS.findMaxTasks w a b + 1) :=
      Nat.mul_le_mul_left _ (by omega)
    obtain ⟨Y, _, _, _, _, hret⟩ := estimateMakespan_exit hA s hs hf hB' n (by omega) fuel
      (by omega)
    exact ⟨_, by rw [(estimateMakespan_exact hA s hs hf hB' n hE1 fuel).1]; exact hret⟩
  have hcand : ∀ n, 1 ≤ n → n ≤ Wrench.TestClusteringWMS.findMaxTasks w a b →
      Rounded.TestClusteringWMS.estimateTotalTime fuel w bs now s a b n (seq + (n - 1))
        = Run.ret (((fun i =>
              match Rounded.WorkflowUtil.estimateMakespan fuel w
                (w.getTasksInTopLevelRange a b) i s with
              | Run.ret m => m
              | _ => 0) n,
            (fun i =>
              match Rounded.TestClusteringWMS.estimateWaitTime bs now i
                (match Rounded.WorkflowUtil.estimateMakespan fuel w
                    (w.getTasksInTopLevelRange a b) i s with
                  | Run.ret m => m
                  | _ => 0) (seq + (i - 1)) with
              | Run.ret (x, _) => x
              | _ => 0) n), seq + n) := by
    intro n h1 h2
    obtain ⟨m, hm⟩ := hexit n h1 h2
    obtain ⟨x, hx, _, _⟩ := rounded_estimateWaitTime_ret bs now hbs n m (seq + (n - 1))
    unfold Rounded.TestClusteringWMS.estimateTotalTime
    simp only [hm, hx]
    rw [show seq + (n - 1) + 1 = seq + n by omega]
  obtain ⟨best, hrun, hmin, hbest⟩ :=
    rounded_bestLoop_spec fuel w bs now s wb a b seq (Wrench.TestClusteringWMS.findMaxTasks w a b)
      _ _ _ hatt hcand (Wrench.TestClusteringWMS.findMaxTasks w a b) 1 ⟨DBL_MAX, DBL_MAX, 1⟩
      (le_refl _) (by omega) (fun m h1 h2 => by omega) (Or.inl rfl)
  obtain ⟨wt1, hwt1, hwt1a, hwt1b⟩ := rounded_estimateWaitTime_ret bs now hbs 1
    ((w.getTasksInTopLevelRange a b).map (dur w s)).sum seq
  have hle := hmin 1 (le_refl _) htop (by simp only [hone]; exact hnw)
  simp only [hone, Nat.sub_self, Nat.add_zero, hwt1] at hle
  have hfin : roundDouble (((w.getTasksInTopLevelRange a b).map (dur w s)).sum + wt1)
      ≤ DBL_MAX := by
    apply roundDouble_le_DBL_MAX
    have : DBL_MAX / 2 + DBL_MAX / 2 = DBL_MAX := by ring
    linarith
  have hinit : roundDouble (DBL_MAX + DBL_MAX) = 2 * DBL_MAX := by decide!
  have hpos : (0 : ℚ) < DBL_MAX := by decide!
  refine ⟨hone, hatt, hnum, hnw, fun h0 => ⟨by rw [hden]; exact h0, hratio⟩, ?_⟩
  rcases hbest with h | ⟨g1, g2, g3, g4, g5⟩
  · rw [h] at hle
    simp only at hle
    rw [hinit] at hle
    exfalso
    linarith
  · have hc : Rounded.TestClusteringWMS.estimateTotalTime fuel w bs now s a b best.num_hosts
          (seq + (best.num_hosts - 1))
        = Run.ret ((best.makespan, best.wait_time), seq + best.num_hosts) := by
      rw [hcand best.num_hosts g1 g2, g4, g5]
    have hlt : roundDouble (best.makespan + best.wait_time) < roundDouble (DBL_MAX + DBL_MAX) := by
      rw [hinit]
      linarith
    refine ⟨best.num_hosts, best.makespan, best.wait_time, wt1, _, g1, g2, hc, ?_, ?_, hwt1,
      hle, hlt, ?_⟩
    · rw [g4]; exact g3
    · rw [Rounded.TestClusteringWMS.computeBestNumHosts]
      simp only [Nat.sub_self, Nat.add_zero] at hrun
      rw [hrun]
    · intro heq
      injection heq with e1 e2 _
      rw [e1, e2] at hlt
      exact lt_irrefl _ hlt

/-- C35, amended, instance: the 8 independent tasks of `fanWorkflow` (level 0, 100 flops
each, core speed 1) with a batch service that predicts the start date 0 and waste bound
1/5. -/
theorem computeBestNumHosts_first_candidate_witness :
    Rounded.WorkflowUtil.estimateMakespan 72 fanWorkflow (fanWorkflow.getTasksInTopLevelRange 0 0)
        1 1
      = Run.ret ((fanWorkflow.getTasksInTopLevelRange 0 0).map (dur fanWorkflow 1)).sum ∧
    ∃ (n : Nat) (m wt : ℚ), 1 ≤ n ∧ n ≤ Wrench.TestClusteringWMS.findMaxTasks fanWorkflow 0 0 ∧
      Rounded.TestClusteringWMS.computeBestNumHosts 72 fanWorkflow (fixedEstimates 0) 0 1 (1 / 5)
          0 0 0
        = Run.ret (⟨wt, m, n⟩, 0 + Wrench.TestClusteringWMS.findMaxTasks fanWorkflow 0 0) ∧
      (⟨wt, m, n⟩ : Estimate) ≠ ⟨DBL_MAX, DBL_MAX, 1⟩ :=
  have h := computeBestNumHosts_first_candidate 72 fanWorkflow (fixedEstimates 0) 0 1 (1 / 5)
    0 0 0 ⟨0, le_refl _, le_refl _, by decide⟩ (by decide)
    ⟨fun _ => 0, fun t _ p hp => absurd hp (by simp [fanWorkflow])⟩
    (fun t _ => by simp [fanWorkflow]) (by decide!) (by decide!) (by decide!) (by decide)
    (fun key n t => ⟨[(key, 0)], rfl, by
      have hl : Rounded.TestClusteringWMS.mapLookup [(key, (0 : ℚ))] key = 0 := by
        simp [Rounded.TestClusteringWMS.mapLookup]
      rw [hl]
      exact ⟨le_refl _, by
        have : (0 : ℚ) ≤ DBL_MAX / 2 := by decide!
        simpa using this⟩⟩)
    ⟨1, fun _ => 100, by norm_num, by decide!,
      fun m hm => by
        have := roundDouble_natCast m (le_trans hm (by decide))
        simpa using this⟩
  ⟨h.1, by
    obtain ⟨n, m, wt, _, _, h1, h2, _, _, h5, _, _, _, h9⟩ := h.2.2.2.2.2
    exact ⟨n, m, wt, h1, h2, h5, h9⟩⟩

theorem roundDouble_nonpos (q : ℚ) (h : q ≤ 0) : roundDouble q ≤ 0 := by
  rcases eq_or_lt_of_le h with h0 | hneg
  · rw [h0, roundDouble_zero]
  · unfold roundDouble
    rw [if_neg (ne_of_lt hneg)]
    simp only
    rw [if_pos hneg, neg_nonpos]
    split
    · exact Nat.cast_nonneg _
    · exact div_nonneg (Nat.cast_nonneg _) (Nat.cast_nonneg _)

theorem lt_floorLog2 (a b : Nat) (ha : 0 < a) (hb : 0 < b) :
    (a : ℚ) < (2 : ℚ) ^ (floorLog2 a b + 1) * (b : ℚ) := by
  have h1 : a < 2 ^ (ilog2 a + 1) := lt_ilog2_self a (by omega)
  have h2 : 2 ^ ilog2 b ≤ b := ilog2_self_le b (by omega)
  have h1q : (a : ℚ) < (2 : ℚ) ^ ((ilog2 a : ℤ) + 1) := by
    have : ((ilog2 a : ℤ) + 1) = ((ilog2 a + 1 : ℕ) : ℤ) := by push_cast; rfl
    rw [this, zpow_natCast]; exact_mod_cast h1
  have h2q : (2 : ℚ) ^ (ilog2 b : ℤ) ≤ (b : ℚ) := by
    rw [zpow_natCast]; exact_mod_cast h2
  have hbq : (0 : ℚ) < b := by exact_mod_cast hb
  unfold floorLog2
  split
  · rename_i hc
    have hs : (ilog2 a : ℤ) - (ilog2 b : ℤ) - 1 + 1 = (ilog2 a : ℤ) - (ilog2 b : ℤ) := by ring
    rw [hs]
    rcases hc with ⟨hle, hlt⟩ | ⟨hlt, hlt2⟩
    · have he : (2 : ℚ) ^ ((ilog2 a : ℤ) - (ilog2 b : ℤ))
          = (2 : ℚ) ^ (ilog2 a - ilog2 b) := by
        have : ((ilog2 a : ℤ) - (ilog2 b : ℤ)) = ((ilog2 a - ilog2 b : ℕ) : ℤ) := by
          omega
        rw [this, zpow_natCast]
      rw [he]
      have : (a : ℚ) < (b : ℚ) * (2 : ℚ) ^ (ilog2 a - ilog2 b) := by exact_mod_cast hlt
      linarith
    · have he : (2 : ℚ) ^ ((ilog2 a : ℤ) - (ilog2 b : ℤ))
          = ((2 : ℚ) ^ (ilog2 b - ilog2 a))⁻¹ := by
        have : ((ilog2 a : ℤ) - (ilog2 b : ℤ)) = -((ilog2 b - ilog2 a : ℕ) : ℤ) := by
          omega
        rw [this, zpow_neg, zpow_natCast]
      rw [he]
      have hp : (0 : ℚ) < (2 : ℚ) ^ (ilog2 b - ilog2 a) := pow_pos (by norm_num) _
      have h3 : (a : ℚ) * (2 : ℚ) ^ (ilog2 b - ilog2 a) < (b : ℚ) := by exact_mod_cast hlt2
      rw [inv_mul_eq_div, lt_div_iff₀ hp]
      exact h3
  · have hsplit : (2 : ℚ) ^ ((ilog2 a : ℤ) - (ilog2 b : ℤ) + 1)
        * (2 : ℚ) ^ (ilog2 b : ℤ) = (2 : ℚ) ^ ((ilog2 a : ℤ) + 1) := by
      rw [← zpow_add₀ (by norm_num : (2 : ℚ) ≠ 0)]
      congr 1
      ring
    have hp : (0 : ℚ) < (2 : ℚ) ^ ((ilog2 a : ℤ) - (ilog2 b : ℤ) + 1) :=
      zpow_pos (by norm_num) _
    calc (a : ℚ) < (2 : ℚ) ^ ((ilog2 a : ℤ) + 1) := h1q
      _ = (2 : ℚ) ^ ((ilog2 a : ℤ) - (ilog2 b : ℤ) + 1) * (2 : ℚ) ^ (ilog2 b : ℤ) := hsplit.symm
      _ ≤ (2 : ℚ) ^ ((ilog2 a : ℤ) - (ilog2 b : ℤ) + 1) * (b : ℚ) :=
        mul_le_mul_of_nonneg_left h2q (le_of_lt hp)

theorem rat_eq_natAbs_div (q : ℚ) (hq : 0 < q) :
    q = (q.num.natAbs : ℚ) / (q.den : ℚ) := by
  have hnum : 0 < q.num := Rat.num_pos.2 hq
  have h1 : ((q.num.natAbs : ℤ) : ℚ) = (q.num : ℚ) := by
    rw [Int.natAbs_of_nonneg (le_of_lt hnum)]
  have h2 : ((q.num.natAbs : ℕ) : ℚ) = ((q.num.natAbs : ℤ) : ℚ) := (Int.cast_natCast _).symm
  rw [h2, h1]
  exact (Rat.num_div_den q).symm

theorem floorLog2_bounds (q : ℚ) (hq : 0 < q) :
    (2 : ℚ) ^ (floorLog2 q.num.natAbs q.den) ≤ q ∧
      q < (2 : ℚ) ^ (floorLog2 q.num.natAbs q.den + 1) := by
  have hnum : 0 < q.num := Rat.num_pos.2 hq
  have ha : 0 < q.num.natAbs := Int.natAbs_pos.2 (ne_of_gt hnum)
  have hb : 0 < q.den := q.den_pos
  have hbq : (0 : ℚ) < (q.den : ℚ) := by exact_mod_cast hb
  have h := rat_eq_natAbs_div q hq
  constructor
  · conv_rhs => rw [h]
    rw [le_div_iff₀ hbq]
    exact floorLog2_le _ _ ha hb
  · conv_lhs => rw [h]
    rw [div_lt_iff₀ hbq]
    exact lt_floorLog2 _ _ ha hb

theorem two_zpow_unique (q : ℚ) (e f : ℤ) (h1 : (2 : ℚ) ^ e ≤ q) (h2 : q < (2 : ℚ) ^ (f + 1)) :
    e ≤ f := by
  have : (2 : ℚ) ^ e < (2 : ℚ) ^ (f + 1) := lt_of_le_of_lt h1 h2
  have := (zpow_lt_zpow_iff_right₀ (by norm_num : (1 : ℚ) < 2)).1 this
  omega

theorem floorLog2_eq (q : ℚ) (hq : 0 < q) (e : ℤ) (h1 : (2 : ℚ) ^ e ≤ q)
    (h2 : q < (2 : ℚ) ^ (e + 1)) : floorLog2 q.num.natAbs q.den = e := by
  obtain ⟨g1, g2⟩ := floorLog2_bounds q hq
  exact le_antisymm (two_zpow_unique q _ _ g1 h2) (two_zpow_unique q _ _ h1 g2)

theorem roundHalfEven_mul_right (n d c : Nat) (hc : 0 < c) :
    roundHalfEven (n * c) (d * c) = roundHalfEven n d := by
  unfold roundHalfEven
  rw [Nat.mul_mod_mul_right, Nat.mul_div_mul_right _ _ hc]
  have e1 : (2 * (n % d * c) > d * c) ↔ (2 * (n % d) > d) := by
    constructor
    · intro h
      by_contra hn
      have : 2 * (n % d) * c ≤ d * c := Nat.mul_le_mul_right c (not_lt.1 hn)
      have : 2 * (n % d * c) = 2 * (n % d) * c := by ring
      omega
    · intro h
      have : d * c < 2 * (n % d) * c := Nat.mul_lt_mul_of_pos_right h hc
      have : 2 * (n % d * c) = 2 * (n % d) * c := by ring
      omega
  have e2 : (2 * (n % d * c) = d * c) ↔ (2 * (n % d) = d) := by
    constructor
    · intro h
      have h' : 2 * (n % d) * c = d * c := by rw [← h]; ring
      exact Nat.eq_of_mul_eq_mul_right hc h'
    · intro h
      have h' : 2 * (n % d * c) = 2 * (n % d) * c := by ring
      rw [h', h]
  simp only [e1, e2]

theorem roundHalfEven_ratio (n d n' d' : Nat) (hd : 0 < d) (hd' : 0 < d')
    (h : n * d' = n' * d) : roundHalfEven n d = roundHalfEven n' d' := by
  rw [← roundHalfEven_mul_right n d d' hd', ← roundHalfEven_mul_right n' d' d hd, h,
    Nat.mul_comm d d']

/-- The value of `roundDouble` on a positive number through any fraction `N / D` equal to
the number divided by its unit in the last place. -/
theorem roundDouble_pos_eq (q : ℚ) (hq : 0 < q) (N D : Nat) (hD : 0 < D)
    (h : (N : ℚ) / (D : ℚ)
      = q / (2 : ℚ) ^ (max (floorLog2 q.num.natAbs q.den - 52) (-1074))) :
    roundDouble q = (roundHalfEven N D : ℚ)
      * (2 : ℚ) ^ (max (floorLog2 q.num.natAbs q.den - 52) (-1074)) := by
  have hnum : 0 < q.num := Rat.num_pos.2 hq
  have ha : 0 < q.num.natAbs := Int.natAbs_pos.2 (ne_of_gt hnum)
  have hb : 0 < q.den := q.den_pos
  have hbq : (0 : ℚ) < (q.den : ℚ) := by exact_mod_cast hb
  have hDq : (0 : ℚ) < (D : ℚ) := by exact_mod_cast hD
  have hqe := rat_eq_natAbs_div q hq
  unfold roundDouble
  rw [if_neg (ne_of_gt hq)]
  simp only
  rw [if_neg (not_lt.2 (le_of_lt hq))]
  generalize max (floorLog2 q.num.natAbs q.den - 52) (-1074) = u at h ⊢
  by_cases hu : 0 ≤ u
  · rw [if_pos hu]
    obtain ⟨t, rfl⟩ := Int.eq_ofNat_of_zero_le hu
    simp only [Int.toNat_ofNat, zpow_natCast] at h ⊢
    have hp : (0 : ℚ) < (2 : ℚ) ^ t := pow_pos (by norm_num) t
    have hcross : N * (q.den * 2 ^ t) = q.num.natAbs * D := by
      have : (N : ℚ) * ((q.den : ℚ) * (2 : ℚ) ^ t) = (q.num.natAbs : ℚ) * (D : ℚ) := by
        rw [hqe] at h
        field_simp at h
        linarith
      exact_mod_cast this
    rw [roundHalfEven_ratio q.num.natAbs (q.den * 2 ^ t) N D
      (Nat.mul_pos hb (Nat.pow_pos (by norm_num))) hD hcross.symm]
    push_cast
    ring
  · rw [if_neg hu]
    have hu' : 0 ≤ -u := by omega
    obtain ⟨t, ht⟩ := Int.eq_ofNat_of_zero_le hu'
    have hut : u = -(t : ℤ) := by omega
    rw [ht]
    rw [hut] at h ⊢
    simp only [Int.toNat_ofNat, zpow_neg, zpow_natCast] at h ⊢
    have hp : (0 : ℚ) < (2 : ℚ) ^ t := pow_pos (by norm_num) t
    have hcross : N * q.den = q.num.natAbs * 2 ^ t * D := by
      have : (N : ℚ) * (q.den : ℚ) = (q.num.natAbs : ℚ) * (2 : ℚ) ^ t * (D : ℚ) := by
        rw [hqe] at h
        field_simp at h
        linarith
      exact_mod_cast this
    rw [roundHalfEven_ratio (q.num.natAbs * 2 ^ t) q.den N D hb hD hcross.symm]
    push_cast
    rw [div_eq_mul_inv]

/-- Rounding commutes with a power of two as long as the number and its multiple are in
the range of normal doubles. -/
theorem roundDouble_two_zpow_mul (j : ℤ) (q : ℚ) (h1 : (2 : ℚ) ^ (-1022 : ℤ) ≤ q)
    (h2 : (2 : ℚ) ^ (-1022 : ℤ) ≤ (2 : ℚ) ^ j * q) :
    roundDouble ((2 : ℚ) ^ j * q) = (2 : ℚ) ^ j * roundDouble q := by
  have hmin : (0 : ℚ) < (2 : ℚ) ^ (-1022 : ℤ) := zpow_pos (by norm_num) _
  have hq : 0 < q := lt_of_lt_of_le hmin h1
  have hj : (0 : ℚ) < (2 : ℚ) ^ j := zpow_pos (by norm_num) _
  have hq' : 0 < (2 : ℚ) ^ j * q := mul_pos hj hq
  obtain ⟨g1, g2⟩ := floorLog2_bounds q hq
  generalize he : floorLog2 q.num.natAbs q.den = e at g1 g2
  have he1 : -1022 ≤ e := by
    have := two_zpow_unique q (-1022) e h1 g2
    omega
  have hb1 : (2 : ℚ) ^ (e + j) ≤ (2 : ℚ) ^ j * q := by
    rw [zpow_add₀ (by norm_num : (2 : ℚ) ≠ 0), mul_comm]
    exact mul_le_mul_of_nonneg_left g1 (le_of_lt hj)
  have hb2 : (2 : ℚ) ^ j * q < (2 : ℚ) ^ (e + j + 1) := by
    have : e + j + 1 = j + (e + 1) := by ring
    rw [this, zpow_add₀ (by norm_num : (2 : ℚ) ≠ 0)]
    exact mul_lt_mul_of_pos_left g2 hj
  have he' : floorLog2 ((2 : ℚ) ^ j * q).num.natAbs ((2 : ℚ) ^ j * q).den = e + j :=
    floorLog2_eq _ hq' _ hb1 hb2
  have he2 : -1022 ≤ e + j := by
    have := two_zpow_unique _ (-1022) (e + j) h2 hb2
    omega
  have hu : max (e - 52) (-1074) = e - 52 := max_eq_left (by omega)
  have hu' : max (e + j - 52) (-1074) = e + j - 52 := max_eq_left (by omega)
  have hr : 0 < q / (2 : ℚ) ^ (e - 52) := div_pos hq (zpow_pos (by norm_num) _)
  have hfrac := (rat_eq_natAbs_div _ hr).symm
  have hD : 0 < (q / (2 : ℚ) ^ (e - 52)).den := Rat.den_pos _
  have hx := roundDouble_pos_eq q hq _ _ hD (by rw [he, hu]; exact hfrac)
  have hy := roundDouble_pos_eq ((2 : ℚ) ^ j * q) hq' _ _ hD (by
    rw [he', hu', hfrac]
    have : e + j - 52 = j + (e - 52) := by ring
    rw [this, zpow_add₀ (by norm_num : (2 : ℚ) ≠ 0)]
    have hne : (2 : ℚ) ^ j ≠ 0 := ne_of_gt hj
    rw [mul_div_mul_left _ _ hne])
  rw [he, hu] at hx
  rw [he', hu'] at hy
  rw [hx, hy]
  have : e + j - 52 = j + (e - 52) := by ring
  rw [this, zpow_add₀ (by norm_num : (2 : ℚ) ≠ 0)]
  ring

theorem roundDouble_neg (q : ℚ) : roundDouble (-q) = -roundDouble q := by
  by_cases h0 : q = 0
  · rw [h0, neg_zero, roundDouble_zero, neg_zero]
  · have h0' : -q ≠ 0 := neg_ne_zero.2 h0
    unfold roundDouble
    rw [if_neg h0, if_neg h0']
    simp only [Rat.neg_num, Rat.neg_den, Int.natAbs_neg]
    rcases lt_or_gt_of_ne h0 with h | h
    · have h1 : ¬ (-q < 0) := by linarith
      simp only [if_pos h, if_neg h1, neg_neg]
    · have h1 : -q < 0 := by linarith
      have h2 : ¬ (q < 0) := by linarith
      simp only [if_pos h1, if_neg h2]

theorem roundDouble_grid_sub (U : ℚ) (Nmax : Nat)
    (hN : ∀ m : Nat, m ≤ Nmax → roundDouble ((m : ℚ) * U) = (m : ℚ) * U) (a b : Nat)
    (ha : a ≤ Nmax) (hb : b ≤ Nmax) :
    roundDouble ((a : ℚ) * U - (b : ℚ) * U) = (a : ℚ) * U - (b : ℚ) * U := by
  rcases Nat.le_total b a with h | h
  · have e : (a : ℚ) * U - (b : ℚ) * U = ((a - b : Nat) : ℚ) * U := by
      rw [Nat.cast_sub h]; ring
    rw [e]
    exact hN _ (by omega)
  · have e : (a : ℚ) * U - (b : ℚ) * U = -(((b - a : Nat) : ℚ) * U) := by
      rw [Nat.cast_sub h]; ring
    rw [e, roundDouble_neg, hN _ (by omega)]

theorem roundDouble_grid_add (U : ℚ) (Nmax : Nat)
    (hN : ∀ m : Nat, m ≤ Nmax → roundDouble ((m : ℚ) * U) = (m : ℚ) * U) (a b : Nat)
    (hab : a + b ≤ Nmax) :
    roundDouble ((a : ℚ) * U + (b : ℚ) * U) = (a : ℚ) * U + (b : ℚ) * U := by
  have e : (a : ℚ) * U + (b : ℚ) * U = ((a + b : Nat) : ℚ) * U := by
    push_cast; ring
  rw [e]
  exact hN _ hab

/-- The waste test on a grid of exact sums depends on the whole numbers only. -/
theorem wasteExceeds_grid_eq (U : ℚ) (hU : 0 < U) (Nmax : Nat) (h53 : Nmax ≤ 2 ^ 53)
    (hN : ∀ m : Nat, m ≤ Nmax → roundDouble ((m : ℚ) * U) = (m : ℚ) * U) (i m t : Nat)
    (him : i * m ≤ Nmax) (ht : t ≤ Nmax) (wb : ℚ) :
    Rounded.TestClusteringWMS.wasteExceeds i ((m : ℚ) * U) ((t : ℚ) * U) wb
      = (if i * m = 0 then decide ((t : ℚ) < ((i * m : Nat) : ℚ))
        else decide (roundDouble ((((i * m : Nat) : ℚ) - (t : ℚ)) / ((i * m : Nat) : ℚ)) > wb)) := by
  have hden : Rounded.TestClusteringWMS.wasteDenominator i ((m : ℚ) * U)
      = ((i * m : Nat) : ℚ) * U := by
    unfold Rounded.TestClusteringWMS.wasteDenominator
    rcases Nat.eq_zero_or_pos m with h0 | hpos
    · rw [h0]; simp [roundDouble_zero]
    · have hile : i ≤ 2 ^ 53 := by
        have : i * 1 ≤ i * m := Nat.mul_le_mul_left i hpos
        omega
      rw [roundDouble_natCast i hile]
      have e : (i : ℚ) * ((m : ℚ) * U) = ((i * m : Nat) : ℚ) * U := by push_cast; ring
      rw [e, hN _ him]
  have hnum : Rounded.TestClusteringWMS.wasteNumerator i ((m : ℚ) * U) ((t : ℚ) * U)
      = (((i * m : Nat) : ℚ) - (t : ℚ)) * U := by
    have hd := hden
    unfold Rounded.TestClusteringWMS.wasteDenominator at hd
    unfold Rounded.TestClusteringWMS.wasteNumerator
    rw [hd, roundDouble_grid_sub U Nmax hN _ _ him ht]
    ring
  unfold Rounded.TestClusteringWMS.wasteExceeds Rounded.TestClusteringWMS.wasteRatio
  rw [hden, hnum]
  by_cases h0 : i * m = 0
  · rw [if_pos h0, h0]
    simp only [Nat.cast_zero, zero_mul, if_true, zero_sub]
    congr 1
    apply propext
    constructor
    · intro h
      have : (0 : ℚ) ≤ (t : ℚ) * U := mul_nonneg (Nat.cast_nonneg _) (le_of_lt hU)
      linarith
    · intro h
      have : (0 : ℚ) ≤ (t : ℚ) := Nat.cast_nonneg _
      linarith
  · have hq : ((i * m : Nat) : ℚ) ≠ 0 := by exact_mod_cast h0
    rw [if_neg h0, if_neg (mul_ne_zero hq (ne_of_gt hU)),
      mul_div_mul_right _ _ (ne_of_gt hU)]

theorem rounded_estimateWaitTime_zero (bs : BatchEstimates) (now : ℚ)
    (hbs : ∀ (key : String) (n : Nat) (t : ℚ), ∃ estimates,
      bs.getStartTimeEstimates [⟨key, n, 1, t⟩] = some estimates ∧
      0 ≤ Rounded.TestClusteringWMS.mapLookup estimates key ∧
      Rounded.TestClusteringWMS.mapLookup estimates key ≤ now)
    (n : Nat) (m : ℚ) (seq : Nat) :
    Rounded.TestClusteringWMS.estimateWaitTime bs now n m seq = Run.ret (0, seq + 1) := by
  obtain ⟨est, h1, h2, h3⟩ := hbs ("config_XXXX_" ++ toString seq) (n % 4294967296) m
  unfold Rounded.TestClusteringWMS.estimateWaitTime
  simp only [h1]
  rw [if_neg (not_lt.2 h2)]
  have : roundDouble
      (Rounded.TestClusteringWMS.mapLookup est ("config_XXXX_" ++ toString seq) - now) ≤ 0 :=
    roundDouble_nonpos _ (by linarith)
  rw [max_eq_left this]

/-- On a grid of exact sums the estimate in doubles returns a whole multiple of the unit,
at most the sum of the run times. -/
theorem estimateMakespan_grid {w : Workflow} {tasks : List Nat} (hA : Acyclic w tasks)
    (s : ℚ) (hs : 0 < s) (n : Nat) (hn : 0 < n) (fuel : Nat)
    (hfuel : tasks.length * (n + 1) ≤ fuel + n)
    (u : ℚ) (kk : Nat → Nat) (hu : 0 < u)
    (hk : ∀ t ∈ tasks, w.flops t / s = (kk t : ℚ) * u) (Nmax : Nat)
    (hN : ∀ m : Nat, m ≤ Nmax → roundDouble ((m : ℚ) * u) = (m : ℚ) * u)
    (hS : (tasks.map kk).sum ≤ Nmax) (hB : (Nmax : ℚ) * u ≤ DBL_MAX) :
    ∃ c : Nat, c ≤ (tasks.map kk).sum ∧
      Rounded.WorkflowUtil.estimateMakespan fuel w tasks n s = Run.ret ((c : ℚ) * u) ∧
      Wrench.WorkflowUtil.estimateMakespan fuel w tasks n s = Run.ret ((c : ℚ) * u) := by
  have hf : ∀ t ∈ tasks, 0 ≤ w.flops t := by
    intro t ht
    have h1 : 0 ≤ w.flops t / s := by
      rw [hk t ht]; exact mul_nonneg (Nat.cast_nonneg _) (le_of_lt hu)
    have h2 : w.flops t = w.flops t / s * s := by field_simp
    rw [h2]
    exact mul_nonneg h1 (le_of_lt hs)
  have hgrid := sum_dur_grid w s u kk tasks hk
  have hB' : (tasks.map (dur w s)).sum ≤ DBL_MAX := by
    rw [hgrid]
    refine le_trans ?_ hB
    exact mul_le_mul_of_nonneg_right (by exact_mod_cast hS) (le_of_lt hu)
  obtain ⟨Y, _, _, _, hretR, hret, hY, hnum, hall⟩ :=
    estimateMakespan_bounds_aux hA s hs hf hB' n hn fuel hfuel u kk hu hk
      (fun m hm => hN m (le_trans hm hS))
  obtain ⟨hfst, hpl, _, _, _, hI, _, _, _, hZ⟩ := hY
  have hlenY : Y.fake_tasks.length = tasks.length := by rw [← hfst]; simp
  have hwork : work w s Y.fake_tasks = (((tasks.map kk).sum : Nat) : ℚ) * u := by
    rw [work_all w s Y.fake_tasks (by omega), hfst, hgrid]
  have hc : ∃ c : Nat, c ≤ (tasks.map kk).sum ∧ maxIdle Y.idle_date = (c : ℚ) * u := by
    rcases (maxIdle_aux Y.idle_date 0).2.2 with e | e
    · refine ⟨0, Nat.zero_le _, ?_⟩
      unfold maxIdle
      rw [e]; simp
    · have e' : maxIdle Y.idle_date ∈ Y.idle_date := e
      rcases hZ _ e' with h0 | ⟨x, hx, _, hxd⟩
      · exact ⟨0, Nat.zero_le _, by rw [h0]; simp⟩
      · obtain ⟨_, c, hc⟩ := hall x hx
        refine ⟨c, ?_, by rw [← hxd, hc]⟩
        have hle := (hI _ e').2
        rw [hwork, ← hxd, hc] at hle
        have := le_of_mul_le_mul_right hle hu
        exact_mod_cast this
  obtain ⟨c, hc1, hc2⟩ := hc
  exact ⟨c, hc1, by rw [hretR, hc2], by rw [hret, hc2]⟩

/-- The estimate in doubles of the flops multiplied by `K`, when the sums are exact on
the grids of `u` and of `K * u`. -/
theorem estimateMakespan_grid_scale {w : Workflow} {tasks : List Nat} (hA : Acyclic w tasks)
    (s : ℚ) (hs : 0 < s) (n : Nat) (hn : 0 < n) (fuel : Nat)
    (hfuel : tasks.length * (n + 1) ≤ fuel + n)
    (u : ℚ) (kk : Nat → Nat) (hu : 0 < u)
    (hk : ∀ t ∈ tasks, w.flops t / s = (kk t : ℚ) * u) (Nmax : Nat)
    (hN : ∀ m : Nat, m ≤ Nmax → roundDouble ((m : ℚ) * u) = (m : ℚ) * u)
    (hS : (tasks.map kk).sum ≤ Nmax) (hB : (Nmax : ℚ) * u ≤ DBL_MAX)
    (K : ℚ) (hK : 0 < K)
    (hN' : ∀ m : Nat, m ≤ Nmax → roundDouble ((m : ℚ) * (K * u)) = (m : ℚ) * (K * u))
    (hB' : (Nmax : ℚ) * (K * u) ≤ DBL_MAX) :
    ∃ c : Nat, c ≤ (tasks.map kk).sum ∧
      Rounded.WorkflowUtil.estimateMakespan fuel w tasks n s = Run.ret ((c : ℚ) * u) ∧
      Rounded.WorkflowUtil.estimateMakespan fuel (scaleFlops K w) tasks n s
        = Run.ret ((c : ℚ) * (K * u)) := by
  obtain ⟨c, hc, h1, h2⟩ :=
    estimateMakespan_grid hA s hs n hn fuel hfuel u kk hu hk Nmax hN hS hB
  refine ⟨c, hc, h1, ?_⟩
  have hf : ∀ t ∈ tasks, 0 ≤ w.flops t := by
    intro t ht
    have h1 : 0 ≤ w.flops t / s := by
      rw [hk t ht]; exact mul_nonneg (Nat.cast_nonneg _) (le_of_lt hu)
    have h2 : w.flops t = w.flops t / s * s := by field_simp
    rw [h2]
    exact mul_nonneg h1 (le_of_lt hs)
  have hgrid := sum_dur_grid w s u kk tasks hk
  have hle : (((tasks.map kk).sum : Nat) : ℚ) ≤ (Nmax : ℚ) := by exact_mod_cast hS
  have hBd : (tasks.map (dur w s)).sum ≤ DBL_MAX := by
    rw [hgrid]
    exact le_trans (mul_le_mul_of_nonneg_right hle (le_of_lt hu)) hB
  have hBk : K * (tasks.map (dur w s)).sum ≤ DBL_MAX := by
    rw [hgrid]
    have : K * ((((tasks.map kk).sum : Nat) : ℚ) * u)
        = (((tasks.map kk).sum : Nat) : ℚ) * (K * u) := by ring
    rw [this]
    exact le_trans (mul_le_mul_of_nonneg_right hle (le_of_lt (mul_pos hK hu))) hB'
  have hA' : Acyclic (scaleFlops K w) tasks := hA
  have hf' : ∀ t ∈ tasks, 0 ≤ (scaleFlops K w).flops t :=
    fun t ht => mul_nonneg (le_of_lt hK) (hf t ht)
  have hk' : ∀ t ∈ tasks, (scaleFlops K w).flops t / s = (kk t : ℚ) * (K * u) := by
    intro t ht
    show K * w.flops t / s = (kk t : ℚ) * (K * u)
    rw [mul_div_assoc, hk t ht]; ring
  have hBd' : (tasks.map (dur (scaleFlops K w) s)).sum ≤ DBL_MAX := by
    rw [sum_dur_grid (scaleFlops K w) s (K * u) kk tasks hk']
    exact le_trans (mul_le_mul_of_nonneg_right hle (le_of_lt (mul_pos hK hu))) hB'
  have hE' : ExactSums (scaleFlops K w) s tasks 1 :=
    ⟨K * u, kk, mul_pos hK hu, hk', fun m hm => hN' m (by
      simp only [Nat.one_mul] at hm; omega)⟩
  rw [(estimateMakespan_exact hA' s hs hf' hBd' n hE' fuel).1,
    (estimateMakespan_scale_any w tasks K hK s hs hf hBd hBk fuel n).1, h2]
  simp only [scaleRun]
  congr 1
  ring

/-- On a grid of exact sums the run times of the levels of a range add up, in doubles, to
the sum of the run times of the range. -/
theorem rounded_allTasksTime_grid (fuel : Nat) (w : Workflow) (s : ℚ) (hs : 0 < s)
    (a b : Nat)
    (hlev : w.getTasksInTopLevelRange a b
      = (List.range' a (b + 1 - a)).flatMap fun l => w.getTasksInTopLevelRange l l)
    (hA : Acyclic w (w.getTasksInTopLevelRange a b))
    (u : ℚ) (kk : Nat → Nat) (hu : 0 < u)
    (hk : ∀ t ∈ w.getTasksInTopLevelRange a b, w.flops t / s = (kk t : ℚ) * u) (Nmax : Nat)
    (hN : ∀ m : Nat, m ≤ Nmax → roundDouble ((m : ℚ) * u) = (m : ℚ) * u)
    (hS : ((w.getTasksInTopLevelRange a b).map kk).sum ≤ Nmax)
    (hB : (Nmax : ℚ) * u ≤ DBL_MAX)
    (hfuel : (w.getTasksInTopLevelRange a b).length ≤ fuel) :
    Rounded.TestClusteringWMS.allTasksTime fuel w s (List.range' a (b + 1 - a)) 0
      = Run.ret ((((w.getTasksInTopLevelRange a b).map kk).sum : Nat) * u) := by
  have hf : ∀ t ∈ w.getTasksInTopLevelRange a b, 0 ≤ w.flops t := by
    intro t ht
    have h1 : 0 ≤ w.flops t / s := by
      rw [hk t ht]; exact mul_nonneg (Nat.cast_nonneg _) (le_of_lt hu)
    have h2 : w.flops t = w.flops t / s * s := by field_simp
    rw [h2]
    exact mul_nonneg h1 (le_of_lt hs)
  have hsub : ∀ j ∈ List.range' a (b + 1 - a), ∀ t ∈ w.getTasksInTopLevelRange j j,
      t ∈ w.getTasksInTopLevelRange a b := by
    intro j hj t ht
    rw [hlev]; exact List.mem_flatMap.2 ⟨j, hj, ht⟩
  have hparts := Wrench.TestClusteringWMS.flatMap_part_le
    (fun l => w.getTasksInTopLevelRange l l) (dur w s)
    (List.range' a (b + 1 - a)) (by
      intro j hj t ht
      exact div_nonneg (hf t (hsub j hj t ht)) (le_of_lt hs))
  have hsumk : ((w.getTasksInTopLevelRange a b).map kk).sum
      = ((List.range' a (b + 1 - a)).map fun j =>
          ((w.getTasksInTopLevelRange j j).map kk).sum).sum := by
    conv_lhs => rw [hlev]
    exact flatMap_sum_nat _ kk _
  have hgrid := sum_dur_grid w s u kk (w.getTasksInTopLevelRange a b) hk
  have hle : ((((w.getTasksInTopLevelRange a b).map kk).sum : Nat) : ℚ) ≤ (Nmax : ℚ) := by
    exact_mod_cast hS
  have hB' : ((w.getTasksInTopLevelRange a b).map (dur w s)).sum ≤ DBL_MAX := by
    rw [hgrid]
    exact le_trans (mul_le_mul_of_nonneg_right hle (le_of_lt hu)) hB
  have hlevel : ∀ j ∈ List.range' a (b + 1 - a),
      Rounded.WorkflowUtil.estimateMakespan fuel w (w.getTasksInTopLevelRange j j) 1 s
        = Run.ret (((((w.getTasksInTopLevelRange j j).map kk).sum : Nat) : ℚ) * u) := by
    intro j hj
    obtain ⟨rank, hrank⟩ := hA
    have hp := hparts j hj
    simp only at hp
    rw [← hlev] at hp
    have hAj : Acyclic w (w.getTasksInTopLevelRange j j) :=
      ⟨rank, fun t ht p hp1 hp2 => hrank t (hsub j hj t ht) p hp1 (hsub j hj p hp2)⟩
    have hfj : ∀ t ∈ w.getTasksInTopLevelRange j j, 0 ≤ w.flops t :=
      fun t ht => hf t (hsub j hj t ht)
    have hkj : ∀ t ∈ w.getTasksInTopLevelRange j j, w.flops t / s = (kk t : ℚ) * u :=
      fun t ht => hk t (hsub j hj t ht)
    have hle : ((w.getTasksInTopLevelRange j j).map kk).sum
        ≤ ((w.getTasksInTopLevelRange a b).map kk).sum := by
      rw [hsumk]
      exact le_sum_of_mem_map (fun j => ((w.getTasksInTopLevelRange j j).map kk).sum) _ j hj
    have hEj : ExactSums w s (w.getTasksInTopLevelRange j j) 1 :=
      ⟨u, kk, hu, hkj, fun m hm => hN m (by simp only [Nat.one_mul] at hm; omega)⟩
    rw [(estimateMakespan_exact hAj s hs hfj (le_trans hp.1 hB') 1 hEj fuel).1,
      estimateMakespan_one_host hAj s hs hfj (le_trans hp.1 hB') fuel (by omega),
      sum_dur_grid w s u kk _ hkj]
  have := rounded_allTasksTime_levels fuel w s u kk Nmax hN (List.range' a (b + 1 - a)) hlevel 0
    (by rw [Nat.zero_add, ← hlev]; exact hS)
  rw [Nat.zero_add, ← hlev] at this
  simpa using this

/-- The loop of `computeBestNumHosts` on two grids of exact sums, from a candidate already
chosen: the same candidates are rejected and chosen on both. -/
theorem bestLoop_grid_scale (fuel : Nat) (w w' : Workflow) (bs : BatchEstimates)
    (now s wb : ℚ) (a b : Nat) (u u' : ℚ) (hu : 0 < u) (hu' : 0 < u') (Nmax : Nat)
    (h53 : Nmax ≤ 2 ^ 53)
    (hN : ∀ m : Nat, m ≤ Nmax → roundDouble ((m : ℚ) * u) = (m : ℚ) * u)
    (hN' : ∀ m : Nat, m ≤ Nmax → roundDouble ((m : ℚ) * u') = (m : ℚ) * u')
    (T : Nat) (hTle : T ≤ Nmax)
    (hT : Rounded.TestClusteringWMS.allTasksTime fuel w s (List.range' a (b + 1 - a)) 0
      = Run.ret ((T : ℚ) * u))
    (hT' : Rounded.TestClusteringWMS.allTasksTime fuel w' s (List.range' a (b + 1 - a)) 0
      = Run.ret ((T : ℚ) * u'))
    (B : Nat) (hBle : B ≤ Nmax) (is : List Nat)
    (hcand : ∀ i ∈ is, i * B ≤ Nmax ∧ ∃ c : Nat, c ≤ B ∧ ∀ seq,
      Rounded.TestClusteringWMS.estimateTotalTime fuel w bs now s a b i seq
        = Run.ret (((c : ℚ) * u, 0), seq + 1) ∧
      Rounded.TestClusteringWMS.estimateTotalTime fuel w' bs now s a b i seq
        = Run.ret (((c : ℚ) * u', 0), seq + 1)) :
    ∀ (m h seq : Nat), m ≤ B →
      ∃ m' h' : Nat, m' ≤ B ∧
        Rounded.TestClusteringWMS.bestLoop fuel w bs now s wb a b is ⟨0, (m : ℚ) * u, h⟩ seq
          = Run.ret (⟨0, (m' : ℚ) * u, h'⟩, seq + is.length) ∧
        Rounded.TestClusteringWMS.bestLoop fuel w' bs now s wb a b is ⟨0, (m : ℚ) * u', h⟩ seq
          = Run.ret (⟨0, (m' : ℚ) * u', h'⟩, seq + is.length) := by
  induction is with
  | nil =>
    intro m h seq hm
    exact ⟨m, h, hm, by simp [Rounded.TestClusteringWMS.bestLoop],
      by simp [Rounded.TestClusteringWMS.bestLoop]⟩
  | cons i is ih =>
    intro m h seq hm
    obtain ⟨hiB, c, hc, hett⟩ := hcand i (by simp)
    obtain ⟨e1, e2⟩ := hett seq
    have ih' := ih (fun i' hi' => hcand i' (List.mem_cons_of_mem _ hi'))
    have hlen : seq + 1 + is.length = seq + (i :: is).length := by
      simp only [List.length_cons]; omega
    have hic : i * c ≤ Nmax := le_trans (Nat.mul_le_mul_left i hc) hiB
    have hw := wasteExceeds_grid_eq u hu Nmax h53 hN i c T hic hTle wb
    have hw' := wasteExceeds_grid_eq u' hu' Nmax h53 hN' i c T hic hTle wb
    unfold Rounded.TestClusteringWMS.bestLoop
    rw [e1, e2]
    simp only [hT, hT']
    rw [hw, hw']
    have hcmp : (roundDouble ((m : ℚ) * u + 0) > roundDouble ((c : ℚ) * u + 0)) ↔ c < m := by
      rw [add_zero, add_zero, hN m (le_trans hm hBle), hN c (le_trans hc hBle)]
      constructor
      · intro hlt
        have := lt_of_mul_lt_mul_right hlt (le_of_lt hu)
        exact_mod_cast this
      · intro hlt
        have : (c : ℚ) < (m : ℚ) := by exact_mod_cast hlt
        exact mul_lt_mul_of_pos_right this hu
    have hcmp' : (roundDouble ((m : ℚ) * u' + 0) > roundDouble ((c : ℚ) * u' + 0)) ↔ c < m := by
      rw [add_zero, add_zero, hN' m (le_trans hm hBle), hN' c (le_trans hc hBle)]
      constructor
      · intro hlt
        have := lt_of_mul_lt_mul_right hlt (le_of_lt hu')
        exact_mod_cast this
      · intro hlt
        have : (c : ℚ) < (m : ℚ) := by exact_mod_cast hlt
        exact mul_lt_mul_of_pos_right this hu'
    generalize (if i * c = 0 then decide ((T : ℚ) < ((i * c : Nat) : ℚ))
      else decide (roundDouble ((((i * c : Nat) : ℚ) - (T : ℚ)) / ((i * c : Nat) : ℚ)) > wb))
      = bw
    cases bw
    · simp only [Bool.false_eq_true, if_false, hcmp, hcmp']
      by_cases hlt : c < m
      · rw [if_pos hlt, if_pos hlt, ← hlen]; exact ih' c i (seq + 1) hc
      · rw [if_neg hlt, if_neg hlt, ← hlen]; exact ih' m h (seq + 1) hm
    · simp only [if_true]
      rw [← hlen]; exact ih' m h (seq + 1) hm

/-- The first candidate of `computeBestNumHosts` on a grid of exact sums: one host is never
rejected by the waste test and replaces the initial `DBL_MAX` values. -/
theorem bestLoop_first_grid (fuel : Nat) (w : Workflow) (bs : BatchEstimates)
    (now s wb : ℚ) (hwb : 0 ≤ wb) (a b : Nat) (u : ℚ) (hu : 0 < u) (Nmax : Nat)
    (h53 : Nmax ≤ 2 ^ 53)
    (hN : ∀ m : Nat, m ≤ Nmax → roundDouble ((m : ℚ) * u) = (m : ℚ) * u)
    (hB : (Nmax : ℚ) * u ≤ DBL_MAX)
    (T : Nat) (hTle : T ≤ Nmax)
    (hT : Rounded.TestClusteringWMS.allTasksTime fuel w s (List.range' a (b + 1 - a)) 0
      = Run.ret ((T : ℚ) * u))
    (c seq : Nat) (hc : c ≤ T)
    (hett : Rounded.TestClusteringWMS.estimateTotalTime fuel w bs now s a b 1 seq
      = Run.ret (((c : ℚ) * u, 0), seq + 1))
    (is : List Nat) :
    Rounded.TestClusteringWMS.bestLoop fuel w bs now s wb a b (1 :: is)
        ⟨DBL_MAX, DBL_MAX, 1⟩ seq
      = Rounded.TestClusteringWMS.bestLoop fuel w bs now s wb a b is ⟨0, (c : ℚ) * u, 1⟩
          (seq + 1) := by
  have hw := wasteExceeds_grid_eq u hu Nmax h53 hN 1 c T (by omega) hTle wb
  have hwf : Rounded.TestClusteringWMS.wasteExceeds 1 ((c : ℚ) * u) ((T : ℚ) * u) wb
      = false := by
    rw [hw]
    simp only [Nat.one_mul]
    have hcT : (c : ℚ) ≤ (T : ℚ) := by exact_mod_cast hc
    by_cases h0 : c = 0
    · rw [if_pos h0, h0]
      simp
    · rw [if_neg h0]
      have hcpos : (0 : ℚ) < (c : ℚ) := by exact_mod_cast Nat.pos_of_ne_zero h0
      have : roundDouble (((c : ℚ) - (T : ℚ)) / (c : ℚ)) ≤ 0 :=
        roundDouble_nonpos _ (div_nonpos_of_nonpos_of_nonneg (by linarith) (le_of_lt hcpos))
      simp only [gt_iff_lt, decide_eq_false_iff_not, not_lt]
      linarith
  have hinit : roundDouble (DBL_MAX + DBL_MAX) = 2 * DBL_MAX := by decide!
  have hpos : (0 : ℚ) < DBL_MAX := by decide!
  have hcu : (c : ℚ) * u ≤ DBL_MAX := by
    refine le_trans ?_ hB
    exact mul_le_mul_of_nonneg_right (by exact_mod_cast (le_trans hc hTle)) (le_of_lt hu)
  rw [Rounded.TestClusteringWMS.bestLoop, hett]
  simp only [hT, hwf, Bool.false_eq_true, if_false]
  rw [if_pos]
  rw [hinit, add_zero, hN c (le_trans hc hTle)]
  linarith

/-- `computeBestNumHosts` on a range of levels whose sums of run times are exact, for the
workflow and for the workflow with every flop count multiplied by `K`, with a batch
service that predicts no wait: both calls return the same number of hosts and the same
whole multiple of their unit. -/
theorem computeBestNumHosts_grid_scale (fuel : Nat) (w : Workflow) (bs : BatchEstimates)
    (now s wb : ℚ) (hs : 0 < s) (hwb : 0 ≤ wb)
    (hbs : ∀ (key : String) (n : Nat) (t : ℚ), ∃ estimates,
      bs.getStartTimeEstimates [⟨key, n, 1, t⟩] = some estimates ∧
      0 ≤ Rounded.TestClusteringWMS.mapLookup estimates key ∧
      Rounded.TestClusteringWMS.mapLookup estimates key ≤ now)
    (a b : Nat) (hne : ∃ j, a ≤ j ∧ j ≤ b ∧ w.getTasksInTopLevelRange j j ≠ [])
    (hlev : w.getTasksInTopLevelRange a b
      = (List.range' a (b + 1 - a)).flatMap fun l => w.getTasksInTopLevelRange l l)
    (hA : Acyclic w (w.getTasksInTopLevelRange a b))
    (u : ℚ) (kk : Nat → Nat) (hu : 0 < u)
    (hk : ∀ t ∈ w.getTasksInTopLevelRange a b, w.flops t / s = (kk t : ℚ) * u) (Nmax : Nat)
    (h53 : Nmax ≤ 2 ^ 53)
    (hN : ∀ m : Nat, m ≤ Nmax → roundDouble ((m : ℚ) * u) = (m : ℚ) * u)
    (hS : (Wrench.TestClusteringWMS.findMaxTasks w a b + 3)
      * ((w.getTasksInTopLevelRange a b).map kk).sum ≤ Nmax)
    (hB : (Nmax : ℚ) * u ≤ DBL_MAX)
    (K : ℚ) (hK : 0 < K)
    (hN' : ∀ m : Nat, m ≤ Nmax → roundDouble ((m : ℚ) * (K * u)) = (m : ℚ) * (K * u))
    (hB' : (Nmax : ℚ) * (K * u) ≤ DBL_MAX)
    (hfuel : (w.getTasksInTopLevelRange a b).length
      * (Wrench.TestClusteringWMS.findMaxTasks w a b + 1) ≤ fuel) (seq : Nat) :
    ∃ m h : Nat, m ≤ ((w.getTasksInTopLevelRange a b).map kk).sum ∧
      Rounded.TestClusteringWMS.computeBestNumHosts fuel w bs now s wb a b seq
        = Run.ret (⟨0, (m : ℚ) * u, h⟩, seq + Wrench.TestClusteringWMS.findMaxTasks w a b) ∧
      Rounded.TestClusteringWMS.computeBestNumHosts fuel (scaleFlops K w) bs now s wb a b seq
        = Run.ret (⟨0, (m : ℚ) * (K * u), h⟩,
            seq + Wrench.TestClusteringWMS.findMaxTasks w a b) := by
  obtain ⟨j0, hj1, hj2, hj3⟩ := hne
  have htop := Wrench.TestClusteringWMS.findMaxTasks_pos_of_level w a b j0 hj1 hj2 hj3
  have hKu : 0 < K * u := mul_pos hK hu
  have hSum : ((w.getTasksInTopLevelRange a b).map kk).sum ≤ Nmax := by
    have h3 : 0 < Wrench.TestClusteringWMS.findMaxTasks w a b + 3 := by omega
    exact le_trans (Nat.le_mul_of_pos_left _ h3) hS
  have hlenle : (w.getTasksInTopLevelRange a b).length ≤ fuel := by
    have : (w.getTasksInTopLevelRange a b).length * 1
        ≤ (w.getTasksInTopLevelRange a b).length
          * (Wrench.TestClusteringWMS.findMaxTasks w a b + 1) :=
      Nat.mul_le_mul_left _ (by omega)
    omega
  have hk' : ∀ t ∈ w.getTasksInTopLevelRange a b,
      (scaleFlops K w).flops t / s = (kk t : ℚ) * (K * u) := by
    intro t ht
    show K * w.flops t / s = (kk t : ℚ) * (K * u)
    rw [mul_div_assoc, hk t ht]; ring
  have hT := rounded_allTasksTime_grid fuel w s hs a b hlev hA u kk hu hk Nmax hN hSum hB hlenle
  have hT' : Rounded.TestClusteringWMS.allTasksTime fuel (scaleFlops K w) s
      (List.range' a (b + 1 - a)) 0
      = Run.ret ((((w.getTasksInTopLevelRange a b).map kk).sum : Nat) * (K * u)) :=
    rounded_allTasksTime_grid fuel (scaleFlops K w) s hs a b hlev hA (K * u) kk hKu hk' Nmax
      hN' hSum hB' hlenle
  have hcand : ∀ i, 1 ≤ i → i ≤ Wrench.TestClusteringWMS.findMaxTasks w a b →
      ∃ c : Nat, c ≤ ((w.getTasksInTopLevelRange a b).map kk).sum ∧ ∀ seq,
        Rounded.TestClusteringWMS.estimateTotalTime fuel w bs now s a b i seq
          = Run.ret (((c : ℚ) * u, 0), seq + 1) ∧
        Rounded.TestClusteringWMS.estimateTotalTime fuel (scaleFlops K w) bs now s a b i seq
          = Run.ret (((c : ℚ) * (K * u), 0), seq + 1) := by
    intro i h1 h2
    have hle : (w.getTasksInTopLevelRange a b).length * (i + 1)
        ≤ (w.getTasksInTopLevelRange a b).length
          * (Wrench.TestClusteringWMS.findMaxTasks w a b + 1) :=
      Nat.mul_le_mul_left _ (by omega)
    obtain ⟨c, hc, e1, e2⟩ := estimateMakespan_grid_scale hA s hs i (by omega) fuel (by omega)
      u kk hu hk Nmax hN hSum hB K hK hN' hB'
    refine ⟨c, hc, fun seq => ⟨?_, ?_⟩⟩
    · unfold Rounded.TestClusteringWMS.estimateTotalTime
      simp only [e1, rounded_estimateWaitTime_zero bs now hbs]
    · have hr : (scaleFlops K w).getTasksInTopLevelRange a b
          = w.getTasksInTopLevelRange a b := rfl
      unfold Rounded.TestClusteringWMS.estimateTotalTime
      simp only [hr, e2, rounded_estimateWaitTime_zero bs now hbs]
  have hfm : Wrench.TestClusteringWMS.findMaxTasks (scaleFlops K w) a b
      = Wrench.TestClusteringWMS.findMaxTasks w a b := rfl
  have hrange : List.range' 1 (Wrench.TestClusteringWMS.findMaxTasks w a b)
      = 1 :: List.range' 2 (Wrench.TestClusteringWMS.findMaxTasks w a b - 1) := by
    obtain ⟨m, hm'⟩ : ∃ m, Wrench.TestClusteringWMS.findMaxTasks w a b = m + 1 :=
      ⟨Wrench.TestClusteringWMS.findMaxTasks w a b - 1, by omega⟩
    rw [hm']
    rfl
  obtain ⟨c1, hc1, hett1⟩ := hcand 1 (le_refl _) htop
  obtain ⟨m, h, hm, r1, r2⟩ := bestLoop_grid_scale fuel w (scaleFlops K w) bs now s wb a b u
    (K * u) hu hKu Nmax h53 hN hN' _ hSum hT hT' _ hSum
    (List.range' 2 (Wrench.TestClusteringWMS.findMaxTasks w a b - 1))
    (by
      intro i hi
      rw [List.mem_range'_1] at hi
      refine ⟨?_, hcand i (by omega) (by omega)⟩
      have : i * ((w.getTasksInTopLevelRange a b).map kk).sum
          ≤ (Wrench.TestClusteringWMS.findMaxTasks w a b + 3)
            * ((w.getTasksInTopLevelRange a b).map kk).sum :=
        Nat.mul_le_mul_right _ (by omega)
      omega)
    c1 1 (seq + 1) hc1
  have hlen : seq + 1 + (List.range' 2 (Wrench.TestClusteringWMS.findMaxTasks w a b - 1)).length
      = seq + Wrench.TestClusteringWMS.findMaxTasks w a b := by
    rw [List.length_range']; omega
  rw [hlen] at r1 r2
  refine ⟨m, h, hm, ?_, ?_⟩
  · unfold Rounded.TestClusteringWMS.computeBestNumHosts
    rw [hrange, bestLoop_first_grid fuel w bs now s wb hwb a b u hu Nmax h53 hN hB _ hSum hT c1
      seq hc1 (hett1 seq).1, r1]
  · unfold Rounded.TestClusteringWMS.computeBestNumHosts
    rw [hfm, hrange, bestLoop_first_grid fuel (scaleFlops K w) bs now s wb hwb a b (K * u) hKu
      Nmax h53 hN' hB' _ hSum hT' c1 seq hc1 (hett1 seq).2, r2]

theorem fillColumn_grid (u u' : ℚ) (Nmax : Nat)
    (call call' : Nat → Nat → Run (Estimate × Nat)) (is : List Nat)
    (h : ∀ i ∈ is, ∀ seq, ∃ m h q : Nat, 3 * m ≤ Nmax ∧
      call i seq = Run.ret (⟨0, (m : ℚ) * u, h⟩, q) ∧
      call' i seq = Run.ret (⟨0, (m : ℚ) * u', h⟩, q)) :
    ∀ seq, ∃ (es : List (Nat × Nat)) (q : Nat), (∀ e ∈ es, 3 * e.1 ≤ Nmax) ∧
      Wrench.TestClusteringWMS.fillColumn call is seq
        = Run.ret (es.map (fun e => (⟨0, (e.1 : ℚ) * u, e.2⟩ : Estimate)), q) ∧
      Wrench.TestClusteringWMS.fillColumn call' is seq
        = Run.ret (es.map (fun e => (⟨0, (e.1 : ℚ) * u', e.2⟩ : Estimate)), q) := by
  induction is with
  | nil =>
    intro seq
    exact ⟨[], seq, by simp, rfl, rfl⟩
  | cons i is ih =>
    intro seq
    obtain ⟨m, hh, q, hm, c1, c2⟩ := h i (by simp) seq
    obtain ⟨es, q', hes, f1, f2⟩ := ih (fun i' hi' => h i' (List.mem_cons_of_mem _ hi')) q
    refine ⟨(m, hh) :: es, q', ?_, ?_, ?_⟩
    · intro e he
      rcases List.mem_cons.1 he with rfl | he'
      · exact hm
      · exact hes e he'
    · unfold Wrench.TestClusteringWMS.fillColumn
      rw [c1]
      simp only [f1, List.map_cons]
    · unfold Wrench.TestClusteringWMS.fillColumn
      rw [c2]
      simp only [f2, List.map_cons]

theorem tableOf_grid (u : ℚ) (Nmax : Nat) (sl : Nat) (es0 es1 : List (Nat × Nat))
    (h0 : ∀ e ∈ es0, 3 * e.1 ≤ Nmax) (h1 : ∀ e ∈ es1, 3 * e.1 ≤ Nmax) (i : Nat) :
    Wrench.TestClusteringWMS.tableOf sl
        (es0.map (fun e => (⟨0, (e.1 : ℚ) * u, e.2⟩ : Estimate)),
          es1.map (fun e => (⟨0, (e.1 : ℚ) * u, e.2⟩ : Estimate))) i
      = (⟨0, ((es0.getD (i - sl) (0, 0)).1 : ℚ) * u, (es0.getD (i - sl) (0, 0)).2⟩,
          ⟨0, ((es1.getD (i - sl) (0, 0)).1 : ℚ) * u, (es1.getD (i - sl) (0, 0)).2⟩) ∧
      3 * (es0.getD (i - sl) (0, 0)).1 ≤ Nmax ∧ 3 * (es1.getD (i - sl) (0, 0)).1 ≤ Nmax := by
  have key : ∀ (l : List (Nat × Nat)) (n : Nat),
      (l.map (fun e => (⟨0, (e.1 : ℚ) * u, e.2⟩ : Estimate))).getD n ⟨0, 0, 0⟩
        = ⟨0, ((l.getD n (0, 0)).1 : ℚ) * u, (l.getD n (0, 0)).2⟩ := by
    intro l
    induction l with
    | nil => intro n; simp
    | cons a l ih =>
      intro n
      cases n with
      | zero => rfl
      | succ n => simpa using ih n
  have bound : ∀ (l : List (Nat × Nat)), (∀ e ∈ l, 3 * e.1 ≤ Nmax) → ∀ n : Nat,
      3 * (l.getD n (0, 0)).1 ≤ Nmax := by
    intro l hl n
    rcases Nat.lt_or_ge n l.length with hlt | hge
    · rw [List.getD_eq_getElem _ _ hlt]
      exact hl _ (List.getElem_mem _)
    · rw [List.getD_eq_default _ _ hge]
      simp
  unfold Wrench.TestClusteringWMS.tableOf
  simp only [key]
  exact ⟨trivial, bound es0 h0 _, bound es1 h1 _⟩

/-- The two columns of `time_estimates` on a workflow whose sums of run times are exact,
for the workflow and for the workflow with every flop count multiplied by `K`, with a
batch service that predicts no wait: the entries have the same numbers of hosts and the
same whole multiples of their unit. -/
theorem timeEstimates_grid_scale (fuel : Nat) (w : Workflow) (bs : BatchEstimates)
    (now : ℚ) (st : TestClusteringWMS) (hs : 0 < st.core_speed) (hwb : 0 ≤ st.waste_bound)
    (hbs : ∀ (key : String) (n : Nat) (t : ℚ), ∃ estimates,
      bs.getStartTimeEstimates [⟨key, n, 1, t⟩] = some estimates ∧
      0 ≤ Rounded.TestClusteringWMS.mapLookup estimates key ∧
      Rounded.TestClusteringWMS.mapLookup estimates key ≤ now)
    (hlev : ∀ b < w.getNumLevels, ∀ a ≤ b, w.getTasksInTopLevelRange a b
      = (List.range' a (b + 1 - a)).flatMap fun l => w.getTasksInTopLevelRange l l)
    (hne : ∀ l < w.getNumLevels, w.getTasksInTopLevelRange l l ≠ [])
    (hA : ∀ b < w.getNumLevels, ∀ a ≤ b, Acyclic w (w.getTasksInTopLevelRange a b))
    (u : ℚ) (kk : Nat → Nat) (hu : 0 < u)
    (hk : ∀ l < w.getNumLevels, ∀ t ∈ w.getTasksInTopLevelRange l l,
      w.flops t / st.core_speed = (kk t : ℚ) * u)
    (Nmax : Nat) (h53 : Nmax ≤ 2 ^ 53)
    (hN : ∀ m : Nat, m ≤ Nmax → roundDouble ((m : ℚ) * u) = (m : ℚ) * u)
    (hS : ∀ b < w.getNumLevels, ∀ a ≤ b, (Wrench.TestClusteringWMS.findMaxTasks w a b + 3)
      * ((w.getTasksInTopLevelRange a b).map kk).sum ≤ Nmax)
    (hB : (Nmax : ℚ) * u ≤ DBL_MAX)
    (K : ℚ) (hK : 0 < K)
    (hN' : ∀ m : Nat, m ≤ Nmax → roundDouble ((m : ℚ) * (K * u)) = (m : ℚ) * (K * u))
    (hB' : (Nmax : ℚ) * (K * u) ≤ DBL_MAX)
    (hfuel : ∀ b < w.getNumLevels, ∀ a ≤ b, (w.getTasksInTopLevelRange a b).length
      * (Wrench.TestClusteringWMS.findMaxTasks w a b + 1) ≤ fuel) (sl : Nat) :
    ∃ (es0 es1 : List (Nat × Nat)) (q : Nat),
      (∀ e ∈ es0, 3 * e.1 ≤ Nmax) ∧ (∀ e ∈ es1, 3 * e.1 ≤ Nmax) ∧
      Rounded.TestClusteringWMS.timeEstimates fuel w bs now st sl
        = Run.ret ((es0.map (fun e => (⟨0, (e.1 : ℚ) * u, e.2⟩ : Estimate)),
            es1.map (fun e => (⟨0, (e.1 : ℚ) * u, e.2⟩ : Estimate))), q) ∧
      Rounded.TestClusteringWMS.timeEstimates fuel (scaleFlops K w) bs now st sl
        = Run.ret ((es0.map (fun e => (⟨0, (e.1 : ℚ) * (K * u), e.2⟩ : Estimate)),
            es1.map (fun e => (⟨0, (e.1 : ℚ) * (K * u), e.2⟩ : Estimate))), q) := by
  have hcall : ∀ a b, a ≤ b → b < w.getNumLevels → ∀ seq, ∃ m h q : Nat, 3 * m ≤ Nmax ∧
      Rounded.TestClusteringWMS.computeBestNumHosts fuel w bs now st.core_speed st.waste_bound
          a b seq = Run.ret (⟨0, (m : ℚ) * u, h⟩, q) ∧
      Rounded.TestClusteringWMS.computeBestNumHosts fuel (scaleFlops K w) bs now st.core_speed
          st.waste_bound a b seq = Run.ret (⟨0, (m : ℚ) * (K * u), h⟩, q) := by
    intro a b hab hb seq
    have hkr : ∀ t ∈ w.getTasksInTopLevelRange a b,
        w.flops t / st.core_speed = (kk t : ℚ) * u := by
      intro t ht
      rw [hlev b hb a hab] at ht
      obtain ⟨l, hl, htl⟩ := List.mem_flatMap.1 ht
      rw [List.mem_range'_1] at hl
      exact hk l (by omega) t htl
    obtain ⟨m, h, hm, r1, r2⟩ := computeBestNumHosts_grid_scale fuel w bs now st.core_speed
      st.waste_bound hs hwb hbs a b ⟨a, le_refl _, hab, hne a (by omega)⟩ (hlev b hb a hab)
      (hA b hb a hab) u kk hu hkr Nmax h53 hN (hS b hb a hab) hB K hK hN' hB'
      (hfuel b hb a hab) seq
    refine ⟨m, h, _, ?_, r1, r2⟩
    have h1 : 3 * m ≤ 3 * ((w.getTasksInTopLevelRange a b).map kk).sum :=
      Nat.mul_le_mul_left 3 hm
    have h2 : 3 * ((w.getTasksInTopLevelRange a b).map kk).sum
        ≤ (Wrench.TestClusteringWMS.findMaxTasks w a b + 3)
          * ((w.getTasksInTopLevelRange a b).map kk).sum :=
      Nat.mul_le_mul_right _ (Nat.le_add_left 3 _)
    exact le_trans h1 (le_trans h2 (hS b hb a hab))
  obtain ⟨es0, q0, hes0, f1, f2⟩ := fillColumn_grid u (K * u) Nmax
    (fun i sequence =>
      Rounded.TestClusteringWMS.computeBestNumHosts fuel w bs now st.core_speed st.waste_bound
        sl i sequence)
    (fun i sequence =>
      Rounded.TestClusteringWMS.computeBestNumHosts fuel (scaleFlops K w) bs now st.core_speed
        st.waste_bound sl i sequence)
    (List.range' sl (w.getNumLevels - sl)) (by
      intro i hi seq
      rw [List.mem_range'_1] at hi
      exact hcall sl i hi.1 (by omega) seq) st.sequence
  obtain ⟨es1, q1, hes1, g1, g2⟩ := fillColumn_grid u (K * u) Nmax
    (fun i sequence =>
      Rounded.TestClusteringWMS.computeBestNumHosts fuel w bs now st.core_speed st.waste_bound
        i (w.getNumLevels - 1) sequence)
    (fun i sequence =>
      Rounded.TestClusteringWMS.computeBestNumHosts fuel (scaleFlops K w) bs now st.core_speed
        st.waste_bound i (w.getNumLevels - 1) sequence)
    (List.range' sl (w.getNumLevels - sl)) (by
      intro i hi seq
      rw [List.mem_range'_1] at hi
      exact hcall i (w.getNumLevels - 1) (by omega) (by omega) seq) q0
  have hL : (scaleFlops K w).getNumLevels = w.getNumLevels := rfl
  refine ⟨es0, es1, q1, hes0, hes1, ?_, ?_⟩
  · unfold Rounded.TestClusteringWMS.timeEstimates
    simp only [f1, g1]
  · unfold Rounded.TestClusteringWMS.timeEstimates
    simp only [hL, f2, g2]

theorem splitDifference_grid (U : ℚ) (Nmax : Nat)
    (hN : ∀ m : Nat, m ≤ Nmax → roundDouble ((m : ℚ) * U) = (m : ℚ) * U)
    (g0 g1 : Nat → Nat × Nat) (hg0 : ∀ i, 3 * (g0 i).1 ≤ Nmax) (i : Nat) :
    Rounded.TestClusteringWMS.splitDifference
        (fun i => ((⟨0, ((g0 i).1 : ℚ) * U, (g0 i).2⟩ : Estimate),
          (⟨0, ((g1 i).1 : ℚ) * U, (g1 i).2⟩ : Estimate))) i
      = ((g0 i).1 : ℚ) * U := by
  unfold Rounded.TestClusteringWMS.splitDifference
  simp only [sub_zero]
  exact hN _ (by have := hg0 i; omega)

theorem splitTotal_grid (U : ℚ) (hU : 0 < U) (Nmax : Nat)
    (hN : ∀ m : Nat, m ≤ Nmax → roundDouble ((m : ℚ) * U) = (m : ℚ) * U)
    (g0 g1 : Nat → Nat × Nat) (hg0 : ∀ i, 3 * (g0 i).1 ≤ Nmax)
    (hg1 : ∀ i, 3 * (g1 i).1 ≤ Nmax) (i : Nat) :
    Rounded.TestClusteringWMS.splitTotal
        (fun i => ((⟨0, ((g0 i).1 : ℚ) * U, (g0 i).2⟩ : Estimate),
          (⟨0, ((g1 i).1 : ℚ) * U, (g1 i).2⟩ : Estimate))) i
      = (((g0 i).1 + (g1 (i + 1)).1 + (g0 i).1 : Nat) : ℚ) * U := by
  have h0 := hg0 i
  have h1 := hg1 (i + 1)
  have hnn : (0 : ℚ) ≤ ((g0 i).1 : ℚ) * U := mul_nonneg (Nat.cast_nonneg _) (le_of_lt hU)
  have hlee : Rounded.TestClusteringWMS.splitLeeway
      (fun i => ((⟨0, ((g0 i).1 : ℚ) * U, (g0 i).2⟩ : Estimate),
        (⟨0, ((g1 i).1 : ℚ) * U, (g1 i).2⟩ : Estimate))) i = ((g0 i).1 : ℚ) * U := by
    unfold Rounded.TestClusteringWMS.splitLeeway
    rw [splitDifference_grid U Nmax hN g0 g1 hg0 i]
    split
    · rfl
    · linarith
  unfold Rounded.TestClusteringWMS.splitTotal
  rw [hlee]
  simp only [zero_add, max_eq_left hnn]
  rw [hN _ (by omega), roundDouble_grid_add U Nmax hN _ _ (by omega)]
  have e : (((g0 i).1 : ℚ) * U + ((g1 (i + 1)).1 : ℚ) * U)
      = (((g0 i).1 + (g1 (i + 1)).1 : Nat) : ℚ) * U := by push_cast; ring
  rw [e, roundDouble_grid_add U Nmax hN _ _ (by omega)]
  push_cast
  ring

/-- The body of the split loop on a table of whole multiples of a unit with exact sums,
without waits and with `beat_bound = 0`. -/
theorem splitStep_grid (U : ℚ) (hU : 0 < U) (Nmax : Nat)
    (hN : ∀ m : Nat, m ≤ Nmax → roundDouble ((m : ℚ) * U) = (m : ℚ) * U)
    (g0 g1 : Nat → Nat × Nat) (hg0 : ∀ i, 3 * (g0 i).1 ≤ Nmax)
    (hg1 : ∀ i, 3 * (g1 i).1 ≤ Nmax) (end_level e Tn rn hh i : Nat) :
    Rounded.TestClusteringWMS.splitStep 0 end_level
        (fun i => ((⟨0, ((g0 i).1 : ℚ) * U, (g0 i).2⟩ : Estimate),
          (⟨0, ((g1 i).1 : ℚ) * U, (g1 i).2⟩ : Estimate)))
        ⟨e, (Tn : ℚ) * U, (rn : ℚ) * U, hh, 0⟩ i
      = (if Rounded.TestClusteringWMS.splitRejected
            (fun i => ((⟨0, ((g0 i).1 : ℚ) * U, (g0 i).2⟩ : Estimate),
              (⟨0, ((g1 i).1 : ℚ) * U, (g1 i).2⟩ : Estimate))) i then
          ⟨e, (Tn : ℚ) * U, (rn : ℚ) * U, hh, 0⟩
        else if (g0 i).1 + (g1 (i + 1)).1 + (g0 i).1 < Tn then
          ⟨i, (((g0 i).1 + (g1 (i + 1)).1 + (g0 i).1 : Nat) : ℚ) * U, ((g0 i).1 : ℚ) * U,
            (g0 i).2, 0⟩
        else ⟨e, (Tn : ℚ) * U, (rn : ℚ) * U, hh, 0⟩) := by
  have h0 := hg0 i
  have h1 := hg1 (i + 1)
  have htot := splitTotal_grid U hU Nmax hN g0 g1 hg0 hg1 i
  unfold Rounded.TestClusteringWMS.splitStep
  split
  · rfl
  · simp only [htot, mul_zero, roundDouble_zero, add_zero]
    rw [hN _ (by omega)]
    simp only [ite_self]
    have hcmp : ((((g0 i).1 + (g1 (i + 1)).1 + (g0 i).1 : Nat) : ℚ) * U < (Tn : ℚ) * U)
        ↔ (g0 i).1 + (g1 (i + 1)).1 + (g0 i).1 < Tn := by
      constructor
      · intro hlt
        have := lt_of_mul_lt_mul_right hlt (le_of_lt hU)
        exact_mod_cast this
      · intro hlt
        have : ((((g0 i).1 + (g1 (i + 1)).1 + (g0 i).1 : Nat) : ℚ)) < (Tn : ℚ) := by
          exact_mod_cast hlt
        exact mul_lt_mul_of_pos_right this hU
    simp only [hcmp]

/-- The rejection test of the split loop is the same on a table and on its multiple by a
power of two, when the entries are whole multiples of a unit of at least `2^-1018`. -/
theorem splitRejected_grid_scale (u : ℚ) (j : ℤ) (hu : (2 : ℚ) ^ (-1018 : ℤ) ≤ u)
    (hu' : (2 : ℚ) ^ (-1018 : ℤ) ≤ (2 : ℚ) ^ j * u) (Nmax : Nat)
    (hN : ∀ m : Nat, m ≤ Nmax → roundDouble ((m : ℚ) * u) = (m : ℚ) * u)
    (hN' : ∀ m : Nat, m ≤ Nmax →
      roundDouble ((m : ℚ) * ((2 : ℚ) ^ j * u)) = (m : ℚ) * ((2 : ℚ) ^ j * u))
    (g0 g1 : Nat → Nat × Nat) (hg0 : ∀ i, 3 * (g0 i).1 ≤ Nmax) (i : Nat) :
    Rounded.TestClusteringWMS.splitRejected
        (fun i => ((⟨0, ((g0 i).1 : ℚ) * ((2 : ℚ) ^ j * u), (g0 i).2⟩ : Estimate),
          (⟨0, ((g1 i).1 : ℚ) * ((2 : ℚ) ^ j * u), (g1 i).2⟩ : Estimate))) i
      = Rounded.TestClusteringWMS.splitRejected
        (fun i => ((⟨0, ((g0 i).1 : ℚ) * u, (g0 i).2⟩ : Estimate),
          (⟨0, ((g1 i).1 : ℚ) * u, (g1 i).2⟩ : Estimate))) i := by
  have hmin : (0 : ℚ) < (2 : ℚ) ^ (-1018 : ℤ) := zpow_pos (by norm_num) _
  have hupos : 0 < u := lt_of_lt_of_le hmin hu
  have hK : (0 : ℚ) < (2 : ℚ) ^ j := zpow_pos (by norm_num) _
  have hc10 : (2 : ℚ) ^ (-4 : ℤ) ≤ roundDouble (1 / 10) := by decide!
  have hsplit : (2 : ℚ) ^ (-1022 : ℤ) = (2 : ℚ) ^ (-1018 : ℤ) * (2 : ℚ) ^ (-4 : ℤ) := by
    rw [← zpow_add₀ (by norm_num : (2 : ℚ) ≠ 0)]
    norm_num
  have hprod : roundDouble (((g1 (i + 1)).1 : ℚ) * ((2 : ℚ) ^ j * u) * roundDouble (1 / 10))
      = (2 : ℚ) ^ j * roundDouble (((g1 (i + 1)).1 : ℚ) * u * roundDouble (1 / 10)) := by
    rcases Nat.eq_zero_or_pos (g1 (i + 1)).1 with h0 | hpos
    · rw [h0]; simp [roundDouble_zero]
    · have h1 : (1 : ℚ) ≤ ((g1 (i + 1)).1 : ℚ) := by exact_mod_cast hpos
      have e : ((g1 (i + 1)).1 : ℚ) * ((2 : ℚ) ^ j * u) * roundDouble (1 / 10)
          = (2 : ℚ) ^ j * (((g1 (i + 1)).1 : ℚ) * u * roundDouble (1 / 10)) := by ring
      rw [e]
      apply roundDouble_two_zpow_mul
      · rw [hsplit]
        apply mul_le_mul _ hc10 (le_of_lt (zpow_pos (by norm_num) _))
          (mul_nonneg (by linarith) (le_of_lt hupos))
        calc (2 : ℚ) ^ (-1018 : ℤ) ≤ u := hu
          _ = 1 * u := (one_mul u).symm
          _ ≤ ((g1 (i + 1)).1 : ℚ) * u := mul_le_mul_of_nonneg_right h1 (le_of_lt hupos)
      · rw [← e, hsplit]
        apply mul_le_mul _ hc10 (le_of_lt (zpow_pos (by norm_num) _))
          (mul_nonneg (by linarith) (le_of_lt (mul_pos hK hupos)))
        calc (2 : ℚ) ^ (-1018 : ℤ) ≤ (2 : ℚ) ^ j * u := hu'
          _ = 1 * ((2 : ℚ) ^ j * u) := (one_mul _).symm
          _ ≤ ((g1 (i + 1)).1 : ℚ) * ((2 : ℚ) ^ j * u) :=
            mul_le_mul_of_nonneg_right h1 (le_of_lt (mul_pos hK hupos))
  unfold Rounded.TestClusteringWMS.splitRejected
  rw [splitDifference_grid u Nmax hN g0 g1 hg0 i,
    splitDifference_grid ((2 : ℚ) ^ j * u) Nmax hN' g0 g1 hg0 i]
  simp only
  rw [hprod]
  have e1 : (((g0 i).1 : ℚ) * ((2 : ℚ) ^ j * u) > 0) ↔ (((g0 i).1 : ℚ) * u > 0) := by
    have : ((g0 i).1 : ℚ) * ((2 : ℚ) ^ j * u) = (2 : ℚ) ^ j * (((g0 i).1 : ℚ) * u) := by ring
    rw [this]
    constructor
    · intro h; exact pos_of_mul_pos_right h (le_of_lt hK)
    · intro h; exact mul_pos hK h
  have e2 : (((g0 i).1 : ℚ) * ((2 : ℚ) ^ j * u)
        > (2 : ℚ) ^ j * roundDouble (((g1 (i + 1)).1 : ℚ) * u * roundDouble (1 / 10)))
      ↔ (((g0 i).1 : ℚ) * u
        > roundDouble (((g1 (i + 1)).1 : ℚ) * u * roundDouble (1 / 10))) := by
    have : ((g0 i).1 : ℚ) * ((2 : ℚ) ^ j * u) = (2 : ℚ) ^ j * (((g0 i).1 : ℚ) * u) := by ring
    rw [this]
    constructor
    · intro h; exact lt_of_mul_lt_mul_left h (le_of_lt hK)
    · intro h; exact mul_lt_mul_of_pos_left h hK
  simp only [e1, e2]

/-- The split loop on a table of whole multiples of a unit with exact sums and on its
multiple by a power of two, without waits and with `beat_bound = 0`: the same end level and
parallelism are chosen, and the times are the same whole multiples of the two units. -/
theorem splitLoop_grid_scale (u : ℚ) (j : ℤ) (hu : (2 : ℚ) ^ (-1018 : ℤ) ≤ u)
    (hu' : (2 : ℚ) ^ (-1018 : ℤ) ≤ (2 : ℚ) ^ j * u) (Nmax : Nat)
    (hN : ∀ m : Nat, m ≤ Nmax → roundDouble ((m : ℚ) * u) = (m : ℚ) * u)
    (hN' : ∀ m : Nat, m ≤ Nmax →
      roundDouble ((m : ℚ) * ((2 : ℚ) ^ j * u)) = (m : ℚ) * ((2 : ℚ) ^ j * u))
    (g0 g1 : Nat → Nat × Nat) (hg0 : ∀ i, 3 * (g0 i).1 ≤ Nmax)
    (hg1 : ∀ i, 3 * (g1 i).1 ≤ Nmax) (sl L : Nat) :
    ∃ e Tn rn hh : Nat, 3 * rn ≤ Nmax ∧
      Rounded.TestClusteringWMS.splitLoop 0 sl L
          (fun i => ((⟨0, ((g0 i).1 : ℚ) * u, (g0 i).2⟩ : Estimate),
            (⟨0, ((g1 i).1 : ℚ) * u, (g1 i).2⟩ : Estimate)))
        = ⟨e, (Tn : ℚ) * u, (rn : ℚ) * u, hh, 0⟩ ∧
      Rounded.TestClusteringWMS.splitLoop 0 sl L
          (fun i => ((⟨0, ((g0 i).1 : ℚ) * ((2 : ℚ) ^ j * u), (g0 i).2⟩ : Estimate),
            (⟨0, ((g1 i).1 : ℚ) * ((2 : ℚ) ^ j * u), (g1 i).2⟩ : Estimate)))
        = ⟨e, (Tn : ℚ) * ((2 : ℚ) ^ j * u), (rn : ℚ) * ((2 : ℚ) ^ j * u), hh, 0⟩ := by
  have hmin : (0 : ℚ) < (2 : ℚ) ^ (-1018 : ℤ) := zpow_pos (by norm_num) _
  have hupos : 0 < u := lt_of_lt_of_le hmin hu
  have hK : (0 : ℚ) < (2 : ℚ) ^ j := zpow_pos (by norm_num) _
  have hKu : 0 < (2 : ℚ) ^ j * u := mul_pos hK hupos
  have key : ∀ (l : List Nat) (e Tn rn hh : Nat), 3 * rn ≤ Nmax →
      ∃ e' Tn' rn' hh' : Nat, 3 * rn' ≤ Nmax ∧
        l.foldl (Rounded.TestClusteringWMS.splitStep 0 (L - 1)
            (fun i => ((⟨0, ((g0 i).1 : ℚ) * u, (g0 i).2⟩ : Estimate),
              (⟨0, ((g1 i).1 : ℚ) * u, (g1 i).2⟩ : Estimate))))
            ⟨e, (Tn : ℚ) * u, (rn : ℚ) * u, hh, 0⟩
          = ⟨e', (Tn' : ℚ) * u, (rn' : ℚ) * u, hh', 0⟩ ∧
        l.foldl (Rounded.TestClusteringWMS.splitStep 0 (L - 1)
            (fun i => ((⟨0, ((g0 i).1 : ℚ) * ((2 : ℚ) ^ j * u), (g0 i).2⟩ : Estimate),
              (⟨0, ((g1 i).1 : ℚ) * ((2 : ℚ) ^ j * u), (g1 i).2⟩ : Estimate))))
            ⟨e, (Tn : ℚ) * ((2 : ℚ) ^ j * u), (rn : ℚ) * ((2 : ℚ) ^ j * u), hh, 0⟩
          = ⟨e', (Tn' : ℚ) * ((2 : ℚ) ^ j * u), (rn' : ℚ) * ((2 : ℚ) ^ j * u), hh', 0⟩ := by
    intro l
    induction l with
    | nil => intro e Tn rn hh hrn; exact ⟨e, Tn, rn, hh, hrn, rfl, rfl⟩
    | cons i l ih =>
      intro e Tn rn hh hrn
      simp only [List.foldl_cons]
      rw [splitStep_grid u hupos Nmax hN g0 g1 hg0 hg1,
        splitStep_grid ((2 : ℚ) ^ j * u) hKu Nmax hN' g0 g1 hg0 hg1,
        splitRejected_grid_scale u j hu hu' Nmax hN hN' g0 g1 hg0 i]
      by_cases hr : Rounded.TestClusteringWMS.splitRejected
          (fun i => ((⟨0, ((g0 i).1 : ℚ) * u, (g0 i).2⟩ : Estimate),
            (⟨0, ((g1 i).1 : ℚ) * u, (g1 i).2⟩ : Estimate))) i = true
      · rw [if_pos hr, if_pos hr]
        exact ih e Tn rn hh hrn
      · rw [if_neg hr, if_neg hr]
        by_cases hlt : (g0 i).1 + (g1 (i + 1)).1 + (g0 i).1 < Tn
        · rw [if_pos hlt, if_pos hlt]
          exact ih i _ _ _ (hg0 i)
        · rw [if_neg hlt, if_neg hlt]
          exact ih e Tn rn hh hrn
  have hinit : ∀ U : ℚ,
      (∀ m : Nat, m ≤ Nmax → roundDouble ((m : ℚ) * U) = (m : ℚ) * U) →
      roundDouble ((0 : ℚ) + ((g1 sl).1 : ℚ) * U) = ((g1 sl).1 : ℚ) * U := by
    intro U hNU
    rw [zero_add]
    exact hNU _ (by have := hg1 sl; omega)
  obtain ⟨e, Tn, rn, hh, hrn, k1, k2⟩ :=
    key (List.range' sl (L - 1 - sl)) (L - 1) (g1 sl).1 (g1 sl).1 (g1 sl).2 (hg1 sl)
  refine ⟨e, Tn, rn, hh, hrn, ?_, ?_⟩
  · unfold Rounded.TestClusteringWMS.splitLoop
    simp only [hinit u hN]
    exact k1
  · unfold Rounded.TestClusteringWMS.splitLoop
    simp only [hinit _ hN']
    exact k2

theorem submitChoice_grid (w : Workflow) (st : TestClusteringWMS)
    (hi : st.individual_mode = false) (hpr : st.parent_runtime = 0) (sl e : Nat) (T r : ℚ)
    (hh : Nat) :
    (Rounded.TestClusteringWMS.submitChoice w st sl ⟨e, T, r, hh, 0⟩).pending_placeholder_job
        = some ⟨st.next_pilot_job, hh,
            (List.range' sl (e + 1 - sl)).flatMap (fun l =>
              (w.getTasksInTopLevelRange l l).filter fun t => w.state t != TaskState.COMPLETED),
            sl, e, 0⟩ ∧
      (Rounded.TestClusteringWMS.submitChoice w st sl ⟨e, T, r, hh, 0⟩).number_of_splits
        = (if e = w.getNumLevels - 1 then st.number_of_splits else st.number_of_splits + 1) ∧
      (Rounded.TestClusteringWMS.submitChoice w st sl ⟨e, T, r, hh, 0⟩).individual_mode
        = false ∧
      (Rounded.TestClusteringWMS.submitChoice w st sl ⟨e, T, r, hh, 0⟩).parent_runtime
        = roundDouble (r * Rounded.TestClusteringWMS.EXECUTION_TIME_FUDGE_FACTOR) := by
  unfold Rounded.TestClusteringWMS.submitChoice
    Rounded.TestClusteringWMS.createAndSubmitPlaceholderJob
  by_cases h1 : e = w.getNumLevels - 1
  · simp only [h1, if_true, hi, Bool.not_false, hpr, gt_iff_lt, lt_irrefl, if_false]
    exact ⟨trivial, trivial, trivial, trivial⟩
  · simp only [h1, if_false, if_true, hi, Bool.not_false, hpr, gt_iff_lt, lt_irrefl]
    exact ⟨trivial, trivial, trivial, trivial⟩

/-- C15, as the code behaves: on the chain `0 -> 1 -> 2` (flops 3, 4, 5, one host of speed
1, `beat_bound = 0`, `parent_runtime = 0`) with a batch service that predicts the start
date `t * t` for a job of `t` seconds, the decision ends the placeholder job at level 1;
with every flop count multiplied by `1/4` (flops 0.75, 1 and 1.25, all doubles) and the
same batch service it ends the placeholder job at level 0. -/
theorem applyGroupingHeuristic_scaled_counterexample :
    Wrench.TestClusteringWMS.observe
        (Rounded.TestClusteringWMS.applyGroupingHeuristic 8 chainWorkflow squareEstimates 0
          (Wrench.TestClusteringWMS.initial (1 / 5) 0 1))
      = some (false, some ⟨0, 1, [0, 1], 0, 1, 0⟩, 1, [Submitted.pilotJob 0 ⟨"1", "1", "1"⟩]) ∧
    Wrench.TestClusteringWMS.observe
        (Rounded.TestClusteringWMS.applyGroupingHeuristic 8 (scaleFlops (1 / 4) chainWorkflow)
          squareEstimates 0 (Wrench.TestClusteringWMS.initial (1 / 5) 0 1))
      = some (false, some ⟨0, 1, [0], 0, 0, 0⟩, 1, [Submitted.pilotJob 0 ⟨"1", "1", "1"⟩]) := by
  refine ⟨by decide!, by decide!⟩

/-- C15, amended: let `X'` be the workflow `X` with every flop count multiplied by a power
of two `2^j`, both decided by the Test heuristic in doubles with the same controller state
(`beat_bound = 0`, `parent_runtime = 0`, `waste_bound >= 0`, positive core speed) and the
same batch service, one that predicts no wait (every start date it answers is between 0
and `now`).  Suppose every range of levels of `X` is the concatenation of its non-empty
levels and has acyclic dependencies; the run times `flops / core_speed` are whole multiples
`kk t * u` of a unit `u` with `u` and `2^j * u` at least `2^-1018`; every whole multiple of
`u` up to `Nmax <= 2^53` is a double, where `Nmax` is at least `findMaxTasks + 3` times the
sum of the run times of any range in units, and `Nmax * u` and `Nmax * 2^j * u` are at most
`DBL_MAX`; and the fuel covers `findMaxTasks + 1` passes per task.  Then both decisions
return, with the same pending placeholder job (start level, end level, parallelism and
tasks), the same number of splits and the same mode, and the walltime (`parent_runtime`)
chosen for `X'` is `2^j` times the one chosen for `X`. -/
theorem applyGroupingHeuristic_scale (fuel : Nat) (w : Workflow) (j : ℤ) (now : ℚ)
    (bs : BatchEstimates) (st : TestClusteringWMS) (hs : 0 < st.core_speed)
    (hwb : 0 ≤ st.waste_bound) (hbb : st.beat_bound = 0) (hpr : st.parent_runtime = 0)
    (hbs : ∀ (key : String) (n : Nat) (t : ℚ), ∃ estimates,
      bs.getStartTimeEstimates [⟨key, n, 1, t⟩] = some estimates ∧
      0 ≤ Rounded.TestClusteringWMS.mapLookup estimates key ∧
      Rounded.TestClusteringWMS.mapLookup estimates key ≤ now)
    (hlev : ∀ b < w.getNumLevels, ∀ a ≤ b, w.getTasksInTopLevelRange a b
      = (List.range' a (b + 1 - a)).flatMap fun l => w.getTasksInTopLevelRange l l)
    (hne : ∀ l < w.getNumLevels, w.getTasksInTopLevelRange l l ≠ [])
    (hA : ∀ b < w.getNumLevels, ∀ a ≤ b, Acyclic w (w.getTasksInTopLevelRange a b))
    (u : ℚ) (kk : Nat → Nat) (hu : (2 : ℚ) ^ (-1018 : ℤ) ≤ u)
    (hu' : (2 : ℚ) ^ (-1018 : ℤ) ≤ (2 : ℚ) ^ j * u)
    (hk : ∀ l < w.getNumLevels, ∀ t ∈ w.getTasksInTopLevelRange l l,
      w.flops t / st.core_speed = (kk t : ℚ) * u)
    (Nmax : Nat) (h53 : Nmax ≤ 2 ^ 53)
    (hN : ∀ m : Nat, m ≤ Nmax → roundDouble ((m : ℚ) * u) = (m : ℚ) * u)
    (hS : ∀ b < w.getNumLevels, ∀ a ≤ b, (Wrench.TestClusteringWMS.findMaxTasks w a b + 3)
      * ((w.getTasksInTopLevelRange a b).map kk).sum ≤ Nmax)
    (hB : (Nmax : ℚ) * u ≤ DBL_MAX) (hB' : (Nmax : ℚ) * ((2 : ℚ) ^ j * u) ≤ DBL_MAX)
    (hfuel : ∀ b < w.getNumLevels, ∀ a ≤ b, (w.getTasksInTopLevelRange a b).length
      * (Wrench.TestClusteringWMS.findMaxTasks w a b + 1) ≤ fuel) :
    ∃ st1 st1', Rounded.TestClusteringWMS.applyGroupingHeuristic fuel w bs now st
        = Run.ret st1 ∧
      Rounded.TestClusteringWMS.applyGroupingHeuristic fuel (scaleFlops ((2 : ℚ) ^ j) w) bs
        now st = Run.ret st1' ∧
      st1'.pending_placeholder_job = st1.pending_placeholder_job ∧
      st1'.number_of_splits = st1.number_of_splits ∧
      st1'.individual_mode = st1.individual_mode ∧
      st1'.parent_runtime = (2 : ℚ) ^ j * st1.parent_runtime := by
  have hmin : (0 : ℚ) < (2 : ℚ) ^ (-1018 : ℤ) := zpow_pos (by norm_num) _
  have hupos : 0 < u := lt_of_lt_of_le hmin hu
  have hK : (0 : ℚ) < (2 : ℚ) ^ j := zpow_pos (by norm_num) _
  have hKu : 0 < (2 : ℚ) ^ j * u := mul_pos hK hupos
  have h1822 : (2 : ℚ) ^ (-1022 : ℤ) ≤ (2 : ℚ) ^ (-1018 : ℤ) :=
    zpow_le_zpow_right₀ (by norm_num) (by norm_num)
  have hnorm : ∀ (m : Nat) (c : ℚ), 0 < m → 1 ≤ c →
      (2 : ℚ) ^ (-1022 : ℤ) ≤ (m : ℚ) * u * c ∧
      (2 : ℚ) ^ (-1022 : ℤ) ≤ (2 : ℚ) ^ j * ((m : ℚ) * u * c) := by
    intro m c hm hc
    have h1 : (1 : ℚ) ≤ (m : ℚ) := by exact_mod_cast hm
    have hmc : (1 : ℚ) ≤ (m : ℚ) * c := by nlinarith
    constructor
    · have : u ≤ (m : ℚ) * u * c := by nlinarith
      linarith
    · have : (2 : ℚ) ^ j * u ≤ (2 : ℚ) ^ j * ((m : ℚ) * u * c) := by nlinarith
      linarith
  have hN' : ∀ m : Nat, m ≤ Nmax →
      roundDouble ((m : ℚ) * ((2 : ℚ) ^ j * u)) = (m : ℚ) * ((2 : ℚ) ^ j * u) := by
    intro m hm
    rcases Nat.eq_zero_or_pos m with h0 | hpos
    · rw [h0]; simp [roundDouble_zero]
    · have e : (m : ℚ) * ((2 : ℚ) ^ j * u) = (2 : ℚ) ^ j * ((m : ℚ) * u) := by ring
      obtain ⟨n1, n2⟩ := hnorm m 1 hpos (le_refl _)
      rw [mul_one] at n1 n2
      rw [e, roundDouble_two_zpow_mul j _ n1 n2, hN m hm]
  have hL : (scaleFlops ((2 : ℚ) ^ j) w).getNumLevels = w.getNumLevels := rfl
  have hsl : ∀ r, Wrench.TestClusteringWMS.startLevel (scaleFlops ((2 : ℚ) ^ j) w) r
      = Wrench.TestClusteringWMS.startLevel w r := fun _ => rfl
  have hsame : ∃ st1 st1', Run.ret st = Run.ret st1 ∧ Run.ret st = Run.ret st1' ∧
      st1'.pending_placeholder_job = st1.pending_placeholder_job ∧
      st1'.number_of_splits = st1.number_of_splits ∧
      st1'.individual_mode = st1.individual_mode ∧
      st1'.parent_runtime = (2 : ℚ) ^ j * st1.parent_runtime :=
    ⟨st, st, rfl, rfl, rfl, rfl, rfl, by rw [hpr, mul_zero]⟩
  unfold Rounded.TestClusteringWMS.applyGroupingHeuristic
  rw [hL]
  simp only [hsl]
  by_cases h1 : st.pending_placeholder_job.isSome = true
  · rw [if_pos h1, if_pos h1]; exact hsame
  · rw [if_neg h1, if_neg h1]
    by_cases h2 : st.individual_mode = true
    · rw [if_pos h2, if_pos h2]; exact hsame
    · rw [if_neg h2, if_neg h2]
      by_cases h3 : (!st.overlap && !st.running_placeholder_jobs.isEmpty) = true
      · rw [if_pos h3, if_pos h3]; exact hsame
      · rw [if_neg h3, if_neg h3]
        by_cases h4 : Wrench.TestClusteringWMS.startLevel w st.running_placeholder_jobs
            ≥ w.getNumLevels
        · rw [if_pos h4, if_pos h4]; exact hsame
        · rw [if_neg h4, if_neg h4]
          obtain ⟨es0, es1, q, hes0, hes1, t1, t2⟩ := timeEstimates_grid_scale fuel w bs now st
            hs hwb hbs hlev hne hA u kk hupos hk Nmax h53 hN hS hB ((2 : ℚ) ^ j) hK hN' hB'
            hfuel (Wrench.TestClusteringWMS.startLevel w st.running_placeholder_jobs)
          rw [t1, t2]
          simp only
          have htab : ∀ U : ℚ,
              Wrench.TestClusteringWMS.tableOf
                  (Wrench.TestClusteringWMS.startLevel w st.running_placeholder_jobs)
                  (es0.map (fun e => (⟨0, (e.1 : ℚ) * U, e.2⟩ : Estimate)),
                    es1.map (fun e => (⟨0, (e.1 : ℚ) * U, e.2⟩ : Estimate)))
                = fun i => ((⟨0, (((fun i => es0.getD
                      (i - Wrench.TestClusteringWMS.startLevel w st.running_placeholder_jobs)
                      (0, 0)) i).1 : ℚ) * U,
                    ((fun i => es0.getD
                      (i - Wrench.TestClusteringWMS.startLevel w st.running_placeholder_jobs)
                      (0, 0)) i).2⟩ : Estimate),
                  (⟨0, (((fun i => es1.getD
                      (i - Wrench.TestClusteringWMS.startLevel w st.running_placeholder_jobs)
                      (0, 0)) i).1 : ℚ) * U,
                    ((fun i => es1.getD
                      (i - Wrench.TestClusteringWMS.startLevel w st.running_placeholder_jobs)
                      (0, 0)) i).2⟩ : Estimate)) := by
            intro U
            funext i
            exact (tableOf_grid U Nmax _ es0 es1 hes0 hes1 i).1
          have hsp : ∀ te : Nat → Estimate × Estimate,
              Rounded.TestClusteringWMS.splitLoop st.beat_bound
                  (Wrench.TestClusteringWMS.startLevel w st.running_placeholder_jobs)
                  w.getNumLevels te
                = Rounded.TestClusteringWMS.splitLoop 0
                  (Wrench.TestClusteringWMS.startLevel w st.running_placeholder_jobs)
                  w.getNumLevels te := by
            intro te; rw [hbb]
          rw [htab u, htab ((2 : ℚ) ^ j * u), hsp, hsp]
          obtain ⟨e, Tn, rn, hh, hrn, c1, c2⟩ := splitLoop_grid_scale u j hu hu' Nmax hN hN'
            (fun i => es0.getD
              (i - Wrench.TestClusteringWMS.startLevel w st.running_placeholder_jobs) (0, 0))
            (fun i => es1.getD
              (i - Wrench.TestClusteringWMS.startLevel w st.running_placeholder_jobs) (0, 0))
            (fun i => (tableOf_grid u Nmax _ es0 es1 hes0 hes1 i).2.1)
            (fun i => (tableOf_grid u Nmax _ es0 es1 hes0 hes1 i).2.2)
            (Wrench.TestClusteringWMS.startLevel w st.running_placeholder_jobs) w.getNumLevels
          rw [c1, c2]
          have hi : ({ st with sequence := q } : TestClusteringWMS).individual_mode = false := by
            simpa using h2
          obtain ⟨a1, a2, a3, a4⟩ := submitChoice_grid w { st with sequence := q } hi hpr
            (Wrench.TestClusteringWMS.startLevel w st.running_placeholder_jobs) e
            ((Tn : ℚ) * u) ((rn : ℚ) * u) hh
          obtain ⟨b1, b2, b3, b4⟩ := submitChoice_grid (scaleFlops ((2 : ℚ) ^ j) w)
            { st with sequence := q } hi hpr
            (Wrench.TestClusteringWMS.startLevel w st.running_placeholder_jobs) e
            ((Tn : ℚ) * ((2 : ℚ) ^ j * u)) ((rn : ℚ) * ((2 : ℚ) ^ j * u)) hh
          refine ⟨_, _, rfl, rfl, ?_, ?_, ?_, ?_⟩
          · rw [a1, b1]; rfl
          · rw [a2, b2]; rfl
          · rw [a3, b3]
          · rw [a4, b4]
            rcases Nat.eq_zero_or_pos rn with h0 | hpos
            · rw [h0]; simp [roundDouble_zero]
            · have hF : (1 : ℚ) ≤ Rounded.TestClusteringWMS.EXECUTION_TIME_FUDGE_FACTOR := by
                decide!
              obtain ⟨n1, n2⟩ := hnorm rn _ hpos hF
              have e : (rn : ℚ) * ((2 : ℚ) ^ j * u)
                    * Rounded.TestClusteringWMS.EXECUTION_TIME_FUDGE_FACTOR
                  = (2 : ℚ) ^ j
                    * ((rn : ℚ) * u * Rounded.TestClusteringWMS.EXECUTION_TIME_FUDGE_FACTOR) := by
                ring
              rw [e, roundDouble_two_zpow_mul j _ n1 n2]

/-- C15, amended, instance: `pairWorkflow` (two chained tasks of 100 flops) and the same
workflow with doubled flops, both with the batch service that always predicts the start
date 0, at date 0 on hosts of speed 1; the run times are multiples of 100 seconds. -/
theorem applyGroupingHeuristic_scale_witness :
    ∃ st1 st1',
      Rounded.TestClusteringWMS.applyGroupingHeuristic 5 ZhangFixedWMS.pairWorkflow
          (fixedEstimates 0) 0 (Wrench.TestClusteringWMS.initial (1 / 5) 0 4) = Run.ret st1 ∧
      Rounded.TestClusteringWMS.applyGroupingHeuristic 5
          (scaleFlops ((2 : ℚ) ^ (1 : ℤ)) ZhangFixedWMS.pairWorkflow) (fixedEstimates 0) 0
          (Wrench.TestClusteringWMS.initial (1 / 5) 0 4) = Run.ret st1' ∧
      st1'.pending_placeholder_job = st1.pending_placeholder_job ∧
      st1'.number_of_splits = st1.number_of_splits ∧
      st1'.individual_mode = st1.individual_mode ∧
      st1'.parent_runtime = (2 : ℚ) ^ (1 : ℤ) * st1.parent_runtime :=
  applyGroupingHeuristic_scale 5 ZhangFixedWMS.pairWorkflow 1 0 (fixedEstimates 0)
    (Wrench.TestClusteringWMS.initial (1 / 5) 0 4) (by decide!) (by decide!) rfl rfl
    (fun key n t => ⟨[(key, 0)], rfl, by
      have hl : Rounded.TestClusteringWMS.mapLookup [(key, (0 : ℚ))] key = 0 := by
        simp [Rounded.TestClusteringWMS.mapLookup]
      rw [hl]
      exact ⟨le_refl _, le_refl _⟩⟩)
    (by
      intro b hb a ha
      have hb' : b < 2 := hb
      interval_cases b <;> interval_cases a <;> decide)
    (by
      intro l hl
      have hl' : l < 2 := hl
      interval_cases l <;> decide)
    (by
      intro b _ a _
      refine ⟨fun t => t, ?_⟩
      intro t _ p hp _
      match t, hp with
      | 0, hp => simp [ZhangFixedWMS.pairWorkflow] at hp
      | 1, hp =>
        have h0 : p = 0 := by simpa [ZhangFixedWMS.pairWorkflow] using hp
        rw [h0]
        exact Nat.zero_lt_one
      | t + 2, hp => simp [ZhangFixedWMS.pairWorkflow] at hp)
    100 (fun _ => 1)
    (le_trans (zpow_le_one_of_nonpos₀ (by norm_num) (by norm_num)) (by norm_num))
    (le_trans (zpow_le_one_of_nonpos₀ (by norm_num) (by norm_num)) (by norm_num))
    (by
      intro l _ t _
      simp [ZhangFixedWMS.pairWorkflow, Wrench.TestClusteringWMS.initial])
    8 (by norm_num)
    (by
      intro m hm
      have := roundDouble_natCast (m * 100) (by omega)
      simpa using this)
    (by
      intro b hb a ha
      have hb' : b < 2 := hb
      interval_cases b <;> interval_cases a <;> decide)
    (by decide!)
    (by
      have : (2 : ℚ) ^ (1 : ℤ) = 2 := by norm_num
      rw [this]
      decide!)
    (by
      intro b hb a ha
      have hb' : b < 2 := hb
      interval_cases b <;> interval_cases a <;> decide)

end Rounded

end Wrench
